import Mathlib

/-!
# Fibonacci heap of `src/Fibonacci Heap/main.cpp`

The heap of the source is a graph of `Node` records linked by raw pointers.
It is embedded here as an explicit store: a pointer is the index of a slot in
`FibonacciHeap.mem`, a slot holds `some node` while the node is allocated and
`none` once it has been deleted, and `nullptr` is `Option.none`.  Every method
of the source becomes a function on the whole heap state returning
`Except Err _`:

* a `throw` of the source is the matching `Err` constructor,
* a failing `assert` is `Err.assertFail`,
* dereferencing a null or dangling pointer and indexing a vector out of its
  bounds (undefined behaviour in C++) is `Err.badAccess`,
* a loop that does not come back within the number of slots of the store is
  `Err.diverge`.

Keys are `int` in the source; they are only ever compared, so they are
unbounded integers here and `INT_MIN` is the constant `-2^31`.

Other programs of the repository follow the heap, each in its own namespace:
`dijkstras` of `src/Shortest Paths/dijkstras-fibonacci-heap.cpp`, which runs
on the same heap with a `value` in every node and adds distances as 32-bit
`int`; `edmonds_karp` of `src/Maximum Flow/edmonds-karp.cpp`;
`BellmanFord::shortestPathFrom` of `src/Shortest Paths/bellman-ford.cpp`;
`DisjointSetForest` of `src/Disjoint Sets/disjoint_set_forest.cpp`;
`heapify` and `percolateUp` of `src/Binary Heap/main.cpp`; and the heap
`FibonacciHeap<T>` of `src/Shortest Paths/fibonacci-heap.cpp` with the
member `value` kept in the store.
-/

namespace FibHeap

/-- The constant `INT_MIN` of a 32-bit `int`. -/
def INT_MIN : Int := -2147483648

/-- Ways in which a method of the source can stop without completing. -/
inductive Err where
  | heapEmpty
  | linkNull
  | consolidateEmpty
  | keyGreater
  | notParent
  | sameKey
  | assertFail
  | badAccess
  | diverge
deriving DecidableEq

/-- The record `FibonacciHeap::Node`.  `left` and `right` are initialised to
`this` and only ever assigned from pointers that were just dereferenced, so
they are never null and are plain indices. -/
structure Node where
  key : Int
  mark : Bool
  child : Option Nat
  degree : Int
  left : Nat
  right : Nat
  parent : Option Nat
deriving DecidableEq

/-- The constructor `Node(int k)` run at address `this`: the default member
initialisers give a singleton ring with no parent and no child. -/
def newNode (k : Int) (this : Nat) : Node :=
  { key := k, mark := false, child := none, degree := 0, left := this, right := this,
    parent := none }

/-- The store: slot `p` is the node at address `p`. -/
abbrev Mem := List (Option Node)

/-- The object `FibonacciHeap`: the counter `N`, the pointer `root`, and the
store holding every node that was ever allocated. -/
structure FibonacciHeap where
  N : Int
  root : Option Nat
  mem : Mem
deriving DecidableEq

/-- The heap built by the default constructor. -/
def empty : FibonacciHeap := { N := 0, root := none, mem := [] }

/-- The node stored at address `p`, if `p` is the address of an allocated
node. -/
def look (m : Mem) (p : Nat) : Option Node :=
  match m[p]? with
  | some (some n) => some n
  | _ => none

/-- Read through a pointer: `*p`. -/
def rd (m : Mem) (p : Nat) : Except Err Node :=
  match look m p with
  | some n => .ok n
  | none => .error .badAccess

/-- Write one field through a pointer: `p->field = ...`. -/
def wr (m : Mem) (p : Nat) (f : Node → Node) : Except Err Mem :=
  match look m p with
  | some n => .ok (m.set p (some (f n)))
  | none => .error .badAccess

/-- The statement `delete p`. -/
def del (m : Mem) (p : Nat) : Except Err Mem :=
  match look m p with
  | some _ => .ok (m.set p none)
  | none => .error .badAccess

/-- Dereference of a possibly null pointer. -/
def deref (p : Option Nat) : Except Err Nat :=
  match p with
  | some a => .ok a
  | none => .error .badAccess

/-- `list_insert(x, l, r)`: insert node `x` between `l` and `r`. -/
def list_insert (m : Mem) (x l r : Nat) : Except Err Mem := do
  let m ← wr m x (fun n => { n with left := l })
  let m ← wr m x (fun n => { n with right := r })
  let m ← wr m r (fun n => { n with left := x })
  let m ← wr m l (fun n => { n with right := x })
  pure m

/-- `new Node(k)` followed by the body of `insert`; returns the new pointer. -/
def insert (h : FibonacciHeap) (k : Int) : Except Err (Nat × FibonacciHeap) := do
  let tmp := h.mem.length
  let m : Mem := h.mem ++ [some (newNode k tmp)]
  match h.root with
  | none =>
    pure (tmp, { N := h.N + 1, root := some tmp, mem := m })
  | some root =>
    let m ← list_insert m tmp (← rd m root).left root
    let root := if (← rd m tmp).key < (← rd m root).key then tmp else root
    pure (tmp, { N := h.N + 1, root := some root, mem := m })

/-- `get_min()`. -/
def get_min (h : FibonacciHeap) : Except Err Int :=
  match h.root with
  | none => .error .heapEmpty
  | some root => do pure (← rd h.mem root).key

/-- The `do ... while (c != z->child)` loop shared by `remove_min` and
`change_key`: every member `c` of the child ring of `z` is inserted to the
left of `z` and loses its parent.  `n` is the saved `c->right`. -/
def splice_loop (z : Nat) : Nat → Mem → Nat → Nat → Except Err Mem
  | 0, _, _, _ => .error .diverge
  | fuel + 1, m, c, n => do
    let m ← list_insert m c (← rd m z).left z
    let m ← wr m c (fun nd => { nd with parent := none })
    let c := n
    let n := (← rd m c).right
    if some c ≠ (← rd m z).child then splice_loop z fuel m c n else pure m

/-- `heap_link(x, y)`: the node with the larger key leaves the root list and
becomes a child of the other one, which is returned. -/
def heap_link (h : FibonacciHeap) (x y : Option Nat) :
    Except Err (Nat × FibonacciHeap) := do
  if h.root = none then throw Err.heapEmpty
  match x, y with
  | some x, some y =>
    let (x, y) := if (← rd h.mem x).key > (← rd h.mem y).key then (y, x) else (x, y)
    let l := (← rd h.mem y).left
    let r := (← rd h.mem y).right
    let m ← wr h.mem l (fun n => { n with right := r })
    let m ← wr m r (fun n => { n with left := l })
    let m ← match (← rd m x).child with
      | none => do
        let m ← wr m x (fun n => { n with child := some y })
        let m ← wr m y (fun n => { n with left := y })
        wr m y (fun n => { n with right := y })
      | some c => do
        let m ← list_insert m y (← rd m c).left c
        wr m x (fun n => { n with child := some y })
    let m ← wr m y (fun n => { n with parent := some x })
    let m ← wr m y (fun n => { n with mark := false })
    let m ← wr m x (fun n => { n with degree := n.degree + 1 })
    pure (x, { h with mem := m })
  | _, _ => throw Err.linkNull

/-- Whether `φ ^ d ≤ n` for the golden ratio `φ`, decided in integers:
`φ ^ d = (L d + F d * √5) / 2` with `F`, `L` the Fibonacci and Lucas
numbers. -/
def phiPowLe (d : Nat) (n : Int) : Bool :=
  let F : Int := Nat.fib d
  let L : Int := Nat.fib (d + 1) + Nat.fib (d + 1) - Nat.fib d
  decide (L ≤ 2 * n ∧ 5 * F * F ≤ (2 * n - L) * (2 * n - L))

/-- Largest `d ≤ d0 + fuel` with `φ ^ d ≤ n`, scanning upwards from `d0`. -/
def floorLogPhiFrom (n : Int) : Nat → Nat → Nat
  | 0, d => d
  | fuel + 1, d => if phiPowLe (d + 1) n then floorLogPhiFrom n fuel (d + 1) else d

/-- The value of `(int) floor(log((double) N) / log((1.0 + sqrt(5)) / 2.0))`,
taken as the exact real number `⌊log_φ N⌋`.  For `N ≤ 0` the logarithm is
`-inf` or `NaN` and the conversion to `int` is undefined. -/
def consolidate_D (N : Int) : Except Err Int :=
  if N ≤ 0 then .error .badAccess
  else .ok (floorLogPhiFrom N N.toNat 0 : Nat)

/-- `A[d]` on `std::vector<Node*> A`, read. -/
def A_get (A : List (Option Nat)) (d : Int) : Except Err (Option Nat) :=
  if 0 ≤ d then
    match A[d.toNat]? with
    | some a => .ok a
    | none => .error .badAccess
  else .error .badAccess

/-- `A[d] = v` on `std::vector<Node*> A`. -/
def A_set (A : List (Option Nat)) (d : Int) (v : Option Nat) :
    Except Err (List (Option Nat)) :=
  if 0 ≤ d ∧ d.toNat < A.length then .ok (A.set d.toNat v) else .error .badAccess

/-- The loop of `consolidate` that fills `root_list`:
`do { root_list.push_back(w); w = w->right; } while (w != root)`. -/
def root_list_loop (m : Mem) (root : Nat) : Nat → Nat → List Nat → Except Err (List Nat)
  | 0, _, _ => .error .diverge
  | fuel + 1, w, acc => do
    let acc := acc ++ [w]
    let w := (← rd m w).right
    if w ≠ root then root_list_loop m root fuel w acc else pure acc

/-- The loop `while (A[d] != nullptr)` of `consolidate`. -/
def link_loop : Nat → FibonacciHeap → List (Option Nat) → Nat → Int →
    Except Err (FibonacciHeap × List (Option Nat) × Nat × Int)
  | 0, _, _, _, _ => .error .diverge
  | fuel + 1, h, A, x, d => do
    match (← A_get A d) with
    | none => pure (h, A, x, d)
    | some y =>
      let (x, h) ← heap_link h (some x) (some y)
      let A ← A_set A d none
      link_loop fuel h A x (d + 1)

/-- The loop `for (auto w : root_list)` of `consolidate`. -/
def consolidate_for (D : Int) : FibonacciHeap → List (Option Nat) → List Nat →
    Except Err (FibonacciHeap × List (Option Nat))
  | h, A, [] => pure (h, A)
  | h, A, w :: ws => do
    let x := w
    let d := (← rd h.mem x).degree
    if ¬ d < D then throw Err.assertFail
    let (h, A, x, d) ← link_loop (A.length + 1) h A x d
    let A ← A_set A d (some x)
    consolidate_for D h A ws

/-- The final loop of `consolidate`, `for (int i = 0; i < D; i++)`, over the
slots of `A` in order: the root list is rebuilt from the occupied slots. -/
def rebuild : FibonacciHeap → List (Option Nat) → Except Err FibonacciHeap
  | h, [] => pure h
  | h, none :: rest => rebuild h rest
  | h, some a :: rest => do
    match h.root with
    | none =>
      let m ← wr h.mem a (fun n => { n with right := a })
      let m ← wr m a (fun n => { n with left := a })
      let m ← wr m a (fun n => { n with parent := none })
      rebuild { h with mem := m, root := some a } rest
    | some root =>
      let m ← list_insert h.mem a (← rd h.mem root).left root
      let m ← wr m a (fun n => { n with parent := none })
      let root := if (← rd m a).key < (← rd m root).key then a else root
      rebuild { h with mem := m, root := some root } rest

/-- `consolidate()`. -/
def consolidate (h : FibonacciHeap) : Except Err FibonacciHeap := do
  match h.root with
  | none => throw Err.consolidateEmpty
  | some root =>
    let D ← consolidate_D h.N
    let A : List (Option Nat) := List.replicate D.toNat none
    let root_list ← root_list_loop h.mem root h.mem.length root []
    let (h, A) ← consolidate_for D h A root_list
    rebuild { h with root := none } A

/-- `remove_min()`. -/
def remove_min (h : FibonacciHeap) : Except Err FibonacciHeap := do
  match h.root with
  | none => throw Err.heapEmpty
  | some z =>
    let m ← match (← rd h.mem z).child with
      | none => pure h.mem
      | some c => do
        let n := (← rd h.mem c).right
        splice_loop z h.mem.length h.mem c n
    let l := (← rd m z).left
    let r := (← rd m z).right
    let m ← wr m l (fun n => { n with right := r })
    let zl := (← rd m z).left
    let m ← wr m r (fun n => { n with left := zl })
    let zr := (← rd m z).right
    let h ← if z = zr then pure { h with mem := m, root := none }
      else consolidate { h with mem := m, root := some zr }
    let m ← del h.mem z
    pure { h with N := h.N - 1, mem := m }

/-- `cut(x, y)`. -/
def cut (h : FibonacciHeap) (x y : Nat) : Except Err FibonacciHeap := do
  if (← rd h.mem x).parent ≠ some y then throw Err.notParent
  let m ← if (← rd h.mem y).child = some x ∧ (← rd h.mem x).right = x then do
      let m ← wr h.mem y (fun n => { n with child := none })
      wr m y (fun n => { n with degree := 0 })
    else do
      let xr := (← rd h.mem x).right
      let xl := (← rd h.mem x).left
      let m ← wr h.mem xr (fun n => { n with left := xl })
      let xl := (← rd m x).left
      let xr := (← rd m x).right
      let m ← wr m xl (fun n => { n with right := xr })
      let m ← if (← rd m y).child = some x then do
          let xr := (← rd m x).right
          wr m y (fun n => { n with child := some xr })
        else pure m
      wr m y (fun n => { n with degree := n.degree - 1 })
  let root ← deref h.root
  let m ← list_insert m x (← rd m root).left root
  let m ← wr m x (fun n => { n with parent := none })
  let m ← wr m x (fun n => { n with mark := false })
  pure { h with mem := m }

/-- `cascading_cut(y)`; the recursion of the source is bounded by `fuel`. -/
def cascading_cut : Nat → FibonacciHeap → Nat → Except Err FibonacciHeap
  | 0, _, _ => .error .diverge
  | fuel + 1, h, y => do
    match (← rd h.mem y).parent with
    | none => pure h
    | some z =>
      if ¬ (← rd h.mem y).mark then
        let m ← wr h.mem y (fun n => { n with mark := true })
        pure { h with mem := m }
      else
        let h ← cut h y z
        cascading_cut fuel h z

/-- `decrease_key(x, k)`. -/
def decrease_key (h : FibonacciHeap) (x : Nat) (k : Int) : Except Err FibonacciHeap := do
  if k > (← rd h.mem x).key then throw Err.keyGreater
  let m ← wr h.mem x (fun n => { n with key := k })
  let h := { h with mem := m }
  let y := (← rd h.mem x).parent
  let h ← match y with
    | none => pure h
    | some y =>
      if (← rd h.mem x).key < (← rd h.mem y).key then do
        let h ← cut h x y
        cascading_cut (h.mem.length + 1) h y
      else pure h
  let root ← deref h.root
  if (← rd h.mem x).key < (← rd h.mem root).key then
    pure { h with root := some x }
  else pure h

/-- `remove(x)`. -/
def remove (h : FibonacciHeap) (x : Nat) : Except Err FibonacciHeap := do
  let h ← decrease_key h x INT_MIN
  remove_min h

/-- `change_key(x, k)`. -/
def change_key (h : FibonacciHeap) (x : Nat) (k : Int) : Except Err FibonacciHeap := do
  if (← rd h.mem x).key = k then throw Err.sameKey
  else if (← rd h.mem x).key > k then decrease_key h x k
  else
    let lowest := h.root
    let h ← decrease_key h x INT_MIN
    let m ← wr h.mem x (fun n => { n with key := k })
    let h := { h with mem := m, root := lowest }
    let m ← match (← rd h.mem x).child with
      | none => pure h.mem
      | some c => do
        let n := (← rd h.mem c).right
        splice_loop x h.mem.length h.mem c n
    let m ← wr m x (fun n => { n with child := none })
    let m ← wr m x (fun n => { n with degree := 0 })
    pure { h with mem := m }

/-- Run `insert` for every key of a list, in order, collecting the pointers. -/
def insert_all : FibonacciHeap → List Int → Except Err (List Nat × FibonacciHeap)
  | h, [] => pure ([], h)
  | h, k :: ks => do
    let (p, h) ← insert h k
    let (ps, h) ← insert_all h ks
    pure (p :: ps, h)

/-- The extraction loop of `sort_test`,
`for (int i = 0; i < N; i++) { ... h.get_min() ...; h.remove_min(); }`:
the keys read by `get_min` are returned in order, with the final heap. -/
def drain : Nat → FibonacciHeap → Except Err (List Int × FibonacciHeap)
  | 0, h => pure ([], h)
  | n + 1, h => do
    let k ← get_min h
    let h ← remove_min h
    let (ks, h) ← drain n h
    pure (k :: ks, h)

/-! ## Concrete heaps and runs -/

/-- The heap obtained from the empty heap by `insert 0 .. insert 4`,
`remove_min`, and `decrease_key` of the node holding key `4` to `-1`. -/
def degree_two_run : Except Err FibonacciHeap := do
  let (_, h) ← insert_all empty [0, 1, 2, 3, 4]
  let h ← remove_min h
  decrease_key h 4 (-1)

/-- The state reached by `degree_two_run`, written out: node `1` is a root of
degree 2 with the children `3` and `2`, node `4` is the minimum root. -/
def degree_two_heap : FibonacciHeap :=
  { N := 4, root := some 4,
    mem := [none,
      some { key := 1, mark := false, child := some 3, degree := 2, left := 4, right := 4,
             parent := none },
      some { key := 2, mark := false, child := none, degree := 0, left := 3, right := 3,
             parent := some 1 },
      some { key := 3, mark := true, child := none, degree := 0, left := 2, right := 2,
             parent := some 1 },
      some { key := -1, mark := false, child := none, degree := 0, left := 1, right := 1,
             parent := none }] }

/-- The heap obtained from the empty heap by `insert(INT_MIN)`, `insert(5)`. -/
def int_min_heap : FibonacciHeap :=
  { N := 2, root := some 0,
    mem := [some { key := INT_MIN, mark := false, child := none, degree := 0, left := 1,
                   right := 1, parent := none },
      some { key := 5, mark := false, child := none, degree := 0, left := 0, right := 0,
             parent := none }] }

/-- The state after `remove` of the node holding `5` in `int_min_heap`: the
node at address `0` has been deleted, the node at address `1` is the root. -/
def int_min_removed : FibonacciHeap :=
  { N := 1, root := some 1,
    mem := [none,
      some { key := INT_MIN, mark := false, child := none, degree := 0, left := 1, right := 1,
             parent := none }] }

/-- The heap obtained from the empty heap by `insert(1)`, `insert(2)`. -/
def increase_heap : FibonacciHeap :=
  { N := 2, root := some 0,
    mem := [some { key := 1, mark := false, child := none, degree := 0, left := 1, right := 1,
                   parent := none },
      some { key := 2, mark := false, child := none, degree := 0, left := 0, right := 0,
             parent := none }] }

/-- The state after `change_key` of the node holding `1` in `increase_heap`
to `10`: `root` is still the node at address `0`. -/
def increase_changed : FibonacciHeap :=
  { N := 2, root := some 0,
    mem := [some { key := 10, mark := false, child := none, degree := 0, left := 1, right := 1,
                   parent := none },
      some { key := 2, mark := false, child := none, degree := 0, left := 0, right := 0,
             parent := none }] }

/-- The heap obtained from the empty heap by `insert(1)`, `insert(2)`,
`insert(3)`: three roots of degree 0. -/
def three_heap : FibonacciHeap :=
  { N := 3, root := some 0,
    mem := [some { key := 1, mark := false, child := none, degree := 0, left := 2, right := 1,
                   parent := none },
      some { key := 2, mark := false, child := none, degree := 0, left := 0, right := 2,
             parent := none },
      some { key := 3, mark := false, child := none, degree := 0, left := 1, right := 0,
             parent := none }] }

/-- The state after `consolidate` on `three_heap`: the node holding `2` has
become the child of the node holding `1`. -/
def three_consolidated : FibonacciHeap :=
  { N := 3, root := some 0,
    mem := [some { key := 1, mark := false, child := some 1, degree := 1, left := 2, right := 2,
                   parent := none },
      some { key := 2, mark := false, child := none, degree := 0, left := 1, right := 1,
             parent := some 0 },
      some { key := 3, mark := false, child := none, degree := 0, left := 0, right := 0,
             parent := none }] }

/-- A run of `insert`, `remove_min`, `change_key` and `decrease_key` from the
empty heap: the keys `-1, 10, 20, 30, 40, 0` are inserted (nodes `0 .. 5`),
the minimum is removed, the key of the root (node `5`, key `0`) is changed to
`100`, and the key of node `2` is decreased to `15` and then to `5`. -/
def ring_break_run : Except Err FibonacciHeap := do
  let (_, h) ← insert_all empty [-1, 10, 20, 30, 40, 0]
  let h ← remove_min h
  let h ← change_key h 5 100
  let h ← decrease_key h 2 15
  decrease_key h 2 5

/-- The state reached by `ring_break_run`, written out. -/
def ring_break_heap : FibonacciHeap :=
  { N := 5, root := some 2,
    mem := [none,
      some { key := 10, mark := false, child := some 3, degree := 1, left := 5, right := 5,
             parent := none },
      some { key := 5, mark := false, child := none, degree := 0, left := 2, right := 2,
             parent := none },
      some { key := 30, mark := false, child := some 4, degree := 1, left := 3, right := 2,
             parent := some 1 },
      some { key := 40, mark := false, child := none, degree := 0, left := 4, right := 4,
             parent := some 3 },
      some { key := 100, mark := false, child := none, degree := 0, left := 1, right := 1,
             parent := none }] }

/-- A run of `insert`, `remove_min` and `change_key` from the empty heap: the
keys `INT_MIN, INT_MIN, 20, 30, 40` are inserted (nodes `0 .. 4`), the minimum
is removed, and the key of node `3` is changed from `30` to `50`. -/
def degree_break_run : Except Err FibonacciHeap := do
  let (_, h) ← insert_all empty [INT_MIN, INT_MIN, 20, 30, 40]
  let h ← remove_min h
  change_key h 3 50

/-- The state reached by `degree_break_run`, written out. -/
def degree_break_heap : FibonacciHeap :=
  { N := 4, root := some 1,
    mem := [none,
      some { key := INT_MIN, mark := false, child := some 3, degree := 2, left := 1, right := 1,
             parent := none },
      some { key := 20, mark := false, child := none, degree := 0, left := 3, right := 4,
             parent := some 1 },
      some { key := 50, mark := false, child := none, degree := 0, left := 4, right := 2,
             parent := some 1 },
      some { key := 40, mark := false, child := none, degree := 0, left := 2, right := 3,
             parent := none }] }

/-- A run of `insert`, `remove_min` and `decrease_key` from the empty heap:
the keys `0, 1, 30, 20, 25, 50, 60` are inserted (nodes `0 .. 6`), the minimum
is removed, the key of node `4` is decreased to `-1`, and the minimum is
removed twice. -/
def marked_root_run : Except Err FibonacciHeap := do
  let (_, h) ← insert_all empty [0, 1, 30, 20, 25, 50, 60]
  let h ← remove_min h
  let h ← decrease_key h 4 (-1)
  let h ← remove_min h
  remove_min h

/-- The state reached by `marked_root_run`, written out. -/
def marked_root_heap : FibonacciHeap :=
  { N := 4, root := some 3,
    mem := [none, none,
      some { key := 30, mark := false, child := none, degree := 0, left := 5, right := 5,
             parent := some 3 },
      some { key := 20, mark := true, child := some 5, degree := 2, left := 3, right := 3,
             parent := none },
      none,
      some { key := 50, mark := false, child := some 6, degree := 1, left := 2, right := 2,
             parent := some 3 },
      some { key := 60, mark := false, child := none, degree := 0, left := 6, right := 6,
             parent := some 5 }] }

/-- The heap `three_heap` with `root` at the node holding the largest key. -/
def three_heap_at_max : FibonacciHeap := { three_heap with root := some 2 }

/-- The state after `consolidate` on `three_heap_at_max`. -/
def three_at_max_consolidated : FibonacciHeap :=
  { N := 3, root := some 0,
    mem := [some { key := 1, mark := false, child := some 2, degree := 1, left := 1, right := 1,
                   parent := none },
      some { key := 2, mark := false, child := none, degree := 0, left := 0, right := 0,
             parent := none },
      some { key := 3, mark := false, child := none, degree := 0, left := 2, right := 2,
             parent := some 0 }] }

/-! ## Specification vocabulary -/

/-- `m'` is `m` with `g q` applied to the allocated node at every address `q`. -/
def Upd (m m' : Mem) (g : Nat → Node → Node) : Prop :=
  m'.length = m.length ∧ ∀ q, look m' q = (look m q).map (g q)

/-! ## Fields, rings and forests -/

/-- The field `right` of the node at address `p`, and likewise below for the
other fields; `none` when no node is allocated at `p`. -/
def rightOf (m : Mem) (p : Nat) : Option Nat := (look m p).map Node.right
def leftOf (m : Mem) (p : Nat) : Option Nat := (look m p).map Node.left
def parentOf (m : Mem) (p : Nat) : Option (Option Nat) := (look m p).map Node.parent
def keyOf (m : Mem) (p : Nat) : Option Int := (look m p).map Node.key

/-- `a` and `b` are neighbours in a doubly linked list: `a->right == b` and
`b->left == a`. -/
def Link (m : Mem) (a b : Nat) : Prop := rightOf m a = some b ∧ leftOf m b = some a

/-- The nodes of `L`, in this order, form a circular doubly linked list. -/
def Ring (m : Mem) : List Nat → Prop
  | [] => True
  | a :: rest => (a :: rest).Nodup ∧ List.Chain (Link m) a (rest ++ [a])

/-- The last element of `a :: l`. -/
def lastOf : Nat → List Nat → Nat
  | a, [] => a
  | _, b :: l => lastOf b l

def childOf (m : Mem) (p : Nat) : Option (Option Nat) := (look m p).map Node.child
def degreeOf (m : Mem) (p : Nat) : Option Int := (look m p).map Node.degree
def markOf (m : Mem) (p : Nat) : Option Bool := (look m p).map Node.mark

/-- Number of allocated nodes of the store. -/
def liveCount (m : Mem) : Nat := (List.range m.length).countP (fun p => (look m p).isSome)

/-- `p` occurs in the forest described by the root list `R` and the child
lists `ch`. -/
def InF (R : List Nat) (ch : Nat → List Nat) (p : Nat) : Prop := p ∈ R ∨ ∃ q, p ∈ ch q

/-- The store holds the forest whose roots are the nodes of `R`, in which the
children of `p` are the nodes of `ch p` in the order of `p`'s child ring, and
in which `ht` decreases from a parent to its children. -/
structure Forest (m : Mem) (R : List Nat) (ch : Nat → List Nat) (ht : Nat → Nat) : Prop where
  rnodup : R.Nodup
  rpar : ∀ r ∈ R, parentOf m r = some none
  cpar : ∀ p, ∀ c ∈ ch p, parentOf m c = some (some p)
  pin : ∀ p, ∀ c ∈ ch p, InF R ch p
  cring : ∀ p, Ring m (ch p)
  cnone : ∀ p, InF R ch p → childOf m p = some none → ch p = []
  csome : ∀ p c, InF R ch p → childOf m p = some (some c) → c ∈ ch p
  cdeg : ∀ p, InF R ch p → degreeOf m p = some ((ch p).length : Int)
  hgt : ∀ p, ∀ c ∈ ch p, ht c < ht p

/-- Heap order: the key of a node that has a parent is at least the key of
the parent. -/
def HeapOrder (m : Mem) : Prop :=
  ∀ c p, parentOf m c = some (some p) →
    ∃ kp kc, keyOf m p = some kp ∧ keyOf m c = some kc ∧ kp ≤ kc

/-- The node `root` points to holds a key that is less than or equal to every
key in the heap. -/
def RootMin (h : FibonacciHeap) : Prop :=
  ∀ r, h.root = some r → ∀ p kp, keyOf h.mem p = some kp →
    ∃ kr, keyOf h.mem r = some kr ∧ kr ≤ kp

/-- The structural invariants of a heap, relative to the forest `R`, `ch`:
the root list is a ring through `root`, every allocated node is in the
forest, `N` counts the nodes, heap order holds and `root` is a minimum. -/
structure Inv (h : FibonacciHeap) (R : List Nat) (ch : Nat → List Nat) (ht : Nat → Nat) :
    Prop where
  forest : Forest h.mem R ch ht
  ring : Ring h.mem R
  rootIn : ∀ r, h.root = some r → r ∈ R
  rootNone : h.root = none → R = []
  complete : ∀ p, (look h.mem p).isSome → InF R ch p
  count : h.N = liveCount h.mem
  order : HeapOrder h.mem
  min : RootMin h

/-- The heap satisfies the structural invariants. -/
def WF (h : FibonacciHeap) : Prop := ∃ R ch ht, Inv h R ch ht

/-- The keys held by the allocated nodes, in address order. -/
def keysOf (m : Mem) : List Int := (List.range m.length).filterMap (keyOf m)

/-! ## Pieces of the methods, named for the proofs -/

/-- The effect of `list_insert(x, l, r)` on the node at address `q`. -/
def liG (x l r : Nat) : Nat → Node → Node := fun q n => { n with
  left := if q = r then x else if q = x then l else n.left,
  right := if q = l then x else if q = x then r else n.right }

/-- The store after `p->field = ...` when `p` is allocated (unchanged otherwise). -/
def put (m : Mem) (p : Nat) (f : Node → Node) : Mem :=
  match look m p with
  | some n => m.set p (some (f n))
  | none => m

/-- The first half of `cut`: `x` leaves the child list of `y`. -/
def cut_unlink (m : Mem) (x y : Nat) : Except Err Mem := do
  if (← rd m y).child = some x ∧ (← rd m x).right = x then do
      let m ← wr m y (fun n => { n with child := none })
      wr m y (fun n => { n with degree := 0 })
    else do
      let xr := (← rd m x).right
      let xl := (← rd m x).left
      let m ← wr m xr (fun n => { n with left := xl })
      let xl := (← rd m x).left
      let xr := (← rd m x).right
      let m ← wr m xl (fun n => { n with right := xr })
      let m ← if (← rd m y).child = some x then do
          let xr := (← rd m x).right
          wr m y (fun n => { n with child := some xr })
        else pure m
      wr m y (fun n => { n with degree := n.degree - 1 })

/-- The second half of `cut`: `x` enters the root list. -/
def cut_relink (h : FibonacciHeap) (m : Mem) (x : Nat) : Except Err FibonacciHeap := do
  let root ← deref h.root
  let m ← list_insert m x (← rd m root).left root
  let m ← wr m x (fun n => { n with parent := none })
  let m ← wr m x (fun n => { n with mark := false })
  pure { h with mem := m }

/-- Number of allocated nodes that have a parent. -/
def parCount (m : Mem) : Nat :=
  (List.range m.length).countP (fun q => (parentOf m q).join.isSome)

/-- The middle of `decrease_key`: the cut and the cascading cut, when the new
key of `x` is smaller than the key of its parent. -/
def decrease_key_cut (h : FibonacciHeap) (x : Nat) : Except Err FibonacciHeap := do
  let y := (← rd h.mem x).parent
  match y with
    | none => pure h
    | some y =>
      if (← rd h.mem x).key < (← rd h.mem y).key then do
        let h ← cut h x y
        cascading_cut (h.mem.length + 1) h y
      else pure h

/-- The end of `decrease_key`: `root` moves to `x` when its key is smaller. -/
def decrease_key_root (h : FibonacciHeap) (x : Nat) : Except Err FibonacciHeap := do
  let root ← deref h.root
  if (← rd h.mem x).key < (← rd h.mem root).key then
    pure { h with root := some x }
  else pure h

/-- Every node of `R` has its two neighbours in `R`, linked in both
directions (what is left of the root ring while `consolidate` links trees). -/
def RootLocal (m : Mem) (R : List Nat) : Prop :=
  ∀ r ∈ R, ∃ a ∈ R, ∃ b ∈ R, Link m a r ∧ Link m r b

/-- The part of `heap_link` that makes `y` a child of `x`. -/
def link_attach (m : Mem) (x y : Nat) : Except Err Mem := do
  match (← rd m x).child with
    | none => do
      let m ← wr m x (fun n => { n with child := some y })
      let m ← wr m y (fun n => { n with left := y })
      wr m y (fun n => { n with right := y })
    | some c => do
      let m ← list_insert m y (← rd m c).left c
      wr m x (fun n => { n with child := some y })

/-- The body of `heap_link` once the node `x` with the smaller key is known. -/
def link_body (h : FibonacciHeap) (x y : Nat) : Except Err (Nat × FibonacciHeap) := do
  let l := (← rd h.mem y).left
  let r := (← rd h.mem y).right
  let m ← wr h.mem l (fun n => { n with right := r })
  let m ← wr m r (fun n => { n with left := l })
  let m ← link_attach m x y
  let m ← wr m y (fun n => { n with parent := some x })
  let m ← wr m y (fun n => { n with mark := false })
  let m ← wr m x (fun n => { n with degree := n.degree + 1 })
  pure (x, { h with mem := m })

/-- A size function on the forest `R`, `ch`: `sz p` is the number of nodes of
the subtree of `p`, and a node with `k` children has a subtree of at least
`2 ^ k` nodes (the shape of the trees built by `insert` and `remove_min`
alone). -/
structure SzInv (R : List Nat) (ch : Nat → List Nat) (sz : Nat → Nat) : Prop where
  size : ∀ p, InF R ch p → sz p = 1 + ((ch p).map sz).sum
  binom : ∀ p, InF R ch p → 2 ^ (ch p).length ≤ sz p

/-- The invariant of the main loop of `consolidate`: the roots are the
occupied slots of `A` together with the nodes of `rest`, and the node in slot
`i` has degree `i`. -/
structure CInv (h : FibonacciHeap) (R : List Nat) (ch : Nat → List Nat) (ht : Nat → Nat)
    (A : List (Option Nat)) (rest : List Nat) : Prop where
  forest : Forest h.mem R ch ht
  rlocal : RootLocal h.mem R
  rootNe : h.root ≠ none
  order : HeapOrder h.mem
  ainv : ∀ (i a : Nat), A[i]? = some (some a) → degreeOf h.mem a = some (i : Int)
  perm : R.Perm (A.filterMap id ++ rest)

/-- Slot `j` is the first free slot of `A` at or after `d`. -/
def HasFree (A : List (Option Nat)) (d j : Nat) : Prop :=
  d ≤ j ∧ A[j]? = some none ∧ ∀ i, d ≤ i → i < j → ∃ a, A[i]? = some (some a)

/-- The key of `r` is a minimum of the keys of the nodes of `L`. -/
def MinIn (m : Mem) (r : Nat) (L : List Nat) : Prop :=
  ∃ kr, keyOf m r = some kr ∧ ∀ p ∈ L, ∃ kp, keyOf m p = some kp ∧ kr ≤ kp

/-- The statement `if (z->child != nullptr) { ... }` of `remove_min` (and of
`change_key`): the children of `z` are moved to the ring of `z`. -/
def splice_children (m : Mem) (z : Nat) : Except Err Mem := do
  match (← rd m z).child with
  | none => pure m
  | some c => do
    let n := (← rd m c).right
    splice_loop z m.length m c n

/-- The statements of `remove_min` that take `z` out of the root ring:
`z->left->right = z->right; z->right->left = z->left`. -/
def remove_min_unlink (m : Mem) (z : Nat) : Except Err Mem := do
  let l := (← rd m z).left
  let r := (← rd m z).right
  let m ← wr m l (fun n => { n with right := r })
  let zl := (← rd m z).left
  wr m r (fun n => { n with left := zl })

/-- The end of `remove_min`: `delete z; N--`. -/
def remove_min_finish (h : FibonacciHeap) (z : Nat) : Except Err FibonacciHeap := do
  let m ← del h.mem z
  pure { h with N := h.N - 1, mem := m }

/-- The invariants of a heap whose trees have at least `2 ^ degree` nodes:
the heaps built by `insert` and `remove_min` alone. -/
def SInv (h : FibonacciHeap) : Prop :=
  ∃ R ch ht sz, Inv h R ch ht ∧ SzInv R ch sz ∧ ((R.map sz).sum : Int) = h.N

/-- The heap states reachable from the empty heap by calls of `insert`,
`remove_min` and `decrease_key` that return. -/
inductive Reach : FibonacciHeap → Prop where
  | empty : Reach empty
  | insert {h h' : FibonacciHeap} {k : Int} {p : Nat} :
      Reach h → insert h k = .ok (p, h') → Reach h'
  | remove_min {h h' : FibonacciHeap} : Reach h → remove_min h = .ok h' → Reach h'
  | decrease_key {h h' : FibonacciHeap} {x : Nat} {k : Int} :
      Reach h → decrease_key h x k = .ok h' → Reach h'

/-- The call did not stop with the exception `"heap is empty"`. -/
def NoEmpty {α : Type} (x : Except Err α) : Prop := x ≠ .error Err.heapEmpty

/-- What a call leaves behind: its result, and the heap after the call.  The
heap is `none` when the call stopped after its first statement (on undefined
behaviour, a failed assertion, a loop that does not end, or an exception
thrown further down): the embedding does not follow the partly updated
heap. -/
structure Run (α : Type) where
  result : Except Err α
  heap : Option FibonacciHeap

/-- A method whose first statement is `if (c) throw e;`.  `c` is the condition
read from the heap `h` of the call and `body` is the whole method.  When the
condition holds the exception leaves `h` as it is, since no assignment
precedes the `throw`. -/
def guarded {α : Type} (h : FibonacciHeap) (c : Except Err Bool) (e : Err)
    (body : Except Err (α × FibonacciHeap)) : Run α :=
  match c with
  | .error e' => ⟨.error e', none⟩
  | .ok true => ⟨.error e, some h⟩
  | .ok false =>
    match body with
    | .ok (a, h') => ⟨.ok a, some h'⟩
    | .error e' => ⟨.error e', none⟩

/-- `get_min()` with the heap it leaves: the guard is `root == nullptr`, and
the method has no assignment. -/
def get_min_run (h : FibonacciHeap) : Run Int :=
  guarded h (pure (decide (h.root = none))) Err.heapEmpty ((get_min h).map (fun k => (k, h)))

/-- `remove_min()` with the heap it leaves: the guard is `root == nullptr`. -/
def remove_min_run (h : FibonacciHeap) : Run Unit :=
  guarded h (pure (decide (h.root = none))) Err.heapEmpty
    ((remove_min h).map (fun h' => ((), h')))

/-- `decrease_key(x, k)` with the heap it leaves: the guard is
`k > x->key`. -/
def decrease_key_run (h : FibonacciHeap) (x : Nat) (k : Int) : Run Unit :=
  guarded h (do pure (decide (k > (← rd h.mem x).key))) Err.keyGreater
    ((decrease_key h x k).map (fun h' => ((), h')))

/-- `change_key(x, k)` with the heap it leaves: the guard is
`x->key == k`. -/
def change_key_run (h : FibonacciHeap) (x : Nat) (k : Int) : Run Unit :=
  guarded h (do pure (decide ((← rd h.mem x).key = k))) Err.sameKey
    ((change_key h x k).map (fun h' => ((), h')))

/-- No node without a parent is marked in `m'` unless it was a marked node
without a parent in `m`. -/
def NoNewMarkedRoot (m m' : Mem) : Prop :=
  ∀ q, parentOf m' q = some none → markOf m' q = some true →
    parentOf m q = some none ∧ markOf m q = some true

/-- Every node that is marked in `m'` was marked in `m`. -/
def MarkStep (m m' : Mem) : Prop := ∀ q, markOf m' q = some true → markOf m q = some true

/-- Every result of `x` holds a store (read off by `g`) whose marked nodes
were marked in `m`. -/
def MarksTo {α : Type} (g : α → Mem) (m : Mem) (x : Except Err α) : Prop :=
  ∀ v, x = .ok v → MarkStep m (g v)

/-- The nodes reached from `root` through the fields `right` and `child`:
the root ring, and below every reached node its child ring. -/
inductive FromRoot (h : FibonacciHeap) : Nat → Prop where
  | root {r : Nat} : h.root = some r → FromRoot h r
  | right {p q : Nat} : FromRoot h p → rightOf h.mem p = some q → FromRoot h q
  | child {p c : Nat} : FromRoot h p → childOf h.mem p = some (some c) → FromRoot h c

/-- The nodes of the root ring: those reached from `root` through the field
`right`. -/
inductive RootRing (h : FibonacciHeap) : Nat → Prop where
  | root {r : Nat} : h.root = some r → RootRing h r
  | right {p q : Nat} : RootRing h p → rightOf h.mem p = some q → RootRing h q

/-- `q` is a descendant of `p`: following the field `parent` from `q` leads
to `p` in one step or more. -/
inductive Desc (m : Mem) (p : Nat) : Nat → Prop where
  | child {q : Nat} : parentOf m q = some (some p) → Desc m p q
  | step {q c : Nat} : Desc m p q → parentOf m c = some (some q) → Desc m p c

/-- The method `remove_min()` with the call `consolidate()` replaced by the
parameter `cons`: `remove_min` is `remove_min_with consolidate`, and a run
whose result does not depend on `cons` does not call `consolidate`. -/
def remove_min_with (cons : FibonacciHeap → Except Err FibonacciHeap) (h : FibonacciHeap) :
    Except Err FibonacciHeap := do
  match h.root with
  | none => throw Err.heapEmpty
  | some z =>
    let m ← match (← rd h.mem z).child with
      | none => pure h.mem
      | some c => do
        let n := (← rd h.mem c).right
        splice_loop z h.mem.length h.mem c n
    let l := (← rd m z).left
    let r := (← rd m z).right
    let m ← wr m l (fun n => { n with right := r })
    let zl := (← rd m z).left
    let m ← wr m r (fun n => { n with left := zl })
    let zr := (← rd m z).right
    let h ← if z = zr then pure { h with mem := m, root := none }
      else cons { h with mem := m, root := some zr }
    let m ← del h.mem z
    pure { h with N := h.N - 1, mem := m }

/-- The heap after `insert(3)` on the empty heap. -/
def single_heap : FibonacciHeap :=
  { N := 1, root := some 0, mem := [some (newNode 3 0)] }

/-- The state after `remove_min` on `increase_heap`. -/
def increase_removed : FibonacciHeap :=
  { N := 1, root := some 1,
    mem := [none,
      some { key := 2, mark := false, child := none, degree := 0, left := 1, right := 1,
             parent := none }] }

/-- The call came to an end: it did not stop because a loop or a recursion
used up the fuel that bounds it in the embedding. -/
def Ends {α : Type} (x : Except Err α) : Prop := x ≠ .error Err.diverge

/-- The node `y` has `n` ancestors: following the field `parent` from `y`
reaches a node without a parent after `n` steps. -/
inductive Depth (m : Mem) : Nat → Nat → Prop where
  | root {y : Nat} : parentOf m y = some none → Depth m y 0
  | step {y z n : Nat} : parentOf m y = some (some z) → Depth m z n → Depth m y (n + 1)

/-- The state `remove_min()` leaves on `ring_break_heap`, written out: `root`
is null and four nodes are left. -/
def root_lost_heap : FibonacciHeap :=
  { N := 4, root := none,
    mem := [none,
      some { key := 10, mark := false, child := some 3, degree := 1, left := 5, right := 5,
             parent := none },
      none,
      some { key := 30, mark := false, child := some 4, degree := 1, left := 3, right := 2,
             parent := some 1 },
      some { key := 40, mark := false, child := none, degree := 0, left := 4, right := 4,
             parent := some 3 },
      some { key := 100, mark := false, child := none, degree := 0, left := 1, right := 1,
             parent := none }] }

end FibHeap

/-! ## Dijkstra's algorithm on the Fibonacci heap

`src/Shortest Paths/dijkstras-fibonacci-heap.cpp`. -/

namespace Dijkstra
open FibHeap

/-- The constant `INT_MAX` of a 32-bit `int`. -/
def INT_MAX : Int := 2147483647

/-- The sum of two `int` on a two's complement machine: the result wraps
around modulo `2 ^ 32`.  (C++ leaves the overflow of a signed sum undefined;
this is what the usual targets compute.) -/
def int_add (a b : Int) : Int := (a + b + 2147483648) % 4294967296 - 2147483648

/-- The record `Graph::Edge` without its `next` pointer (`to_` is its field `to`): the edges that leave
a vertex are kept as a list, in the order of the linked list. -/
structure Edge where
  to_ : Nat
  value : Int
deriving DecidableEq

/-- The object `Graph`: `vertex[i]` is the list of the edges that leave `i`. -/
structure Graph where
  n_v : Nat
  vertex : List (List Edge)
deriving DecidableEq

/-- The constructor `Graph(n)`. -/
def Graph.mk_empty (n : Nat) : Graph := { n_v := n, vertex := List.replicate n [] }

/-- `Graph::add(start, end, v)`: the new edge goes to the end of the list of
`start`. -/
def Graph.add (g : Graph) (start end_ : Nat) (v : Int) : Except Err Graph :=
  match g.vertex[start]? with
  | some es => .ok { g with vertex := g.vertex.set start (es ++ [{ to_ := end_, value := v }]) }
  | none => .error .badAccess

/-- `FibonacciHeap<int>` of `src/Shortest Paths/fibonacci-heap.cpp`.  Its
methods are, statement by statement, those of the class of
`src/Fibonacci Heap/main.cpp`, and its `Node` has one more field, `value`,
set by the constructor and never assigned: the heap is the heap `heap` of the
definitions above, and `value[p]` is the field `value` of the node at address
`p`. -/
structure VHeap where
  heap : FibonacciHeap
  value : List Nat

/-- `insert(k, v)`. -/
def VHeap.insert (h : VHeap) (k : Int) (v : Nat) : Except Err (Nat × VHeap) := do
  let (p, heap) ← FibHeap.insert h.heap k
  pure (p, { heap := heap, value := h.value ++ [v] })

/-- `get_min_node()`. -/
def VHeap.get_min_node (h : VHeap) : Except Err Nat :=
  match h.heap.root with
  | none => .error .heapEmpty
  | some root => .ok root

/-- Read `v[i]` of a `std::vector`. -/
def vec_get {α : Type} (v : List α) (i : Nat) : Except Err α :=
  match v[i]? with
  | some a => .ok a
  | none => .error .badAccess

/-- Write `v[i] = a` of a `std::vector`. -/
def vec_set {α : Type} (v : List α) (i : Nat) (a : α) : Except Err (List α) :=
  if i < v.length then .ok (v.set i a) else .error .badAccess

/-- The local variables of `dijkstras`; in `lookup`, `none` is `nullptr`. -/
structure State where
  heap : VHeap
  lookup : List (Option Nat)
  visited : List Bool
  dist : List Int
  previous : List Int

/-- The first loop of `dijkstras`, from `i` on. -/
def init_loop (s : Nat) : Nat → Nat → State → Except Err State
  | 0, _, st => pure st
  | n + 1, i, st => do
    let d : Int := if i = s then 0 else INT_MAX
    let dist ← vec_set st.dist i d
    let di ← vec_get dist i
    let (p, heap) ← st.heap.insert di i
    let lookup ← vec_set st.lookup i (some p)
    let previous ← vec_set st.previous i (-1)
    init_loop s n (i + 1) { st with heap := heap, lookup := lookup, dist := dist,
                                     previous := previous }

/-- The loop over the edges that leave `v`. -/
def relax_loop (v : Nat) : List Edge → State → Except Err State
  | [], st => pure st
  | e :: es, st => do
    let to_ := e.to_
    let st ← if (¬ (← vec_get st.visited to_)) then do
        let sum := int_add (← vec_get st.dist v) e.value
        if (← vec_get st.dist to_) > sum then do
          let dist ← vec_set st.dist to_ sum
          let previous ← vec_set st.previous to_ v
          let some x ← vec_get st.lookup to_ | throw .badAccess
          let heap ← decrease_key st.heap.heap x (← vec_get dist to_)
          pure { st with dist := dist, previous := previous,
                         heap := { st.heap with heap := heap } }
        else pure st
      else pure st
    relax_loop v es st

/-- The loop `while (heap.size() > 0)`. -/
def main_loop (g : Graph) : Nat → State → Except Err State
  | 0, _ => .error .diverge
  | fuel + 1, st =>
    if st.heap.heap.N > 0 then do
      let v ← vec_get st.heap.value (← st.heap.get_min_node)
      let heap ← remove_min st.heap.heap
      let st := { st with heap := { st.heap with heap := heap } }
      let visited ← vec_set st.visited v true
      let st := { st with visited := visited }
      let st ← relax_loop v (← vec_get g.vertex v) st
      main_loop g fuel st
    else pure st

/-- `dijkstras(g, s)`; the vector `dist` at the end is returned. -/
def dijkstras (g : Graph) (s : Nat) : Except Err (List Int) := do
  let n_v := g.n_v
  let st : State := { heap := { heap := empty, value := [] },
                      lookup := List.replicate n_v none,
                      visited := List.replicate n_v false,
                      dist := List.replicate n_v 0,
                      previous := List.replicate n_v 0 }
  let st ← init_loop s n_v 0 st
  let st ← main_loop g (n_v + 1) st
  pure st.dist

/-- The graph with the vertices `0, 1, 2` and the edges `1 → 2` and `2 → 1`
of weight `1`. -/
def two_cycle : Except Err Graph := do
  let g := Graph.mk_empty 3
  let g ← g.add 1 2 1
  g.add 2 1 1

/-- The graph of `main`. -/
def main_graph : Except Err Graph := do
  let g := Graph.mk_empty 9
  let g ← g.add 0 1 4
  let g ← g.add 0 7 8
  let g ← g.add 1 2 8
  let g ← g.add 2 3 7
  let g ← g.add 2 5 4
  let g ← g.add 2 8 2
  let g ← g.add 7 8 7
  let g ← g.add 7 1 11
  let g ← g.add 7 6 1
  let g ← g.add 6 5 2
  let g ← g.add 6 8 6
  let g ← g.add 5 3 14
  let g ← g.add 5 4 10
  g.add 3 4 9

/-- The vertex `v` can be reached from `s` along edges of `g`. -/
inductive Graph.Reachable (g : Graph) (s : Nat) : Nat → Prop
  | source : Graph.Reachable g s s
  | step {u : Nat} {es : List Edge} {e : Edge} :
      Graph.Reachable g s u → g.vertex[u]? = some es → e ∈ es → Graph.Reachable g s e.to_

end Dijkstra

/-! ## The Edmonds-Karp algorithm

`src/Maximum Flow/edmonds-karp.cpp`. -/

namespace EdmondsKarp

/-- The ways a run of the program stops without a result: the two exceptions
of `update_to`, an access outside a vector or through a null pointer, and a
loop that has not ended when the fuel of the model runs out. -/
inductive Err where
  | flowNegative
  | flowAboveCapacity
  | badAccess
  | diverge
deriving DecidableEq

/-- The constant `INT_MAX` of a 32-bit `int`. -/
def INT_MAX : Int := 2147483647

/-- The record `Graph::Edge`.  Edges live in the list `Graph.edges`; a pointer
to an edge is its index there.  `from_` and `to_` are the fields `from` and
`to`.  The pointer `next` is left out: the linked list of the edges of a
vertex is kept as a list of pointers in `Graph.vertices`. -/
structure Edge where
  from_ : Nat
  to_ : Nat
  is_reverse : Bool
  _capacity : Int
  _flow : Int
  _residaul_capacity : Int
  other : Nat
deriving DecidableEq

/-- The object `Graph`: `vertices[i]` lists the edges of the adjacency list of
`i`, first to last. -/
structure Graph where
  N : Nat
  vertices : List (List Nat)
  edges : List Edge
deriving DecidableEq

/-- The constructor `Graph(n)`. -/
def Graph.init (n : Nat) : Graph := { N := n, vertices := List.replicate n [], edges := [] }

/-- Read `v[i]` of a `std::vector`, or the object behind a pointer. -/
def vec_get {α : Type} (v : List α) (i : Nat) : Except Err α :=
  match v[i]? with
  | some a => .ok a
  | none => .error .badAccess

/-- Write `v[i] = a` of a `std::vector`, or the object behind a pointer. -/
def vec_set {α : Type} (v : List α) (i : Nat) (a : α) : Except Err (List α) :=
  if i < v.length then .ok (v.set i a) else .error .badAccess

/-- `Graph::add_edge(from, e)`: `e` becomes the last edge of the list of
`from`. -/
def Graph.add_edge (g : Graph) (from_ e : Nat) : Except Err Graph := do
  let l ← vec_get g.vertices from_
  pure { g with vertices := g.vertices.set from_ (l ++ [e]) }

/-- `Graph::insert(from, to, capacity)`. -/
def Graph.insert (g : Graph) (from_ to_ : Nat) (capacity : Int) : Except Err Graph := do
  let e := g.edges.length
  let rev := g.edges.length + 1
  let g := { g with edges := g.edges ++
    [({ from_ := from_, to_ := to_, is_reverse := false, _capacity := capacity, _flow := 0,
        _residaul_capacity := capacity, other := rev } : Edge),
     ({ from_ := to_, to_ := from_, is_reverse := true, _capacity := capacity, _flow := 0,
        _residaul_capacity := capacity, other := e } : Edge)] }
  let g ← g.add_edge from_ e
  let r ← vec_get g.edges rev
  let g := { g with edges := g.edges.set rev { r with _residaul_capacity := 0 } }
  g.add_edge to_ rev

/-- `Edge::update_to(f)` on the edge behind the pointer `p`. -/
def update_to (g : Graph) (p : Nat) (f : Int) : Except Err Graph := do
  let e ← vec_get g.edges p
  if ¬ e.is_reverse then
    if f < 0 then throw .flowNegative
    if f > e._capacity then throw .flowAboveCapacity
    let e := { e with _flow := f, _residaul_capacity := e._capacity - f }
    let edges ← vec_set g.edges p e
    let o ← vec_get edges e.other
    let edges ← vec_set edges e.other { o with _residaul_capacity := f }
    pure { g with edges := edges }
  else
    if f < 0 then throw .flowNegative
    let o ← vec_get g.edges e.other
    if f > o._capacity then throw .flowAboveCapacity
    let edges ← vec_set g.edges e.other
      { o with _flow := f, _residaul_capacity := o._capacity - f }
    let e ← vec_get edges p
    let edges ← vec_set edges p { e with _residaul_capacity := f }
    pure { g with edges := edges }

/-- `Edge::update_by(f)` on the edge behind the pointer `p`. -/
def update_by (g : Graph) (p : Nat) (f : Int) : Except Err Graph := do
  let e ← vec_get g.edges p
  update_to g p (e._flow + f)

/-- The edges an `iterator` visits from `begin(i)` to `end()`: the edges of
the list of `i` that are not reverse edges. -/
def Graph.iter (g : Graph) (i : Nat) : Except Err (List Nat) := do
  let l ← vec_get g.vertices i
  l.filterM (fun p => do pure (! (← vec_get g.edges p).is_reverse))

/-- The edges a `resid_iterator` visits from `resid_begin(i)` to
`resid_end()`: the edges of the list of `i` whose residual capacity is not
`0`. -/
def Graph.resid_iter (g : Graph) (i : Nat) : Except Err (List Nat) := do
  let l ← vec_get g.vertices i
  l.filterM (fun p => do pure (decide ((← vec_get g.edges p)._residaul_capacity ≠ 0)))

/-- The loop `for (it = g.begin(i); ...) (*it).update_to(0.0)`. -/
def reset_edges (g : Graph) : List Nat → Except Err Graph
  | [] => pure g
  | p :: ps => do
    let g ← update_to g p 0
    reset_edges g ps

/-- The loop `for (i = 0; i < N; i++)` that resets the flows, from `i` on. -/
def reset_loop : Nat → Nat → Graph → Except Err Graph
  | 0, _, g => pure g
  | n + 1, i, g => do
    let g ← reset_edges g (← g.iter i)
    reset_loop n (i + 1) g

/-- The values of `enum COLOR`. -/
inductive COLOR where
  | WHITE
  | GRAY
  | BLACK
deriving DecidableEq

/-- The local variables of the search: `previous[v]` is `none` for `-1` and
`edge_to[v]` is `none` for the null iterator.  (`dist` is only written.) -/
structure Bfs where
  color : List COLOR
  previous : List (Option Nat)
  edge_to : List (Option Nat)
  q : List Nat

/-- The loop over the residual edges of `v`. -/
def visit_loop (g : Graph) (v : Nat) : List Nat → Bfs → Except Err Bfs
  | [], b => pure b
  | it :: its, b => do
    let to_ := (← vec_get g.edges it).to_
    let b ← if (← vec_get b.color to_) = COLOR.WHITE then do
        let q := b.q ++ [to_]
        let color ← vec_set b.color to_ COLOR.GRAY
        let previous ← vec_set b.previous to_ (some v)
        let edge_to ← vec_set b.edge_to to_ (some it)
        pure { color := color, previous := previous, edge_to := edge_to, q := q }
      else pure b
    visit_loop g v its b

/-- The loop `while (q.size() > 0)`. -/
def bfs_loop (g : Graph) : Nat → Bfs → Except Err Bfs
  | 0, _ => .error .diverge
  | fuel + 1, b =>
    match b.q with
    | [] => pure b
    | v :: q => do
      let b := { b with q := q }
      let b ← visit_loop g v (← g.resid_iter v) b
      let color ← vec_set b.color v COLOR.BLACK
      bfs_loop g fuel { b with color := color }

/-- The loop that finds the least residual capacity on the path. -/
def min_loop (g : Graph) (b : Bfs) (start : Nat) : Nat → Int → Nat → Except Err Int
  | 0, _, _ => .error .diverge
  | fuel + 1, cf, i =>
    if i ≠ start then do
      let some it ← vec_get b.edge_to i | throw .badAccess
      let tmp := (← vec_get g.edges it)._residaul_capacity
      let cf := if tmp < cf then tmp else cf
      let some i ← vec_get b.previous i | throw .badAccess
      min_loop g b start fuel cf i
    else pure cf

/-- The loop that updates the edges of the path. -/
def update_loop (b : Bfs) (start : Nat) (cf : Int) : Nat → Graph → Nat → Except Err Graph
  | 0, _, _ => .error .diverge
  | fuel + 1, g, i =>
    if i ≠ start then do
      let some it ← vec_get b.edge_to i | throw .badAccess
      let g ← update_by g it cf
      let some i ← vec_get b.previous i | throw .badAccess
      update_loop b start cf fuel g i
    else pure g

/-- The loop `while (true)` of `edmonds_karp`. -/
def augment_loop (start end_ : Nat) : Nat → Graph → Except Err Graph
  | 0, _ => .error .diverge
  | fuel + 1, g => do
    let N := g.N
    let b : Bfs := { color := List.replicate N COLOR.WHITE,
                     previous := List.replicate N none,
                     edge_to := List.replicate N none,
                     q := [start] }
    let color ← vec_set b.color start COLOR.GRAY
    let b ← bfs_loop g (N + 1) { b with color := color }
    if (← vec_get b.previous end_) = none then pure g
    else do
      let cf ← min_loop g b start (N + 1) INT_MAX end_
      let g ← update_loop b start cf (N + 1) g end_
      augment_loop start end_ fuel g

/-- The loop that adds up the flow of the edges that leave `start`. -/
def sum_loop (g : Graph) : List Nat → Int → Except Err Int
  | [], max_flow => pure max_flow
  | it :: its, max_flow => do
    sum_loop g its (max_flow + (← vec_get g.edges it)._flow)

/-- `edmonds_karp(g, start, end)`, with `fuel` rounds of the loop
`while (true)`. -/
def edmonds_karp_fuel (fuel : Nat) (g : Graph) (start end_ : Nat) : Except Err Int := do
  let N := g.N
  let g ← reset_loop N 0 g
  let g ← augment_loop start end_ fuel g
  sum_loop g (← g.iter start) 0

/-- `edmonds_karp(g, start, end)`: a round of the loop `while (true)` that
does not end it sends at least one unit of flow, so one round more than the
sum of the capacities is enough fuel for a run that ends. -/
def edmonds_karp (g : Graph) (start end_ : Nat) : Except Err Int :=
  edmonds_karp_fuel (((g.edges.map (fun e : Edge => e._capacity)).sum).toNat + 1) g start end_

/-- The graph with six vertices built by seven calls of `insert`. -/
def detour_graph : Except Err Graph := do
  let g := Graph.init 6
  let g ← g.insert 0 1 1
  let g ← g.insert 1 2 1
  let g ← g.insert 2 5 1
  let g ← g.insert 0 3 2
  let g ← g.insert 3 2 2
  let g ← g.insert 1 4 2
  g.insert 4 5 2

/-- Example 1 of `main`. -/
def example1 : Except Err Graph := do
  let g := Graph.init 6
  let g ← g.insert 0 1 16
  let g ← g.insert 0 2 13
  let g ← g.insert 1 3 12
  let g ← g.insert 2 4 14
  let g ← g.insert 2 1 4
  let g ← g.insert 3 2 9
  let g ← g.insert 3 5 20
  let g ← g.insert 4 5 4
  g.insert 4 3 7

/-- Example 3 of `main`. -/
def example3 : Except Err Graph := do
  let g := Graph.init 4
  let g ← g.insert 0 1 3
  let g ← g.insert 0 3 2
  let g ← g.insert 1 2 2
  let g ← g.insert 1 3 3
  g.insert 3 2 4

/-- The flow that leaves `v` under `f`, which gives the flow of every edge
(by its pointer): the sum over the edges from `v` that are not reverse
edges. -/
def outflow (g : Graph) (f : Nat → Int) (v : Nat) : Int :=
  (((List.range g.edges.length).filter (fun p =>
      match g.edges[p]? with
      | some e => !e.is_reverse && e.from_ == v
      | none => false)).map f).sum

/-- The flow that enters `v` under `f`. -/
def inflow (g : Graph) (f : Nat → Int) (v : Nat) : Int :=
  (((List.range g.edges.length).filter (fun p =>
      match g.edges[p]? with
      | some e => !e.is_reverse && e.to_ == v
      | none => false)).map f).sum

/-- `f` is a flow from `s` to `t` in the graph that was built by `insert`:
on every edge it is between `0` and the capacity, and at every vertex apart
from `s` and `t` as much enters as leaves. -/
def IsFlow (g : Graph) (s t : Nat) (f : Nat → Int) : Prop :=
  (∀ p e, g.edges[p]? = some e → e.is_reverse = false → 0 ≤ f p ∧ f p ≤ e._capacity) ∧
  (∀ v, v < g.N → v ≠ s → v ≠ t → inflow g f v = outflow g f v)

/-- The value of the flow `f` from `s`. -/
def flow_value (g : Graph) (s : Nat) (f : Nat → Int) : Int :=
  outflow g f s - inflow g f s

/-- The graph that `edmonds_karp(g, start, end)` leaves behind when it
returns: the graph after the loop `while (true)`. -/
def edmonds_karp_graph (g : Graph) (start end_ : Nat) : Except Err Graph := do
  let N := g.N
  let fuel := ((g.edges.map (fun e : Edge => e._capacity)).sum).toNat + 1
  let g ← reset_loop N 0 g
  augment_loop start end_ fuel g

/-- The flow stored on the edge behind the pointer `p`. -/
def stored_flow (g : Graph) (p : Nat) : Int :=
  match g.edges[p]? with
  | some e => e._flow
  | none => 0

/-- What a call of `update_to` leaves behind: its result, and the graph after
the call.  The graph is `none` when the call stopped on an access through a
bad pointer: the embedding does not follow the partly updated graph. -/
structure Run where
  result : Except Err Unit
  graph : Option Graph

/-- `Edge::update_to(f)` with the graph it leaves.  In both branches the two
`throw` statements come before every assignment, so an exception leaves the
graph as it is; `c` is the edge whose `_capacity` the branch compares with
`f`. -/
def update_to_run (g : Graph) (p : Nat) (f : Int) : Run :=
  match vec_get g.edges p with
  | .error er => ⟨.error er, none⟩
  | .ok e =>
    if f < 0 then ⟨.error .flowNegative, some g⟩
    else
      match (if ¬ e.is_reverse then pure e else vec_get g.edges e.other) with
      | .error er => ⟨.error er, none⟩
      | .ok c =>
        if f > c._capacity then ⟨.error .flowAboveCapacity, some g⟩
        else
          match update_to g p f with
          | .ok g' => ⟨.ok (), some g'⟩
          | .error er => ⟨.error er, none⟩

/-- The graphs that the interface builds: `Graph(n)`, then calls of `insert`,
`update_to` and `update_by` that return. -/
inductive Built : Graph → Prop where
  | init (n : Nat) : Built (Graph.init n)
  | insert {g g' : Graph} (from_ to_ : Nat) (capacity : Int) :
      Built g → g.insert from_ to_ capacity = .ok g' → Built g'
  | update_to {g g' : Graph} (p : Nat) (f : Int) :
      Built g → update_to g p f = .ok g' → Built g'
  | update_by {g g' : Graph} (p : Nat) (f : Int) :
      Built g → update_by g p f = .ok g' → Built g'

/-- The edge behind `e.other` is the partner of the edge `e` behind `x`: it
points back, is the reverse edge when `e` is the original edge and the other
way round, and has the same capacity.  When `e` is the original edge its flow
is at least `0`, and at most the capacity unless it is still `0`; its
residual capacity is the capacity less the flow, and the residual capacity
of the reverse edge is the flow. -/
def PairAt (g : Graph) (x : Nat) (e : Edge) : Prop :=
  ∃ r, g.edges[e.other]? = some r ∧ r.other = x ∧ r.is_reverse = !e.is_reverse ∧
    r._capacity = e._capacity ∧
    (e.is_reverse = false → 0 ≤ e._flow ∧ (e._flow ≤ e._capacity ∨ e._flow = 0) ∧
      e._residaul_capacity = e._capacity - e._flow ∧ r._residaul_capacity = e._flow)

/-- Every edge of the graph has its partner. -/
def Paired (g : Graph) : Prop := ∀ x e, g.edges[x]? = some e → PairAt g x e

/-- The graphs in which the pair of edges that `insert(from, to, c)` created
behind the pointers `p` and `p + 1` lives: the graph right after that call of
`insert` on a graph built by the interface, and the graphs after further
calls of `insert`, `update_to` and `update_by` that return. -/
inductive PairFrom (p : Nat) (c : Int) : Graph → Prop where
  | created {g g' : Graph} (from_ to_ : Nat) :
      Built g → g.insert from_ to_ c = .ok g' → p = g.edges.length → PairFrom p c g'
  | insert {g g' : Graph} (from_ to_ : Nat) (capacity : Int) :
      PairFrom p c g → g.insert from_ to_ capacity = .ok g' → PairFrom p c g'
  | update_to {g g' : Graph} (x : Nat) (f : Int) :
      PairFrom p c g → update_to g x f = .ok g' → PairFrom p c g'
  | update_by {g g' : Graph} (x : Nat) (f : Int) :
      PairFrom p c g → update_by g x f = .ok g' → PairFrom p c g'

/-- The edges of `l` are in `l2` behind the same pointers, with the fields
that no method assigns as they were. -/
def Keep (l l2 : List Edge) : Prop :=
  ∀ (y : Nat) (e : Edge), l[y]? = some e → ∃ e2 : Edge, l2[y]? = some e2 ∧ e2.from_ = e.from_ ∧ e2.to_ = e.to_ ∧
    e2.is_reverse = e.is_reverse ∧ e2._capacity = e._capacity ∧ e2.other = e.other

/-- The graph after `Graph g(2); g.insert(0, 1, 5);`. -/
def one_edge_graph : Graph :=
  ⟨2, [[0], [1]], [Edge.mk 0 1 false 5 0 5 1, Edge.mk 1 0 true 5 0 0 0]⟩

/-- The graph that `edmonds_karp(g, 0, 5)` leaves behind on the graph of
`detour_graph`. -/
def detour_final : Graph :=
  ⟨6, [[0, 6], [1, 2, 10], [3, 4, 9], [7, 8], [11, 12], [5, 13]],
    [Edge.mk 0 1 false 1 1 0 1, Edge.mk 1 0 true 1 0 1 0,
     Edge.mk 1 2 false 1 1 0 3, Edge.mk 2 1 true 1 0 1 2,
     Edge.mk 2 5 false 1 1 0 5, Edge.mk 5 2 true 1 0 1 4,
     Edge.mk 0 3 false 2 2 0 7, Edge.mk 3 0 true 2 0 2 6,
     Edge.mk 3 2 false 2 2 0 9, Edge.mk 2 3 true 2 0 2 8,
     Edge.mk 1 4 false 2 2 0 11, Edge.mk 4 1 true 2 0 2 10,
     Edge.mk 4 5 false 2 2 0 13, Edge.mk 5 4 true 2 0 2 12]⟩

end EdmondsKarp

/-! ## The Bellman-Ford algorithm

`src/Shortest Paths/bellman-ford.cpp`. -/

namespace BellmanFord

/-- An access outside a vector (undefined behaviour in C++). -/
inductive Err where
  | badAccess
deriving DecidableEq

/-- The constant `INT_MAX` of a 32-bit `int`. -/
def INT_MAX : Int := 2147483647

/-- The sum of two `int` on a two's complement machine: the result wraps
around modulo `2 ^ 32`.  (C++ leaves the overflow of a signed sum undefined;
this is what the usual targets compute.) -/
def int_add (a b : Int) : Int := (a + b + 2147483648) % 4294967296 - 2147483648

/-- The record `Graph<int>::Edge` without its `next` pointer (`from_` and
`to_` are its fields `from` and `to`). -/
structure Edge where
  value : Int
  from_ : Nat
  to_ : Nat
deriving DecidableEq

/-- The object `Graph<int>`: the number of vertices and the vector `edges`,
which holds the edges in the order of their insertion.  (The adjacency lists
`vertex` are read by `print` only.) -/
structure Graph where
  N : Nat
  edges : List Edge
deriving DecidableEq

/-- The constructor `Graph(n)`. -/
def Graph.init (n : Nat) : Graph := { N := n, edges := [] }

/-- `Graph::add(f, t, v)`; it reads `vertex[f]`. -/
def Graph.add (g : Graph) (f t : Nat) (v : Int) : Except Err Graph :=
  if f < g.N then .ok { g with edges := g.edges ++ [{ value := v, from_ := f, to_ := t }] }
  else .error .badAccess

/-- Read `v[i]` of a `std::vector`. -/
def vec_get {α : Type} (v : List α) (i : Nat) : Except Err α :=
  match v[i]? with
  | some a => .ok a
  | none => .error .badAccess

/-- Write `v[i] = a` of a `std::vector`. -/
def vec_set {α : Type} (v : List α) (i : Nat) (a : α) : Except Err (List α) :=
  if i < v.length then .ok (v.set i a) else .error .badAccess

/-- The members `dist` and `prev` of `BellmanFord`. -/
structure State where
  dist : List Int
  prev : List Int
deriving DecidableEq

/-- The loop over all edges that relaxes them, in the order of `g.edges`. -/
def relax_loop : List Edge → State → Except Err State
  | [], st => pure st
  | e :: es, st => do
    if (← vec_get st.dist e.from_) = INT_MAX then relax_loop es st
    else
      if int_add (← vec_get st.dist e.from_) e.value < (← vec_get st.dist e.to_) then do
        let dist ← vec_set st.dist e.to_ (int_add (← vec_get st.dist e.from_) e.value)
        let prev ← vec_set st.prev e.to_ (e.from_ : Int)
        relax_loop es { dist := dist, prev := prev }
      else relax_loop es st

/-- The loop `for (int i = 0; i < N - 1; i++)`, with `n` rounds to go. -/
def rounds (g : Graph) : Nat → State → Except Err State
  | 0, st => pure st
  | n + 1, st => do
    let st ← relax_loop g.edges st
    rounds g n st

/-- The loop that detects cycles: `false` at the first edge that can still be
relaxed. -/
def detect_loop : List Edge → State → Except Err Bool
  | [], _ => pure true
  | e :: es, st => do
    if int_add (← vec_get st.dist e.from_) e.value < (← vec_get st.dist e.to_) then
      pure false
    else detect_loop es st

/-- `BellmanFord::shortestPathFrom(s)` on the graph `g`: the value returned,
with the vectors `dist` and `prev` at the end. -/
def shortestPathFrom (g : Graph) (s : Nat) : Except Err (Bool × State) := do
  let st : State := { dist := List.replicate g.N INT_MAX, prev := List.replicate g.N (-1) }
  let dist ← vec_set st.dist s 0
  let prev ← vec_set st.prev s (s : Int)
  let st ← rounds g (g.N - 1) { dist := dist, prev := prev }
  let b ← detect_loop g.edges st
  pure (b, st)

/-- The graph with the vertices `0, 1, 2` and the single edge `1 → 2` of
weight `-1`. -/
def lone_edge : Except Err Graph := (Graph.init 3).add 1 2 (-1)

/-- Graph 2 of `main`. -/
def graph2 : Except Err Graph := do
  let h := Graph.init 5
  let h ← h.add 0 1 6
  let h ← h.add 0 4 7
  let h ← h.add 1 2 5
  let h ← h.add 2 1 (-2)
  let h ← h.add 1 3 (-4)
  let h ← h.add 1 4 8
  let h ← h.add 4 3 9
  let h ← h.add 4 2 (-3)
  let h ← h.add 3 2 7
  h.add 3 0 2

/-- Graph 3 of `main`. -/
def graph3 : Except Err Graph := do
  let h := Graph.init 5
  let h ← h.add 0 1 6
  let h ← h.add 0 4 7
  let h ← h.add 1 2 5
  let h ← h.add 2 1 (-3)
  let h ← h.add 1 3 (-4)
  let h ← h.add 1 4 8
  let h ← h.add 4 3 9
  let h ← h.add 4 2 (-3)
  let h ← h.add 3 2 7
  h.add 3 0 2

/-- A walk of `n` edges from `u` to `v` of weight `w` in `g`. -/
inductive Walk (g : Graph) (u : Nat) : Nat → Nat → Int → Prop where
  | nil : Walk g u u 0 0
  | snoc {v n : Nat} {w : Int} {e : Edge} : Walk g u v n w → e ∈ g.edges → e.from_ = v →
      Walk g u e.to_ (n + 1) (w + e.value)

/-- `v` can be reached from `s`. -/
def Reachable (g : Graph) (s v : Nat) : Prop := ∃ n w, Walk g s v n w

/-- A cycle of negative weight can be reached from `s`. -/
def NegCycle (g : Graph) (s : Nat) : Prop :=
  ∃ u n w, Reachable g s u ∧ Walk g u u n w ∧ w < 0

/-- No sum the run can form overflows or reaches `INT_MAX`: every walk from
`s` with at most as many edges as the run relaxes, and one more for the
tests of the last loop, has a weight in the range of `int` below `INT_MAX`. -/
def NoOverflow (g : Graph) (s : Nat) : Prop :=
  ∀ v n w, Walk g s v n w → n ≤ (g.N - 1) * g.edges.length + 1 →
    -2147483648 ≤ w ∧ w < INT_MAX

/-- `d` is the weight of a shortest walk from `s` to `v`. -/
def IsShortest (g : Graph) (s v : Nat) (d : Int) : Prop :=
  (∃ n, Walk g s v n d) ∧ ∀ n w, Walk g s v n w → d ≤ w

/-- Following `prev` from `v` reaches `s` along edges of `g` of total weight
`d`. -/
inductive PrevPath (g : Graph) (prev : List Int) (s : Nat) : Nat → Int → Prop where
  | source : PrevPath g prev s s 0
  | step {v u : Nat} {w : Int} {e : Edge} : v ≠ s → prev[v]? = some (u : Int) →
      e ∈ g.edges → e.from_ = u → e.to_ = v → PrevPath g prev s u w →
      PrevPath g prev s v (w + e.value)

/-- The entry `dist[v]`, and `INT_MAX` outside the vector. -/
def distOf (st : State) (v : Nat) : Int := st.dist.getD v INT_MAX

/-- The entry `prev[v]`, and `-1` outside the vector. -/
def prevOf (st : State) (v : Nat) : Int := st.prev.getD v (-1)

/-- The invariant of the relaxation loops after `t` edges have been looked
at; `stamp v` is the number of the step that last changed `dist[v]`, and `0`
when it has not been changed. -/
structure BInv (g : Graph) (s t : Nat) (st : State) (stamp : Nat → Nat) : Prop where
  dlen : st.dist.length = g.N
  plen : st.prev.length = g.N
  walk : ∀ v, distOf st v ≠ INT_MAX → ∃ n, n ≤ t ∧ Walk g s v n (distOf st v)
  src : distOf st s ≤ 0 ∧ (0 < stamp s → distOf st s < 0)
  fresh : ∀ v, v ≠ s → stamp v = 0 → distOf st v = INT_MAX
  pred : ∀ v, 0 < stamp v → ∃ (u : Nat) (e : Edge) (d0 : Int), prevOf st v = (u : Int) ∧ e ∈ g.edges ∧ e.from_ = u ∧
    e.to_ = v ∧ distOf st v = d0 + e.value ∧ distOf st u ≤ d0 ∧ d0 < INT_MAX ∧
    (distOf st u = d0 → stamp u < stamp v)
  stamps : ∀ v, stamp v ≤ t

/-- The graph built by `graph2`, written out. -/
def graph2_graph : Graph :=
  ⟨5, [⟨6, 0, 1⟩, ⟨7, 0, 4⟩, ⟨5, 1, 2⟩, ⟨-2, 2, 1⟩, ⟨-4, 1, 3⟩, ⟨8, 1, 4⟩, ⟨9, 4, 3⟩,
    ⟨-3, 4, 2⟩, ⟨7, 3, 2⟩, ⟨2, 3, 0⟩]⟩

/-- The graph with the vertices `0, 1` and the single edge `0 → 1` of weight
`INT_MAX`. -/
def max_edge : Except Err Graph := (Graph.init 2).add 0 1 INT_MAX

/-- The graph built by `max_edge`, written out. -/
def max_edge_graph : Graph := ⟨2, [⟨2147483647, 0, 1⟩]⟩

end BellmanFord

/-! ## The disjoint-set forest

`src/Disjoint Sets/disjoint_set_forest.cpp`. -/

namespace DisjointSet

/-- The ways a call stops without a result: an access outside the vector
`nodes` (undefined behaviour in C++), and a recursion that has not ended when
the fuel of the model runs out. -/
inductive Err where
  | badAccess
  | diverge
deriving DecidableEq

/-- The record `Node`.  Nodes are allocated in the order of the vector
`nodes`, so the pointer `nodes[i]` is the index `i`, and `parent` is an
index. -/
structure Node where
  parent : Nat
  rank : Int
deriving DecidableEq

/-- The object `DisjointSetForest`. -/
structure DisjointSetForest where
  N : Int
  nsets : Int
  nodes : List Node
deriving DecidableEq

/-- The constructor `DisjointSetForest(n)`: every node is its own parent and
has rank `0`. -/
def init (n : Nat) : DisjointSetForest :=
  { N := n, nsets := n, nodes := (List.range n).map (fun i => { parent := i, rank := 0 }) }

/-- Read the node behind the pointer `x`. -/
def rd (d : DisjointSetForest) (x : Nat) : Except Err Node :=
  match d.nodes[x]? with
  | some n => .ok n
  | none => .error .badAccess

/-- Write a field of the node behind the pointer `x`. -/
def wr (d : DisjointSetForest) (x : Nat) (f : Node → Node) : Except Err DisjointSetForest :=
  match d.nodes[x]? with
  | some n => .ok { d with nodes := d.nodes.set x (f n) }
  | none => .error .badAccess

/-- `link(x, y)`. -/
def link (d : DisjointSetForest) (x y : Nat) : Except Err DisjointSetForest := do
  if (← rd d x).rank > (← rd d y).rank then
    wr d y (fun n => { n with parent := x })
  else do
    let d ← wr d x (fun n => { n with parent := y })
    if (← rd d x).rank = (← rd d y).rank then
      wr d y (fun n => { n with rank := n.rank + 1 })
    else pure d

/-- `find_set(x)`, with path compression; the recursion of the source is
bounded by `fuel`. -/
def find_set : Nat → DisjointSetForest → Nat → Except Err (Nat × DisjointSetForest)
  | 0, _, _ => .error .diverge
  | fuel + 1, d, x => do
    let d ← if (← rd d x).parent ≠ x then do
        let (r, d) ← find_set fuel d (← rd d x).parent
        wr d x (fun n => { n with parent := r })
      else pure d
    pure ((← rd d x).parent, d)

/-- `join(a, b)`; a chain of parents has at most as many nodes as the vector,
which is the fuel of `find_set`. -/
def join (d : DisjointSetForest) (a b : Nat) : Except Err DisjointSetForest := do
  let (pa, d) ← find_set d.nodes.length d a
  let (pb, d) ← find_set d.nodes.length d b
  if pa ≠ pb then do
    let d ← link d pa pb
    pure { d with nsets := d.nsets - 1 }
  else pure d

/-- `n_sets()`. -/
def n_sets (d : DisjointSetForest) : Int := d.nsets

/-- `same_set(a, b)`, with the forest it leaves (the two calls of `find_set`
compress paths); the left operand of `==` is evaluated first. -/
def same_set (d : DisjointSetForest) (a b : Nat) : Except Err (Bool × DisjointSetForest) := do
  let (pa, d) ← find_set d.nodes.length d a
  let (pb, d) ← find_set d.nodes.length d b
  pure (decide (pa = pb), d)

/-- A sequence of calls of `join`. -/
def join_all : DisjointSetForest → List (Nat × Nat) → Except Err DisjointSetForest
  | d, [] => pure d
  | d, (a, b) :: ps => do
    let d ← join d a b
    join_all d ps

/-- The field `parent` of node `x` (and `x` itself outside the vector). -/
def parentOf (d : DisjointSetForest) (x : Nat) : Nat :=
  match d.nodes[x]? with
  | some n => n.parent
  | none => x

/-- The field `rank` of node `x`. -/
def rankOf (d : DisjointSetForest) (x : Nat) : Int :=
  match d.nodes[x]? with
  | some n => n.rank
  | none => 0

/-- Following `parent` from `x` ends at the node `r`, which is its own
parent: `r` is the representative of the set of `x`. -/
inductive RootOf (d : DisjointSetForest) : Nat → Nat → Prop where
  | root {x : Nat} : x < d.nodes.length → parentOf d x = x → RootOf d x x
  | step {x r : Nat} : x < d.nodes.length → parentOf d x ≠ x → RootOf d (parentOf d x) r →
      RootOf d x r

/-- `i` and `j` are in the same set: they have the same representative. -/
def Same (d : DisjointSetForest) (i j : Nat) : Prop := ∃ r, RootOf d i r ∧ RootOf d j r

/-- The structural invariant: parents are nodes of the vector, and the rank
grows strictly from a node to its parent. -/
structure WF (d : DisjointSetForest) : Prop where
  bound : ∀ x, x < d.nodes.length → parentOf d x < d.nodes.length
  rank : ∀ x, x < d.nodes.length → parentOf d x ≠ x → rankOf d x < rankOf d (parentOf d x)

/-- The number of nodes whose rank is greater than the rank of `x`: a bound
on the number of steps from `x` to its representative. -/
def above (d : DisjointSetForest) (x : Nat) : Nat :=
  (List.range d.nodes.length).countP (fun y => decide (rankOf d x < rankOf d y))

/-- `d'` is `d` after path compression: the ranks are the same, and the
parent of a node is its former parent or its representative. -/
structure Compress (d d' : DisjointSetForest) : Prop where
  len : d'.nodes.length = d.nodes.length
  size : d'.N = d.N
  sets : d'.nsets = d.nsets
  rank : ∀ x, rankOf d' x = rankOf d x
  parent : ∀ x, x < d.nodes.length → parentOf d' x = parentOf d x ∨ RootOf d x (parentOf d' x)

/-- The number of nodes that are their own parent. -/
def rootCount (d : DisjointSetForest) : Nat :=
  (List.range d.nodes.length).countP (fun x => decide (parentOf d x = x))

/-- The invariant of the forest: the structural invariant, and `nsets` is the
number of representatives. -/
structure DInv (d : DisjointSetForest) : Prop where
  wf : WF d
  count : d.nsets = rootCount d

/-- The forests reached from `DisjointSetForest(n)` by calls of `join` and
`same_set` on elements below `n`. -/
inductive Reach (n : Nat) : DisjointSetForest → Prop where
  | init : Reach n (init n)
  | join {d d' : DisjointSetForest} {a b : Nat} : Reach n d → a < n → b < n →
      join d a b = .ok d' → Reach n d'
  | same_set {d d' : DisjointSetForest} {a b : Nat} {r : Bool} : Reach n d → a < n → b < n →
      same_set d a b = .ok (r, d') → Reach n d'

end DisjointSet

/-! ## The binary heap

`src/Binary Heap/main.cpp`. -/

namespace BinaryHeap

/-- The ways a call stops without a result: an access outside the vector
(undefined behaviour in C++), and a recursion that has not ended when the fuel
of the model runs out. -/
inductive Err where
  | badAccess
  | diverge
deriving DecidableEq

/-- The number of values of `size_t` (64 bits). -/
def SIZE : Nat := 18446744073709551616

/-- `parent(i)`: `(i - (size_t) 1) >> 1`, in `size_t`. -/
def parent (i : Nat) : Nat := ((i + SIZE - 1) % SIZE) / 2

/-- `left_child(i)`: `2*i+1`, in `size_t`. -/
def left_child (i : Nat) : Nat := (2 * i + 1) % SIZE

/-- `right_child(i)`: `2*(i+1)`, in `size_t`. -/
def right_child (i : Nat) : Nat := (2 * (i + 1)) % SIZE

/-- Read `a[i]` of a `std::vector<int>`. -/
def vec_get (a : List Int) (i : Nat) : Except Err Int :=
  match a[i]? with
  | some x => .ok x
  | none => .error .badAccess

/-- `std::swap(a[i], a[j])`. -/
def swap (a : List Int) (i j : Nat) : Except Err (List Int) := do
  let x ← vec_get a i
  let y ← vec_get a j
  pure ((a.set i y).set j x)

/-- `percolateDown(a, i)`; the recursion of the source is bounded by
`fuel`. -/
def percolateDown : Nat → List Int → Nat → Except Err (List Int)
  | 0, _, _ => .error .diverge
  | fuel + 1, a, i => do
    let s := a.length
    let left := left_child i
    let right := right_child i
    let top := i
    let top ← if left < s then
        (do if (← vec_get a top) < (← vec_get a left) then pure left else pure top)
      else pure top
    let top ← if right < s then
        (do if (← vec_get a top) < (← vec_get a right) then pure right else pure top)
      else pure top
    if top ≠ i then do
      let a ← swap a top i
      percolateDown fuel a top
    else pure a

/-- The loop `for (size_t i = ...; i != 0; ) percolateDown(a, --i);` of
`heapify`; a call of `percolateDown` goes down at most `a.size()` levels,
which is its fuel. -/
def heapify_loop : Nat → List Int → Except Err (List Int)
  | 0, a => pure a
  | i + 1, a => do
    let a ← percolateDown a.length a i
    heapify_loop i a

/-- `heapify(a)` on a `std::vector<int>`. -/
def heapify (a : List Int) : Except Err (List Int) :=
  if a.length < 2 then pure a
  else heapify_loop (parent (a.length - 1) + 1) a

/-- The value at index `p` is at least the values of its children. -/
def HeapAt (a : List Int) (p : Nat) : Prop :=
  ∀ c, c < a.length → (c = 2 * p + 1 ∨ c = 2 * p + 2) → a.getD c 0 ≤ a.getD p 0

/-- The loop `for (; i != 0;)` of `percolateUp`, bounded by `fuel`. -/
def percolateUp_loop : Nat → List Int → Nat → Except Err (List Int)
  | 0, _, _ => .error .diverge
  | fuel + 1, a, i =>
    if i ≠ 0 then do
      let j := parent i
      if (← vec_get a j) > (← vec_get a i) then pure a
      else do
        let a ← swap a j i
        percolateUp_loop fuel a j
    else pure a

/-- `percolateUp(a, i)`: `i` gets smaller in every round of the loop, so the
loop condition is tested at most `i + 1` times, which is the fuel. -/
def percolateUp (a : List Int) (i : Nat) : Except Err (List Int) :=
  if i = 0 then pure a else percolateUp_loop (i + 1) a i

/-- The vector is a max-heap: `a[(j-1)/2] >= a[j]` for `1 <= j < a.size()`. -/
def MaxHeap (a : List Int) : Prop :=
  ∀ j, 1 ≤ j → j < a.length → a.getD j 0 ≤ a.getD ((j - 1) / 2) 0

end BinaryHeap

/-! ## The Fibonacci heap with values

`FibonacciHeap<T>` of `src/Shortest Paths/fibonacci-heap.cpp` and
`src/Shortest Paths/Dijkstras Fibonacci Heap/fibonacci-heap.hpp`: the heap of
`src/Fibonacci Heap/main.cpp` with a member `value` in every node.  The
store holds the whole record, so that what the methods do to `value` is read
off their text. -/

namespace ValueHeap

open FibHeap (Err INT_MIN consolidate_D A_get A_set)

/-- The record `FibonacciHeap<T>::Node`: the record of the heap of
`src/Fibonacci Heap/main.cpp` with the member `T value`. -/
structure Node (T : Type) where
  key : Int
  value : T
  mark : Bool
  child : Option Nat
  degree : Int
  left : Nat
  right : Nat
  parent : Option Nat

/-- The constructor `Node(int k, T v)` run at address `this`. -/
def newNode {T : Type} (k : Int) (v : T) (this : Nat) : Node T :=
  { key := k, value := v, mark := false, child := none, degree := 0, left := this,
    right := this, parent := none }

/-- The store: slot `p` is the node at address `p`. -/
abbrev Mem (T : Type) := List (Option (Node T))

/-- The object `FibonacciHeap<T>`. -/
structure FibonacciHeap (T : Type) where
  N : Int
  root : Option Nat
  mem : Mem T

/-- The heap built by the default member initialisers. -/
def empty {T : Type} : FibonacciHeap T := { N := 0, root := none, mem := [] }

/-- The node stored at address `p`, if a node is allocated there. -/
def look {T : Type} (m : Mem T) (p : Nat) : Option (Node T) :=
  match m[p]? with
  | some (some n) => some n
  | _ => none

/-- Read through a pointer: `*p`. -/
def rd {T : Type} (m : Mem T) (p : Nat) : Except Err (Node T) :=
  match look m p with
  | some n => .ok n
  | none => .error .badAccess

/-- Write one field through a pointer: `p->field = ...`. -/
def wr {T : Type} (m : Mem T) (p : Nat) (f : Node T → Node T) : Except Err (Mem T) :=
  match look m p with
  | some n => .ok (m.set p (some (f n)))
  | none => .error .badAccess

/-- The statement `delete p`. -/
def del {T : Type} (m : Mem T) (p : Nat) : Except Err (Mem T) :=
  match look m p with
  | some _ => .ok (m.set p none)
  | none => .error .badAccess

/-- Dereference of a possibly null pointer. -/
def deref (p : Option Nat) : Except Err Nat :=
  match p with
  | some a => .ok a
  | none => .error .badAccess

/-- `list_insert(x, l, r)`. -/
def list_insert {T : Type} (m : Mem T) (x l r : Nat) : Except Err (Mem T) := do
  let m ← wr m x (fun n => { n with left := l })
  let m ← wr m x (fun n => { n with right := r })
  let m ← wr m r (fun n => { n with left := x })
  let m ← wr m l (fun n => { n with right := x })
  pure m

/-- `insert(k, v)`: `new Node(k, v)` followed by the body of the method;
returns the new pointer. -/
def insert {T : Type} (h : FibonacciHeap T) (k : Int) (v : T) :
    Except Err (Nat × FibonacciHeap T) := do
  let tmp := h.mem.length
  let m : Mem T := h.mem ++ [some (newNode k v tmp)]
  match h.root with
  | none =>
    pure (tmp, { N := h.N + 1, root := some tmp, mem := m })
  | some root =>
    let m ← list_insert m tmp (← rd m root).left root
    let root := if (← rd m tmp).key < (← rd m root).key then tmp else root
    pure (tmp, { N := h.N + 1, root := some root, mem := m })

/-- `get_min_node()`. -/
def get_min_node {T : Type} (h : FibonacciHeap T) : Except Err Nat :=
  match h.root with
  | none => .error .heapEmpty
  | some root => pure root

/-- `get_min_key()`. -/
def get_min_key {T : Type} (h : FibonacciHeap T) : Except Err Int :=
  match h.root with
  | none => .error .heapEmpty
  | some root => do pure (← rd h.mem root).key

/-- The loop `do ... while (c != z->child)` of `remove_min` and
`change_key`, bounded by `fuel`. -/
def splice_loop {T : Type} (z : Nat) : Nat → Mem T → Nat → Nat → Except Err (Mem T)
  | 0, _, _, _ => .error .diverge
  | fuel + 1, m, c, n => do
    let m ← list_insert m c (← rd m z).left z
    let m ← wr m c (fun nd => { nd with parent := none })
    let c := n
    let n := (← rd m c).right
    if some c ≠ (← rd m z).child then splice_loop z fuel m c n else pure m

/-- `heap_link(x, y)`. -/
def heap_link {T : Type} (h : FibonacciHeap T) (x y : Option Nat) :
    Except Err (Nat × FibonacciHeap T) := do
  if h.root = none then throw Err.heapEmpty
  match x, y with
  | some x, some y =>
    let (x, y) := if (← rd h.mem x).key > (← rd h.mem y).key then (y, x) else (x, y)
    let l := (← rd h.mem y).left
    let r := (← rd h.mem y).right
    let m ← wr h.mem l (fun n => { n with right := r })
    let m ← wr m r (fun n => { n with left := l })
    let m ← match (← rd m x).child with
      | none => do
        let m ← wr m x (fun n => { n with child := some y })
        let m ← wr m y (fun n => { n with left := y })
        wr m y (fun n => { n with right := y })
      | some c => do
        let m ← list_insert m y (← rd m c).left c
        wr m x (fun n => { n with child := some y })
    let m ← wr m y (fun n => { n with parent := some x })
    let m ← wr m y (fun n => { n with mark := false })
    let m ← wr m x (fun n => { n with degree := n.degree + 1 })
    pure (x, { h with mem := m })
  | _, _ => throw Err.linkNull

/-- The loop of `consolidate` that fills `root_list`. -/
def root_list_loop {T : Type} (m : Mem T) (root : Nat) :
    Nat → Nat → List Nat → Except Err (List Nat)
  | 0, _, _ => .error .diverge
  | fuel + 1, w, acc => do
    let acc := acc ++ [w]
    let w := (← rd m w).right
    if w ≠ root then root_list_loop m root fuel w acc else pure acc

/-- The loop `while (A[d] != nullptr)` of `consolidate`. -/
def link_loop {T : Type} : Nat → FibonacciHeap T → List (Option Nat) → Nat → Int →
    Except Err (FibonacciHeap T × List (Option Nat) × Nat × Int)
  | 0, _, _, _, _ => .error .diverge
  | fuel + 1, h, A, x, d => do
    match (← A_get A d) with
    | none => pure (h, A, x, d)
    | some y =>
      let (x, h) ← heap_link h (some x) (some y)
      let A ← A_set A d none
      link_loop fuel h A x (d + 1)

/-- The loop `for (auto w : root_list)` of `consolidate`. -/
def consolidate_for {T : Type} (D : Int) : FibonacciHeap T → List (Option Nat) → List Nat →
    Except Err (FibonacciHeap T × List (Option Nat))
  | h, A, [] => pure (h, A)
  | h, A, w :: ws => do
    let x := w
    let d := (← rd h.mem x).degree
    if ¬ d < D then throw Err.assertFail
    let (h, A, x, d) ← link_loop (A.length + 1) h A x d
    let A ← A_set A d (some x)
    consolidate_for D h A ws

/-- The final loop of `consolidate`, over the slots of `A` in order. -/
def rebuild {T : Type} : FibonacciHeap T → List (Option Nat) → Except Err (FibonacciHeap T)
  | h, [] => pure h
  | h, none :: rest => rebuild h rest
  | h, some a :: rest => do
    match h.root with
    | none =>
      let m ← wr h.mem a (fun n => { n with right := a })
      let m ← wr m a (fun n => { n with left := a })
      let m ← wr m a (fun n => { n with parent := none })
      rebuild { h with mem := m, root := some a } rest
    | some root =>
      let m ← list_insert h.mem a (← rd h.mem root).left root
      let m ← wr m a (fun n => { n with parent := none })
      let root := if (← rd m a).key < (← rd m root).key then a else root
      rebuild { h with mem := m, root := some root } rest

/-- `consolidate()`. -/
def consolidate {T : Type} (h : FibonacciHeap T) : Except Err (FibonacciHeap T) := do
  match h.root with
  | none => throw Err.consolidateEmpty
  | some root =>
    let D ← consolidate_D h.N
    let A : List (Option Nat) := List.replicate D.toNat none
    let root_list ← root_list_loop h.mem root h.mem.length root []
    let (h, A) ← consolidate_for D h A root_list
    rebuild { h with root := none } A

/-- `remove_min()`. -/
def remove_min {T : Type} (h : FibonacciHeap T) : Except Err (FibonacciHeap T) := do
  match h.root with
  | none => throw Err.heapEmpty
  | some z =>
    let m ← match (← rd h.mem z).child with
      | none => pure h.mem
      | some c => do
        let n := (← rd h.mem c).right
        splice_loop z h.mem.length h.mem c n
    let l := (← rd m z).left
    let r := (← rd m z).right
    let zr := (← rd m z).right
    let m ← wr m l (fun n => { n with right := zr })
    let zl := (← rd m z).left
    let m ← wr m r (fun n => { n with left := zl })
    let zr := (← rd m z).right
    let h ← if z = zr then pure { h with mem := m, root := none }
      else consolidate { h with mem := m, root := some zr }
    let h := { h with N := h.N - 1 }
    let m ← del h.mem z
    pure { h with mem := m }

/-- `cut(x, y)`. -/
def cut {T : Type} (h : FibonacciHeap T) (x y : Nat) : Except Err (FibonacciHeap T) := do
  if (← rd h.mem x).parent ≠ some y then throw Err.notParent
  let m ← if (← rd h.mem y).child = some x ∧ (← rd h.mem x).right = x then do
      let m ← wr h.mem y (fun n => { n with child := none })
      wr m y (fun n => { n with degree := 0 })
    else do
      let xr := (← rd h.mem x).right
      let xl := (← rd h.mem x).left
      let m ← wr h.mem xr (fun n => { n with left := xl })
      let xl := (← rd m x).left
      let xr := (← rd m x).right
      let m ← wr m xl (fun n => { n with right := xr })
      let m ← if (← rd m y).child = some x then do
          let xr := (← rd m x).right
          wr m y (fun n => { n with child := some xr })
        else pure m
      wr m y (fun n => { n with degree := n.degree - 1 })
  let root ← deref h.root
  let m ← list_insert m x (← rd m root).left root
  let m ← wr m x (fun n => { n with parent := none })
  let m ← wr m x (fun n => { n with mark := false })
  pure { h with mem := m }

/-- `cascading_cut(y)`; the recursion of the source is bounded by `fuel`. -/
def cascading_cut {T : Type} : Nat → FibonacciHeap T → Nat → Except Err (FibonacciHeap T)
  | 0, _, _ => .error .diverge
  | fuel + 1, h, y => do
    match (← rd h.mem y).parent with
    | none => pure h
    | some z =>
      if ¬ (← rd h.mem y).mark then
        let m ← wr h.mem y (fun n => { n with mark := true })
        pure { h with mem := m }
      else
        let h ← cut h y z
        cascading_cut fuel h z

/-- `decrease_key(x, k)`. -/
def decrease_key {T : Type} (h : FibonacciHeap T) (x : Nat) (k : Int) :
    Except Err (FibonacciHeap T) := do
  if k > (← rd h.mem x).key then throw Err.keyGreater
  let m ← wr h.mem x (fun n => { n with key := k })
  let h := { h with mem := m }
  let y := (← rd h.mem x).parent
  let h ← match y with
    | none => pure h
    | some y =>
      if (← rd h.mem x).key < (← rd h.mem y).key then do
        let h ← cut h x y
        cascading_cut (h.mem.length + 1) h y
      else pure h
  let root ← deref h.root
  if (← rd h.mem x).key < (← rd h.mem root).key then
    pure { h with root := some x }
  else pure h

/-- `remove(x)`. -/
def remove {T : Type} (h : FibonacciHeap T) (x : Nat) : Except Err (FibonacciHeap T) := do
  let h ← decrease_key h x INT_MIN
  remove_min h

/-- `change_key(x, k)`. -/
def change_key {T : Type} (h : FibonacciHeap T) (x : Nat) (k : Int) :
    Except Err (FibonacciHeap T) := do
  if (← rd h.mem x).key = k then throw Err.sameKey
  else if (← rd h.mem x).key > k then decrease_key h x k
  else
    let lowest := h.root
    let h ← decrease_key h x INT_MIN
    let m ← wr h.mem x (fun n => { n with key := k })
    let h := { h with mem := m, root := lowest }
    let m ← match (← rd h.mem x).child with
      | none => pure h.mem
      | some c => do
        let n := (← rd h.mem c).right
        splice_loop x h.mem.length h.mem c n
    let m ← wr m x (fun n => { n with child := none })
    let m ← wr m x (fun n => { n with degree := 0 })
    pure { h with mem := m }

/-- Run `insert` for every pair of a list, in order, collecting the
pointers. -/
def insert_all {T : Type} : FibonacciHeap T → List (Int × T) →
    Except Err (List Nat × FibonacciHeap T)
  | h, [] => pure ([], h)
  | h, (k, v) :: kvs => do
    let (p, h) ← insert h k v
    let (ps, h) ← insert_all h kvs
    pure (p :: ps, h)

/-- The field `value` of the node at address `p`; `none` when no node is
allocated at `p`. -/
def valueOf {T : Type} (m : Mem T) (p : Nat) : Option T := (look m p).map Node.value

/-- The field `key` of the node at address `p`. -/
def keyOf {T : Type} (m : Mem T) (p : Nat) : Option Int := (look m p).map Node.key

/-- Every node allocated in `m2` is allocated in `m` and holds there the
same `value`. -/
def ValStep {T : Type} (m m2 : Mem T) : Prop :=
  ∀ q n2, look m2 q = some n2 → ∃ n, look m q = some n ∧ n2.value = n.value

/-- Every result of `x` holds a store (read off by `g`) whose nodes hold the
values they hold in `m`. -/
def Keeps {T α : Type} (g : α → Mem T) (m : Mem T) (x : Except Err α) : Prop :=
  ∀ v, x = .ok v → ValStep m (g v)

/-- The heaps built from the empty heap by calls of `insert`, `remove_min`,
`decrease_key`, `change_key` and `remove` that return, each with the record
`ins` of the calls of `insert`: `ins p` is the value that was passed to the
call of `insert` that returned the pointer `p`. -/
inductive Hist {T : Type} : FibonacciHeap T → (Nat → Option T) → Prop where
  | empty : Hist empty (fun _ => none)
  | insert {h h2 : FibonacciHeap T} {ins : Nat → Option T} {k : Int} {v : T} {p : Nat} :
      Hist h ins → insert h k v = .ok (p, h2) → Hist h2 (Function.update ins p (some v))
  | remove_min {h h2 : FibonacciHeap T} {ins : Nat → Option T} :
      Hist h ins → remove_min h = .ok h2 → Hist h2 ins
  | decrease_key {h h2 : FibonacciHeap T} {ins : Nat → Option T} {x : Nat} {k : Int} :
      Hist h ins → decrease_key h x k = .ok h2 → Hist h2 ins
  | change_key {h h2 : FibonacciHeap T} {ins : Nat → Option T} {x : Nat} {k : Int} :
      Hist h ins → change_key h x k = .ok h2 → Hist h2 ins
  | remove {h h2 : FibonacciHeap T} {ins : Nat → Option T} {x : Nat} :
      Hist h ins → remove h x = .ok h2 → Hist h2 ins

/-- The store holds, behind the pointer `q`, a node with the key and the
value of the pair `kvs[q]`, whose neighbours are among these nodes. -/
def Good {T : Type} (kvs : List (Int × T)) (m : Mem T) : Prop :=
  m.length = kvs.length ∧
  ∀ q kv, kvs[q]? = some kv → ∃ n, look m q = some n ∧ n.key = kv.1 ∧ n.value = kv.2 ∧
    n.left < kvs.length ∧ n.right < kvs.length

/-- The heap after `insert(k, v)` for the pairs of `kvs`, in order: node `q`
holds the pair `kvs[q]`, and `root` points to one of the nodes. -/
def InsOnly {T : Type} (h : FibonacciHeap T) (kvs : List (Int × T)) : Prop :=
  Good kvs h.mem ∧ (kvs = [] → h.root = none) ∧
  (kvs ≠ [] → ∃ r, h.root = some r ∧ r < kvs.length)

end ValueHeap

namespace FibHeap

/-- The first two steps of `degree_break_run`: the keys
`INT_MIN, INT_MIN, 20, 30, 40` are inserted and the minimum is removed. -/
def degree_break_start : Except Err FibonacciHeap := do
  let (_, h) ← insert_all empty [INT_MIN, INT_MIN, 20, 30, 40]
  remove_min h

/-- `cut(x, y)` with the heap it leaves: the guard is `x->parent != y`. -/
def cut_run (h : FibonacciHeap) (x y : Nat) : Run Unit :=
  guarded h (do pure (decide ((← rd h.mem x).parent ≠ some y))) Err.notParent
    ((cut h x y).map (fun h' => ((), h')))

/-- Starting at `y` and following `parent`, `c` lists the consecutive nodes
that have a parent and are marked, and `e` is the first node reached that is a
root or is not marked. -/
inductive MarkedChain (m : Mem) : Nat → List Nat → Nat → Prop where
  | root {y : Nat} : parentOf m y = some none → MarkedChain m y [] y
  | unmarked {y z : Nat} : parentOf m y = some (some z) → markOf m y = some false →
      MarkedChain m y [] y
  | marked {y z : Nat} {c : List Nat} {e : Nat} : parentOf m y = some (some z) →
      markOf m y = some true → MarkedChain m z c e → MarkedChain m y (y :: c) e

/-! ## The store -/

theorem get_of_look {α : Type} {m : Mem} {p : Nat} {n : Node} (f : Node → α)
    (h : look m p = some n) : (look m p).map f = some (f n) := by rw [h]; rfl

theorem look_lt {m : Mem} {p : Nat} {n : Node} (h : look m p = some n) : p < m.length := by
  unfold look at h
  by_contra hc
  rw [List.getElem?_eq_none (by omega)] at h
  simp at h

theorem look_set (m : Mem) (p q : Nat) (v : Option Node) (hp : p < m.length) :
    look (m.set p v) q = if q = p then v else look m q := by
  unfold look
  rw [List.getElem?_set]
  by_cases hq : q = p
  · subst hq; simp [hp]; cases v <;> rfl
  · have : ¬ p = q := fun h => hq h.symm
    simp [hq, this]

theorem rd_ok_iff {m : Mem} {p : Nat} {n : Node} : rd m p = .ok n ↔ look m p = some n := by
  unfold rd; cases h : look m p <;> simp

theorem rd_of_look {m : Mem} {p : Nat} {n : Node} (h : look m p = some n) : rd m p = .ok n :=
  rd_ok_iff.2 h

theorem Upd.refl (m : Mem) : Upd m m (fun _ n => n) := ⟨rfl, fun q => by simp⟩

theorem Upd.trans {m m' m'' : Mem} {g g' : Nat → Node → Node}
    (h : Upd m m' g) (h' : Upd m' m'' g') : Upd m m'' (fun q n => g' q (g q n)) :=
  ⟨h'.1.trans h.1, fun q => by rw [h'.2, h.2]; cases look m q <;> rfl⟩

theorem Upd.congr {m m' : Mem} {g g' : Nat → Node → Node}
    (h : Upd m m' g) (hg : ∀ q n, look m q = some n → g q n = g' q n) : Upd m m' g' :=
  ⟨h.1, fun q => by
    rw [h.2]; cases hq : look m q with
    | none => rfl
    | some n => simp [hg q n hq]⟩

theorem Upd.look_eq {m m' : Mem} {g : Nat → Node → Node} (h : Upd m m' g) {q : Nat} {n : Node}
    (hq : look m q = some n) : look m' q = some (g q n) := by
  rw [h.2, hq]; rfl

theorem wr_spec {m : Mem} {p : Nat} {n : Node} (f : Node → Node) (h : look m p = some n) :
    ∃ m', wr m p f = .ok m' ∧ Upd m m' (fun q nd => if q = p then f nd else nd) := by
  refine ⟨m.set p (some (f n)), by simp [wr, h], by simp, fun q => ?_⟩
  rw [look_set _ _ _ _ (look_lt h)]
  by_cases hq : q = p
  · subst hq; simp [h]
  · simp [hq]

theorem list_insert_spec {m : Mem} {x l r : Nat} {nx nl nr : Node}
    (hx : look m x = some nx) (hl : look m l = some nl) (hr : look m r = some nr) :
    ∃ m', list_insert m x l r = .ok m' ∧
      Upd m m' (fun q n => { n with
        left := if q = r then x else if q = x then l else n.left,
        right := if q = l then x else if q = x then r else n.right }) := by
  obtain ⟨m1, e1, u1⟩ := wr_spec (fun n => { n with left := l }) hx
  obtain ⟨m2, e2, u2⟩ := wr_spec (fun n => { n with right := r }) (u1.look_eq hx)
  obtain ⟨m3, e3, u3⟩ := wr_spec (fun n => { n with left := x }) ((u1.trans u2).look_eq hr)
  obtain ⟨m4, e4, u4⟩ := wr_spec (fun n => { n with right := x }) (((u1.trans u2).trans u3).look_eq hl)
  refine ⟨m4, ?_, ?_⟩
  · simp [list_insert, e1, e2, e3, e4, bind, Except.bind, pure, Except.pure]
  · refine ((((u1.trans u2).trans u3).trans u4)).congr ?_
    intro q n _
    dsimp only
    split_ifs <;> simp_all

/-! ## Rings -/

theorem lastOf_cons (a b : Nat) (l : List Nat) : lastOf a (b :: l) = lastOf b l := rfl

theorem lastOf_append_cons (l l' : List Nat) (a c : Nat) :
    lastOf a (l ++ c :: l') = lastOf c l' := by
  induction l generalizing a with
  | nil => rfl
  | cons b l ih => exact ih b

theorem lastOf_mem (l : List Nat) (a : Nat) : lastOf a l ∈ a :: l := by
  induction l generalizing a with
  | nil => simp [lastOf]
  | cons b l ih => exact List.mem_cons_of_mem _ (ih b)

theorem chain_snoc {R : Nat → Nat → Prop} {a b : Nat} {l : List Nat} :
    List.Chain R a (l ++ [b]) ↔ List.Chain R a l ∧ R (lastOf a l) b := by
  induction l generalizing a with
  | nil => simp [lastOf]
  | cons c l ih => simp [ih, and_assoc, lastOf]

theorem chain_frame {R S : Nat → Nat → Prop} {a : Nat} {l : List Nat}
    (hn : (a :: l).Nodup) (hc : List.Chain R a l)
    (hs : ∀ u v, u ∈ a :: l → v ∈ l → u ≠ (lastOf a l) → R u v → S u v) :
    List.Chain S a l := by
  induction l generalizing a with
  | nil => exact List.Chain.nil
  | cons b l ih =>
    rw [List.chain_cons] at hc ⊢
    have hn' := List.nodup_cons.1 hn
    refine ⟨hs a b (by simp) (by simp) ?_ hc.1, ih hn'.2 hc.2 ?_⟩
    · rw [lastOf_cons]
      intro h
      exact hn'.1 (h ▸ lastOf_mem l b)
    · intro u v hu hv hne
      exact hs u v (List.mem_cons_of_mem _ hu) (List.mem_cons_of_mem _ hv)
        (hne)

theorem ring_cons_iff {m : Mem} {a : Nat} {rest : List Nat} :
    Ring m (a :: rest) ↔
      (a :: rest).Nodup ∧ List.Chain (Link m) a rest ∧ Link m (lastOf a rest) a := by
  simp [Ring, chain_snoc]

theorem Ring.nodup {m : Mem} {L : List Nat} (h : Ring m L) : L.Nodup := by
  cases L with
  | nil => exact List.nodup_nil
  | cons a rest => exact h.1

/-- Every member of a ring is an allocated node. -/
theorem chain_link_live {m : Mem} {a : Nat} {l : List Nat} (hc : List.Chain (Link m) a l)
    (ha : (look m a).isSome) : ∀ x ∈ a :: l, (look m x).isSome := by
  induction l generalizing a with
  | nil => intro x hx; simp at hx; subst hx; exact ha
  | cons b l ih =>
    rw [List.chain_cons] at hc
    intro x hx
    rcases List.mem_cons.1 hx with rfl | hx
    · exact ha
    · refine ih hc.2 ?_ x hx
      have := hc.1.2
      unfold leftOf at this
      cases hb : look m b <;> simp [hb] at this ⊢

theorem Ring.live_ring {m : Mem} {L : List Nat} (h : Ring m L) : ∀ x ∈ L, (look m x).isSome := by
  cases L with
  | nil => intro x hx; simp at hx
  | cons a rest =>
    have h' := ring_cons_iff.1 h
    refine chain_link_live h'.2.1 ?_
    have := h'.2.2.2
    unfold leftOf at this
    cases hb : look m a <;> simp [hb] at this ⊢

theorem Ring.frame {m m' : Mem} {L : List Nat} (h : Ring m L)
    (hf : ∀ a ∈ L, rightOf m' a = rightOf m a ∧ leftOf m' a = leftOf m a) : Ring m' L := by
  cases L with
  | nil => trivial
  | cons a rest =>
    refine ⟨h.1, ?_⟩
    have h2 := h.2
    have key : ∀ u v, u ∈ a :: rest → v ∈ a :: rest → Link m u v → Link m' u v := by
      intro u v hu hv huv
      exact ⟨(hf u hu).1 ▸ huv.1, (hf v hv).2 ▸ huv.2⟩
    rw [chain_snoc] at h2 ⊢
    refine ⟨?_, key _ _ (lastOf_mem rest a) (by simp) h2.2⟩
    refine chain_frame h.1 h2.1 ?_
    intro u v hu hv _ huv
    exact key u v hu (List.mem_cons_of_mem _ hv) huv

theorem Ring.rotate {m : Mem} {l1 l2 : List Nat} (h : Ring m (l1 ++ l2)) : Ring m (l2 ++ l1) := by
  cases l1 with
  | nil => simpa using h
  | cons a l1 =>
    cases l2 with
    | nil => simpa using h
    | cons b l2 =>
      have h' := ring_cons_iff.1 h
      rw [show (b :: l2 ++ a :: l1) = b :: (l2 ++ a :: l1) from rfl, ring_cons_iff]
      obtain ⟨hn, hc, hl⟩ := h'
      change List.Chain (Link m) a (l1 ++ b :: l2) at hc
      change Link m (lastOf a (l1 ++ b :: l2)) a at hl
      rw [List.chain_split, chain_snoc] at hc
      rw [lastOf_append_cons] at hl
      refine ⟨?_, ?_, ?_⟩
      · have : (a :: l1 ++ b :: l2).Nodup := hn
        rw [List.nodup_append] at this
        change (b :: l2 ++ a :: l1).Nodup
        rw [List.nodup_append]
        exact ⟨this.2.1, this.1, this.2.2.symm⟩
      · rw [List.chain_split, chain_snoc]
        exact ⟨⟨hc.2, hl⟩, hc.1.1⟩
      · rw [lastOf_append_cons]
        exact hc.1.2

/-- In a ring starting at `a`, `a->left` is the last member and its `right`
is `a`. -/
theorem Ring.last_link {m : Mem} {a : Nat} {rest : List Nat} (h : Ring m (a :: rest)) :
    Link m (lastOf a rest) a := (ring_cons_iff.1 h).2.2

theorem Ring.right_eq_self_iff {m : Mem} {a : Nat} {rest : List Nat} (h : Ring m (a :: rest)) :
    rightOf m a = some a ↔ rest = [] := by
  cases rest with
  | nil =>
    have := (ring_cons_iff.1 h).2.2
    simp at this
    simpa using this.1
  | cons b rest =>
    have h' := ring_cons_iff.1 h
    have hab := (List.chain_cons.1 h'.2.1).1.1
    have : a ≠ b := by
      intro e; subst e
      have := h'.1
      simp at this
    simp [hab, this.symm]

theorem Upd.get {α : Type} {m m' : Mem} {g : Nat → Node → Node} (u : Upd m m' g)
    (f : Node → α) (q : Nat) : (look m' q).map f = (look m q).map (fun n => f (g q n)) := by
  rw [u.2]; cases look m q <;> rfl

theorem Upd.liveCount_eq {m m' : Mem} {g : Nat → Node → Node} (u : Upd m m' g) :
    liveCount m' = liveCount m := by
  unfold liveCount
  rw [u.1]
  congr 1
  funext p
  rw [u.2]
  cases look m p <;> rfl

theorem look_append_left (m : Mem) (v : Option Node) (q : Nat) (hq : q ≠ m.length) :
    look (m ++ [v]) q = look m q := by
  unfold look
  rcases Nat.lt_or_gt_of_ne hq with h | h
  · rw [List.getElem?_append_left h]
  · rw [List.getElem?_eq_none (by simp; omega), List.getElem?_eq_none (by omega)]

theorem look_append_new (m : Mem) (n : Node) : look (m ++ [some n]) m.length = some n := by
  unfold look
  simp

theorem look_eq_none_of_ge {m : Mem} {p : Nat} (h : m.length ≤ p) : look m p = none := by
  cases hp : look m p with
  | none => rfl
  | some n => exact absurd (look_lt hp) (by omega)

theorem liveCount_append (m : Mem) (n : Node) :
    liveCount (m ++ [some n]) = liveCount m + 1 := by
  unfold liveCount
  simp only [List.length_append, List.length_singleton, List.range_succ, List.countP_append]
  have h1 : List.countP (fun p => (look (m ++ [some n]) p).isSome) (List.range m.length)
      = List.countP (fun p => (look m p).isSome) (List.range m.length) := by
    apply List.countP_congr
    intro p hp
    rw [look_append_left _ _ _ (by simp at hp; omega)]
  rw [h1]
  simp [look_append_new]

theorem countP_remove_one (P : Nat → Bool) (z : Nat) (l : List Nat) (hn : l.Nodup) (hz : z ∈ l)
    (hP : P z = true) :
    List.countP (fun q => if q = z then false else P q) l + 1 = List.countP P l := by
  induction l with
  | nil => simp at hz
  | cons a l ih =>
    have hn' := List.nodup_cons.1 hn
    by_cases ha : a = z
    · subst ha
      have : List.countP (fun q => if q = a then false else P q) l = List.countP P l := by
        apply List.countP_congr
        intro q hq
        have : q ≠ a := fun e => hn'.1 (e ▸ hq)
        simp only [this, if_false]
      rw [List.countP_cons, List.countP_cons, this]
      simp [hP]
    · have hz' : z ∈ l := by
        rcases List.mem_cons.1 hz with e | e
        · exact absurd e.symm ha
        · exact e
      have := ih hn'.2 hz'
      rw [List.countP_cons, List.countP_cons]
      simp only [ha, if_false]
      omega

theorem liveCount_del {m : Mem} {z : Nat} {n : Node} (hz : look m z = some n) :
    liveCount (m.set z none) + 1 = liveCount m := by
  unfold liveCount
  rw [List.length_set]
  have h1 : List.countP (fun p => (look (m.set z none) p).isSome) (List.range m.length)
      = List.countP (fun q => if q = z then false else (look m q).isSome)
          (List.range m.length) := by
    apply List.countP_congr
    intro p _
    rw [look_set _ _ _ _ (look_lt hz)]
    by_cases h : p = z <;> simp [h]
  rw [h1]
  exact countP_remove_one _ z _ (List.nodup_range _) (List.mem_range.2 (look_lt hz)) (by simp [hz])

theorem isSome_of_get {α : Type} {m : Mem} {p : Nat} {f : Node → α} {v : α}
    (h : (look m p).map f = some v) : (look m p).isSome := by
  cases hp : look m p <;> simp [hp] at h ⊢

/-- Appending `x` to a ring by `list_insert(x, last, first)`. -/
theorem Ring.append {m m' : Mem} {a x : Nat} {rest : List Nat} (h : Ring m (a :: rest))
    (hx : x ∉ a :: rest)
    (hr : ∀ q, q = x ∨ q ∈ a :: rest → rightOf m' q =
      if q = lastOf a rest then some x else if q = x then some a else rightOf m q)
    (hl : ∀ q, q = x ∨ q ∈ a :: rest → leftOf m' q =
      if q = a then some x else if q = x then some (lastOf a rest) else leftOf m q) :
    Ring m' (a :: (rest ++ [x])) := by
  obtain ⟨hn, hc, hlast⟩ := ring_cons_iff.1 h
  have hxa : x ≠ a := fun e => hx (e ▸ List.mem_cons_self _ _)
  have hxr : x ∉ rest := fun e => hx (List.mem_cons_of_mem _ e)
  have hlx : lastOf a rest ≠ x := fun e => hx (e ▸ lastOf_mem rest a)
  rw [ring_cons_iff]
  refine ⟨?_, ?_, ?_⟩
  · rw [← List.cons_append, List.nodup_append]
    refine ⟨hn, List.nodup_singleton x, ?_⟩
    intro y hy hy'
    simp at hy'
    exact hx (hy' ▸ hy)
  · rw [chain_snoc]
    refine ⟨chain_frame hn hc ?_, ?_⟩
    · intro u v hu hv hne huv
      have hux : u ≠ x := fun e => hx (e ▸ hu)
      have hvx : v ≠ x := fun e => hxr (e ▸ hv)
      have hva : v ≠ a := fun e => (List.nodup_cons.1 hn).1 (e ▸ hv)
      refine ⟨?_, ?_⟩
      · rw [hr u (Or.inr hu), if_neg hne, if_neg hux]; exact huv.1
      · rw [hl v (Or.inr (List.mem_cons_of_mem _ hv)), if_neg hva, if_neg hvx]; exact huv.2
    · refine ⟨?_, ?_⟩
      · rw [hr _ (Or.inr (lastOf_mem rest a)), if_pos rfl]
      · rw [hl _ (Or.inl rfl), if_neg hxa, if_pos rfl]
  · rw [show lastOf a (rest ++ [x]) = x from by
      rw [lastOf_append_cons]; rfl]
    refine ⟨?_, ?_⟩
    · rw [hr _ (Or.inl rfl), if_neg hlx.symm, if_pos rfl]
    · rw [hl _ (Or.inr (List.mem_cons_self _ _)), if_pos rfl]

/-- Unlinking the head `z` of a ring with at least two members by
`z->left->right = z->right; z->right->left = z->left`. -/
theorem Ring.unlink_head {m m' : Mem} {z b : Nat} {rest : List Nat}
    (h : Ring m (z :: b :: rest))
    (hr : ∀ q, q ∈ b :: rest →
      rightOf m' q = if q = lastOf b rest then some b else rightOf m q)
    (hl : ∀ q, q ∈ b :: rest →
      leftOf m' q = if q = b then some (lastOf b rest) else leftOf m q) :
    Ring m' (b :: rest) := by
  obtain ⟨hn, hc, hlast⟩ := ring_cons_iff.1 h
  rw [List.chain_cons] at hc
  have hn' := (List.nodup_cons.1 hn)
  have hbz : b ≠ z := fun e => hn'.1 (e ▸ List.mem_cons_self _ _)
  have hlz : lastOf b rest ≠ z := fun e => hn'.1 (e ▸ lastOf_mem rest b)
  rw [ring_cons_iff]
  refine ⟨hn'.2, chain_frame hn'.2 hc.2 ?_, ?_⟩
  · intro u v hu hv hne huv
    have huz : u ≠ z := fun e => hn'.1 (e ▸ hu)
    have hvz : v ≠ z := fun e => hn'.1 (e ▸ List.mem_cons_of_mem _ hv)
    have hvb : v ≠ b := fun e => (List.nodup_cons.1 hn'.2).1 (e ▸ hv)
    refine ⟨?_, ?_⟩
    · rw [hr u hu, if_neg hne]; exact huv.1
    · rw [hl v (List.mem_cons_of_mem _ hv), if_neg hvb]; exact huv.2
  · refine ⟨?_, ?_⟩
    · rw [hr _ (lastOf_mem rest b), if_pos rfl]
    · rw [hl _ (List.mem_cons_self _ _), if_pos rfl]

theorem Ring.singleton {m : Mem} {a : Nat} (hr : rightOf m a = some a) (hl : leftOf m a = some a) :
    Ring m [a] := by
  rw [ring_cons_iff]
  exact ⟨List.nodup_singleton a, List.Chain.nil, hr, hl⟩

/-- The traversal `do { push_back(w); w = w->right; } while (w != root)`
along a chain of `right` pointers that ends at `root`. -/
theorem root_list_loop_chain (m : Mem) (root : Nat) :
    ∀ (post : List Nat) (w fuel : Nat) (acc : List Nat),
      List.Chain (fun u v => rightOf m u = some v) w (post ++ [root]) → root ∉ post →
      post.length < fuel →
      root_list_loop m root fuel w acc = .ok (acc ++ w :: post) := by
  intro post
  induction post with
  | nil =>
    intro w fuel acc hc _ hf
    obtain ⟨f, rfl⟩ : ∃ f, fuel = f + 1 := ⟨fuel - 1, by simp at hf; omega⟩
    simp at hc
    unfold rightOf at hc
    cases hw : look m w with
    | none => simp [hw] at hc
    | some n =>
      simp [hw] at hc
      simp [root_list_loop, rd, hw, hc, bind, Except.bind, pure, Except.pure]
  | cons b post ih =>
    intro w fuel acc hc hnot hf
    obtain ⟨f, rfl⟩ : ∃ f, fuel = f + 1 := ⟨fuel - 1, by simp at hf; omega⟩
    rw [List.cons_append, List.chain_cons] at hc
    have hbr : b ≠ root := fun e => hnot (e ▸ List.mem_cons_self _ _)
    have hw' := hc.1
    unfold rightOf at hw'
    cases hw : look m w with
    | none => simp [hw] at hw'
    | some n =>
      simp [hw] at hw'
      have := ih b f (acc ++ [w]) hc.2 (fun e => hnot (List.mem_cons_of_mem _ e))
        (by simp at hf; omega)
      simp [root_list_loop, rd, hw, hw', hbr, bind, Except.bind, this]

theorem Ring.root_list {m : Mem} {a : Nat} {rest : List Nat} (h : Ring m (a :: rest))
    {fuel : Nat} (hf : rest.length < fuel) :
    root_list_loop m a fuel a [] = .ok (a :: rest) := by
  have := root_list_loop_chain m a rest a fuel [] ?_ (List.nodup_cons.1 h.1).1 hf
  · simpa using this
  · exact List.Chain.imp (fun u v huv => huv.1) h.2

/-- A list without duplicates of allocated addresses is no longer than the
store. -/
theorem length_le_of_live {m : Mem} {L : List Nat} (hn : L.Nodup)
    (hl : ∀ x ∈ L, (look m x).isSome) : L.length ≤ m.length := by
  have hsub : L ⊆ List.range m.length := by
    intro x hx
    have := hl x hx
    cases hq : look m x with
    | none => simp [hq] at this
    | some n => exact List.mem_range.2 (look_lt hq)
  simpa using (hn.subperm hsub).length_le

/-! ## Forests -/

theorem Forest.live {m : Mem} {R : List Nat} {ch : Nat → List Nat} {ht : Nat → Nat}
    (F : Forest m R ch ht) {p : Nat} (hp : InF R ch p) : (look m p).isSome := by
  rcases hp with hp | ⟨q, hq⟩
  · exact isSome_of_get (F.rpar p hp)
  · exact isSome_of_get (F.cpar q p hq)

theorem Forest.ch_dead {m : Mem} {R : List Nat} {ch : Nat → List Nat} {ht : Nat → Nat}
    (F : Forest m R ch ht) {p : Nat} (hp : look m p = none) : ch p = [] := by
  cases hc : ch p with
  | nil => rfl
  | cons c l =>
    have := F.live (F.pin p c (by rw [hc]; exact List.mem_cons_self _ _))
    simp [hp] at this

theorem Forest.child_not_root {m : Mem} {R : List Nat} {ch : Nat → List Nat} {ht : Nat → Nat}
    (F : Forest m R ch ht) {p c : Nat} (hc : c ∈ ch p) : c ∉ R := by
  intro hr
  have h1 := F.rpar c hr
  have h2 := F.cpar p c hc
  rw [h1] at h2
  simp at h2

theorem Forest.child_unique {m : Mem} {R : List Nat} {ch : Nat → List Nat} {ht : Nat → Nat}
    (F : Forest m R ch ht) {p q c : Nat} (hp : c ∈ ch p) (hq : c ∈ ch q) : p = q := by
  have h1 := F.cpar p c hp
  have h2 := F.cpar q c hq
  rw [h1] at h2
  simpa using h2

theorem InF.perm {R R' : List Nat} {ch : Nat → List Nat} (hp : R.Perm R') {p : Nat}
    (h : InF R ch p) : InF R' ch p := by
  rcases h with h | h
  · exact Or.inl (hp.mem_iff.1 h)
  · exact Or.inr h

theorem Forest.perm_forest {m : Mem} {R R' : List Nat} {ch : Nat → List Nat} {ht : Nat → Nat}
    (F : Forest m R ch ht) (hp : R.Perm R') : Forest m R' ch ht where
  rnodup := hp.nodup_iff.1 F.rnodup
  rpar := fun r hr => F.rpar r (hp.mem_iff.2 hr)
  cpar := F.cpar
  pin := fun p c hc => (F.pin p c hc).perm hp
  cring := F.cring
  cnone := fun p hp' => F.cnone p (hp'.perm hp.symm)
  csome := fun p c hp' => F.csome p c (hp'.perm hp.symm)
  cdeg := fun p hp' => F.cdeg p (hp'.perm hp.symm)
  hgt := F.hgt

/-- A forest is not affected by writes that leave the `parent`, `child` and
`degree` fields of its nodes and the `left`/`right` fields of its non-root
nodes alone. -/
theorem Forest.frame_forest {m m' : Mem} {R : List Nat} {ch : Nat → List Nat} {ht : Nat → Nat}
    (F : Forest m R ch ht)
    (hp : ∀ q, InF R ch q → parentOf m' q = parentOf m q)
    (hc : ∀ q, InF R ch q → childOf m' q = childOf m q)
    (hd : ∀ q, InF R ch q → degreeOf m' q = degreeOf m q)
    (hlr : ∀ p, ∀ c ∈ ch p, rightOf m' c = rightOf m c ∧ leftOf m' c = leftOf m c) :
    Forest m' R ch ht where
  rnodup := F.rnodup
  rpar := fun r hr => (hp r (Or.inl hr)).trans (F.rpar r hr)
  cpar := fun p c hc' => (hp c (Or.inr ⟨p, hc'⟩)).trans (F.cpar p c hc')
  pin := F.pin
  cring := fun p => (F.cring p).frame (hlr p)
  cnone := fun p hp' h => F.cnone p hp' ((hc p hp').symm.trans h)
  csome := fun p c hp' h => F.csome p c hp' ((hc p hp').symm.trans h)
  cdeg := fun p hp' => (hd p hp').trans (F.cdeg p hp')
  hgt := F.hgt

/-- A childless node with no parent that is not yet in the forest can be
added to it as a root. -/
theorem Forest.add_root {m : Mem} {R : List Nat} {ch : Nat → List Nat} {ht : Nat → Nat}
    (F : Forest m R ch ht) {x : Nat} (hx : ¬ InF R ch x)
    (hp : parentOf m x = some none)
    (hcn : childOf m x = some none → ch x = [])
    (hcs : ∀ c, childOf m x = some (some c) → c ∈ ch x)
    (hd : degreeOf m x = some ((ch x).length : Int)) :
    Forest m (R ++ [x]) ch ht where
  rnodup := by
    rw [List.nodup_append]
    refine ⟨F.rnodup, List.nodup_singleton x, ?_⟩
    intro y hy hy'
    simp at hy'
    exact hx (Or.inl (hy' ▸ hy))
  rpar := by
    intro r hr
    rcases List.mem_append.1 hr with h | h
    · exact F.rpar r h
    · simp at h; subst h; exact hp
  cpar := F.cpar
  pin := fun p c hc => by
    rcases F.pin p c hc with h | h
    · exact Or.inl (List.mem_append_left _ h)
    · exact Or.inr h
  cring := F.cring
  cnone := by
    intro p hp' h
    by_cases e : p = x
    · subst e; exact hcn h
    · refine F.cnone p ?_ h
      rcases hp' with h' | h'
      · rcases List.mem_append.1 h' with h'' | h''
        · exact Or.inl h''
        · simp at h''; exact absurd h'' e
      · exact Or.inr h'
  csome := by
    intro p c hp' h
    by_cases e : p = x
    · subst e; exact hcs c h
    · refine F.csome p c ?_ h
      rcases hp' with h' | h'
      · rcases List.mem_append.1 h' with h'' | h''
        · exact Or.inl h''
        · simp at h''; exact absurd h'' e
      · exact Or.inr h'
  cdeg := by
    intro p hp'
    by_cases e : p = x
    · subst e; exact hd
    · refine F.cdeg p ?_
      rcases hp' with h' | h'
      · rcases List.mem_append.1 h' with h'' | h''
        · exact Or.inl h''
        · simp at h''; exact absurd h'' e
      · exact Or.inr h'
  hgt := F.hgt

theorem Ring.rotate_to {m : Mem} {R : List Nat} {r : Nat} (h : Ring m R) (hr : r ∈ R) :
    ∃ rest, R.Perm (r :: rest) ∧ Ring m (r :: rest) := by
  obtain ⟨pre, post, rfl⟩ := List.append_of_mem hr
  refine ⟨post ++ pre, ?_, ?_⟩
  · exact List.perm_append_comm
  · exact h.rotate

/-- A bound on `ht` over the addresses of the store. -/
theorem ht_bound (ht : Nat → Nat) (n : Nat) : ∃ B, ∀ q, q < n → ht q ≤ B := by
  induction n with
  | zero => exact ⟨0, fun q hq => absurd hq (by omega)⟩
  | succ n ih =>
    obtain ⟨B, hB⟩ := ih
    refine ⟨max B (ht n), fun q hq => ?_⟩
    rcases Nat.lt_succ_iff_lt_or_eq.1 hq with h | h
    · exact le_trans (hB q h) (le_max_left _ _)
    · subst h; exact le_max_right _ _

/-- Induction over a forest, from the roots down. -/
theorem Forest.induct {m : Mem} {R : List Nat} {ch : Nat → List Nat} {ht : Nat → Nat}
    (F : Forest m R ch ht) (P : Nat → Prop) (hroot : ∀ r ∈ R, P r)
    (hstep : ∀ p c, c ∈ ch p → P p → P c) : ∀ p, InF R ch p → P p := by
  obtain ⟨B, hB⟩ := ht_bound ht m.length
  have hlt : ∀ p, InF R ch p → ht p ≤ B := by
    intro p hp
    have := F.live hp
    cases hq : look m p with
    | none => simp [hq] at this
    | some n => exact hB p (look_lt hq)
  have main : ∀ n p, B - ht p ≤ n → InF R ch p → P p := by
    intro n
    induction n with
    | zero =>
      intro p hn hp
      rcases hp with hp | ⟨q, hq⟩
      · exact hroot p hp
      · have h1 := F.hgt q p hq
        have h2 := hlt q (F.pin q p hq)
        omega
    | succ n ih =>
      intro p hn hp
      rcases hp with hp | ⟨q, hq⟩
      · exact hroot p hp
      · have h1 := F.hgt q p hq
        have h2 := hlt q (F.pin q p hq)
        exact hstep q p hq (ih q (by omega) (F.pin q p hq))
  exact fun p hp => main (B - ht p) p le_rfl hp

theorem Forest.empty_of_no_roots {m : Mem} {ch : Nat → List Nat} {ht : Nat → Nat}
    (F : Forest m [] ch ht) (p : Nat) : ¬ InF [] ch p := by
  intro hp
  exact F.induct (fun _ => False) (fun r hr => by simp at hr) (fun _ _ _ h => h) p hp

/-! ## `insert` -/

theorem insert_empty {h : FibonacciHeap} (k : Int) (hr : h.root = none) :
    insert h k = .ok (h.mem.length,
      { N := h.N + 1, root := some h.mem.length,
        mem := h.mem ++ [some (newNode k h.mem.length)] }) := by
  simp [insert, hr, pure, Except.pure]

theorem insert_nonempty {h : FibonacciHeap} (k : Int) {r : Nat} {nr : Node}
    (hr : h.root = some r) (hl : look h.mem r = some nr) {nl : Node}
    (hll : look h.mem nr.left = some nl) :
    ∃ m', list_insert (h.mem ++ [some (newNode k h.mem.length)]) h.mem.length nr.left r = .ok m' ∧
      Upd (h.mem ++ [some (newNode k h.mem.length)]) m' (fun q n => { n with
        left := if q = r then h.mem.length else if q = h.mem.length then nr.left else n.left,
        right := if q = nr.left then h.mem.length else if q = h.mem.length then r
          else n.right }) ∧
      insert h k = .ok (h.mem.length,
        { N := h.N + 1, root := some (if k < nr.key then h.mem.length else r), mem := m' }) := by
  have hrne : r ≠ h.mem.length := fun e => absurd (look_lt hl) (by omega)
  have hlne : nr.left ≠ h.mem.length := fun e => absurd (look_lt hll) (by omega)
  have h0r : look (h.mem ++ [some (newNode k h.mem.length)]) r = some nr := by
    rw [look_append_left _ _ _ hrne]; exact hl
  have h0l : look (h.mem ++ [some (newNode k h.mem.length)]) nr.left = some nl := by
    rw [look_append_left _ _ _ hlne]; exact hll
  have h0t := look_append_new h.mem (newNode k h.mem.length)
  obtain ⟨m', e, u⟩ := list_insert_spec h0t h0l h0r
  refine ⟨m', e, u, ?_⟩
  have ht := u.look_eq h0t
  have hr' := u.look_eq h0r
  simp only [insert, hr, rd_of_look h0r, bind, Except.bind, e, rd_of_look ht, rd_of_look hr',
    pure, Except.pure]
  simp [newNode]

theorem liG_right {m m' : Mem} {x l r : Nat} (u : Upd m m' (liG x l r))
    (hx : (look m x).isSome) (hl : (look m l).isSome) (q : Nat) :
    rightOf m' q = if q = l then some x else if q = x then some r else rightOf m q := by
  unfold rightOf
  rw [u.2]
  by_cases h1 : q = l
  · subst h1
    cases hq : look m q with
    | none => simp [hq] at hl
    | some n => simp [liG]
  · by_cases h2 : q = x
    · subst h2
      cases hq : look m q with
      | none => simp [hq] at hx
      | some n => simp [liG, h1]
    · cases hq : look m q <;> simp [liG, h1, h2]

theorem liG_left {m m' : Mem} {x l r : Nat} (u : Upd m m' (liG x l r))
    (hx : (look m x).isSome) (hr : (look m r).isSome) (q : Nat) :
    leftOf m' q = if q = r then some x else if q = x then some l else leftOf m q := by
  unfold leftOf
  rw [u.2]
  by_cases h1 : q = r
  · subst h1
    cases hq : look m q with
    | none => simp [hq] at hr
    | some n => simp [liG]
  · by_cases h2 : q = x
    · subst h2
      cases hq : look m q with
      | none => simp [hq] at hx
      | some n => simp [liG, h1]
    · cases hq : look m q <;> simp [liG, h1, h2]

theorem liG_core {m m' : Mem} {x l r : Nat} (u : Upd m m' (liG x l r)) (q : Nat) :
    parentOf m' q = parentOf m q ∧ keyOf m' q = keyOf m q ∧ childOf m' q = childOf m q ∧
      degreeOf m' q = degreeOf m q ∧ markOf m' q = markOf m q := by
  unfold parentOf keyOf childOf degreeOf markOf
  rw [u.2]
  cases look m q <;> simp [liG]

theorem list_insert_ok {m : Mem} {x l r : Nat}
    (hx : (look m x).isSome) (hl : (look m l).isSome) (hr : (look m r).isSome) :
    ∃ m', list_insert m x l r = .ok m' ∧ Upd m m' (liG x l r) := by
  cases h1 : look m x with
  | none => simp [h1] at hx
  | some nx =>
    cases h2 : look m l with
    | none => simp [h2] at hl
    | some nl =>
      cases h3 : look m r with
      | none => simp [h3] at hr
      | some nr => exact list_insert_spec h1 h2 h3

theorem HeapOrder.frame_order {m m' : Mem} (H : HeapOrder m)
    (hk : ∀ q, keyOf m' q = keyOf m q) (hp : ∀ q, parentOf m' q = parentOf m q) :
    HeapOrder m' := by
  intro c p hc
  rw [hp] at hc
  obtain ⟨kp, kc, h1, h2, h3⟩ := H c p hc
  exact ⟨kp, kc, (hk p).trans h1, (hk c).trans h2, h3⟩

theorem Inv.not_inF_new {h : FibonacciHeap} {R : List Nat} {ch : Nat → List Nat} {ht : Nat → Nat}
    (I : Inv h R ch ht) : ¬ InF R ch h.mem.length := by
  intro hin
  have := I.forest.live hin
  rw [look_eq_none_of_ge (le_refl _)] at this
  simp at this

theorem isSome_ne_new {m : Mem} {q : Nat} (h : (look m q).isSome) : q ≠ m.length := by
  intro e
  rw [e, look_eq_none_of_ge (le_refl _)] at h
  simp at h

theorem get_min_of_key {N : Int} {m : Mem} {p : Nat} {v : Int} (h : keyOf m p = some v) :
    get_min { N := N, root := some p, mem := m } = .ok v := by
  unfold keyOf at h
  cases hp : look m p with
  | none => simp [hp] at h
  | some n =>
    simp [hp] at h
    simp [get_min, rd, hp, h, bind, Except.bind, pure, Except.pure]

theorem insert_inv {h : FibonacciHeap} {R : List Nat} {ch : Nat → List Nat} {ht : Nat → Nat}
    (I : Inv h R ch ht) (k : Int) :
    ∃ h' R', insert h k = .ok (h.mem.length, h') ∧ Inv h' R' ch ht ∧
      R'.Perm (R ++ [h.mem.length]) ∧ h'.N = h.N + 1 ∧
      h'.mem.length = h.mem.length + 1 ∧
      keyOf h'.mem h.mem.length = some k ∧
      (∀ q, q ≠ h.mem.length → keyOf h'.mem q = keyOf h.mem q) ∧
      (∀ q, q ≠ h.mem.length → degreeOf h'.mem q = degreeOf h.mem q) ∧
      degreeOf h'.mem h.mem.length = some 0 ∧
      get_min h' = .ok (match h.root with
        | none => k
        | some r => match keyOf h.mem r with
          | some kr => min k kr
          | none => k) := by
  have hnew := I.not_inF_new
  have hchnew : ch h.mem.length = [] := I.forest.ch_dead (look_eq_none_of_ge (le_refl _))
  cases hroot : h.root with
  | none =>
    have hR : R = [] := I.rootNone hroot
    subst hR
    have hnone : ∀ p, look h.mem p = none := by
      intro p
      cases hp : look h.mem p with
      | none => rfl
      | some n => exact absurd (I.complete p (by simp [hp])) (I.forest.empty_of_no_roots p)
    have hlk : ∀ q, q ≠ h.mem.length →
        look (h.mem ++ [some (newNode k h.mem.length)]) q = look h.mem q :=
      fun q hq => look_append_left _ _ _ hq
    have hnw := look_append_new h.mem (newNode k h.mem.length)
    refine ⟨_, [h.mem.length], insert_empty k hroot, ?_, by simp, rfl, by simp, ?_, ?_, ?_, ?_, ?_⟩
    · refine ⟨?_, ?_, ?_, ?_, ?_, ?_, ?_, ?_⟩
      · have F0 : Forest (h.mem ++ [some (newNode k h.mem.length)]) [] ch ht :=
          I.forest.frame_forest
            (fun q hq => absurd hq (I.forest.empty_of_no_roots q))
            (fun q hq => absurd hq (I.forest.empty_of_no_roots q))
            (fun q hq => absurd hq (I.forest.empty_of_no_roots q))
            (fun p c hc => absurd (Or.inr ⟨p, hc⟩) (I.forest.empty_of_no_roots c))
        have := F0.add_root (x := h.mem.length) hnew
          (get_of_look Node.parent hnw) (fun _ => hchnew)
          (by intro c hc; rw [childOf, hnw] at hc; simp [newNode] at hc)
          (by rw [hchnew]; exact get_of_look Node.degree hnw)
        simpa using this
      · exact Ring.singleton (get_of_look Node.right hnw) (get_of_look Node.left hnw)
      · intro r hr; simp at hr; subst hr; simp
      · intro hr; simp at hr
      · intro p hp
        by_cases e : p = h.mem.length
        · subst e; exact Or.inl (by simp)
        · rw [hlk p e, hnone] at hp; simp at hp
      · show h.N + 1 = _
        rw [liveCount_append, I.count]; simp
      · intro c p hc
        by_cases e : c = h.mem.length
        · subst e; rw [parentOf, hnw] at hc; simp [newNode] at hc
        · simp [parentOf, hlk c e, hnone] at hc
      · intro r hr p kp hp
        simp at hr; subst hr
        by_cases e : p = h.mem.length
        · subst e; exact ⟨kp, hp, le_rfl⟩
        · simp [keyOf, hlk p e, hnone] at hp
    · exact get_of_look Node.key hnw
    · intro q hq; simp [keyOf, hlk q hq]
    · intro q hq; simp [degreeOf, hlk q hq]
    · exact get_of_look Node.degree hnw
    · exact get_min_of_key (get_of_look Node.key hnw)
  | some r =>
    have hrR := I.rootIn r hroot
    obtain ⟨rest, hperm, hring⟩ := I.ring.rotate_to hrR
    have hrl := hring.live_ring r (List.mem_cons_self _ _)
    cases hr : look h.mem r with
    | none => simp [hr] at hrl
    | some nr =>
      have hlast := hring.last_link
      have hleft : nr.left = lastOf r rest := by
        have := hlast.2
        simpa [leftOf, hr] using this
      have hll := hring.live_ring _ (lastOf_mem rest r)
      cases hl : look h.mem nr.left with
      | none => rw [← hleft, hl] at hll; simp at hll
      | some nl =>
        obtain ⟨m', e, u, eins⟩ := insert_nonempty k hroot hr hl
        have hlk : ∀ q, q ≠ h.mem.length →
            look (h.mem ++ [some (newNode k h.mem.length)]) q = look h.mem q :=
          fun q hq => look_append_left _ _ _ hq
        have hnw := look_append_new h.mem (newNode k h.mem.length)
        have u' : Upd (h.mem ++ [some (newNode k h.mem.length)]) m'
            (liG h.mem.length nr.left r) := u
        have hrne : r ≠ h.mem.length := isSome_ne_new hrl
        have hlne : nr.left ≠ h.mem.length := isSome_ne_new (by simp [hl])
        have gR := liG_right u' (by simp [hnw]) (by rw [hlk _ hlne]; simp [hl])
        have gL := liG_left u' (by simp [hnw]) (by rw [hlk _ hrne]; simp [hr])
        have gC := liG_core u'
        -- getters of the intermediate store
        have r0 : ∀ q, q ≠ h.mem.length → rightOf (h.mem ++ [some (newNode k h.mem.length)]) q
            = rightOf h.mem q := fun q hq => by simp [rightOf, hlk q hq]
        have l0 : ∀ q, q ≠ h.mem.length → leftOf (h.mem ++ [some (newNode k h.mem.length)]) q
            = leftOf h.mem q := fun q hq => by simp [leftOf, hlk q hq]
        have kk : ∀ q, keyOf m' q = if q = h.mem.length then some k else keyOf h.mem q := by
          intro q
          rw [(gC q).2.1]
          by_cases e : q = h.mem.length
          · subst e; rw [if_pos rfl]; exact get_of_look Node.key hnw
          · rw [if_neg e, keyOf, hlk q e]; rfl
        have pp : ∀ q, parentOf m' q = if q = h.mem.length then some none else parentOf h.mem q := by
          intro q
          rw [(gC q).1]
          by_cases e : q = h.mem.length
          · subst e; rw [if_pos rfl]; exact get_of_look Node.parent hnw
          · rw [if_neg e, parentOf, hlk q e]; rfl
        have cc : ∀ q, childOf m' q = if q = h.mem.length then some none else childOf h.mem q := by
          intro q
          rw [(gC q).2.2.1]
          by_cases e : q = h.mem.length
          · subst e; rw [if_pos rfl]; exact get_of_look Node.child hnw
          · rw [if_neg e, childOf, hlk q e]; rfl
        have dd : ∀ q, degreeOf m' q = if q = h.mem.length then some 0 else degreeOf h.mem q := by
          intro q
          rw [(gC q).2.2.2.1]
          by_cases e : q = h.mem.length
          · subst e; rw [if_pos rfl]; exact get_of_look Node.degree hnw
          · rw [if_neg e, degreeOf, hlk q e]; rfl
        have inF_ne : ∀ q, InF R ch q → q ≠ h.mem.length :=
          fun q hq => isSome_ne_new (I.forest.live hq)
        have hlastR : lastOf r rest ∈ R := hperm.mem_iff.2 (lastOf_mem rest r)
        have hxnot : h.mem.length ∉ r :: rest :=
          fun hx => hnew (Or.inl (hperm.mem_iff.2 hx))
        have ring0 : Ring (h.mem ++ [some (newNode k h.mem.length)]) (r :: rest) :=
          hring.frame (fun a ha => by
            have hne : a ≠ h.mem.length := fun e => hxnot (e ▸ ha)
            exact ⟨r0 a hne, l0 a hne⟩)
        have ring1 : Ring m' (r :: (rest ++ [h.mem.length])) :=
          ring0.append hxnot (by rw [← hleft]; exact fun q _ => gR q)
            (by rw [← hleft]; exact fun q _ => gL q)
        have F1 : Forest m' R ch ht := I.forest.frame_forest
          (fun q hq => by rw [pp, if_neg (inF_ne q hq)])
          (fun q hq => by rw [cc, if_neg (inF_ne q hq)])
          (fun q hq => by rw [dd, if_neg (inF_ne q hq)])
          (fun p c hc => by
            have hcne := inF_ne c (Or.inr ⟨p, hc⟩)
            have hcR := I.forest.child_not_root hc
            have h1 : c ≠ nr.left := fun e => hcR (by rw [e, hleft]; exact hlastR)
            have h2 : c ≠ r := fun e => hcR (e ▸ hrR)
            exact ⟨by rw [gR, if_neg h1, if_neg hcne, r0 c hcne],
              by rw [gL, if_neg h2, if_neg hcne, l0 c hcne]⟩)
        have F2 : Forest m' (R ++ [h.mem.length]) ch ht := F1.add_root hnew
          (by rw [pp, if_pos rfl]) (fun _ => hchnew)
          (by intro c hc; rw [cc, if_pos rfl] at hc; simp at hc)
          (by rw [dd, if_pos rfl, hchnew]; rfl)
        have hperm' : (R ++ [h.mem.length]).Perm (r :: (rest ++ [h.mem.length])) :=
          hperm.append_right _
        refine ⟨_, r :: (rest ++ [h.mem.length]), eins, ?_, hperm'.symm, rfl, ?_, ?_, ?_, ?_, ?_, ?_⟩
        · refine ⟨F2.perm_forest hperm', ring1, ?_, ?_, ?_, ?_, ?_, ?_⟩
          · intro r' hr'
            simp only [Option.some.injEq] at hr'
            subst hr'
            split_ifs <;> simp
          · intro hr'; simp at hr'
          · intro p hp
            by_cases e : p = h.mem.length
            · subst e; exact Or.inl (by simp)
            · have : (look h.mem p).isSome := by
                rw [u.2, hlk p e] at hp
                cases hq : look h.mem p <;> simp [hq] at hp ⊢
              rcases I.complete p this with h1 | h1
              · exact Or.inl (hperm'.mem_iff.1 (List.mem_append_left _ h1))
              · exact Or.inr h1
          · show h.N + 1 = _
            rw [u.liveCount_eq, liveCount_append, I.count]; simp
          · intro c p hc
            rw [pp] at hc
            by_cases e : c = h.mem.length
            · rw [if_pos e] at hc; simp at hc
            · rw [if_neg e] at hc
              obtain ⟨kp, kc, h1, h2, h3⟩ := I.order c p hc
              have hpne : p ≠ h.mem.length := isSome_ne_new (isSome_of_get h1)
              exact ⟨kp, kc, by rw [kk, if_neg hpne, h1], by rw [kk, if_neg e, h2], h3⟩
          · intro r' hr' p kp hp
            simp only [Option.some.injEq] at hr'
            have hkr : keyOf h.mem r = some nr.key := get_of_look Node.key hr
            have hmin : ∀ q kq, q ≠ h.mem.length → keyOf m' q = some kq → nr.key ≤ kq := by
              intro q kq hq hk
              rw [kk, if_neg hq] at hk
              obtain ⟨kr, h1, h2⟩ := I.min r hroot q kq hk
              rw [hkr] at h1
              simp only [Option.some.injEq] at h1
              omega
            rw [kk] at hp
            subst hr'
            by_cases hlt : k < nr.key
            · rw [if_pos hlt, kk, if_pos rfl]
              refine ⟨k, rfl, ?_⟩
              by_cases e : p = h.mem.length
              · rw [if_pos e] at hp; simp at hp; omega
              · have := hmin p kp e (by rw [kk]; exact hp)
                omega
            · rw [if_neg hlt, kk, if_neg hrne, hkr]
              refine ⟨nr.key, rfl, ?_⟩
              by_cases e : p = h.mem.length
              · rw [if_pos e] at hp; simp at hp; omega
              · exact hmin p kp e (by rw [kk]; exact hp)
        · show m'.length = _
          rw [u.1]; simp
        · rw [kk, if_pos rfl]
        · intro q hq; rw [kk, if_neg hq]
        · intro q hq; rw [dd, if_neg hq]
        · rw [dd, if_pos rfl]
        · have hkr : keyOf h.mem r = some nr.key := get_of_look Node.key hr
          simp only [hkr]
          by_cases hlt : k < nr.key
          · rw [if_pos hlt, min_eq_left (le_of_lt hlt)]
            exact get_min_of_key (by rw [kk, if_pos rfl])
          · rw [if_neg hlt, min_eq_right (not_lt.1 hlt)]
            exact get_min_of_key (by rw [kk, if_neg hrne, hkr])

/-! ## Field updates -/

theorem look_put (m : Mem) (p q : Nat) (f : Node → Node) :
    look (put m p f) q = if q = p then (look m p).map f else look m q := by
  unfold put
  cases hp : look m p with
  | none =>
    by_cases e : q = p
    · subst e; simp [hp]
    · simp [e]
  | some n =>
    simp only []
    rw [look_set _ _ _ _ (look_lt hp)]
    rfl

@[simp] theorem length_put (m : Mem) (p : Nat) (f : Node → Node) : (put m p f).length = m.length := by
  unfold put
  cases look m p <;> simp

theorem wr_ok {m : Mem} {p : Nat} (f : Node → Node) (h : (look m p).isSome) :
    wr m p f = .ok (put m p f) := by
  unfold wr put
  cases hp : look m p with
  | none => simp [hp] at h
  | some n => rfl

@[simp] theorem isSome_put (m : Mem) (p q : Nat) (f : Node → Node) :
    (look (put m p f) q).isSome = (look m q).isSome := by
  rw [look_put]
  by_cases e : q = p
  · subst e; cases look m q <;> simp
  · simp [e]

theorem liveCount_put (m : Mem) (p : Nat) (f : Node → Node) :
    liveCount (put m p f) = liveCount m := by
  unfold liveCount
  rw [length_put]
  congr 1
  funext q
  exact isSome_put m p q f

theorem cut_eq (h : FibonacciHeap) (x y : Nat) :
    cut h x y = (do
      if (← rd h.mem x).parent ≠ some y then throw Err.notParent
      let m ← cut_unlink h.mem x y
      cut_relink h m x) := by
  unfold cut cut_unlink cut_relink
  simp only [bind_assoc]
  refine bind_congr (fun nx => ?_)
  split_ifs
  · rfl
  · simp only [pure_bind, bind_assoc]
    refine bind_congr (fun ny => ?_)
    refine bind_congr (fun nx' => ?_)
    split_ifs <;> simp only [bind_assoc, pure_bind]
    refine bind_congr (fun _ => ?_)
    refine bind_congr (fun _ => ?_)
    refine bind_congr (fun _ => ?_)
    refine bind_congr (fun _ => ?_)
    refine bind_congr (fun _ => ?_)
    refine bind_congr (fun _ => ?_)
    refine bind_congr (fun _ => ?_)
    split_ifs <;> simp only [bind_assoc, pure_bind]

theorem rd_some {m : Mem} {p : Nat} (h : (look m p).isSome) :
    ∃ n, look m p = some n ∧ rd m p = .ok n := by
  cases hp : look m p with
  | none => simp [hp] at h
  | some n => exact ⟨n, rfl, rd_of_look hp⟩

theorem look_put_ne {m : Mem} {p q : Nat} (f : Node → Node) (h : q ≠ p) :
    look (put m p f) q = look m q := by
  rw [look_put, if_neg h]

theorem map_put {α : Type} (m : Mem) (p q : Nat) (f : Node → Node) (fld : Node → α) :
    (look (put m p f) q).map fld =
      if q = p then (look m p).map (fun n => fld (f n)) else (look m q).map fld := by
  rw [look_put]
  by_cases e : q = p
  · rw [if_pos e, if_pos e]; cases look m p <;> rfl
  · rw [if_neg e, if_neg e]

theorem map_put_same {α : Type} (m : Mem) (p q : Nat) (f : Node → Node) (fld : Node → α)
    (hf : ∀ n, fld (f n) = fld n) : (look (put m p f) q).map fld = (look m q).map fld := by
  rw [map_put]
  by_cases e : q = p
  · subst e; rw [if_pos rfl]; cases look m q <;> simp [hf]
  · rw [if_neg e]

theorem map_put_set {α : Type} (m : Mem) (p q : Nat) (f : Node → Node) (fld : Node → α) (v : α)
    (hf : ∀ n, fld (f n) = v) (hp : (look m p).isSome) :
    (look (put m p f) q).map fld = if q = p then some v else (look m q).map fld := by
  rw [map_put]
  by_cases e : q = p
  · subst e; rw [if_pos rfl, if_pos rfl]
    cases hq : look m q with
    | none => simp [hq] at hp
    | some n => simp [hf]
  · rw [if_neg e, if_neg e]

@[simp] theorem keyOf_put_key (m : Mem) (p q : Nat) (v) (hp : (look m p).isSome) :
    keyOf (put m p (fun n => { n with key := v })) q = if q = p then some v else keyOf m q :=
  map_put_set m p q _ Node.key v (fun _ => rfl) hp

@[simp] theorem markOf_put_key (m : Mem) (p q : Nat) (v) :
    markOf (put m p (fun n => { n with key := v })) q = markOf m q :=
  map_put_same m p q _ Node.mark (fun _ => rfl)

@[simp] theorem childOf_put_key (m : Mem) (p q : Nat) (v) :
    childOf (put m p (fun n => { n with key := v })) q = childOf m q :=
  map_put_same m p q _ Node.child (fun _ => rfl)

@[simp] theorem degreeOf_put_key (m : Mem) (p q : Nat) (v) :
    degreeOf (put m p (fun n => { n with key := v })) q = degreeOf m q :=
  map_put_same m p q _ Node.degree (fun _ => rfl)

@[simp] theorem leftOf_put_key (m : Mem) (p q : Nat) (v) :
    leftOf (put m p (fun n => { n with key := v })) q = leftOf m q :=
  map_put_same m p q _ Node.left (fun _ => rfl)

@[simp] theorem rightOf_put_key (m : Mem) (p q : Nat) (v) :
    rightOf (put m p (fun n => { n with key := v })) q = rightOf m q :=
  map_put_same m p q _ Node.right (fun _ => rfl)

@[simp] theorem parentOf_put_key (m : Mem) (p q : Nat) (v) :
    parentOf (put m p (fun n => { n with key := v })) q = parentOf m q :=
  map_put_same m p q _ Node.parent (fun _ => rfl)

@[simp] theorem keyOf_put_mark (m : Mem) (p q : Nat) (v) :
    keyOf (put m p (fun n => { n with mark := v })) q = keyOf m q :=
  map_put_same m p q _ Node.key (fun _ => rfl)

@[simp] theorem markOf_put_mark (m : Mem) (p q : Nat) (v) (hp : (look m p).isSome) :
    markOf (put m p (fun n => { n with mark := v })) q = if q = p then some v else markOf m q :=
  map_put_set m p q _ Node.mark v (fun _ => rfl) hp

@[simp] theorem childOf_put_mark (m : Mem) (p q : Nat) (v) :
    childOf (put m p (fun n => { n with mark := v })) q = childOf m q :=
  map_put_same m p q _ Node.child (fun _ => rfl)

@[simp] theorem degreeOf_put_mark (m : Mem) (p q : Nat) (v) :
    degreeOf (put m p (fun n => { n with mark := v })) q = degreeOf m q :=
  map_put_same m p q _ Node.degree (fun _ => rfl)

@[simp] theorem leftOf_put_mark (m : Mem) (p q : Nat) (v) :
    leftOf (put m p (fun n => { n with mark := v })) q = leftOf m q :=
  map_put_same m p q _ Node.left (fun _ => rfl)

@[simp] theorem rightOf_put_mark (m : Mem) (p q : Nat) (v) :
    rightOf (put m p (fun n => { n with mark := v })) q = rightOf m q :=
  map_put_same m p q _ Node.right (fun _ => rfl)

@[simp] theorem parentOf_put_mark (m : Mem) (p q : Nat) (v) :
    parentOf (put m p (fun n => { n with mark := v })) q = parentOf m q :=
  map_put_same m p q _ Node.parent (fun _ => rfl)

@[simp] theorem keyOf_put_child (m : Mem) (p q : Nat) (v) :
    keyOf (put m p (fun n => { n with child := v })) q = keyOf m q :=
  map_put_same m p q _ Node.key (fun _ => rfl)

@[simp] theorem markOf_put_child (m : Mem) (p q : Nat) (v) :
    markOf (put m p (fun n => { n with child := v })) q = markOf m q :=
  map_put_same m p q _ Node.mark (fun _ => rfl)

@[simp] theorem childOf_put_child (m : Mem) (p q : Nat) (v) (hp : (look m p).isSome) :
    childOf (put m p (fun n => { n with child := v })) q = if q = p then some v else childOf m q :=
  map_put_set m p q _ Node.child v (fun _ => rfl) hp

@[simp] theorem degreeOf_put_child (m : Mem) (p q : Nat) (v) :
    degreeOf (put m p (fun n => { n with child := v })) q = degreeOf m q :=
  map_put_same m p q _ Node.degree (fun _ => rfl)

@[simp] theorem leftOf_put_child (m : Mem) (p q : Nat) (v) :
    leftOf (put m p (fun n => { n with child := v })) q = leftOf m q :=
  map_put_same m p q _ Node.left (fun _ => rfl)

@[simp] theorem rightOf_put_child (m : Mem) (p q : Nat) (v) :
    rightOf (put m p (fun n => { n with child := v })) q = rightOf m q :=
  map_put_same m p q _ Node.right (fun _ => rfl)

@[simp] theorem parentOf_put_child (m : Mem) (p q : Nat) (v) :
    parentOf (put m p (fun n => { n with child := v })) q = parentOf m q :=
  map_put_same m p q _ Node.parent (fun _ => rfl)

@[simp] theorem keyOf_put_degree (m : Mem) (p q : Nat) (v) :
    keyOf (put m p (fun n => { n with degree := v })) q = keyOf m q :=
  map_put_same m p q _ Node.key (fun _ => rfl)

@[simp] theorem markOf_put_degree (m : Mem) (p q : Nat) (v) :
    markOf (put m p (fun n => { n with degree := v })) q = markOf m q :=
  map_put_same m p q _ Node.mark (fun _ => rfl)

@[simp] theorem childOf_put_degree (m : Mem) (p q : Nat) (v) :
    childOf (put m p (fun n => { n with degree := v })) q = childOf m q :=
  map_put_same m p q _ Node.child (fun _ => rfl)

@[simp] theorem degreeOf_put_degree (m : Mem) (p q : Nat) (v) (hp : (look m p).isSome) :
    degreeOf (put m p (fun n => { n with degree := v })) q = if q = p then some v else degreeOf m q :=
  map_put_set m p q _ Node.degree v (fun _ => rfl) hp

@[simp] theorem leftOf_put_degree (m : Mem) (p q : Nat) (v) :
    leftOf (put m p (fun n => { n with degree := v })) q = leftOf m q :=
  map_put_same m p q _ Node.left (fun _ => rfl)

@[simp] theorem rightOf_put_degree (m : Mem) (p q : Nat) (v) :
    rightOf (put m p (fun n => { n with degree := v })) q = rightOf m q :=
  map_put_same m p q _ Node.right (fun _ => rfl)

@[simp] theorem parentOf_put_degree (m : Mem) (p q : Nat) (v) :
    parentOf (put m p (fun n => { n with degree := v })) q = parentOf m q :=
  map_put_same m p q _ Node.parent (fun _ => rfl)

@[simp] theorem keyOf_put_left (m : Mem) (p q : Nat) (v) :
    keyOf (put m p (fun n => { n with left := v })) q = keyOf m q :=
  map_put_same m p q _ Node.key (fun _ => rfl)

@[simp] theorem markOf_put_left (m : Mem) (p q : Nat) (v) :
    markOf (put m p (fun n => { n with left := v })) q = markOf m q :=
  map_put_same m p q _ Node.mark (fun _ => rfl)

@[simp] theorem childOf_put_left (m : Mem) (p q : Nat) (v) :
    childOf (put m p (fun n => { n with left := v })) q = childOf m q :=
  map_put_same m p q _ Node.child (fun _ => rfl)

@[simp] theorem degreeOf_put_left (m : Mem) (p q : Nat) (v) :
    degreeOf (put m p (fun n => { n with left := v })) q = degreeOf m q :=
  map_put_same m p q _ Node.degree (fun _ => rfl)

@[simp] theorem leftOf_put_left (m : Mem) (p q : Nat) (v) (hp : (look m p).isSome) :
    leftOf (put m p (fun n => { n with left := v })) q = if q = p then some v else leftOf m q :=
  map_put_set m p q _ Node.left v (fun _ => rfl) hp

@[simp] theorem rightOf_put_left (m : Mem) (p q : Nat) (v) :
    rightOf (put m p (fun n => { n with left := v })) q = rightOf m q :=
  map_put_same m p q _ Node.right (fun _ => rfl)

@[simp] theorem parentOf_put_left (m : Mem) (p q : Nat) (v) :
    parentOf (put m p (fun n => { n with left := v })) q = parentOf m q :=
  map_put_same m p q _ Node.parent (fun _ => rfl)

@[simp] theorem keyOf_put_right (m : Mem) (p q : Nat) (v) :
    keyOf (put m p (fun n => { n with right := v })) q = keyOf m q :=
  map_put_same m p q _ Node.key (fun _ => rfl)

@[simp] theorem markOf_put_right (m : Mem) (p q : Nat) (v) :
    markOf (put m p (fun n => { n with right := v })) q = markOf m q :=
  map_put_same m p q _ Node.mark (fun _ => rfl)

@[simp] theorem childOf_put_right (m : Mem) (p q : Nat) (v) :
    childOf (put m p (fun n => { n with right := v })) q = childOf m q :=
  map_put_same m p q _ Node.child (fun _ => rfl)

@[simp] theorem degreeOf_put_right (m : Mem) (p q : Nat) (v) :
    degreeOf (put m p (fun n => { n with right := v })) q = degreeOf m q :=
  map_put_same m p q _ Node.degree (fun _ => rfl)

@[simp] theorem leftOf_put_right (m : Mem) (p q : Nat) (v) :
    leftOf (put m p (fun n => { n with right := v })) q = leftOf m q :=
  map_put_same m p q _ Node.left (fun _ => rfl)

@[simp] theorem rightOf_put_right (m : Mem) (p q : Nat) (v) (hp : (look m p).isSome) :
    rightOf (put m p (fun n => { n with right := v })) q = if q = p then some v else rightOf m q :=
  map_put_set m p q _ Node.right v (fun _ => rfl) hp

@[simp] theorem parentOf_put_right (m : Mem) (p q : Nat) (v) :
    parentOf (put m p (fun n => { n with right := v })) q = parentOf m q :=
  map_put_same m p q _ Node.parent (fun _ => rfl)

@[simp] theorem keyOf_put_parent (m : Mem) (p q : Nat) (v) :
    keyOf (put m p (fun n => { n with parent := v })) q = keyOf m q :=
  map_put_same m p q _ Node.key (fun _ => rfl)

@[simp] theorem markOf_put_parent (m : Mem) (p q : Nat) (v) :
    markOf (put m p (fun n => { n with parent := v })) q = markOf m q :=
  map_put_same m p q _ Node.mark (fun _ => rfl)

@[simp] theorem childOf_put_parent (m : Mem) (p q : Nat) (v) :
    childOf (put m p (fun n => { n with parent := v })) q = childOf m q :=
  map_put_same m p q _ Node.child (fun _ => rfl)

@[simp] theorem degreeOf_put_parent (m : Mem) (p q : Nat) (v) :
    degreeOf (put m p (fun n => { n with parent := v })) q = degreeOf m q :=
  map_put_same m p q _ Node.degree (fun _ => rfl)

@[simp] theorem leftOf_put_parent (m : Mem) (p q : Nat) (v) :
    leftOf (put m p (fun n => { n with parent := v })) q = leftOf m q :=
  map_put_same m p q _ Node.left (fun _ => rfl)

@[simp] theorem rightOf_put_parent (m : Mem) (p q : Nat) (v) :
    rightOf (put m p (fun n => { n with parent := v })) q = rightOf m q :=
  map_put_same m p q _ Node.right (fun _ => rfl)

@[simp] theorem parentOf_put_parent (m : Mem) (p q : Nat) (v) (hp : (look m p).isSome) :
    parentOf (put m p (fun n => { n with parent := v })) q = if q = p then some v else parentOf m q :=
  map_put_set m p q _ Node.parent v (fun _ => rfl) hp

@[simp] theorem keyOf_put_inc (m : Mem) (p q : Nat) :
    keyOf (put m p (fun n => { n with degree := n.degree + 1 })) q = keyOf m q :=
  map_put_same m p q _ Node.key (fun _ => rfl)

@[simp] theorem markOf_put_inc (m : Mem) (p q : Nat) :
    markOf (put m p (fun n => { n with degree := n.degree + 1 })) q = markOf m q :=
  map_put_same m p q _ Node.mark (fun _ => rfl)

@[simp] theorem childOf_put_inc (m : Mem) (p q : Nat) :
    childOf (put m p (fun n => { n with degree := n.degree + 1 })) q = childOf m q :=
  map_put_same m p q _ Node.child (fun _ => rfl)

@[simp] theorem degreeOf_put_inc (m : Mem) (p q : Nat) :
    degreeOf (put m p (fun n => { n with degree := n.degree + 1 })) q =
      if q = p then (degreeOf m p).map (fun d => d + 1) else degreeOf m q := by
  unfold degreeOf
  rw [map_put]
  cases look m p <;> rfl

@[simp] theorem leftOf_put_inc (m : Mem) (p q : Nat) :
    leftOf (put m p (fun n => { n with degree := n.degree + 1 })) q = leftOf m q :=
  map_put_same m p q _ Node.left (fun _ => rfl)

@[simp] theorem rightOf_put_inc (m : Mem) (p q : Nat) :
    rightOf (put m p (fun n => { n with degree := n.degree + 1 })) q = rightOf m q :=
  map_put_same m p q _ Node.right (fun _ => rfl)

@[simp] theorem parentOf_put_inc (m : Mem) (p q : Nat) :
    parentOf (put m p (fun n => { n with degree := n.degree + 1 })) q = parentOf m q :=
  map_put_same m p q _ Node.parent (fun _ => rfl)

@[simp] theorem keyOf_put_dec (m : Mem) (p q : Nat) :
    keyOf (put m p (fun n => { n with degree := n.degree - 1 })) q = keyOf m q :=
  map_put_same m p q _ Node.key (fun _ => rfl)

@[simp] theorem markOf_put_dec (m : Mem) (p q : Nat) :
    markOf (put m p (fun n => { n with degree := n.degree - 1 })) q = markOf m q :=
  map_put_same m p q _ Node.mark (fun _ => rfl)

@[simp] theorem childOf_put_dec (m : Mem) (p q : Nat) :
    childOf (put m p (fun n => { n with degree := n.degree - 1 })) q = childOf m q :=
  map_put_same m p q _ Node.child (fun _ => rfl)

@[simp] theorem degreeOf_put_dec (m : Mem) (p q : Nat) :
    degreeOf (put m p (fun n => { n with degree := n.degree - 1 })) q =
      if q = p then (degreeOf m p).map (fun d => d - 1) else degreeOf m q := by
  unfold degreeOf
  rw [map_put]
  cases look m p <;> rfl

@[simp] theorem leftOf_put_dec (m : Mem) (p q : Nat) :
    leftOf (put m p (fun n => { n with degree := n.degree - 1 })) q = leftOf m q :=
  map_put_same m p q _ Node.left (fun _ => rfl)

@[simp] theorem rightOf_put_dec (m : Mem) (p q : Nat) :
    rightOf (put m p (fun n => { n with degree := n.degree - 1 })) q = rightOf m q :=
  map_put_same m p q _ Node.right (fun _ => rfl)

@[simp] theorem parentOf_put_dec (m : Mem) (p q : Nat) :
    parentOf (put m p (fun n => { n with degree := n.degree - 1 })) q = parentOf m q :=
  map_put_same m p q _ Node.parent (fun _ => rfl)

/-! ## `cut`, `cascading_cut` and `decrease_key` -/

theorem cut_unlink_spec {m : Mem} {x y c : Nat} {rest : List Nat} (Rg : Ring m (x :: rest))
    (hy : (look m y).isSome) (hyn : y ∉ x :: rest)
    (hc : childOf m y = some (some c)) (hcin : c ∈ x :: rest)
    (hd : degreeOf m y = some ((rest.length : Int) + 1)) :
    ∃ m', cut_unlink m x y = .ok m' ∧ m'.length = m.length ∧
      (∀ q, (look m' q).isSome = (look m q).isSome) ∧ Ring m' rest ∧
      (∀ q, keyOf m' q = keyOf m q) ∧ (∀ q, parentOf m' q = parentOf m q) ∧
      (∀ q, markOf m' q = markOf m q) ∧
      (∀ q, q ≠ y → childOf m' q = childOf m q) ∧
      (rest = [] → childOf m' y = some none) ∧
      (rest ≠ [] → ∃ c', childOf m' y = some (some c') ∧ c' ∈ rest) ∧
      (∀ q, q ≠ y → degreeOf m' q = degreeOf m q) ∧
      degreeOf m' y = some (rest.length : Int) ∧
      (∀ q, q ∉ x :: rest → rightOf m' q = rightOf m q ∧ leftOf m' q = leftOf m q) := by
  have hxl := Rg.live_ring x (List.mem_cons_self _ _)
  obtain ⟨nx, hnx, rx⟩ := rd_some hxl
  obtain ⟨ny, hny, ry⟩ := rd_some hy
  have hyx : y ≠ x := fun e => hyn (e ▸ List.mem_cons_self _ _)
  have hcy : ny.child = some c := by simpa [childOf, hny] using hc
  have hdy : ny.degree = (rest.length : Int) + 1 := by simpa [degreeOf, hny] using hd
  cases rest with
  | nil =>
    have hrx : nx.right = x := by
      have := (Rg.right_eq_self_iff).2 rfl
      simpa [rightOf, hnx] using this
    have hcx : c = x := by simpa using hcin
    subst hcx
    have hy1 : (look (put m y (fun n => { n with child := none })) y).isSome := by
      rw [isSome_put]; exact hy
    refine ⟨put (put m y (fun n => { n with child := none })) y
      (fun n => { n with degree := 0 }), ?_, ?_, ?_, trivial, ?_, ?_, ?_, ?_, ?_, ?_, ?_, ?_, ?_⟩
    · simp only [cut_unlink, bind, Except.bind, ry, rx, hcy, hrx, and_self, if_true,
        wr_ok _ hy, wr_ok _ hy1]
    · simp [length_put]
    · intro q; rw [isSome_put, isSome_put]
    · intro q; simp
    · intro q; simp
    · intro q; simp
    · intro q hq; simp [hy, hq]
    · intro _; simp [hy]
    · intro h; exact absurd rfl h
    · intro q hq; simp [hy, hq]
    · simp [hy]
    · intro q _; simp
  | cons b rest =>
    obtain ⟨hn, hch, hlast⟩ := ring_cons_iff.1 Rg
    have hxb : rightOf m x = some b := (List.chain_cons.1 hch).1.1
    have hrx : nx.right = b := by simpa [rightOf, hnx] using hxb
    have hn' := List.nodup_cons.1 hn
    have hbx : b ≠ x := fun e => hn'.1 (e ▸ List.mem_cons_self _ _)
    have hlx : nx.left = lastOf b rest := by
      have := hlast.2
      simpa [leftOf, hnx, lastOf] using this
    have hlmem : lastOf b rest ∈ b :: rest := lastOf_mem rest b
    have hxlx : lastOf b rest ≠ x := fun e => hn'.1 (e ▸ hlmem)
    have hbl := Rg.live_ring b (List.mem_cons_of_mem _ (List.mem_cons_self _ _))
    have hll := Rg.live_ring _ (List.mem_cons_of_mem _ hlmem)
    have hyb : y ≠ b := fun e => hyn (e ▸ List.mem_cons_of_mem _ (List.mem_cons_self _ _))
    have hyl : y ≠ lastOf b rest := fun e => hyn (e ▸ List.mem_cons_of_mem _ hlmem)
    have hcond : ¬ (ny.child = some c ∧ nx.right = x) := fun h => hbx (hrx ▸ h.2)
    have h1x : look (put m b (fun n => { n with left := lastOf b rest })) x = some nx := by
      rw [look_put, if_neg hbx.symm]; exact hnx
    have h1l : (look (put m b (fun n => { n with left := lastOf b rest }))
        (lastOf b rest)).isSome := by rw [isSome_put]; exact hll
    have h2x : look (put (put m b (fun n => { n with left := lastOf b rest })) (lastOf b rest)
        (fun n => { n with right := b })) x = some nx := by
      rw [look_put, if_neg hxlx.symm]; exact h1x
    have h2y : look (put (put m b (fun n => { n with left := lastOf b rest })) (lastOf b rest)
        (fun n => { n with right := b })) y = some ny := by
      rw [look_put, if_neg hyl, look_put, if_neg hyb]; exact hny
    have h2yl : (look (put (put m b (fun n => { n with left := lastOf b rest })) (lastOf b rest)
        (fun n => { n with right := b })) y).isSome := by rw [h2y]; rfl
    by_cases hcx : c = x
    · subst hcx
      have h3yl : (look (put (put (put m b (fun n => { n with left := lastOf b rest }))
          (lastOf b rest) (fun n => { n with right := b })) y
          (fun n => { n with child := some b })) y).isSome := by rw [isSome_put]; exact h2yl
      refine ⟨put (put (put (put m b (fun n => { n with left := lastOf b rest }))
          (lastOf b rest) (fun n => { n with right := b })) y
          (fun n => { n with child := some b })) y
          (fun n => { n with degree := n.degree - 1 }),
        ?_, ?_, ?_, ?_, ?_, ?_, ?_, ?_, ?_, ?_, ?_, ?_, ?_⟩
      · simp only [cut_unlink, bind, Except.bind, ry, rx, hrx, hlx, hbx, and_false, if_false,
          hcy, wr_ok _ hbl, rd_of_look h1x, wr_ok _ h1l, rd_of_look h2y, if_true,
          rd_of_look h2x, wr_ok _ h2yl, wr_ok _ h3yl]
      · simp [length_put]
      · intro q; simp only [isSome_put]
      · refine Ring.unlink_head Rg ?_ ?_
        · intro q hq
          have hqy : q ≠ y := fun e => hyn (e ▸ List.mem_cons_of_mem _ hq)
          simp [hll, hbl]
        · intro q hq
          have hqy : q ≠ y := fun e => hyn (e ▸ List.mem_cons_of_mem _ hq)
          simp [hll, hbl]
      · intro q; simp
      · intro q; simp
      · intro q; simp
      · intro q hq; simp [hy, hq]
      · intro h; exact absurd h (by simp)
      · intro _
        refine ⟨b, ?_, List.mem_cons_self _ _⟩
        simp [hy]
      · intro q hq; simp [hy, hq]
      · simp [hy, hd]
      · intro q hq
        have hqb : q ≠ b := fun e => hq (e ▸ List.mem_cons_of_mem _ (List.mem_cons_self _ _))
        have hql : q ≠ lastOf b rest := fun e => hq (e ▸ List.mem_cons_of_mem _ hlmem)
        simp [hll, hbl, hqb, hql]
    · have hcx' : ¬ ny.child = some x := by rw [hcy]; simpa using hcx
      have hcin' : c ∈ b :: rest := by
        rcases List.mem_cons.1 hcin with e | e
        · exact absurd e hcx
        · exact e
      refine ⟨put (put (put m b (fun n => { n with left := lastOf b rest }))
          (lastOf b rest) (fun n => { n with right := b })) y
          (fun n => { n with degree := n.degree - 1 }),
        ?_, ?_, ?_, ?_, ?_, ?_, ?_, ?_, ?_, ?_, ?_, ?_, ?_⟩
      · simp only [cut_unlink, bind, Except.bind, ry, rx, hrx, hlx, hbx, and_false, if_false,
          wr_ok _ hbl, rd_of_look h1x, wr_ok _ h1l, rd_of_look h2y, hcx',
          wr_ok _ h2yl, pure, Except.pure]
      · simp [length_put]
      · intro q; simp only [isSome_put]
      · refine Ring.unlink_head Rg ?_ ?_
        · intro q hq
          have hqy : q ≠ y := fun e => hyn (e ▸ List.mem_cons_of_mem _ hq)
          simp [hll, hbl]
        · intro q hq
          have hqy : q ≠ y := fun e => hyn (e ▸ List.mem_cons_of_mem _ hq)
          simp [hll, hbl]
      · intro q; simp
      · intro q; simp
      · intro q; simp
      · intro q hq; simp [hy, hq]
      · intro h; exact absurd h (by simp)
      · intro _
        refine ⟨c, ?_, hcin'⟩
        simp [hy, hc]
      · intro q hq; simp [hy, hq]
      · simp [hy, hd]
      · intro q hq
        have hqb : q ≠ b := fun e => hq (e ▸ List.mem_cons_of_mem _ (List.mem_cons_self _ _))
        have hql : q ≠ lastOf b rest := fun e => hq (e ▸ List.mem_cons_of_mem _ hlmem)
        simp [hll, hbl, hqb, hql]

theorem Upd.isSome_eq {m m' : Mem} {g : Nat → Node → Node} (u : Upd m m' g) (q : Nat) :
    (look m' q).isSome = (look m q).isSome := by
  rw [u.2]; cases look m q <;> rfl

theorem cut_relink_spec {h : FibonacciHeap} {m : Mem} {x r : Nat} {rest : List Nat}
    (hroot : h.root = some r) (Rg : Ring m (r :: rest)) (hx : x ∉ r :: rest)
    (hxl : (look m x).isSome) :
    ∃ m', cut_relink h m x = .ok { h with mem := m' } ∧ m'.length = m.length ∧
      (∀ q, (look m' q).isSome = (look m q).isSome) ∧ Ring m' (r :: (rest ++ [x])) ∧
      (∀ q, keyOf m' q = keyOf m q) ∧ (∀ q, childOf m' q = childOf m q) ∧
      (∀ q, degreeOf m' q = degreeOf m q) ∧
      (∀ q, parentOf m' q = if q = x then some none else parentOf m q) ∧
      (∀ q, markOf m' q = if q = x then some false else markOf m q) ∧
      (∀ q, q ≠ x → q ∉ r :: rest → rightOf m' q = rightOf m q ∧ leftOf m' q = leftOf m q) := by
  have hrl := Rg.live_ring r (List.mem_cons_self _ _)
  obtain ⟨nr, hnr, rr⟩ := rd_some hrl
  have hleft : nr.left = lastOf r rest := by
    have := Rg.last_link.2
    simpa [leftOf, hnr] using this
  have hlmem := lastOf_mem rest r
  have hll := Rg.live_ring _ hlmem
  obtain ⟨m3, e3, u3⟩ := list_insert_ok hxl hll hrl
  have gR := liG_right u3 hxl hll
  have gL := liG_left u3 hxl hrl
  have gC := liG_core u3
  have hx3 : (look m3 x).isSome := by rw [u3.isSome_eq]; exact hxl
  have hx4 : (look (put m3 x (fun n => { n with parent := none })) x).isSome := by
    rw [isSome_put]; exact hx3
  refine ⟨put (put m3 x (fun n => { n with parent := none })) x
    (fun n => { n with mark := false }), ?_, ?_, ?_, ?_, ?_, ?_, ?_, ?_, ?_, ?_⟩
  · simp only [cut_relink, hroot, deref, bind, Except.bind, rr, hleft, e3, wr_ok _ hx3,
      wr_ok _ hx4, pure, Except.pure]
  · simp [u3.1]
  · intro q; simp [u3.isSome_eq]
  · refine Rg.append hx ?_ ?_
    · intro q _; simp [gR]
    · intro q _; simp [gL]
  · intro q; simp [(gC q).2.1]
  · intro q; simp [(gC q).2.2.1]
  · intro q; simp [(gC q).2.2.2.1]
  · intro q; simp [hx3, (gC q).1]
  · intro q; simp [hx3, (gC q).2.2.2.2]
  · intro q hqx hq
    have h1 : q ≠ lastOf r rest := fun e => hq (e ▸ hlmem)
    have h2 : q ≠ r := fun e => hq (e ▸ List.mem_cons_self _ _)
    simp [gR, gL, h1, h2, hqx]

theorem Forest.not_self_child {m : Mem} {R : List Nat} {ch : Nat → List Nat} {ht : Nat → Nat}
    (F : Forest m R ch ht) (y : Nat) : y ∉ ch y := fun h => absurd (F.hgt y y h) (lt_irrefl _)

theorem cut_spec_of {h : FibonacciHeap} {R : List Nat} {ch : Nat → List Nat} {ht : Nat → Nat}
    {r x y : Nat} {rest restR : List Nat} (F : Forest h.mem R ch ht) (hroot : h.root = some r)
    (hperm : (ch y).Perm (x :: rest)) (hring : Ring h.mem (x :: rest))
    (hpermR : R.Perm (r :: restR)) (hringR : Ring h.mem (r :: restR)) :
    ∃ m', cut h x y = .ok { h with mem := m' } ∧
      Forest m' (r :: (restR ++ [x])) (Function.update ch y rest) ht ∧
      Ring m' (r :: (restR ++ [x])) ∧
      m'.length = h.mem.length ∧ (∀ q, (look m' q).isSome = (look h.mem q).isSome) ∧
      (∀ q, keyOf m' q = keyOf h.mem q) ∧
      (∀ q, parentOf m' q = if q = x then some none else parentOf h.mem q) ∧
      (∀ q, markOf m' q = if q = x then some false else markOf h.mem q) ∧
      (∀ q, InF (r :: (restR ++ [x])) (Function.update ch y rest) q ↔ InF R ch q) ∧
      (rest = [] → childOf m' y = some none) ∧
      (rest ≠ [] → ∃ c', childOf m' y = some (some c') ∧ c' ∈ rest) ∧
      (∀ q, q ≠ y → childOf m' q = childOf h.mem q) ∧
      degreeOf m' y = some (rest.length : Int) ∧
      (∀ q, q ≠ y → degreeOf m' q = degreeOf h.mem q) ∧
      (∀ q, q ∉ x :: rest → q ∉ r :: restR →
        rightOf m' q = rightOf h.mem q ∧ leftOf m' q = leftOf h.mem q) := by
  have hx : x ∈ ch y := hperm.mem_iff.2 (List.mem_cons_self _ _)
  have hrR : r ∈ R := hpermR.mem_iff.2 (List.mem_cons_self _ _)
  have hyF : InF R ch y := F.pin y x hx
  have hyl := F.live hyF
  have hxF : InF R ch x := Or.inr ⟨y, hx⟩
  have hxl := F.live hxF
  obtain ⟨nx, hnx, rx⟩ := rd_some hxl
  have hxpar : nx.parent = some y := by
    have := F.cpar y x hx
    simpa [parentOf, hnx] using this
  have hyn : y ∉ x :: rest := fun e => F.not_self_child y (hperm.mem_iff.2 e)
  have hmemy : ∀ q, q ∈ x :: rest ↔ q ∈ ch y := fun q => (hperm.mem_iff).symm
  have hmemR : ∀ q, q ∈ r :: restR ↔ q ∈ R := fun q => (hpermR.mem_iff).symm
  obtain ⟨ny, hny, _⟩ := rd_some hyl
  obtain ⟨c, hc⟩ : ∃ c, childOf h.mem y = some (some c) := by
    cases hcc : ny.child with
    | none =>
      have := F.cnone y hyF (by simp [childOf, hny, hcc])
      rw [this] at hx; simp at hx
    | some c => exact ⟨c, by simp [childOf, hny, hcc]⟩
  have hcin : c ∈ x :: rest := (hmemy c).2 (F.csome y c hyF hc)
  have hd : degreeOf h.mem y = some ((rest.length : Int) + 1) := by
    rw [F.cdeg y hyF, hperm.length_eq]; simp
  obtain ⟨m2, e2, len2, live2, ring2, key2, par2, mark2, child2, childn2, childs2, deg2, degy2,
    lr2⟩ := cut_unlink_spec hring hyl hyn hc hcin hd
  have hnotR : ∀ q, q ∈ x :: rest → q ∉ r :: restR := fun q hq hq' =>
    F.child_not_root ((hmemy q).1 hq) ((hmemR q).1 hq')
  have ringR2 : Ring m2 (r :: restR) := hringR.frame (fun a ha => lr2 a (fun e => hnotR a e ha))
  have hxR : x ∉ r :: restR := hnotR x (List.mem_cons_self _ _)
  obtain ⟨m', e', len', live', ring', key', child', deg', par', mark', lr'⟩ :=
    cut_relink_spec (h := h) hroot ringR2 hxR (by rw [live2]; exact hxl)
  have hxrest : x ∉ rest := (List.nodup_cons.1 hring.nodup).1
  have iff : ∀ q, InF (r :: (restR ++ [x])) (Function.update ch y rest) q ↔ InF R ch q := by
    intro q
    constructor
    · rintro (hq | ⟨p, hq⟩)
      · rcases List.mem_cons.1 hq with e | hq
        · exact Or.inl (e ▸ hrR)
        · rcases List.mem_append.1 hq with hq | hq
          · exact Or.inl ((hmemR q).1 (List.mem_cons_of_mem _ hq))
          · simp at hq; exact hq ▸ hxF
      · by_cases e : p = y
        · subst e
          rw [Function.update_same] at hq
          exact Or.inr ⟨p, (hmemy q).1 (List.mem_cons_of_mem _ hq)⟩
        · rw [Function.update_noteq e] at hq
          exact Or.inr ⟨p, hq⟩
    · rintro (hq | ⟨p, hq⟩)
      · have := (hmemR q).2 hq
        rcases List.mem_cons.1 this with e | hq'
        · exact Or.inl (e ▸ List.mem_cons_self _ _)
        · exact Or.inl (List.mem_cons_of_mem _ (List.mem_append_left _ hq'))
      · by_cases e : p = y
        · subst e
          rcases List.mem_cons.1 ((hmemy q).2 hq) with e | hq'
          · exact Or.inl (List.mem_cons_of_mem _ (List.mem_append_right _ (by simp [e])))
          · exact Or.inr ⟨p, by rw [Function.update_same]; exact hq'⟩
        · exact Or.inr ⟨p, by rw [Function.update_noteq e]; exact hq⟩
  have sub : ∀ p q, q ∈ Function.update ch y rest p → q ∈ ch p ∧ q ≠ x := by
    intro p q hq
    by_cases e : p = y
    · subst e
      rw [Function.update_same] at hq
      exact ⟨(hmemy q).1 (List.mem_cons_of_mem _ hq), fun e => hxrest (e ▸ hq)⟩
    · rw [Function.update_noteq e] at hq
      exact ⟨hq, fun e' => e (F.child_unique hq (e' ▸ hx))⟩
  have hcmd : ∀ q, childOf m' q = childOf m2 q := child'
  refine ⟨m', ?_, ?_, ring', ?_, ?_, ?_, ?_, ?_, iff, ?_, ?_, ?_, ?_, ?_, ?_⟩
  · rw [cut_eq]
    simp only [bind, Except.bind, rx, hxpar, ne_eq, not_true_eq_false, if_false, e2, e', pure,
      Except.pure]
  · refine ⟨ring'.nodup, ?_, ?_, ?_, ?_, ?_, ?_, ?_, ?_⟩
    · intro q hq
      rw [par']
      by_cases e : q = x
      · rw [if_pos e]
      · rw [if_neg e, par2]
        refine F.rpar q ?_
        rcases List.mem_cons.1 hq with e' | hq
        · exact e' ▸ hrR
        · rcases List.mem_append.1 hq with hq | hq
          · exact (hmemR q).1 (List.mem_cons_of_mem _ hq)
          · simp at hq; exact absurd hq e
    · intro p q hq
      obtain ⟨h1, h2⟩ := sub p q hq
      rw [par', if_neg h2, par2]
      exact F.cpar p q h1
    · intro p q hq
      exact (iff p).2 (F.pin p q (sub p q hq).1)
    · intro p
      by_cases e : p = y
      · subst e
        rw [Function.update_same]
        refine ring2.frame (fun a ha => lr' a (fun e => hxrest (e ▸ ha))
          (hnotR a (List.mem_cons_of_mem _ ha)))
      · rw [Function.update_noteq e]
        refine (F.cring p).frame (fun a ha => ?_)
        have h1 : a ∉ x :: rest := fun e' => e (F.child_unique ha ((hmemy a).1 e'))
        have h2 : a ≠ x := fun e' => h1 (e' ▸ List.mem_cons_self _ _)
        have h3 : a ∉ r :: restR := fun e' => F.child_not_root ha ((hmemR a).1 e')
        have := lr' a h2 h3
        have := lr2 a h1
        constructor
        · rw [(lr' a h2 h3).1, (lr2 a h1).1]
        · rw [(lr' a h2 h3).2, (lr2 a h1).2]
    · intro p hp hcn
      rw [hcmd] at hcn
      by_cases e : p = y
      · subst e
        rw [Function.update_same]
        by_contra hne
        obtain ⟨c', hc', _⟩ := childs2 hne
        rw [hc'] at hcn
        simp at hcn
      · rw [Function.update_noteq e]
        rw [child2 p e] at hcn
        exact F.cnone p ((iff p).1 hp) hcn
    · intro p q hp hcs
      rw [hcmd] at hcs
      by_cases e : p = y
      · subst e
        rw [Function.update_same]
        by_cases hne : rest = []
        · rw [childn2 hne] at hcs; simp at hcs
        · obtain ⟨c', hc', hin⟩ := childs2 hne
          rw [hc'] at hcs
          simp at hcs
          exact hcs ▸ hin
      · rw [Function.update_noteq e]
        rw [child2 p e] at hcs
        exact F.csome p q ((iff p).1 hp) hcs
    · intro p hp
      rw [deg']
      by_cases e : p = y
      · subst e
        rw [Function.update_same, degy2]
      · rw [Function.update_noteq e, deg2 p e]
        exact F.cdeg p ((iff p).1 hp)
    · intro p q hq
      exact F.hgt p q (sub p q hq).1
  · rw [len', len2]
  · intro q; rw [live', live2]
  · intro q; rw [key', key2]
  · intro q; rw [par', par2]
  · intro q; rw [mark', mark2]
  · intro e; rw [hcmd]; exact childn2 e
  · intro e; obtain ⟨c', h1, h2⟩ := childs2 e; exact ⟨c', by rw [hcmd]; exact h1, h2⟩
  · intro q e; rw [hcmd]; exact child2 q e
  · rw [deg']; exact degy2
  · intro q e; rw [deg']; exact deg2 q e
  · intro q h1 h2
    have h3 : q ≠ x := fun e => h1 (e ▸ List.mem_cons_self _ _)
    constructor
    · rw [(lr' q h3 h2).1, (lr2 q h1).1]
    · rw [(lr' q h3 h2).2, (lr2 q h1).2]

theorem cut_spec {h : FibonacciHeap} {R : List Nat} {ch : Nat → List Nat} {ht : Nat → Nat}
    {r x y : Nat} (F : Forest h.mem R ch ht) (Rg : Ring h.mem R) (hroot : h.root = some r)
    (hrR : r ∈ R) (hx : x ∈ ch y) :
    ∃ m' R' rest, cut h x y = .ok { h with mem := m' } ∧ (ch y).Perm (x :: rest) ∧
      R'.Perm (R ++ [x]) ∧ Forest m' R' (Function.update ch y rest) ht ∧ Ring m' R' ∧
      m'.length = h.mem.length ∧ (∀ q, (look m' q).isSome = (look h.mem q).isSome) ∧
      (∀ q, keyOf m' q = keyOf h.mem q) ∧
      (∀ q, parentOf m' q = if q = x then some none else parentOf h.mem q) ∧
      (∀ q, markOf m' q = if q = x then some false else markOf h.mem q) ∧
      (∀ q, InF R' (Function.update ch y rest) q ↔ InF R ch q) := by
  obtain ⟨rest, hperm, hring⟩ := (F.cring y).rotate_to hx
  obtain ⟨restR, hpermR, hringR⟩ := Rg.rotate_to hrR
  obtain ⟨m', e, F', Rg', len, live, key, par, mark, iff, _⟩ :=
    cut_spec_of F hroot hperm hring hpermR hringR
  exact ⟨m', r :: (restR ++ [x]), rest, e, hperm, (hpermR.append_right [x]).symm, F', Rg', len,
    live, key, par, mark, iff⟩

theorem parCount_cut {m m' : Mem} {x y : Nat} (hlen : m'.length = m.length)
    (hx : parentOf m x = some (some y))
    (hp : ∀ q, parentOf m' q = if q = x then some none else parentOf m q) :
    parCount m' + 1 = parCount m := by
  unfold parCount
  rw [hlen]
  have hxl : x < m.length := by
    cases hq : look m x with
    | none => simp [parentOf, hq] at hx
    | some n => exact look_lt hq
  have h1 : List.countP (fun q => (parentOf m' q).join.isSome) (List.range m.length)
      = List.countP (fun q => if q = x then false else (parentOf m q).join.isSome)
          (List.range m.length) := by
    apply List.countP_congr
    intro q _
    rw [hp]
    by_cases e : q = x <;> simp [e]
  rw [h1]
  exact countP_remove_one _ x _ (List.nodup_range _) (List.mem_range.2 hxl) (by simp [hx])

theorem liveCount_congr {m m' : Mem} (hlen : m'.length = m.length)
    (hl : ∀ q, (look m' q).isSome = (look m q).isSome) : liveCount m' = liveCount m := by
  unfold liveCount
  rw [hlen]
  congr 1
  funext q
  exact hl q

theorem Forest.mem_child_of_parent {m : Mem} {R : List Nat} {ch : Nat → List Nat}
    {ht : Nat → Nat} (F : Forest m R ch ht) {y z : Nat} (hy : InF R ch y)
    (hp : parentOf m y = some (some z)) : y ∈ ch z := by
  rcases hy with hy | ⟨q, hq⟩
  · rw [F.rpar y hy] at hp; simp at hp
  · have := F.cpar q y hq
    rw [hp] at this
    simp at this
    exact this ▸ hq

theorem Forest.mem_root_of_parent {m : Mem} {R : List Nat} {ch : Nat → List Nat}
    {ht : Nat → Nat} (F : Forest m R ch ht) {y : Nat} (hy : InF R ch y)
    (hp : parentOf m y = some none) : y ∈ R := by
  rcases hy with hy | ⟨q, hq⟩
  · exact hy
  · have := F.cpar q y hq
    rw [hp] at this
    simp at this

theorem cascading_cut_spec : ∀ (fuel : Nat) (h : FibonacciHeap) (R : List Nat)
    (ch : Nat → List Nat) (ht : Nat → Nat) (r y : Nat),
    Forest h.mem R ch ht → Ring h.mem R → h.root = some r → r ∈ R → InF R ch y →
    parCount h.mem < fuel →
    ∃ m' R' ch', cascading_cut fuel h y = .ok { h with mem := m' } ∧
      Forest m' R' ch' ht ∧ Ring m' R' ∧ r ∈ R' ∧
      m'.length = h.mem.length ∧ (∀ q, (look m' q).isSome = (look h.mem q).isSome) ∧
      (∀ q, keyOf m' q = keyOf h.mem q) ∧
      (∀ q, parentOf m' q = parentOf h.mem q ∨ parentOf m' q = some none) ∧
      (∀ q, InF R' ch' q ↔ InF R ch q) ∧ NoNewMarkedRoot h.mem m' := by
  intro fuel
  induction fuel with
  | zero => intro h R ch ht r y _ _ _ _ _ hf; omega
  | succ f ih =>
    intro h R ch ht r y F Rg hroot hrR hy hf
    have hyl := F.live hy
    obtain ⟨ny, hny, ry⟩ := rd_some hyl
    cases hpar : ny.parent with
    | none =>
      refine ⟨h.mem, R, ch, ?_, F, Rg, hrR, rfl, fun _ => rfl, fun _ => rfl,
        fun _ => Or.inl rfl, fun _ => Iff.rfl, fun _ h1 h2 => ⟨h1, h2⟩⟩
      simp only [cascading_cut, bind, Except.bind, ry, hpar, pure, Except.pure]
    | some z =>
      have hpz : parentOf h.mem y = some (some z) := by simp [parentOf, hny, hpar]
      by_cases hmark : ny.mark = true
      · have hyz : y ∈ ch z := F.mem_child_of_parent hy hpz
        obtain ⟨m1, R1, rest, e1, hperm, hpermR, F1, Rg1, len1, live1, key1, par1, mark1, iff1⟩ :=
          cut_spec F Rg hroot hrR hyz
        have hr1 : r ∈ R1 := hpermR.mem_iff.2 (List.mem_append_left _ hrR)
        have hz1 : InF R1 (Function.update ch z rest) z := (iff1 z).2 (F.pin z y hyz)
        have hcnt := parCount_cut len1 hpz par1
        obtain ⟨m2, R2, ch2, e2, F2, Rg2, hr2, len2, live2, key2, par2, iff2, mr2⟩ :=
          ih { h with mem := m1 } R1 (Function.update ch z rest) ht r z F1 Rg1 hroot hr1 hz1
            (by show parCount m1 < f; omega)
        refine ⟨m2, R2, ch2, ?_, F2, Rg2, hr2, ?_, ?_, ?_, ?_, ?_, ?_⟩
        · simp only [cascading_cut, bind, Except.bind, ry, hpar, hmark, not_true_eq_false,
            if_false, e1]
          exact e2
        · rw [len2]; exact len1
        · intro q; rw [live2]; exact live1 q
        · intro q; rw [key2]; exact key1 q
        · intro q
          rcases par2 q with e | e
          · rw [e]
            show parentOf m1 q = _ ∨ parentOf m1 q = _
            rw [par1]
            by_cases eq : q = y
            · right; rw [if_pos eq]
            · left; rw [if_neg eq]
          · right; exact e
        · intro q; rw [iff2, iff1]
        · intro q h1 h2
          obtain ⟨h3, h4⟩ := mr2 q h1 h2
          have h3' : parentOf m1 q = some none := h3
          have h4' : markOf m1 q = some true := h4
          rw [mark1] at h4'
          rw [par1] at h3'
          by_cases eq : q = y
          · rw [if_pos eq] at h4'; simp at h4'
          · rw [if_neg eq] at h4' h3'; exact ⟨h3', h4'⟩
      · have hy1 : (look h.mem y).isSome := hyl
        have hmark' : ny.mark = false := by simpa using hmark
        refine ⟨put h.mem y (fun n => { n with mark := true }), R, ch, ?_, ?_, ?_, hrR, ?_, ?_,
          ?_, ?_, fun _ => Iff.rfl, ?_⟩
        · simp [cascading_cut, bind, Except.bind, ry, hpar, hmark', wr_ok _ hy1, pure,
            Except.pure]
        · exact F.frame_forest (fun q _ => by simp) (fun q _ => by simp) (fun q _ => by simp)
            (fun p c _ => by simp)
        · exact Rg.frame (fun a _ => by simp)
        · simp
        · intro q; simp
        · intro q; simp
        · intro q; left; simp
        · intro q h1 h2
          have h1' : parentOf h.mem q = some none := by simpa using h1
          refine ⟨h1', ?_⟩
          have hqy : q ≠ y := by
            intro eq
            rw [eq, hpz] at h1'
            simp at h1'
          simpa [hy1, hqy] using h2

theorem decrease_key_eq (h : FibonacciHeap) (x : Nat) (k : Int) :
    decrease_key h x k = (do
      if k > (← rd h.mem x).key then throw Err.keyGreater
      let m ← wr h.mem x (fun n => { n with key := k })
      let h ← decrease_key_cut { h with mem := m } x
      decrease_key_root h x) := by
  unfold decrease_key decrease_key_cut decrease_key_root
  simp only [bind_assoc]
  refine bind_congr (fun nx => ?_)
  split_ifs
  · rfl
  · simp only [pure_bind, bind_assoc]
    refine bind_congr (fun m => ?_)
    refine bind_congr (fun nx' => ?_)
    cases nx'.parent with
    | none => simp only [pure_bind]
    | some y =>
      simp only [bind_assoc]
      refine bind_congr (fun _ => ?_)
      refine bind_congr (fun _ => ?_)
      split_ifs <;> simp only [bind_assoc, pure_bind]

theorem parCount_le (m : Mem) : parCount m ≤ m.length := by
  unfold parCount
  exact (List.countP_le_length _).trans (by simp)

theorem decrease_key_cut_spec {h : FibonacciHeap} {R : List Nat} {ch : Nat → List Nat}
    {ht : Nat → Nat} {r x : Nat} {k : Int} (F : Forest h.mem R ch ht) (Rg : Ring h.mem R)
    (hroot : h.root = some r) (hrR : r ∈ R) (hx : InF R ch x) (hkx : keyOf h.mem x = some k) :
    ∃ m' R' ch', decrease_key_cut h x = .ok { h with mem := m' } ∧
      Forest m' R' ch' ht ∧ Ring m' R' ∧ r ∈ R' ∧
      m'.length = h.mem.length ∧ (∀ q, (look m' q).isSome = (look h.mem q).isSome) ∧
      (∀ q, keyOf m' q = keyOf h.mem q) ∧
      (∀ q, parentOf m' q = parentOf h.mem q ∨ parentOf m' q = some none) ∧
      (∀ q, InF R' ch' q ↔ InF R ch q) ∧
      (∀ p, parentOf m' x = some (some p) → ∃ kp, keyOf h.mem p = some kp ∧ kp ≤ k) ∧
      NoNewMarkedRoot h.mem m' := by
  have hxl := F.live hx
  obtain ⟨nx, hnx, rx⟩ := rd_some hxl
  have hnk : nx.key = k := by simpa [keyOf, hnx] using hkx
  cases hpar : nx.parent with
  | none =>
    refine ⟨h.mem, R, ch, ?_, F, Rg, hrR, rfl, fun _ => rfl, fun _ => rfl,
      fun _ => Or.inl rfl, fun _ => Iff.rfl, ?_, fun _ h1 h2 => ⟨h1, h2⟩⟩
    · simp only [decrease_key_cut, bind, Except.bind, rx, hpar, pure, Except.pure]
    · intro p hp
      simp [parentOf, hnx, hpar] at hp
  | some y =>
    have hpy : parentOf h.mem x = some (some y) := by simp [parentOf, hnx, hpar]
    have hxy : x ∈ ch y := F.mem_child_of_parent hx hpy
    have hyF : InF R ch y := F.pin y x hxy
    obtain ⟨ny, hny, ry⟩ := rd_some (F.live hyF)
    by_cases hlt : k < ny.key
    · obtain ⟨m1, R1, rest, e1, hperm, hpermR, F1, Rg1, len1, live1, key1, par1, mark1, iff1⟩ :=
        cut_spec F Rg hroot hrR hxy
      have hr1 : r ∈ R1 := hpermR.mem_iff.2 (List.mem_append_left _ hrR)
      have hy1 : InF R1 (Function.update ch y rest) y := (iff1 y).2 hyF
      obtain ⟨m2, R2, ch2, e2, F2, Rg2, hr2, len2, live2, key2, par2, iff2, mr2⟩ :=
        cascading_cut_spec (m1.length + 1) { h with mem := m1 } R1 (Function.update ch y rest)
          ht r y F1 Rg1 hroot hr1 hy1 (Nat.lt_succ_of_le (parCount_le m1))
      refine ⟨m2, R2, ch2, ?_, F2, Rg2, hr2, ?_, ?_, ?_, ?_, ?_, ?_, ?_⟩
      · simp only [decrease_key_cut, bind, Except.bind, rx, hpar, ry, hnk, hlt, if_true, e1]
        exact e2
      · rw [len2]; exact len1
      · intro q; rw [live2]; exact live1 q
      · intro q; rw [key2]; exact key1 q
      · intro q
        rcases par2 q with e | e
        · rw [e]
          show parentOf m1 q = _ ∨ parentOf m1 q = _
          rw [par1]
          by_cases eq : q = x
          · right; rw [if_pos eq]
          · left; rw [if_neg eq]
        · right; exact e
      · intro q; rw [iff2, iff1]
      · intro p hp
        exfalso
        rcases par2 x with e | e
        · rw [e] at hp
          have : parentOf m1 x = some none := by rw [par1, if_pos rfl]
          rw [this] at hp
          simp at hp
        · rw [e] at hp; simp at hp
      · intro q h1 h2
        obtain ⟨h3, h4⟩ := mr2 q h1 h2
        have h3' : parentOf m1 q = some none := h3
        have h4' : markOf m1 q = some true := h4
        rw [mark1] at h4'
        rw [par1] at h3'
        by_cases eq : q = x
        · rw [if_pos eq] at h4'; simp at h4'
        · rw [if_neg eq] at h4' h3'; exact ⟨h3', h4'⟩
    · refine ⟨h.mem, R, ch, ?_, F, Rg, hrR, rfl, fun _ => rfl, fun _ => rfl,
        fun _ => Or.inl rfl, fun _ => Iff.rfl, ?_, fun _ h1 h2 => ⟨h1, h2⟩⟩
      · simp only [decrease_key_cut, bind, Except.bind, rx, hpar, ry, hnk, hlt, if_false, pure,
          Except.pure]
      · intro p hp
        rw [hpy] at hp
        simp at hp
        subst hp
        exact ⟨ny.key, by simp [keyOf, hny], not_lt.1 hlt⟩

theorem Inv.root_some {h : FibonacciHeap} {R : List Nat} {ch : Nat → List Nat} {ht : Nat → Nat}
    (I : Inv h R ch ht) {x : Nat} (hx : (look h.mem x).isSome) : ∃ r, h.root = some r := by
  cases hr : h.root with
  | some r => exact ⟨r, rfl⟩
  | none =>
    have hR := I.rootNone hr
    have F := I.forest
    rw [hR] at F
    exact absurd (hR ▸ I.complete x hx) (F.empty_of_no_roots x)

theorem decrease_key_inv {h : FibonacciHeap} {R : List Nat} {ch : Nat → List Nat}
    {ht : Nat → Nat} (I : Inv h R ch ht) {x : Nat} {kx : Int}
    (hx : keyOf h.mem x = some kx) (k : Int) (hk : k ≤ kx) :
    ∃ h' R' ch', decrease_key h x k = .ok h' ∧ Inv h' R' ch' ht ∧ h'.N = h.N ∧
      h'.mem.length = h.mem.length ∧
      (∀ q, (look h'.mem q).isSome = (look h.mem q).isSome) ∧
      (∀ q, keyOf h'.mem q = if q = x then some k else keyOf h.mem q) ∧
      (∀ q, InF R' ch' q ↔ InF R ch q) ∧ NoNewMarkedRoot h.mem h'.mem := by
  have hxl : (look h.mem x).isSome := isSome_of_get hx
  obtain ⟨nx, hnx, rx⟩ := rd_some hxl
  have hnk : nx.key = kx := by simpa [keyOf, hnx] using hx
  obtain ⟨r, hroot⟩ := I.root_some hxl
  have hrR := I.rootIn r hroot
  have hxF := I.complete x hxl
  -- the store after `x->key = k`
  have F1 : Forest (put h.mem x (fun n => { n with key := k })) R ch ht :=
    I.forest.frame_forest (fun q _ => by simp) (fun q _ => by simp) (fun q _ => by simp)
      (fun p c _ => by simp)
  have Rg1 : Ring (put h.mem x (fun n => { n with key := k })) R :=
    I.ring.frame (fun a _ => by simp)
  have hk1 : ∀ q, keyOf (put h.mem x (fun n => { n with key := k })) q
      = if q = x then some k else keyOf h.mem q := fun q => by simp [hxl]
  obtain ⟨m2, R2, ch2, e2, F2, Rg2, hr2, len2, live2, key2, par2, iff2, hpx, mr2⟩ :=
    decrease_key_cut_spec (h := { h with mem := put h.mem x (fun n => { n with key := k }) })
      F1 Rg1 hroot hrR hxF (by rw [hk1, if_pos rfl])
  have hmr : NoNewMarkedRoot h.mem m2 := by
    intro q h1 h2
    obtain ⟨h3, h4⟩ := mr2 q h1 h2
    exact ⟨by simpa using h3, by simpa using h4⟩
  have hkey : ∀ q, keyOf m2 q = if q = x then some k else keyOf h.mem q :=
    fun q => by rw [key2]; exact hk1 q
  have hlive : ∀ q, (look m2 q).isSome = (look h.mem q).isSome :=
    fun q => by rw [live2]; simp
  have hpar : ∀ q, parentOf m2 q = parentOf h.mem q ∨ parentOf m2 q = some none := by
    intro q
    rcases par2 q with e | e
    · left; rw [e]; simp
    · right; exact e
  obtain ⟨kr, hkr⟩ : ∃ kr, keyOf h.mem r = some kr := by
    obtain ⟨nr, hnr, _⟩ := rd_some (I.forest.live (Or.inl hrR))
    exact ⟨nr.key, by simp [keyOf, hnr]⟩
  have hmin : ∀ p kp, keyOf h.mem p = some kp → kr ≤ kp := by
    intro p kp hp
    obtain ⟨kr', h1, h2⟩ := I.min r hroot p kp hp
    rw [hkr] at h1
    simp at h1
    omega
  obtain ⟨n2x, hn2x, r2x⟩ := rd_some (show (look m2 x).isSome by rw [hlive]; exact hxl)
  obtain ⟨n2r, hn2r, r2r⟩ := rd_some
    (show (look m2 r).isSome by rw [hlive]; exact I.forest.live (Or.inl hrR))
  have hn2xk : n2x.key = k := by
    have := hkey x
    simpa [keyOf, hn2x] using this
  have hn2rk : n2r.key = if r = x then k else kr := by
    have := hkey r
    rw [hkr] at this
    by_cases e : r = x
    · rw [if_pos e] at this ⊢
      simpa [keyOf, hn2r] using this
    · rw [if_neg e] at this ⊢
      simpa [keyOf, hn2r] using this
  have hlen : m2.length = h.mem.length := by rw [len2]; simp
  have hord : HeapOrder m2 := by
    intro c p hc
    have hc0 : parentOf h.mem c = some (some p) := by
      rcases hpar c with e | e
      · rw [← e]; exact hc
      · rw [e] at hc; simp at hc
    obtain ⟨kp, kc, h1, h2, h3⟩ := I.order c p hc0
    by_cases ec : c = x
    · subst ec
      obtain ⟨kp', h4, h5⟩ := hpx p hc
      have hpne : p ≠ c := by
        intro e
        have := I.forest.mem_child_of_parent hxF hc0
        rw [← e] at this
        exact I.forest.not_self_child p this
      rw [hk1, if_neg hpne] at h4
      exact ⟨kp', k, by rw [hkey, if_neg hpne]; exact h4, by rw [hkey, if_pos rfl], h5⟩
    · by_cases ep : p = x
      · subst ep
        rw [hx] at h1
        simp at h1
        exact ⟨k, kc, by rw [hkey, if_pos rfl], by rw [hkey, if_neg ec]; exact h2, by omega⟩
      · exact ⟨kp, kc, by rw [hkey, if_neg ep]; exact h1, by rw [hkey, if_neg ec]; exact h2, h3⟩
  have hcount : h.N = (liveCount m2 : Int) := by
    rw [liveCount_congr hlen hlive]; exact I.count
  have hcomp : ∀ p, (look m2 p).isSome → InF R2 ch2 p := by
    intro p hp
    rw [hlive] at hp
    exact (iff2 p).2 (I.complete p hp)
  have hdec : decrease_key h x k = decrease_key_root { h with mem := m2 } x := by
    rw [decrease_key_eq]
    have : ¬ k > nx.key := by rw [hnk]; omega
    simp only [bind, Except.bind, rx, this, if_false, pure, Except.pure, wr_ok _ hxl]
    rw [e2]
  by_cases hlt : k < n2r.key
  · have hrx : r ≠ x := by
      intro e
      rw [if_pos e] at hn2rk
      omega
    rw [if_neg hrx] at hn2rk
    have hxR2 : x ∈ R2 := by
      refine F2.mem_root_of_parent ((iff2 x).2 hxF) ?_
      rcases hpar x with e | e
      · cases hp0 : parentOf m2 x with
        | none =>
          have := hlive x
          simp [parentOf] at hp0
          rw [hp0] at this
          rw [← this] at hxl
          simp at hxl
        | some o =>
          cases o with
          | none => rfl
          | some p =>
            exfalso
            obtain ⟨kp, h4, h5⟩ := hpx p hp0
            have hpne : p ≠ x := by
              intro e'
              rw [e] at hp0
              have := I.forest.mem_child_of_parent hxF hp0
              rw [e'] at this
              exact I.forest.not_self_child x this
            rw [hk1, if_neg hpne] at h4
            have := hmin p kp h4
            omega
      · exact e
    refine ⟨{ N := h.N, root := some x, mem := m2 }, R2, ch2, ?_, ?_, rfl, hlen, hlive, hkey,
      iff2, hmr⟩
    · rw [hdec]
      simp only [decrease_key_root, hroot, deref, bind, Except.bind, r2x, r2r, hn2xk, hlt,
        if_true, pure, Except.pure]
    · refine ⟨F2, Rg2, ?_, ?_, hcomp, hcount, hord, ?_⟩
      · intro r' hr'; simp at hr'; exact hr' ▸ hxR2
      · intro hr'; simp at hr'
      · intro r' hr' p kp hp
        simp at hr'
        subst hr'
        refine ⟨k, by rw [hkey, if_pos rfl], ?_⟩
        rw [hkey] at hp
        by_cases e : p = x
        · rw [if_pos e] at hp; simp at hp; omega
        · rw [if_neg e] at hp
          have := hmin p kp hp
          omega
  · refine ⟨{ N := h.N, root := some r, mem := m2 }, R2, ch2, ?_, ?_, rfl, hlen, hlive, hkey,
      iff2, hmr⟩
    · rw [hdec]
      simp only [decrease_key_root, hroot, deref, bind, Except.bind, r2x, r2r, hn2xk, hlt,
        if_false, pure, Except.pure]
    · refine ⟨F2, Rg2, ?_, ?_, hcomp, hcount, hord, ?_⟩
      · intro r' hr'; simp at hr'; exact hr' ▸ hr2
      · intro hr'; simp at hr'
      · intro r' hr' p kp hp
        simp at hr'
        subst hr'
        refine ⟨n2r.key, by simp [keyOf, hn2r], ?_⟩
        rw [hkey] at hp
        by_cases e : p = x
        · rw [if_pos e] at hp; simp at hp; omega
        · rw [if_neg e] at hp
          have := hmin p kp hp
          rw [hn2rk]
          by_cases e' : r = x
          · rw [if_pos e']
            rw [e', hx] at hkr
            simp at hkr
            omega
          · rw [if_neg e']; exact this

/-! ## The loop that moves the children of a node to its ring -/

/-- One step shared by the loops that move a node into a ring:
`list_insert(c, z->left, z); c->parent = nullptr`. -/
theorem ring_push {m : Mem} {z c : Nat} {ring : List Nat} (Rg : Ring m (z :: ring))
    (hc : c ∉ z :: ring) (hcl : (look m c).isSome) :
    ∃ nz m1, rd m z = .ok nz ∧ list_insert m c nz.left z = .ok m1 ∧
      wr m1 c (fun n => { n with parent := none })
        = .ok (put m1 c (fun n => { n with parent := none })) ∧
      Ring (put m1 c (fun n => { n with parent := none })) (z :: (ring ++ [c])) ∧
      (put m1 c (fun n => { n with parent := none })).length = m.length ∧
      (∀ q, (look (put m1 c (fun n => { n with parent := none })) q).isSome
        = (look m q).isSome) ∧
      (∀ q, keyOf (put m1 c (fun n => { n with parent := none })) q = keyOf m q) ∧
      (∀ q, childOf (put m1 c (fun n => { n with parent := none })) q = childOf m q) ∧
      (∀ q, degreeOf (put m1 c (fun n => { n with parent := none })) q = degreeOf m q) ∧
      (∀ q, markOf (put m1 c (fun n => { n with parent := none })) q = markOf m q) ∧
      (∀ q, parentOf (put m1 c (fun n => { n with parent := none })) q
        = if q = c then some none else parentOf m q) ∧
      (∀ q, q ≠ c → q ∉ z :: ring →
        rightOf (put m1 c (fun n => { n with parent := none })) q = rightOf m q ∧
        leftOf (put m1 c (fun n => { n with parent := none })) q = leftOf m q) := by
  have hzl := Rg.live_ring z (List.mem_cons_self _ _)
  obtain ⟨nz, hnz, rz⟩ := rd_some hzl
  have hleft : nz.left = lastOf z ring := by
    have := Rg.last_link.2
    simpa [leftOf, hnz] using this
  have hlmem := lastOf_mem ring z
  have hll := Rg.live_ring _ hlmem
  obtain ⟨m1, e1, u1⟩ := list_insert_ok hcl hll hzl
  have gR := liG_right u1 hcl hll
  have gL := liG_left u1 hcl hzl
  have gC := liG_core u1
  have hc1 : (look m1 c).isSome := by rw [u1.isSome_eq]; exact hcl
  refine ⟨nz, m1, rz, by rw [hleft]; exact e1, wr_ok _ hc1, ?_, ?_, ?_, ?_, ?_, ?_, ?_, ?_, ?_⟩
  · refine Rg.append hc ?_ ?_
    · intro q _; simp [gR]
    · intro q _; simp [gL]
  · simp [u1.1]
  · intro q; simp [u1.isSome_eq]
  · intro q; simp [(gC q).2.1]
  · intro q; simp [(gC q).2.2.1]
  · intro q; simp [(gC q).2.2.2.1]
  · intro q; simp [(gC q).2.2.2.2]
  · intro q; simp [hc1, (gC q).1]
  · intro q hqx hq
    have h1 : q ≠ lastOf z ring := fun e => hq (e ▸ hlmem)
    have h2 : q ≠ z := fun e => hq (e ▸ List.mem_cons_self _ _)
    simp [gR, gL, h1, h2, hqx]

theorem splice_loop_spec (z c1 : Nat) : ∀ (todo : List Nat) (fuel : Nat) (m : Mem) (c _n : Nat)
    (ring : List Nat),
    Ring m (z :: ring) → (c :: todo).Nodup → (∀ q ∈ c :: todo, q ∉ z :: ring) →
    (∀ q ∈ c :: todo, (look m q).isSome) → (look m c1).isSome →
    childOf m z = some (some c1) →
    List.Chain (fun u v => rightOf m u = some v) c (todo ++ [c1]) → c1 ∉ todo →
    todo.length < fuel →
    ∃ m', splice_loop z fuel m c (todo.headD c1) = .ok m' ∧
      Ring m' (z :: (ring ++ c :: todo)) ∧ m'.length = m.length ∧
      (∀ q, (look m' q).isSome = (look m q).isSome) ∧
      (∀ q, keyOf m' q = keyOf m q) ∧ (∀ q, childOf m' q = childOf m q) ∧
      (∀ q, degreeOf m' q = degreeOf m q) ∧ (∀ q, markOf m' q = markOf m q) ∧
      (∀ q, parentOf m' q = if q ∈ c :: todo then some none else parentOf m q) ∧
      (∀ q, q ∉ c :: todo → q ∉ z :: ring →
        rightOf m' q = rightOf m q ∧ leftOf m' q = leftOf m q) := by
  intro todo
  induction todo with
  | nil =>
    intro fuel m c n ring Rg hnd hdisj hlive hc1 hzc hchain hnot hf
    obtain ⟨f, rfl⟩ : ∃ f, fuel = f + 1 := ⟨fuel - 1, by simp at hf; omega⟩
    have hc := hdisj c (List.mem_cons_self _ _)
    obtain ⟨nz, m1, rz, e1, e2, Rg2, len2, live2, key2, child2, deg2, mark2, par2, lr2⟩ :=
      ring_push Rg hc (hlive c (List.mem_cons_self _ _))
    obtain ⟨n1, hn1, r1⟩ := rd_some (show (look (put m1 c
      (fun n => { n with parent := none })) c1).isSome by rw [live2]; exact hc1)
    obtain ⟨nz2, hnz2, rz2⟩ := rd_some (show (look (put m1 c
      (fun n => { n with parent := none })) z).isSome by
        rw [live2]; exact Rg.live_ring z (List.mem_cons_self _ _))
    have hzc2 : nz2.child = some c1 := by
      have := child2 z
      rw [hzc] at this
      simpa [childOf, hnz2] using this
    refine ⟨_, ?_, Rg2, len2, live2, key2, child2, deg2, mark2, ?_, ?_⟩
    · simp only [List.headD, splice_loop, bind, Except.bind, rz, e1, e2, r1, rz2, hzc2, ne_eq,
        not_true_eq_false, if_false, pure, Except.pure]
    · intro q; rw [par2]; simp
    · intro q hq hq'
      exact lr2 q (by simpa using hq) hq'
  | cons t todo ih =>
    intro fuel m c n ring Rg hnd hdisj hlive hc1 hzc hchain hnot hf
    obtain ⟨f, rfl⟩ : ∃ f, fuel = f + 1 := ⟨fuel - 1, by simp at hf; omega⟩
    have hc := hdisj c (List.mem_cons_self _ _)
    obtain ⟨nz, m1, rz, e1, e2, Rg2, len2, live2, key2, child2, deg2, mark2, par2, lr2⟩ :=
      ring_push Rg hc (hlive c (List.mem_cons_self _ _))
    have hnd' := List.nodup_cons.1 hnd
    have htc : t ≠ c := fun e => hnd'.1 (e ▸ List.mem_cons_self _ _)
    have htr : t ∉ z :: ring := hdisj t (List.mem_cons_of_mem _ (List.mem_cons_self _ _))
    have htl := hlive t (List.mem_cons_of_mem _ (List.mem_cons_self _ _))
    obtain ⟨nt, hnt, rt⟩ := rd_some (show (look (put m1 c
      (fun n => { n with parent := none })) t).isSome by rw [live2]; exact htl)
    obtain ⟨nz2, hnz2, rz2⟩ := rd_some (show (look (put m1 c
      (fun n => { n with parent := none })) z).isSome by
        rw [live2]; exact Rg.live_ring z (List.mem_cons_self _ _))
    have hzc2 : nz2.child = some c1 := by
      have := child2 z
      rw [hzc] at this
      simpa [childOf, hnz2] using this
    have htc1 : t ≠ c1 := fun e => hnot (e ▸ List.mem_cons_self _ _)
    rw [List.cons_append, List.chain_cons] at hchain
    -- the chain of `right` pointers of the remaining children is untouched
    have hchain2 : List.Chain (fun u v => rightOf (put m1 c
        (fun n => { n with parent := none })) u = some v) t (todo ++ [c1]) := by
      have hn2 : (t :: todo).Nodup := hnd'.2
      have := hchain.2
      rw [chain_snoc] at this ⊢
      have key : ∀ u, u ∈ t :: todo → rightOf (put m1 c
          (fun n => { n with parent := none })) u = rightOf m u := by
        intro u hu
        have huc : u ≠ c := fun e => hnd'.1 (e ▸ hu)
        exact (lr2 u huc (hdisj u (List.mem_cons_of_mem _ hu))).1
      refine ⟨chain_frame hn2 this.1 (fun u v hu _ _ huv => by rw [key u hu]; exact huv), ?_⟩
      rw [key _ (lastOf_mem todo t)]
      exact this.2
    have hnt0 : rightOf (put m1 c (fun n => { n with parent := none })) t = some nt.right :=
      get_of_look Node.right hnt
    have hnt' : nt.right = todo.headD c1 := by
      have := hchain2
      cases todo with
      | nil =>
        simp only [List.nil_append, List.chain_cons, List.Chain.nil, and_true] at this
        rw [hnt0] at this
        simpa using this
      | cons t' todo' =>
        rw [List.cons_append, List.chain_cons] at this
        have := this.1
        rw [hnt0] at this
        simpa using this
    have hring2 : Ring (put m1 c (fun n => { n with parent := none }))
        (z :: ((ring ++ [c]) ++ [])) := by simpa using Rg2
    obtain ⟨m', e', Rg', len', live', key', child', deg', mark', par', lr'⟩ :=
      ih f (put m1 c (fun n => { n with parent := none })) t nt.right (ring ++ [c]) Rg2 hnd'.2
        (by
          intro q hq hq'
          rcases List.mem_cons.1 hq' with e | hq'
          · exact hdisj q (List.mem_cons_of_mem _ hq) (e ▸ List.mem_cons_self _ _)
          · rcases List.mem_append.1 hq' with hq' | hq'
            · exact hdisj q (List.mem_cons_of_mem _ hq) (List.mem_cons_of_mem _ hq')
            · simp at hq'
              exact hnd'.1 (hq' ▸ hq))
        (fun q hq => by rw [live2]; exact hlive q (List.mem_cons_of_mem _ hq))
        (by rw [live2]; exact hc1)
        (by rw [child2]; exact hzc) hchain2
        (fun e => hnot (List.mem_cons_of_mem _ e))
        (by simp at hf; omega)
    refine ⟨m', ?_, ?_, ?_, ?_, ?_, ?_, ?_, ?_, ?_, ?_⟩
    · simp only [List.headD, splice_loop, bind, Except.bind, rz, e1, e2, rt, rz2, hzc2, ne_eq,
        Option.some.injEq, htc1, not_false_eq_true, if_true]
      rw [hnt']
      exact e'
    · simpa using Rg'
    · rw [len', len2]
    · intro q; rw [live', live2]
    · intro q; rw [key', key2]
    · intro q; rw [child', child2]
    · intro q; rw [deg', deg2]
    · intro q; rw [mark', mark2]
    · intro q
      rw [par', par2]
      by_cases h1 : q ∈ t :: todo
      · rw [if_pos h1, if_pos (List.mem_cons_of_mem _ h1)]
      · rw [if_neg h1]
        by_cases h2 : q = c
        · rw [if_pos h2, if_pos (by rw [h2]; exact List.mem_cons_self _ _)]
        · rw [if_neg h2, if_neg]
          intro h3
          rcases List.mem_cons.1 h3 with e | e
          · exact h2 e
          · exact h1 e
    · intro q hq hq'
      have hqc : q ≠ c := fun e => hq (e ▸ List.mem_cons_self _ _)
      have hqt : q ∉ t :: todo := fun e => hq (List.mem_cons_of_mem _ e)
      have h1 := lr' q hqt (by
        intro e
        rcases List.mem_cons.1 e with e | e
        · exact hq' (e ▸ List.mem_cons_self _ _)
        · rcases List.mem_append.1 e with e | e
          · exact hq' (List.mem_cons_of_mem _ e)
          · simp at e; exact hqc e)
      have h2 := lr2 q hqc hq'
      exact ⟨h1.1.trans h2.1, h1.2.trans h2.2⟩

/-! ## `heap_link` -/

theorem heap_link_eq (h : FibonacciHeap) (x y : Nat) (hr : h.root ≠ none) :
    heap_link h (some x) (some y) = (do
      let p := if (← rd h.mem x).key > (← rd h.mem y).key then (y, x) else (x, y)
      link_body h p.1 p.2) := by
  unfold heap_link link_body link_attach
  simp only [hr, if_false, bind_assoc, pure_bind]
  refine bind_congr (fun nx => ?_)
  refine bind_congr (fun ny => ?_)
  split_ifs <;> simp only [bind_assoc, pure_bind] <;>
    (refine bind_congr (fun _ => ?_); refine bind_congr (fun _ => ?_);
     refine bind_congr (fun _ => ?_); refine bind_congr (fun _ => ?_);
     refine bind_congr (fun n => ?_); cases n.child <;> simp only [bind_assoc, pure_bind])

theorem Ring.rootLocal {m : Mem} {L : List Nat} (h : Ring m L) : RootLocal m L := by
  intro r hr
  obtain ⟨rest, hperm, hring⟩ := h.rotate_to hr
  have hlast := hring.last_link
  have hmem : ∀ q, q ∈ r :: rest → q ∈ L := fun q hq => hperm.mem_iff.2 hq
  refine ⟨lastOf r rest, hmem _ (lastOf_mem rest r), ?_⟩
  cases rest with
  | nil =>
    exact ⟨r, hr, hlast, hlast⟩
  | cons b rest =>
    have := (ring_cons_iff.1 hring).2.1
    rw [List.chain_cons] at this
    exact ⟨b, hmem b (by simp), hlast, this.1⟩

theorem link_attach_spec {m : Mem} {w l : Nat} {cw : List Nat} (Rg : Ring m cw)
    (hwl : (look m w).isSome) (hll : (look m l).isSome) (_hne : w ≠ l) (hl : l ∉ cw) (hw : w ∉ cw)
    (hcn : childOf m w = some none → cw = [])
    (hcs : ∀ c, childOf m w = some (some c) → c ∈ cw) :
    ∃ m' cw', link_attach m w l = .ok m' ∧ Ring m' cw' ∧ cw'.Perm (l :: cw) ∧
      m'.length = m.length ∧ (∀ q, (look m' q).isSome = (look m q).isSome) ∧
      (∀ q, keyOf m' q = keyOf m q) ∧ (∀ q, parentOf m' q = parentOf m q) ∧
      (∀ q, degreeOf m' q = degreeOf m q) ∧ (∀ q, markOf m' q = markOf m q) ∧
      (∀ q, childOf m' q = if q = w then some (some l) else childOf m q) ∧
      (∀ q, q ≠ l → q ∉ cw → rightOf m' q = rightOf m q ∧ leftOf m' q = leftOf m q) := by
  obtain ⟨nw, hnw, rw'⟩ := rd_some hwl
  cases hc : nw.child with
  | none =>
    have : cw = [] := hcn (by simp [childOf, hnw, hc])
    subst this
    refine ⟨put (put (put m w (fun n => { n with child := some l })) l
      (fun n => { n with left := l })) l (fun n => { n with right := l }), [l], ?_, ?_,
      List.Perm.refl _, ?_, ?_, ?_, ?_, ?_, ?_, ?_, ?_⟩
    · have h1 : (look (put m w (fun n => { n with child := some l })) l).isSome := by
        simp [hll]
      have h2 : (look (put (put m w (fun n => { n with child := some l })) l
          (fun n => { n with left := l })) l).isSome := by simp [hll]
      simp only [link_attach, bind, Except.bind, rw', hc, wr_ok _ hwl, wr_ok _ h1, wr_ok _ h2]
    · exact Ring.singleton (by simp [hll]) (by simp [hll])
    · simp
    · intro q; simp
    · intro q; simp
    · intro q; simp
    · intro q; simp
    · intro q; simp
    · intro q; simp [hwl]
    · intro q hq _; simp [hll, hq]
  | some c =>
    have hcin : c ∈ cw := hcs c (by simp [childOf, hnw, hc])
    obtain ⟨rest, hperm, hring⟩ := Rg.rotate_to hcin
    have hcl := hring.live_ring c (List.mem_cons_self _ _)
    obtain ⟨nc, hnc, rc⟩ := rd_some hcl
    have hleft : nc.left = lastOf c rest := by
      have := hring.last_link.2
      simpa [leftOf, hnc] using this
    have hlmem := lastOf_mem rest c
    have hlast := hring.live_ring _ hlmem
    have hl' : l ∉ c :: rest := fun e => hl (hperm.mem_iff.2 e)
    obtain ⟨m1, e1, u1⟩ := list_insert_ok hll hlast hcl
    have gR := liG_right u1 hll hlast
    have gL := liG_left u1 hll hcl
    have gC := liG_core u1
    have hw1 : (look m1 w).isSome := by rw [u1.isSome_eq]; exact hwl
    refine ⟨put m1 w (fun n => { n with child := some l }), c :: (rest ++ [l]), ?_, ?_, ?_, ?_,
      ?_, ?_, ?_, ?_, ?_, ?_, ?_⟩
    · simp only [link_attach, bind, Except.bind, rw', hc, rc, hleft, e1, wr_ok _ hw1]
    · refine hring.append hl' ?_ ?_
      · intro q _; simp [gR]
      · intro q _; simp [gL]
    · have : (c :: (rest ++ [l])).Perm (l :: (c :: rest)) := by
        rw [← List.cons_append]
        exact List.perm_append_comm
      exact this.trans (List.Perm.cons _ hperm.symm)
    · simp [u1.1]
    · intro q; simp [u1.isSome_eq]
    · intro q; simp [(gC q).2.1]
    · intro q; simp [(gC q).1]
    · intro q; simp [(gC q).2.2.2.1]
    · intro q; simp [(gC q).2.2.2.2]
    · intro q; simp [hw1, (gC q).2.2.1]
    · intro q hq hq'
      have h1 : q ≠ lastOf c rest := fun e => hq' (hperm.mem_iff.2 (e ▸ hlmem))
      have h2 : q ≠ c := fun e => hq' (e ▸ hcin)
      simp [gR, gL, h1, h2, hq]

theorem RootLocal.unlink {m m' : Mem} {R : List Nat} {l a b : Nat} (RL : RootLocal m R)
    (hn : R.Nodup) (ha : a ∈ R) (hb : b ∈ R) (hal : Link m a l) (hlb : Link m l b)
    (hr : ∀ r ∈ R, r ≠ l → rightOf m' r = if r = a then some b else rightOf m r)
    (hlf : ∀ r ∈ R, r ≠ l → leftOf m' r = if r = b then some a else leftOf m r) :
    RootLocal m' (R.erase l) := by
  intro r hr'
  have hrm := (hn.mem_erase_iff.1 hr')
  obtain ⟨a', ha', b', hb', h1, h2⟩ := RL r hrm.2
  have hra : rightOf m a = some l := hal.1
  have hlb' : leftOf m b = some l := hlb.2
  have hla : leftOf m l = some a := hal.2
  have hrl : rightOf m l = some b := hlb.1
  have inj : ∀ {o : Option Nat} {u v : Nat}, o = some u → o = some v → u = v :=
    fun e1 e2 => Option.some.inj (e1.symm.trans e2)
  have hrne := hrm.1
  -- the new left neighbour
  have left_ok : ∃ p ∈ R.erase l, Link m' p r := by
    by_cases e : a' = l
    · subst e
      have hrb : r = b := inj h1.1 hrl
      have hal' : a ≠ a' := by
        intro e'
        subst e'
        exact hrne ((inj h1.1 hra))
      refine ⟨a, hn.mem_erase_iff.2 ⟨hal', ha⟩, ?_, ?_⟩
      · rw [hr a ha hal', if_pos rfl, hrb]
      · rw [hlf r hrm.2 hrne, if_pos hrb]
    · have hne : a' ≠ a := by
        intro e'
        subst e'
        exact hrne (inj h1.1 hra)
      have hrb : r ≠ b := by
        intro e'
        subst e'
        exact e (inj h1.2 hlb')
      refine ⟨a', hn.mem_erase_iff.2 ⟨e, ha'⟩, ?_, ?_⟩
      · rw [hr a' ha' e, if_neg hne]; exact h1.1
      · rw [hlf r hrm.2 hrne, if_neg hrb]; exact h1.2
  have right_ok : ∃ p ∈ R.erase l, Link m' r p := by
    by_cases e : b' = l
    · subst e
      have hra' : r = a := inj h2.2 hla
      have hbl : b ≠ b' := by
        intro e'
        subst e'
        exact hrne (inj h2.2 hlb')
      refine ⟨b, hn.mem_erase_iff.2 ⟨hbl, hb⟩, ?_, ?_⟩
      · rw [hr r hrm.2 hrne, if_pos hra']
      · rw [hlf b hb hbl, if_pos rfl, hra']
    · have hne : b' ≠ b := by
        intro e'
        subst e'
        exact hrne (inj h2.2 hlb')
      have hra' : r ≠ a := by
        intro e'
        subst e'
        exact e (inj h2.1 hra)
      refine ⟨b', hn.mem_erase_iff.2 ⟨e, hb'⟩, ?_, ?_⟩
      · rw [hr r hrm.2 hrne, if_neg hra']; exact h2.1
      · rw [hlf b' hb' e, if_neg hne]; exact h2.2
  obtain ⟨p, hp, hp'⟩ := left_ok
  obtain ⟨q, hq, hq'⟩ := right_ok
  exact ⟨p, hp, q, hq, hp', hq'⟩

theorem link_body_spec {h : FibonacciHeap} {R : List Nat} {ch : Nat → List Nat} {ht : Nat → Nat}
    {w l : Nat} (F : Forest h.mem R ch ht) (RL : RootLocal h.mem R) (hw : w ∈ R) (hl : l ∈ R)
    (hwl : w ≠ l) :
    ∃ m' cw, link_body h w l = .ok (w, { h with mem := m' }) ∧ cw.Perm (l :: ch w) ∧
      Forest m' (R.erase l) (Function.update ch w cw)
        (Function.update ht w (max (ht w) (ht l + 1))) ∧
      RootLocal m' (R.erase l) ∧
      m'.length = h.mem.length ∧ (∀ q, (look m' q).isSome = (look h.mem q).isSome) ∧
      (∀ q, keyOf m' q = keyOf h.mem q) ∧
      (∀ q, parentOf m' q = if q = l then some (some w) else parentOf h.mem q) ∧
      (∀ q, degreeOf m' q = if q = w then (degreeOf h.mem w).map (fun d => d + 1)
        else degreeOf h.mem q) ∧
      (∀ q, InF (R.erase l) (Function.update ch w cw) q ↔ InF R ch q) := by
  have hlF : InF R ch l := Or.inl hl
  have hwF : InF R ch w := Or.inl hw
  have hll := F.live hlF
  have hwlive := F.live hwF
  obtain ⟨nl, hnl, rl⟩ := rd_some hll
  obtain ⟨a, ha, b, hb, hal, hlb⟩ := RL l hl
  have hnleft : nl.left = a := by
    have := hal.2
    simpa [leftOf, hnl] using this
  have hnright : nl.right = b := by
    have := hlb.1
    simpa [rightOf, hnl] using this
  have hal' := F.live (Or.inl ha)
  have hbl' := F.live (Or.inl hb)
  -- the store after `l` has left the root list
  have hb1 : (look (put h.mem a (fun n => { n with right := b })) b).isSome := by simp [hbl']
  have notRoot : ∀ p q, q ∈ ch p → q ≠ a ∧ q ≠ b ∧ q ≠ l ∧ q ≠ w := by
    intro p q hq
    have := F.child_not_root hq
    exact ⟨fun e => this (e ▸ ha), fun e => this (e ▸ hb), fun e => this (e ▸ hl),
      fun e => this (e ▸ hw)⟩
  have Rg2 : Ring (put (put h.mem a (fun n => { n with right := b })) b
      (fun n => { n with left := a })) (ch w) :=
    (F.cring w).frame (fun q hq => by
      obtain ⟨h1, h2, _, _⟩ := notRoot w q hq
      simp [hal', hbl', h1, h2])
  obtain ⟨m3, cw, e3, Rg3, hperm, len3, live3, key3, par3, deg3, mark3, child3, lr3⟩ :=
    link_attach_spec Rg2 (by simp [hwlive]) (by simp [hll]) hwl
      (fun e => (notRoot w l e).2.2.1 rfl) (fun e => (notRoot w w e).2.2.2 rfl)
      (fun e => F.cnone w hwF (by simpa using e))
      (fun c e => F.csome w c hwF (by simpa using e))
  have hl3 : (look m3 l).isSome := by rw [live3]; simp [hll]
  have hw3 : (look m3 w).isSome := by rw [live3]; simp [hwlive]
  have hcwmem : ∀ q, q ∈ cw ↔ q = l ∨ q ∈ ch w := fun q => by
    rw [hperm.mem_iff]; simp
  have hn := F.rnodup
  have iff : ∀ q, InF (R.erase l) (Function.update ch w cw) q ↔ InF R ch q := by
    intro q
    constructor
    · rintro (hq | ⟨p, hq⟩)
      · exact Or.inl (hn.mem_erase_iff.1 hq).2
      · by_cases e : p = w
        · subst e
          rw [Function.update_same, hcwmem] at hq
          rcases hq with e | hq
          · exact e ▸ hlF
          · exact Or.inr ⟨p, hq⟩
        · rw [Function.update_noteq e] at hq
          exact Or.inr ⟨p, hq⟩
    · rintro (hq | ⟨p, hq⟩)
      · by_cases e : q = l
        · exact Or.inr ⟨w, by rw [Function.update_same, hcwmem]; exact Or.inl e⟩
        · exact Or.inl (hn.mem_erase_iff.2 ⟨e, hq⟩)
      · by_cases e : p = w
        · subst e
          exact Or.inr ⟨p, by rw [Function.update_same, hcwmem]; exact Or.inr hq⟩
        · exact Or.inr ⟨p, by rw [Function.update_noteq e]; exact hq⟩
  refine ⟨put (put (put m3 l (fun n => { n with parent := some w })) l
    (fun n => { n with mark := false })) w (fun n => { n with degree := n.degree + 1 }),
    cw, ?_, hperm, ?_, ?_, ?_, ?_, ?_, ?_, ?_, iff⟩
  · have h4 : (look (put m3 l (fun n => { n with parent := some w })) l).isSome := by
      simp [hl3]
    have h5 : (look (put (put m3 l (fun n => { n with parent := some w })) l
        (fun n => { n with mark := false })) w).isSome := by simp [hw3]
    simp only [link_body, bind, Except.bind, rl, hnleft, hnright, wr_ok _ hal', wr_ok _ hb1, e3,
      wr_ok _ hl3, wr_ok _ h4, wr_ok _ h5, pure, Except.pure]
  · refine ⟨hn.erase l, ?_, ?_, ?_, ?_, ?_, ?_, ?_, ?_⟩
    · intro r hr
      have hr' := hn.mem_erase_iff.1 hr
      simp [hl3, par3, hr'.1]
      exact F.rpar r hr'.2
    · intro p q hq
      by_cases e : p = w
      · subst e
        rw [Function.update_same, hcwmem] at hq
        rcases hq with e | hq
        · subst e; simp [hl3]
        · have := (notRoot p q hq).2.2.1
          simp [hl3, par3, this]
          exact F.cpar p q hq
      · rw [Function.update_noteq e] at hq
        have := (notRoot p q hq).2.2.1
        simp [hl3, par3, this]
        exact F.cpar p q hq
    · intro p q hq
      refine (iff p).2 ?_
      by_cases e : p = w
      · subst e; exact hwF
      · rw [Function.update_noteq e] at hq
        exact F.pin p q hq
    · intro p
      by_cases e : p = w
      · subst e
        rw [Function.update_same]
        exact Rg3.frame (fun q _ => by simp)
      · rw [Function.update_noteq e]
        refine (F.cring p).frame (fun q hq => ?_)
        obtain ⟨h1, h2, h3, _⟩ := notRoot p q hq
        have h4 : q ∉ ch w := fun e' => e (F.child_unique hq e')
        have := lr3 q h3 h4
        simp [this.1, this.2, hal', hbl', h1, h2]
    · intro p hp hcn
      by_cases e : p = w
      · subst e
        simp [child3] at hcn
      · rw [Function.update_noteq e]
        refine F.cnone p ((iff p).1 hp) ?_
        simpa [child3, e] using hcn
    · intro p c hp hcs
      by_cases e : p = w
      · subst e
        rw [Function.update_same, hcwmem]
        left
        simpa [child3] using hcs.symm
      · rw [Function.update_noteq e]
        refine F.csome p c ((iff p).1 hp) ?_
        simpa [child3, e] using hcs
    · intro p hp
      by_cases e : p = w
      · subst e
        rw [Function.update_same, hperm.length_eq]
        simp [deg3, F.cdeg p hwF]
      · rw [Function.update_noteq e]
        simp [deg3, e]
        exact F.cdeg p ((iff p).1 hp)
    · intro p q hq
      by_cases e : p = w
      · subst e
        rw [Function.update_same, hcwmem] at hq
        rw [Function.update_same]
        rcases hq with e | hq
        · subst e
          rw [Function.update_noteq hwl.symm]
          exact lt_of_lt_of_le (Nat.lt_succ_self _) (le_max_right _ _)
        · rw [Function.update_noteq (notRoot p q hq).2.2.2]
          exact lt_of_lt_of_le (F.hgt p q hq) (le_max_left _ _)
      · rw [Function.update_noteq e] at hq
        rw [Function.update_noteq e, Function.update_noteq (notRoot p q hq).2.2.2]
        exact F.hgt p q hq
  · refine RL.unlink hn ha hb hal hlb ?_ ?_
    · intro r hr hrl
      have h4 : r ∉ ch w := fun e => F.child_not_root e hr
      have := lr3 r hrl h4
      simp [this.1, hal', hbl']
    · intro r hr hrl
      have h4 : r ∉ ch w := fun e => F.child_not_root e hr
      have := lr3 r hrl h4
      simp [this.2, hal', hbl']
  · simp [len3]
  · intro q; simp [live3]
  · intro q; simp [key3]
  · intro q; simp [hl3, par3]
  · intro q; simp [deg3]

theorem heap_link_spec {h : FibonacciHeap} {R : List Nat} {ch : Nat → List Nat} {ht : Nat → Nat}
    {x y : Nat} (F : Forest h.mem R ch ht) (RL : RootLocal h.mem R) (hroot : h.root ≠ none)
    (hx : x ∈ R) (hy : y ∈ R) (hxy : x ≠ y) :
    ∃ w l m' cw kw kl, heap_link h (some x) (some y) = .ok (w, { h with mem := m' }) ∧
      ((w = x ∧ l = y) ∨ (w = y ∧ l = x)) ∧
      keyOf h.mem w = some kw ∧ keyOf h.mem l = some kl ∧ kw ≤ kl ∧
      cw.Perm (l :: ch w) ∧
      Forest m' (R.erase l) (Function.update ch w cw)
        (Function.update ht w (max (ht w) (ht l + 1))) ∧
      RootLocal m' (R.erase l) ∧
      m'.length = h.mem.length ∧ (∀ q, (look m' q).isSome = (look h.mem q).isSome) ∧
      (∀ q, keyOf m' q = keyOf h.mem q) ∧
      (∀ q, parentOf m' q = if q = l then some (some w) else parentOf h.mem q) ∧
      (∀ q, degreeOf m' q = if q = w then (degreeOf h.mem w).map (fun d => d + 1)
        else degreeOf h.mem q) ∧
      (∀ q, InF (R.erase l) (Function.update ch w cw) q ↔ InF R ch q) := by
  obtain ⟨nx, hnx, rx⟩ := rd_some (F.live (Or.inl hx))
  obtain ⟨ny, hny, ry⟩ := rd_some (F.live (Or.inl hy))
  by_cases hgt : nx.key > ny.key
  · obtain ⟨m', cw, e, hperm, F', RL', len, live, key, par, deg, iff⟩ :=
      link_body_spec F RL hy hx hxy.symm
    refine ⟨y, x, m', cw, ny.key, nx.key, ?_, Or.inr ⟨rfl, rfl⟩, get_of_look Node.key hny,
      get_of_look Node.key hnx, le_of_lt hgt, hperm, F', RL', len, live, key, par, deg, iff⟩
    rw [heap_link_eq h x y hroot]
    simp only [bind, Except.bind, rx, ry, hgt, if_true]
    exact e
  · obtain ⟨m', cw, e, hperm, F', RL', len, live, key, par, deg, iff⟩ :=
      link_body_spec F RL hx hy hxy
    refine ⟨x, y, m', cw, nx.key, ny.key, ?_, Or.inl ⟨rfl, rfl⟩, get_of_look Node.key hnx,
      get_of_look Node.key hny, not_lt.1 hgt, hperm, F', RL', len, live, key, par, deg, iff⟩
    rw [heap_link_eq h x y hroot]
    simp only [bind, Except.bind, rx, ry, hgt, if_false]
    exact e

/-! ## `consolidate` -/

/-- The occupied slots of `A`, in order. -/
theorem entries_set_none : ∀ (A : List (Option Nat)) (d y : Nat),
    A[d]? = some (some y) →
    (A.filterMap id).Perm (y :: (A.set d none).filterMap id) := by
  intro A
  induction A with
  | nil => intro d y h; simp at h
  | cons a A ih =>
    intro d y h
    cases d with
    | zero =>
      simp at h
      subst h
      simp
    | succ d =>
      simp at h
      have := ih d y h
      cases a with
      | none => simpa using this
      | some v =>
        simp only [List.set_cons_succ, List.filterMap_cons_some, id_eq]
        exact (List.Perm.cons v this).trans (List.Perm.swap y v _)

theorem entries_set_some : ∀ (A : List (Option Nat)) (d x : Nat),
    A[d]? = some none →
    ((A.set d (some x)).filterMap id).Perm (x :: A.filterMap id) := by
  intro A
  induction A with
  | nil => intro d y h; simp at h
  | cons a A ih =>
    intro d x h
    cases d with
    | zero =>
      simp at h
      subst h
      simp
    | succ d =>
      simp at h
      have := ih d x h
      cases a with
      | none => simpa using this
      | some v =>
        simp only [List.set_cons_succ, List.filterMap_cons_some, id_eq]
        exact (List.Perm.cons v this).trans (List.Perm.swap x v _)

theorem mem_entries {A : List (Option Nat)} {a : Nat} :
    a ∈ A.filterMap id ↔ ∃ i : Nat, A[i]? = some (some a) := by
  rw [List.mem_filterMap]
  constructor
  · rintro ⟨o, ho, e⟩
    simp at e
    subst e
    obtain ⟨i, hi, e⟩ := List.getElem_of_mem ho
    exact ⟨i, by rw [List.getElem?_eq_getElem hi, e]⟩
  · rintro ⟨i, hi⟩
    exact ⟨some a, List.getElem?_mem hi, rfl⟩

theorem map_update_of_not_mem (sz : Nat → Nat) (w v : Nat) (L : List Nat) (hw : w ∉ L) :
    L.map (Function.update sz w v) = L.map sz := by
  apply List.map_congr_left
  intro a ha
  have : a ≠ w := fun e => hw (e ▸ ha)
  rw [Function.update_noteq this]

theorem sum_map_update (sz : Nat → Nat) (w v : Nat) (L : List Nat) (hn : L.Nodup) (hw : w ∈ L) :
    (L.map (Function.update sz w v)).sum + sz w = (L.map sz).sum + v := by
  induction L with
  | nil => simp at hw
  | cons a L ih =>
    have hn' := List.nodup_cons.1 hn
    by_cases e : a = w
    · subst e
      rw [List.map_cons, List.map_cons, Function.update_same,
        map_update_of_not_mem sz a v L hn'.1]
      simp only [List.sum_cons]
      omega
    · have hw' : w ∈ L := by
        rcases List.mem_cons.1 hw with e' | e'
        · exact absurd e'.symm e
        · exact e'
      have := ih hn'.2 hw'
      rw [List.map_cons, List.map_cons, Function.update_noteq e]
      simp only [List.sum_cons]
      omega

theorem SzInv.link {R : List Nat} {ch : Nat → List Nat} {sz : Nat → Nat} {w l : Nat}
    {cw : List Nat} (S : SzInv R ch sz) (hn : R.Nodup) (hw : w ∈ R) (hl : l ∈ R) (hwl : w ≠ l)
    (hroot : ∀ p q, q ∈ ch p → q ∉ R) (hperm : cw.Perm (l :: ch w))
    (hdeg : (ch w).length = (ch l).length)
    (iff : ∀ q, InF (R.erase l) (Function.update ch w cw) q ↔ InF R ch q) :
    SzInv (R.erase l) (Function.update ch w cw) (Function.update sz w (sz w + sz l)) ∧
      ((R.erase l).map (Function.update sz w (sz w + sz l))).sum = (R.map sz).sum := by
  have hwc : ∀ p, w ∉ ch p := fun p e => hroot p w e hw
  refine ⟨⟨?_, ?_⟩, ?_⟩
  · intro p hp
    have hp' := (iff p).1 hp
    by_cases e : p = w
    · subst e
      rw [Function.update_same, Function.update_same, hperm.map _ |>.sum_eq,
        List.map_cons, List.sum_cons, Function.update_noteq hwl.symm,
        map_update_of_not_mem _ _ _ _ (hwc p), S.size p hp']
      omega
    · rw [Function.update_noteq e, Function.update_noteq e,
        map_update_of_not_mem _ _ _ _ (hwc p)]
      exact S.size p hp'
  · intro p hp
    have hp' := (iff p).1 hp
    by_cases e : p = w
    · subst e
      rw [Function.update_same, Function.update_same, hperm.length_eq, List.length_cons,
        pow_succ]
      have h1 := S.binom p hp'
      have h2 := S.binom l (Or.inl hl)
      rw [← hdeg] at h2
      omega
    · rw [Function.update_noteq e, Function.update_noteq e]
      exact S.binom p hp'
  · have hpermR : R.Perm (l :: R.erase l) := List.perm_cons_erase hl
    have hw' : w ∈ R.erase l := hn.mem_erase_iff.2 ⟨hwl, hw⟩
    have := sum_map_update sz w (sz w + sz l) (R.erase l) (hn.erase l) hw'
    rw [(hpermR.map sz).sum_eq, List.map_cons, List.sum_cons]
    omega

theorem A_get_nat (A : List (Option Nat)) (d : Nat) {o : Option Nat} (h : A[d]? = some o) :
    A_get A (d : Int) = .ok o := by
  simp [A_get, h]

theorem A_set_nat (A : List (Option Nat)) (d : Nat) (v : Option Nat) (h : d < A.length) :
    A_set A (d : Int) v = .ok (A.set d v) := by
  simp [A_set, h]

theorem lt_length_of_getElem? {A : List (Option Nat)} {d : Nat} {o : Option Nat}
    (h : A[d]? = some o) : d < A.length := by
  by_contra hc
  rw [List.getElem?_eq_none (by omega)] at h
  simp at h

theorem link_loop_spec : ∀ (fuel : Nat) (h : FibonacciHeap) (R : List Nat)
    (ch : Nat → List Nat) (ht : Nat → Nat) (A : List (Option Nat)) (x d j : Nat)
    (ws : List Nat),
    CInv h R ch ht A (x :: ws) → degreeOf h.mem x = some (d : Int) → HasFree A d j →
    j - d < fuel →
    ∃ h' R' ch' ht' A' x', link_loop fuel h A x (d : Int) = .ok (h', A', x', (j : Int)) ∧
      CInv h' R' ch' ht' A' (x' :: ws) ∧ degreeOf h'.mem x' = some (j : Int) ∧
      A'[j]? = some none ∧ A'.length = A.length ∧
      h'.root = h.root ∧ h'.N = h.N ∧ h'.mem.length = h.mem.length ∧
      (∀ q, (look h'.mem q).isSome = (look h.mem q).isSome) ∧
      (∀ q, keyOf h'.mem q = keyOf h.mem q) ∧
      (∀ q, InF R' ch' q ↔ InF R ch q) ∧
      (∀ sz, SzInv R ch sz → ∃ sz', SzInv R' ch' sz' ∧ (R'.map sz').sum = (R.map sz).sum) := by
  intro fuel
  induction fuel with
  | zero => intro h R ch ht A x d j ws _ _ _ hf; omega
  | succ f ih =>
    intro h R ch ht A x d j ws C hdx hfree hf
    obtain ⟨hdj, hj, hocc⟩ := hfree
    rcases Nat.eq_or_lt_of_le hdj with e | hlt
    · subst e
      refine ⟨h, R, ch, ht, A, x, ?_, C, hdx, hj, rfl, rfl, rfl, rfl, fun _ => rfl, fun _ => rfl,
        fun _ => Iff.rfl, fun sz S => ⟨sz, S, rfl⟩⟩
      simp only [link_loop, bind, Except.bind, A_get_nat A d hj, pure, Except.pure]
    · obtain ⟨y, hy⟩ := hocc d le_rfl hlt
      have hn : (A.filterMap id ++ x :: ws).Nodup := C.perm.nodup_iff.1 C.forest.rnodup
      have hyE : y ∈ A.filterMap id := mem_entries.2 ⟨d, hy⟩
      have hyR : y ∈ R := C.perm.mem_iff.2 (List.mem_append_left _ hyE)
      have hxR : x ∈ R := C.perm.mem_iff.2 (List.mem_append_right _ (List.mem_cons_self _ _))
      have hdisj := (List.nodup_append.1 hn).2.2
      have hxE : x ∉ A.filterMap id := fun e => hdisj e (List.mem_cons_self _ _)
      have hxy : x ≠ y := fun e => hxE (e ▸ hyE)
      have hdy : degreeOf h.mem y = some (d : Int) := C.ainv d y hy
      obtain ⟨w, l, m', cw, kw, kl, e, hwl, hkw, hkl, hle, hperm, F', RL', len, live, key, par,
        deg, iff⟩ := heap_link_spec C.forest C.rlocal C.rootNe hxR hyR hxy
      have hdl := lt_length_of_getElem? hy
      have hwR : w ∈ R := by rcases hwl with ⟨e1, _⟩ | ⟨e1, _⟩ <;> (rw [e1]; assumption)
      have hlR : l ∈ R := by rcases hwl with ⟨_, e1⟩ | ⟨_, e1⟩ <;> (rw [e1]; assumption)
      have hwne : w ≠ l := by
        rcases hwl with ⟨e1, e2⟩ | ⟨e1, e2⟩
        · rw [e1, e2]; exact hxy
        · rw [e1, e2]; exact hxy.symm
      have hdw : degreeOf h.mem w = some (d : Int) := by
        rcases hwl with ⟨e1, _⟩ | ⟨e1, _⟩ <;> (rw [e1]; assumption)
      have hdl' : degreeOf h.mem l = some (d : Int) := by
        rcases hwl with ⟨_, e1⟩ | ⟨_, e1⟩ <;> (rw [e1]; assumption)
      have hpE := entries_set_none A d y hy
      have C' : CInv { h with mem := m' } (R.erase l) (Function.update ch w cw)
          (Function.update ht w (max (ht w) (ht l + 1))) (A.set d none) (w :: ws) := by
        refine ⟨F', RL', C.rootNe, ?_, ?_, ?_⟩
        · intro c p hc
          show ∃ kp kc, keyOf m' p = _ ∧ keyOf m' c = _ ∧ _
          have hc' : parentOf m' c = some (some p) := hc
          rw [par] at hc'
          rw [key, key]
          by_cases ec : c = l
          · rw [if_pos ec] at hc'
            simp at hc'
            subst hc' ec
            exact ⟨kw, kl, hkw, hkl, hle⟩
          · rw [if_neg ec] at hc'
            exact C.order c p hc'
        · intro i a hi
          show degreeOf m' a = _
          have hid : i ≠ d := by
            intro e'
            rw [e', List.getElem?_set_self hdl] at hi
            simp at hi
          rw [List.getElem?_set_ne (Ne.symm hid)] at hi
          have hda := C.ainv i a hi
          have hay : a ≠ y := by
            intro e'
            rw [e', hdy] at hda
            simp at hda
            exact hid hda.symm
          have hax : a ≠ x := fun e' => hxE (e' ▸ mem_entries.2 ⟨i, hi⟩)
          have haw : a ≠ w := by
            rcases hwl with ⟨e1, _⟩ | ⟨e1, _⟩ <;> (rw [e1]; assumption)
          rw [deg, if_neg haw]
          exact hda
        · have h1 : R.Perm (y :: ((A.set d none).filterMap id ++ x :: ws)) :=
            C.perm.trans (List.Perm.append_right _ hpE)
          have hn1 := h1.nodup_iff.1 C.forest.rnodup
          have hyn := (List.nodup_cons.1 hn1).1
          have h2 := h1.erase l
          rcases hwl with ⟨e1, e2⟩ | ⟨e1, e2⟩
          · subst e1 e2
            simpa using h2
          · subst e1 e2
            have hlE : l ∉ (A.set d none).filterMap id := by
              intro e'
              have := (List.perm_cons_erase hyE).trans (List.Perm.refl _)
              exact hxE ((hpE.mem_iff).2 (List.mem_cons_of_mem _ e'))
            rw [List.erase_cons_tail (by simpa using hxy.symm),
              List.erase_append_right _ hlE] at h2
            simp only [List.erase_cons_head] at h2
            exact h2.trans (List.perm_middle.symm)
      have hdw' : degreeOf m' w = some ((d + 1 : Nat) : Int) := by
        rw [deg, if_pos rfl, hdw]; simp
      have hfree' : HasFree (A.set d none) (d + 1) j := by
        refine ⟨hlt, ?_, ?_⟩
        · rw [List.getElem?_set_ne (by omega)]; exact hj
        · intro i hi hij
          rw [List.getElem?_set_ne (by omega)]
          exact hocc i (by omega) hij
      obtain ⟨h'', R'', ch'', ht'', A'', x'', e'', C'', hdx'', hj'', lenA, hroot'', hN'', len'',
        live'', key'', iff'', sz''⟩ :=
        ih { h with mem := m' } (R.erase l) (Function.update ch w cw)
          (Function.update ht w (max (ht w) (ht l + 1))) (A.set d none) w (d + 1) j ws C' hdw'
          hfree' (by omega)
      refine ⟨h'', R'', ch'', ht'', A'', x'', ?_, C'', hdx'', hj'', ?_, hroot'', hN'', ?_, ?_, ?_,
        ?_, ?_⟩
      · simp only [link_loop, bind, Except.bind, A_get_nat A d hy, e, A_set_nat A d none hdl]
        have : ((d : Int) + 1) = ((d + 1 : Nat) : Int) := by push_cast; rfl
        rw [this]
        exact e''
      · rw [lenA]; simp
      · rw [len'']; exact len
      · intro q; rw [live'']; exact live q
      · intro q; rw [key'']; exact key q
      · intro q; rw [iff'', iff]
      · intro sz S
        have hdeg : (ch w).length = (ch l).length := by
          have h1 := C.forest.cdeg w (Or.inl hwR)
          have h2 := C.forest.cdeg l (Or.inl hlR)
          rw [hdw] at h1
          rw [hdl'] at h2
          simp at h1 h2
          omega
        obtain ⟨S1, hs1⟩ := S.link C.forest.rnodup hwR hlR hwne
          (fun p q hq => C.forest.child_not_root hq) hperm hdeg iff
        obtain ⟨sz', S', hs'⟩ := sz'' _ S1
        exact ⟨sz', S', hs'.trans hs1⟩

theorem Forest.degree_nat {m : Mem} {R : List Nat} {ch : Nat → List Nat} {ht : Nat → Nat}
    (F : Forest m R ch ht) {p : Nat} (hp : InF R ch p) :
    degreeOf m p = some (((ch p).length : Nat) : Int) := F.cdeg p hp

/-- One iteration of the loop `for (auto w : root_list)` of `consolidate`. -/
theorem consolidate_step_spec {h : FibonacciHeap} {R : List Nat} {ch : Nat → List Nat}
    {ht : Nat → Nat} {A : List (Option Nat)} {w d j : Nat} {ws : List Nat}
    (C : CInv h R ch ht A (w :: ws)) (hd : degreeOf h.mem w = some (d : Int))
    (hfree : HasFree A d j) :
    ∃ h' R' ch' ht' A',
      consolidate_for (A.length : Int) h A (w :: ws)
        = consolidate_for (A.length : Int) h' A' ws ∧
      CInv h' R' ch' ht' A' ws ∧ A'.length = A.length ∧
      h'.root = h.root ∧ h'.N = h.N ∧ h'.mem.length = h.mem.length ∧
      (∀ q, (look h'.mem q).isSome = (look h.mem q).isSome) ∧
      (∀ q, keyOf h'.mem q = keyOf h.mem q) ∧
      (∀ q, InF R' ch' q ↔ InF R ch q) ∧
      (∀ sz, SzInv R ch sz → ∃ sz', SzInv R' ch' sz' ∧ (R'.map sz').sum = (R.map sz).sum) := by
  have hjl := lt_length_of_getElem? hfree.2.1
  obtain ⟨h', R', ch', ht', A', x', e, C', hdx, hj, lenA, hroot, hN, len, live, key, iff, sz⟩ :=
    link_loop_spec (A.length + 1) h R ch ht A w d j ws C hd hfree (by omega)
  have hwR : w ∈ R := C.perm.mem_iff.2 (List.mem_append_right _ (List.mem_cons_self _ _))
  obtain ⟨nw, hnw, rw'⟩ := rd_some (C.forest.live (Or.inl hwR))
  have hnd : nw.degree = (d : Int) := by simpa [degreeOf, hnw] using hd
  have hjl' : j < A'.length := by rw [lenA]; exact hjl
  refine ⟨h', R', ch', ht', A'.set j (some x'), ?_, ?_, by simp [lenA], hroot, hN, len, live, key,
    iff, sz⟩
  · have hlt : (d : Int) < (A.length : Int) := by
      have := hfree.1
      omega
    simp only [consolidate_for, bind, Except.bind, rw', hnd, hlt, not_true_eq_false, if_false,
      pure, Except.pure, e, A_set_nat A' j (some x') hjl']
  · refine ⟨C'.forest, C'.rlocal, C'.rootNe, C'.order, ?_, ?_⟩
    · intro i a hi
      by_cases e' : i = j
      · subst e'
        rw [List.getElem?_set_self hjl'] at hi
        simp at hi
        subst hi
        exact hdx
      · rw [List.getElem?_set_ne (Ne.symm e')] at hi
        exact C'.ainv i a hi
    · have h1 := entries_set_some A' j x' hj
      have h2 : (A'.filterMap id ++ x' :: ws).Perm (x' :: A'.filterMap id ++ ws) := by
        simp
      exact C'.perm.trans (h2.trans (List.Perm.append_right _ h1.symm))

theorem A_get_ok {A : List (Option Nat)} {d : Nat} {o : Option Nat}
    (h : A_get A (d : Int) = .ok o) : A[d]? = some o := by
  unfold A_get at h
  simp only [Int.natCast_nonneg, if_true, Int.toNat_ofNat] at h
  cases hA : A[d]? with
  | none => simp [hA] at h
  | some v => simp [hA] at h; rw [h]

/-- When the loop `while (A[d] != nullptr)` completes, it has stopped at the
first free slot at or after `d`. -/
theorem link_loop_free : ∀ (fuel : Nat) (h : FibonacciHeap) (A : List (Option Nat)) (x d : Nat)
    (res : FibonacciHeap × List (Option Nat) × Nat × Int),
    link_loop fuel h A x (d : Int) = .ok res → ∃ j, HasFree A d j := by
  intro fuel
  induction fuel with
  | zero => intro h A x d res e; simp [link_loop] at e
  | succ f ih =>
    intro h A x d res e
    simp only [link_loop, bind, Except.bind] at e
    cases hg : A_get A (d : Int) with
    | error err => simp [hg] at e
    | ok o =>
      have hA := A_get_ok hg
      cases o with
      | none => exact ⟨d, le_rfl, hA, fun i h1 h2 => absurd h1 (by omega)⟩
      | some y =>
        simp only [hg] at e
        cases hl : heap_link h (some x) (some y) with
        | error err => simp [hl] at e
        | ok r =>
          simp only [hl] at e
          cases hs : A_set A (d : Int) none with
          | error err => simp [hs] at e
          | ok A' =>
            simp only [hs] at e
            have hdl := lt_length_of_getElem? hA
            rw [A_set_nat A d none hdl] at hs
            simp at hs
            subst hs
            have : ((d : Int) + 1) = ((d + 1 : Nat) : Int) := by push_cast; rfl
            rw [this] at e
            obtain ⟨j, hj1, hj2, hj3⟩ := ih _ _ _ _ _ e
            refine ⟨j, by omega, ?_, ?_⟩
            · rw [List.getElem?_set_ne (by omega)] at hj2; exact hj2
            · intro i hi hij
              by_cases e' : i = d
              · subst e'; exact ⟨y, hA⟩
              · have := hj3 i (by omega) hij
                rw [List.getElem?_set_ne (by omega)] at this
                exact this

/-- The loop `for (auto w : root_list)`, whenever it completes. -/
theorem consolidate_for_spec : ∀ (ws : List Nat) (h : FibonacciHeap) (R : List Nat)
    (ch : Nat → List Nat) (ht : Nat → Nat) (A : List (Option Nat))
    (res : FibonacciHeap × List (Option Nat)),
    CInv h R ch ht A ws → consolidate_for (A.length : Int) h A ws = .ok res →
    ∃ R' ch' ht', CInv res.1 R' ch' ht' res.2 [] ∧ res.2.length = A.length ∧
      res.1.root = h.root ∧ res.1.N = h.N ∧ res.1.mem.length = h.mem.length ∧
      (∀ q, (look res.1.mem q).isSome = (look h.mem q).isSome) ∧
      (∀ q, keyOf res.1.mem q = keyOf h.mem q) ∧
      (∀ q, InF R' ch' q ↔ InF R ch q) ∧
      (∀ sz, SzInv R ch sz → ∃ sz', SzInv R' ch' sz' ∧ (R'.map sz').sum = (R.map sz).sum) := by
  intro ws
  induction ws with
  | nil =>
    intro h R ch ht A res C e
    simp [consolidate_for, pure, Except.pure] at e
    subst e
    exact ⟨R, ch, ht, C, rfl, rfl, rfl, rfl, fun _ => rfl, fun _ => rfl, fun _ => Iff.rfl,
      fun sz S => ⟨sz, S, rfl⟩⟩
  | cons w ws ih =>
    intro h R ch ht A res C e
    have hwR : w ∈ R := C.perm.mem_iff.2 (List.mem_append_right _ (List.mem_cons_self _ _))
    have hd := C.forest.degree_nat (Or.inl hwR)
    obtain ⟨nw, hnw, rw'⟩ := rd_some (C.forest.live (Or.inl hwR))
    have hnd : nw.degree = (((ch w).length : Nat) : Int) := by simpa [degreeOf, hnw] using hd
    obtain ⟨j, hfree⟩ : ∃ j, HasFree A (ch w).length j := by
      have e' := e
      by_cases hlt : (((ch w).length : Nat) : Int) < (A.length : Int)
      · simp only [consolidate_for, bind, Except.bind, rw', hnd, hlt, not_true_eq_false,
          if_false, pure, Except.pure] at e'
        cases hl : link_loop (A.length + 1) h A w (((ch w).length : Nat) : Int) with
        | error err => simp [hl] at e'
        | ok r => exact link_loop_free _ _ _ _ _ _ hl
      · simp only [consolidate_for, bind, Except.bind, rw', hnd, hlt, not_false_eq_true,
          if_true] at e'
        cases e'
    obtain ⟨h', R', ch', ht', A', e1, C', lenA, hroot, hN, len, live, key, iff, hsz⟩ :=
      consolidate_step_spec C hd hfree
    rw [e1, ← lenA] at e
    obtain ⟨R'', ch'', ht'', C'', lenA'', hroot'', hN'', len'', live'', key'', iff'', hsz''⟩ :=
      ih h' R' ch' ht' A' res C' e
    refine ⟨R'', ch'', ht'', C'', by rw [lenA'', lenA], by rw [hroot'', hroot],
      by rw [hN'', hN], by rw [len'', len], ?_, ?_, ?_, ?_⟩
    · intro q; rw [live'', live]
    · intro q; rw [key'', key]
    · intro q; rw [iff'', iff]
    · intro sz S
      obtain ⟨sz1, S1, e1'⟩ := hsz sz S
      obtain ⟨sz2, S2, e2'⟩ := hsz'' sz1 S1
      exact ⟨sz2, S2, e2'.trans e1'⟩

theorem MinIn.frame_min {m m' : Mem} {r : Nat} {L : List Nat} (h : MinIn m r L)
    (hk : ∀ q, keyOf m' q = keyOf m q) : MinIn m' r L := by
  obtain ⟨kr, h1, h2⟩ := h
  refine ⟨kr, (hk r).trans h1, fun p hp => ?_⟩
  obtain ⟨kp, h3, h4⟩ := h2 p hp
  exact ⟨kp, (hk p).trans h3, h4⟩

theorem rebuild_spec : ∀ (A : List (Option Nat)) (h : FibonacciHeap) (Lb : List Nat),
    Ring h.mem Lb → (h.root = none → Lb = []) →
    (∀ r, h.root = some r → r ∈ Lb ∧ MinIn h.mem r Lb) →
    (Lb ++ A.filterMap id).Nodup → (∀ a ∈ A.filterMap id, (look h.mem a).isSome) →
    ∃ h' L', rebuild h A = .ok h' ∧ Ring h'.mem L' ∧ L'.Perm (Lb ++ A.filterMap id) ∧
      (h'.root = none → L' = []) ∧ (∀ r, h'.root = some r → r ∈ L' ∧ MinIn h'.mem r L') ∧
      h'.N = h.N ∧ h'.mem.length = h.mem.length ∧
      (∀ q, (look h'.mem q).isSome = (look h.mem q).isSome) ∧
      (∀ q, keyOf h'.mem q = keyOf h.mem q) ∧ (∀ q, childOf h'.mem q = childOf h.mem q) ∧
      (∀ q, degreeOf h'.mem q = degreeOf h.mem q) ∧ (∀ q, markOf h'.mem q = markOf h.mem q) ∧
      (∀ q, parentOf h'.mem q = if q ∈ A.filterMap id then some none else parentOf h.mem q) ∧
      (∀ q, q ∉ Lb → q ∉ A.filterMap id →
        rightOf h'.mem q = rightOf h.mem q ∧ leftOf h'.mem q = leftOf h.mem q) := by
  intro A
  induction A with
  | nil =>
    intro h Lb Rg hnone hsome hn hlive
    exact ⟨h, Lb, rfl, Rg, by simp, hnone, hsome, rfl, rfl, fun _ => rfl, fun _ => rfl,
      fun _ => rfl, fun _ => rfl, fun _ => rfl, fun q => by simp, fun _ _ _ => ⟨rfl, rfl⟩⟩
  | cons o A ih =>
    intro h Lb Rg hnone hsome hn hlive
    cases o with
    | none =>
      obtain ⟨h', L', e, rest⟩ := ih h Lb Rg hnone hsome (by simpa using hn)
        (by simpa using hlive)
      exact ⟨h', L', by simpa [rebuild] using e, by simpa using rest⟩
    | some a =>
      have hal : (look h.mem a).isSome := hlive a (by simp)
      have hn' : (Lb ++ a :: A.filterMap id).Nodup := by simpa using hn
      have haLb : a ∉ Lb := by
        intro e
        exact (List.nodup_append.1 hn').2.2 e (List.mem_cons_self _ _)
      have haE : a ∉ A.filterMap id := by
        have := (List.nodup_append.1 hn').2.1
        exact (List.nodup_cons.1 this).1
      cases hroot : h.root with
      | none =>
        have hLb := hnone hroot
        subst hLb
        have h1 : (look (put h.mem a (fun n => { n with right := a })) a).isSome := by
          simp [hal]
        have h2 : (look (put (put h.mem a (fun n => { n with right := a })) a
            (fun n => { n with left := a })) a).isSome := by simp [hal]
        obtain ⟨h', L', e, Rg', hperm, hnone', hsome', hN, len, live, key, child, deg, mark, par,
          lr⟩ := ih { h with
            mem := put (put (put h.mem a (fun n => { n with right := a })) a
              (fun n => { n with left := a })) a (fun n => { n with parent := none }),
            root := some a } [a]
          (Ring.singleton (by simp [hal]) (by simp [hal]))
          (by intro e; simp at e)
          (by
            intro r hr
            have hr' : r = a := by simpa using hr.symm
            rw [hr']
            obtain ⟨na, hna, _⟩ := rd_some hal
            have hk : keyOf (put (put (put h.mem a (fun n => { n with right := a })) a
                (fun n => { n with left := a })) a (fun n => { n with parent := none })) a
                = some na.key := by
              simp
              exact get_of_look Node.key hna
            refine ⟨by simp, na.key, hk, ?_⟩
            intro p hp
            have hp' : p = a := by simpa using hp
            rw [hp']
            exact ⟨na.key, hk, le_rfl⟩)
          (by simpa using (List.nodup_append.1 hn').2.1)
          (by intro b hb; simp; exact hlive b (by simp [hb]))
        refine ⟨h', L', ?_, Rg', by simpa using hperm, hnone', hsome', hN, by simpa using len,
          ?_, ?_, ?_, ?_, ?_, ?_, ?_⟩
        · simp only [rebuild, hroot, bind, Except.bind, wr_ok _ hal, wr_ok _ h1, wr_ok _ h2]
          exact e
        · intro q; rw [live]; simp
        · intro q; rw [key]; simp
        · intro q; rw [child]; simp
        · intro q; rw [deg]; simp
        · intro q; rw [mark]; simp
        · intro q
          rw [par]
          by_cases e1 : q ∈ A.filterMap id
          · simp [e1]
          · by_cases e2 : q = a
            · subst e2; simp [hal]
            · simp [hal, e1, e2]
        · intro q _ hq
          have hqa : q ≠ a := fun e' => hq (by simp [e'])
          have hqE : q ∉ A.filterMap id := fun e' => hq (by simp [e'])
          have := lr q (by simpa using hqa) hqE
          simpa [hal, hqa] using this
      | some r =>
        obtain ⟨hrLb, hmin⟩ := hsome r hroot
        obtain ⟨rest, hpermb, hring⟩ := Rg.rotate_to hrLb
        have har : a ∉ r :: rest := fun e => haLb (hpermb.mem_iff.2 e)
        obtain ⟨nr, m1, rr, e1, e2, Rg2, len2, live2, key2, child2, deg2, mark2, par2, lr2⟩ :=
          ring_push hring har hal
        obtain ⟨na, hna, ra⟩ := rd_some (show (look (put m1 a
          (fun n => { n with parent := none })) a).isSome by rw [live2]; exact hal)
        obtain ⟨nr2, hnr2, rr2⟩ := rd_some (show (look (put m1 a
          (fun n => { n with parent := none })) r).isSome by
            rw [live2]; exact hring.live_ring r (List.mem_cons_self _ _))
        obtain ⟨kr, hkr, hkmin⟩ := hmin
        have hnak : keyOf h.mem a = some na.key := by
          rw [← key2]; exact get_of_look Node.key hna
        have hnrk : nr2.key = kr := by
          have : keyOf h.mem r = some nr2.key := by
            rw [← key2]; exact get_of_look Node.key hnr2
          rw [hkr] at this
          simpa using this.symm
        have hpermLb : (r :: (rest ++ [a])).Perm (Lb ++ [a]) := by
          rw [← List.cons_append]
          exact (hpermb.symm).append_right _
        obtain ⟨h', L', e, Rg', hperm, hnone', hsome', hN, len, live, key, child, deg, mark, par,
          lr⟩ := ih { h with
            mem := put m1 a (fun n => { n with parent := none }),
            root := some (if na.key < nr2.key then a else r) } (r :: (rest ++ [a])) Rg2
          (by intro e; simp at e)
          (by
            intro r' hr'
            simp only [Option.some.injEq] at hr'
            have hall : ∀ p ∈ r :: (rest ++ [a]), ∃ kp,
                keyOf (put m1 a (fun n => { n with parent := none })) p = some kp ∧
                (if na.key < nr2.key then na.key else kr) ≤ kp := by
              intro p hp
              rw [key2]
              have : p ∈ Lb ∨ p = a := by
                have := hpermLb.mem_iff.1 hp
                simpa using this
              rcases this with hp' | hp'
              · obtain ⟨kp, h3, h4⟩ := hkmin p hp'
                refine ⟨kp, h3, ?_⟩
                split_ifs with hlt
                · rw [hnrk] at hlt; omega
                · exact h4
              · subst hp'
                refine ⟨na.key, hnak, ?_⟩
                split_ifs with hlt
                · exact le_rfl
                · rw [hnrk] at hlt; omega
            subst hr'
            refine ⟨?_, ?_⟩
            · split_ifs <;> simp
            · refine ⟨if na.key < nr2.key then na.key else kr, ?_, hall⟩
              rw [key2]
              split_ifs with hlt
              · exact hnak
              · exact hkr)
          (by
            have : (r :: (rest ++ [a]) ++ A.filterMap id).Perm (Lb ++ a :: A.filterMap id) := by
              have := hpermLb.append_right (A.filterMap id)
              simpa using this
            exact this.nodup_iff.2 hn')
          (by intro b hb; rw [live2]; exact hlive b (by simp [hb]))
        refine ⟨h', L', ?_, Rg', ?_, hnone', hsome', hN, by rw [len]; exact len2, ?_, ?_, ?_, ?_,
          ?_, ?_, ?_⟩
        · simp only [rebuild, hroot, bind, Except.bind, rr, e1, e2, ra, rr2]
          exact e
        · have : (r :: (rest ++ [a]) ++ A.filterMap id).Perm (Lb ++ a :: A.filterMap id) := by
            have := hpermLb.append_right (A.filterMap id)
            simpa using this
          simpa using hperm.trans this
        · intro q; rw [live]; exact live2 q
        · intro q; rw [key]; exact key2 q
        · intro q; rw [child]; exact child2 q
        · intro q; rw [deg]; exact deg2 q
        · intro q; rw [mark]; exact mark2 q
        · intro q
          rw [par]
          show (if q ∈ A.filterMap id then some none
            else parentOf (put m1 a (fun n => { n with parent := none })) q) = _
          rw [par2]
          by_cases e1 : q ∈ A.filterMap id
          · simp [e1]
          · by_cases e2 : q = a
            · subst e2; simp
            · simp [e1, e2]
        · intro q hqLb hq
          have hqa : q ≠ a := fun e' => hq (by simp [e'])
          have hqE : q ∉ A.filterMap id := fun e' => hq (by simp [e'])
          have hqr : q ∉ r :: rest := fun e' => hqLb (hpermb.mem_iff.2 e')
          have h1 := lr q (by
            intro e'
            have := hpermLb.mem_iff.1 e'
            simp at this
            rcases this with e'' | e''
            · exact hqLb e''
            · exact hqa e'') hqE
          have h2 := lr2 q hqa hqr
          exact ⟨h1.1.trans h2.1, h1.2.trans h2.2⟩

theorem consolidate_eq {h : FibonacciHeap} {r : Nat} {rest : List Nat}
    (hroot : h.root = some r) (hring : Ring h.mem (r :: rest)) (hN : 0 < h.N) :
    consolidate h = (do
      let p ← consolidate_for ((floorLogPhiFrom h.N h.N.toNat 0 : Nat) : Int) h
        (List.replicate (floorLogPhiFrom h.N h.N.toNat 0) none) (r :: rest)
      rebuild { p.1 with root := none } p.2) := by
  have hlen : rest.length < h.mem.length := by
    have := length_le_of_live hring.nodup hring.live_ring
    simp at this
    omega
  have hD : consolidate_D h.N = .ok ((floorLogPhiFrom h.N h.N.toNat 0 : Nat) : Int) := by
    simp [consolidate_D, not_le.2 hN]
  simp only [consolidate, hroot, hD, bind, Except.bind, hring.root_list hlen, Int.toNat_ofNat]

theorem consolidate_N_pos {h h' : FibonacciHeap} (e : consolidate h = .ok h') : 0 < h.N := by
  by_contra hc
  have hD : consolidate_D h.N = .error Err.badAccess := by
    simp [consolidate_D, not_lt.1 hc]
  cases hr : h.root with
  | none => simp [consolidate, hr, throw, throwThe, MonadExceptOf.throw] at e
  | some r => simp [consolidate, hr, hD, bind, Except.bind] at e

theorem entries_replicate (D : Nat) : (List.replicate D (none : Option Nat)).filterMap id = [] := by
  induction D with
  | zero => rfl
  | succ D ih => simp [List.replicate_succ]

theorem CInv.init {h : FibonacciHeap} {R : List Nat} {ch : Nat → List Nat} {ht : Nat → Nat}
    {r : Nat} {rest : List Nat} (F : Forest h.mem R ch ht) (Rg : Ring h.mem R)
    (hroot : h.root = some r) (hperm : R.Perm (r :: rest)) (O : HeapOrder h.mem) (D : Nat) :
    CInv h R ch ht (List.replicate D none) (r :: rest) := by
  refine ⟨F, Rg.rootLocal, by rw [hroot]; simp, O, ?_, ?_⟩
  · intro i a hi
    rw [List.getElem?_replicate] at hi
    split_ifs at hi; simp at hi
  · rw [entries_replicate]; simpa using hperm

/-- The end of `consolidate`: the root list is rebuilt from the slots of `A`. -/
theorem consolidate_finish {h1 : FibonacciHeap} {R1 : List Nat} {ch1 : Nat → List Nat}
    {ht1 : Nat → Nat} {A1 : List (Option Nat)} (C : CInv h1 R1 ch1 ht1 A1 []) (hne : R1 ≠ []) :
    ∃ h' L', rebuild { h1 with root := none } A1 = .ok h' ∧ Forest h'.mem L' ch1 ht1 ∧
      Ring h'.mem L' ∧ L'.Perm R1 ∧ (∃ r', h'.root = some r' ∧ r' ∈ L' ∧ MinIn h'.mem r' L') ∧
      HeapOrder h'.mem ∧ h'.N = h1.N ∧ h'.mem.length = h1.mem.length ∧
      (∀ q, (look h'.mem q).isSome = (look h1.mem q).isSome) ∧
      (∀ q, keyOf h'.mem q = keyOf h1.mem q) ∧
      (∀ q, degreeOf h'.mem q = degreeOf h1.mem q) ∧
      (∀ q, markOf h'.mem q = markOf h1.mem q) ∧
      (∀ a ∈ L', ∀ b ∈ L', a ≠ b → degreeOf h'.mem a ≠ degreeOf h'.mem b) := by
  have hperm : R1.Perm (A1.filterMap id) := by simpa using C.perm
  have hmemE : ∀ q, q ∈ A1.filterMap id ↔ q ∈ R1 := fun q => hperm.mem_iff.symm
  obtain ⟨h', L', e, Rg', hpermL, hnone', hsome', hN, len, live, key, child, deg, mark, par, lr⟩ :=
    rebuild_spec A1 { h1 with root := none } [] (by trivial) (fun _ => rfl)
      (by intro r hr; simp at hr)
      (by simpa using hperm.nodup_iff.1 C.forest.rnodup)
      (fun a ha => C.forest.live (Or.inl ((hmemE a).1 ha)))
  have hpermL' : L'.Perm R1 := by
    have : L'.Perm (A1.filterMap id) := by simpa using hpermL
    exact this.trans hperm.symm
  have hparR : ∀ q, InF R1 ch1 q → parentOf h'.mem q = parentOf h1.mem q := by
    intro q hq
    rw [par]
    split_ifs with hq'
    · exact (C.forest.rpar q ((hmemE q).1 hq')).symm
    · rfl
  have F' : Forest h'.mem L' ch1 ht1 := by
    refine (C.forest.frame_forest hparR (fun q _ => child q) (fun q _ => deg q) ?_).perm_forest hpermL'.symm
    intro p c hc
    have hcR := C.forest.child_not_root hc
    exact lr c (by simp) (fun e => hcR ((hmemE c).1 e))
  have hL'ne : L' ≠ [] := by
    intro e'
    rw [e'] at hpermL'
    exact hne (List.Perm.eq_nil hpermL'.symm)
  refine ⟨h', L', e, F', Rg', hpermL', ?_, ?_, hN, len, live, key, deg, mark, ?_⟩
  · cases hr : h'.root with
    | none => exact absurd (hnone' hr) hL'ne
    | some r' => exact ⟨r', rfl, hsome' r' hr⟩
  · intro c p hc
    have hc1 : parentOf h1.mem c = some (some p) := by
      rw [par] at hc
      split_ifs at hc with hq'
      · simp at hc
      · exact hc
    obtain ⟨kp, kc, h1', h2', h3'⟩ := C.order c p hc1
    exact ⟨kp, kc, (key p).trans h1', (key c).trans h2', h3'⟩
  · intro a ha b hb hab
    obtain ⟨i, hi⟩ := mem_entries.1 ((hmemE a).2 (hpermL'.mem_iff.1 ha))
    obtain ⟨j, hj⟩ := mem_entries.1 ((hmemE b).2 (hpermL'.mem_iff.1 hb))
    rw [deg, deg, C.ainv i a hi, C.ainv j b hj]
    intro e'
    simp at e'
    subst e'
    rw [hi] at hj
    simp at hj
    exact hab hj

theorem SzInv.perm_sz {R R' : List Nat} {ch : Nat → List Nat} {sz : Nat → Nat}
    (S : SzInv R ch sz) (hp : R.Perm R') : SzInv R' ch sz :=
  ⟨fun p h => S.size p (h.perm hp.symm), fun p h => S.binom p (h.perm hp.symm)⟩

/-- What `consolidate` establishes whenever it completes. -/
theorem consolidate_spec {h : FibonacciHeap} {R : List Nat} {ch : Nat → List Nat}
    {ht : Nat → Nat} {r : Nat} (F : Forest h.mem R ch ht) (Rg : Ring h.mem R)
    (hroot : h.root = some r) (hr : r ∈ R) (O : HeapOrder h.mem) {h' : FibonacciHeap}
    (e : consolidate h = .ok h') :
    ∃ R' ch' ht', Forest h'.mem R' ch' ht' ∧ Ring h'.mem R' ∧
      (∃ r', h'.root = some r' ∧ r' ∈ R' ∧ MinIn h'.mem r' R') ∧
      HeapOrder h'.mem ∧ h'.N = h.N ∧ h'.mem.length = h.mem.length ∧
      (∀ q, (look h'.mem q).isSome = (look h.mem q).isSome) ∧
      (∀ q, keyOf h'.mem q = keyOf h.mem q) ∧
      (∀ q, InF R' ch' q ↔ InF R ch q) ∧
      (∀ a ∈ R', ∀ b ∈ R', a ≠ b → degreeOf h'.mem a ≠ degreeOf h'.mem b) ∧
      (∀ sz, SzInv R ch sz → ∃ sz', SzInv R' ch' sz' ∧ (R'.map sz').sum = (R.map sz).sum) := by
  obtain ⟨rest, hperm, hring⟩ := Rg.rotate_to hr
  have hN := consolidate_N_pos e
  rw [consolidate_eq hroot hring hN] at e
  cases hres : consolidate_for ((floorLogPhiFrom h.N h.N.toNat 0 : Nat) : Int) h
      (List.replicate (floorLogPhiFrom h.N h.N.toNat 0) none) (r :: rest) with
  | error err => simp [hres, bind, Except.bind] at e
  | ok res =>
    simp only [hres, bind, Except.bind] at e
    have C0 := CInv.init F Rg hroot hperm O (floorLogPhiFrom h.N h.N.toNat 0)
    have hres' : consolidate_for
        (((List.replicate (floorLogPhiFrom h.N h.N.toNat 0) (none : Option Nat)).length : Nat) : Int)
        h (List.replicate (floorLogPhiFrom h.N h.N.toNat 0) none) (r :: rest) = .ok res := by
      rw [List.length_replicate]; exact hres
    obtain ⟨R1, ch1, ht1, C1, _, hroot1, hN1, len1, live1, key1, iff1, hsz1⟩ :=
      consolidate_for_spec _ _ _ _ _ _ _ C0 hres'
    have hne : R1 ≠ [] := by
      intro e1
      have h1 : InF R1 ch1 r := (iff1 r).2 (Or.inl hr)
      rw [e1] at C1 h1
      exact C1.forest.empty_of_no_roots r h1
    obtain ⟨h2, L2, e2, F2, Rg2, hperm2, hroot2, O2, hN2, len2, live2, key2, deg2, mark2, dist2⟩ :=
      consolidate_finish C1 hne
    rw [e2] at e
    cases e
    refine ⟨L2, ch1, ht1, F2, Rg2, hroot2, O2, by rw [hN2, hN1], by rw [len2]; exact len1,
      ?_, ?_, ?_, dist2, ?_⟩
    · intro q; rw [live2]; exact live1 q
    · intro q; rw [key2]; exact key1 q
    · intro q
      rw [← iff1]
      exact ⟨fun hq => hq.perm hperm2, fun hq => hq.perm hperm2.symm⟩
    · intro sz S
      obtain ⟨sz1, S1, e1⟩ := hsz1 sz S
      exact ⟨sz1, S1.perm_sz hperm2.symm, by rw [← e1]; exact (hperm2.map _).sum_eq⟩

/-! ## The size of the array of `consolidate` -/

theorem sqrt5_add {F1 a1 F2 a2 : Int} (_hF1 : 0 ≤ F1) (hF2 : 0 ≤ F2)
    (h1 : 0 ≤ a1) (h1' : 5 * F1 * F1 ≤ a1 * a1) (h2 : 0 ≤ a2) (h2' : 5 * F2 * F2 ≤ a2 * a2) :
    5 * (F1 + F2) * (F1 + F2) ≤ (a1 + a2) * (a1 + a2) := by
  have key : 5 * F1 * F2 ≤ a1 * a2 := by
    by_contra hc
    push_neg at hc
    have h3 : (a1 * a2) * (a1 * a2) < (5 * F1 * F2) * (5 * F1 * F2) := by
      nlinarith [mul_nonneg h1 h2]
    have h4 : (5 * F1 * F1) * (5 * F2 * F2) ≤ (a1 * a1) * (a2 * a2) :=
      mul_le_mul h1' h2' (by positivity) (by positivity)
    nlinarith
  nlinarith

/-- The inequality `φ ^ i ≤ 2 ^ (i - 1) + 1` in the integer form used by
`phiPowLe`. -/
theorem phi_pow_bound : ∀ i : Nat, 1 ≤ i →
    (((Nat.fib (i + 1) : Int) + Nat.fib (i + 1) - Nat.fib i ≤ 2 ^ i + 2) ∧
      5 * (Nat.fib i : Int) * Nat.fib i ≤
        (2 ^ i + 2 - ((Nat.fib (i + 1) : Int) + Nat.fib (i + 1) - Nat.fib i)) *
        (2 ^ i + 2 - ((Nat.fib (i + 1) : Int) + Nat.fib (i + 1) - Nat.fib i))) := by
  have main : ∀ i : Nat,
      ((((Nat.fib (i + 2) : Int) + Nat.fib (i + 2) - Nat.fib (i + 1) ≤ 2 ^ (i + 1) + 2) ∧
        5 * (Nat.fib (i + 1) : Int) * Nat.fib (i + 1) ≤
          (2 ^ (i + 1) + 2 - ((Nat.fib (i + 2) : Int) + Nat.fib (i + 2) - Nat.fib (i + 1))) *
          (2 ^ (i + 1) + 2 - ((Nat.fib (i + 2) : Int) + Nat.fib (i + 2) - Nat.fib (i + 1)))) ∧
      (((Nat.fib (i + 3) : Int) + Nat.fib (i + 3) - Nat.fib (i + 2) ≤ 2 ^ (i + 2) + 2) ∧
        5 * (Nat.fib (i + 2) : Int) * Nat.fib (i + 2) ≤
          (2 ^ (i + 2) + 2 - ((Nat.fib (i + 3) : Int) + Nat.fib (i + 3) - Nat.fib (i + 2))) *
          (2 ^ (i + 2) + 2 - ((Nat.fib (i + 3) : Int) + Nat.fib (i + 3) - Nat.fib (i + 2))))) := by
    intro i
    induction i with
    | zero => norm_num [Nat.fib]
    | succ i ih =>
      obtain ⟨⟨a1, b1⟩, ⟨a2, b2⟩⟩ := ih
      refine ⟨⟨a2, b2⟩, ?_⟩
      have f3 : (Nat.fib (i + 3) : Int) = Nat.fib (i + 1) + Nat.fib (i + 2) := by
        exact_mod_cast (Nat.fib_add_two (n := i + 1))
      have f4 : (Nat.fib (i + 1 + 3) : Int) = Nat.fib (i + 2) + Nat.fib (i + 3) := by
        exact_mod_cast (Nat.fib_add_two (n := i + 2))
      have f2 : (Nat.fib (i + 1 + 2) : Int) = Nat.fib (i + 3) := rfl
      have p1 : (2 : Int) ^ (i + 1 + 2) = 2 ^ (i + 1) + 2 ^ (i + 2) + 2 ^ (i + 1) := by ring
      have p0 : (2 : Int) ≤ 2 ^ (i + 1) := by
        have : (1 : Int) ≤ 2 ^ i := one_le_pow₀ (by norm_num)
        rw [pow_succ]; omega
      have hF1 : (0 : Int) ≤ Nat.fib (i + 1) := Int.natCast_nonneg _
      have hF2 : (0 : Int) ≤ Nat.fib (i + 2) := Int.natCast_nonneg _
      have hs := sqrt5_add hF1 hF2 (by linarith) b1 (by linarith) b2
      rw [f2, f4, p1]
      refine ⟨by linarith, ?_⟩
      have e : (Nat.fib (i + 3) : Int) = Nat.fib (i + 1) + Nat.fib (i + 2) := f3
      have hnn : (0 : Int) ≤ (2 ^ (i + 1) + 2 - ((Nat.fib (i + 2) : Int) + Nat.fib (i + 2)
          - Nat.fib (i + 1))) + (2 ^ (i + 2) + 2 - ((Nat.fib (i + 3) : Int) + Nat.fib (i + 3)
          - Nat.fib (i + 2))) := by linarith
      rw [e] at hs hnn ⊢
      refine le_trans hs ?_
      apply mul_le_mul <;> linarith
  intro i hi
  obtain ⟨j, rfl⟩ : ∃ j, i = j + 1 := ⟨i - 1, by omega⟩
  exact (main j).1

theorem phiPowLe_of_pow {i : Nat} {n : Int} (hi : 1 ≤ i) (hn : (2 : Int) ^ (i - 1) + 1 ≤ n) :
    phiPowLe i n = true := by
  obtain ⟨h1, h2⟩ := phi_pow_bound i hi
  obtain ⟨j, rfl⟩ : ∃ j, i = j + 1 := ⟨i - 1, by omega⟩
  simp only [Nat.add_sub_cancel] at hn
  have hp : (2 : Int) ^ (j + 1) = 2 * 2 ^ j := by ring
  simp only [phiPowLe, decide_eq_true_eq]
  refine ⟨by linarith, ?_⟩
  refine le_trans h2 ?_
  apply mul_le_mul <;> linarith

theorem floorLogPhiFrom_ge (n : Int) : ∀ (fuel d0 : Nat), d0 ≤ floorLogPhiFrom n fuel d0 := by
  intro fuel
  induction fuel with
  | zero => intro d0; simp [floorLogPhiFrom]
  | succ f ih =>
    intro d0
    simp only [floorLogPhiFrom]
    split_ifs
    · exact le_trans (Nat.le_succ _) (ih (d0 + 1))
    · exact le_rfl

theorem floorLogPhiFrom_lower (n : Int) : ∀ (fuel d0 d : Nat), d0 ≤ d → d ≤ d0 + fuel →
    (∀ i, d0 < i → i ≤ d → phiPowLe i n = true) → d ≤ floorLogPhiFrom n fuel d0 := by
  intro fuel
  induction fuel with
  | zero => intro d0 d h1 h2 _; simp only [floorLogPhiFrom]; omega
  | succ f ih =>
    intro d0 d h1 h2 h3
    simp only [floorLogPhiFrom]
    rcases Nat.eq_or_lt_of_le h1 with e | hlt
    · subst e
      split_ifs
      · exact le_trans (Nat.le_succ _) (floorLogPhiFrom_ge n f (d0 + 1))
      · exact le_rfl
    · rw [if_pos (h3 (d0 + 1) (by omega) hlt)]
      exact ih (d0 + 1) d hlt (by omega) (fun i hi hi' => h3 i (by omega) hi')

/-- The array of `consolidate` has room for the trees of a binomial forest:
`N ≤ 2 ^ ⌊log_φ N⌋` for `N ≥ 2`. -/
theorem N_le_two_pow_D (N : Int) (hN : 2 ≤ N) :
    N.toNat ≤ 2 ^ floorLogPhiFrom N N.toNat 0 := by
  obtain ⟨n, rfl⟩ : ∃ n : Nat, N = (n : Int) := ⟨N.toNat, by omega⟩
  simp only [Int.toNat_ofNat]
  have hn : 2 ≤ n := by omega
  have hlog := Nat.pow_log_le_self 2 (show n - 1 ≠ 0 by omega)
  have hlog' := Nat.lt_pow_succ_log_self (show 1 < 2 by norm_num) (n - 1)
  have hd : Nat.log 2 (n - 1) < 2 ^ Nat.log 2 (n - 1) := Nat.lt_two_pow _
  have hD : Nat.log 2 (n - 1) + 1 ≤ floorLogPhiFrom (n : Int) n 0 := by
    apply floorLogPhiFrom_lower _ _ _ _ (Nat.zero_le _) (by omega)
    intro i hi hi'
    apply phiPowLe_of_pow hi
    have : 2 ^ (i - 1) ≤ 2 ^ Nat.log 2 (n - 1) := Nat.pow_le_pow_right (by norm_num) (by omega)
    have h2 : 2 ^ (i - 1) + 1 ≤ n := by omega
    exact_mod_cast h2
  have := Nat.pow_le_pow_right (show 0 < 2 by norm_num) hD
  omega

theorem slots_sum (sz : Nat → Nat) : ∀ (A : List (Option Nat)) (k d : Nat),
    (∀ i a, A[i]? = some (some a) → 2 ^ (k + i) ≤ sz a) →
    (∀ i, d ≤ k + i → i < A.length → ∃ a, A[i]? = some (some a)) →
    2 ^ (k + A.length) ≤ 2 ^ (max d k) + ((A.filterMap id).map sz).sum := by
  intro A
  induction A with
  | nil =>
    intro k d _ _
    simp only [List.length_nil, Nat.add_zero, List.filterMap_nil, List.map_nil, List.sum_nil]
    exact Nat.pow_le_pow_right (by norm_num) (le_max_right _ _)
  | cons x A ih =>
    intro k d h1 h2
    have ih' := ih (k + 1) d
      (fun i a hi => by
        have := h1 (i + 1) a (by simpa using hi)
        rwa [show k + 1 + i = k + (i + 1) by omega])
      (fun i hi hl => by
        have := h2 (i + 1) (by omega) (by simp; omega)
        simpa using this)
    have hlen : k + (x :: A).length = k + 1 + A.length := by simp; omega
    rw [hlen]
    by_cases hdk : d ≤ k
    · obtain ⟨a, ha⟩ := h2 0 (by omega) (by simp)
      simp at ha
      subst ha
      have hsz := h1 0 a (by simp)
      simp only [Nat.add_zero] at hsz
      rw [max_eq_right hdk]
      rw [max_eq_right (by omega : d ≤ k + 1)] at ih'
      simp only [List.filterMap_cons, id, List.map_cons, List.sum_cons]
      rw [pow_succ] at ih'
      omega
    · rw [max_eq_left (by omega : k ≤ d)]
      rw [max_eq_left (by omega : k + 1 ≤ d)] at ih'
      cases x with
      | none => simpa using ih'
      | some a =>
        simp only [List.filterMap_cons, id, List.map_cons, List.sum_cons]
        omega

theorem exists_hasFree (A : List (Option Nat)) : ∀ (n d : Nat), A[d + n]? = some none →
    ∃ j, HasFree A d j := by
  intro n
  induction n with
  | zero => intro d h; exact ⟨d, le_rfl, h, fun i h1 h2 => by omega⟩
  | succ n ih =>
    intro d h
    have hl := lt_length_of_getElem? h
    have hd : d < A.length := by omega
    cases hx : A[d]? with
    | none => rw [List.getElem?_eq_none_iff] at hx; omega
    | some x =>
      cases x with
      | none => exact ⟨d, le_rfl, hx, fun i h1 h2 => by omega⟩
      | some a =>
        obtain ⟨j, h1, h2, h3⟩ := ih (d + 1) (by rwa [show d + 1 + n = d + (n + 1) by omega])
        refine ⟨j, by omega, h2, ?_⟩
        intro i hi hij
        rcases Nat.eq_or_lt_of_le hi with e | hlt
        · subst e; exact ⟨a, hx⟩
        · exact h3 i hlt hij

/-- In a forest of trees with at least `2 ^ degree` nodes whose total size is
below `2 ^ |A|`, the loop over the root list runs to its end. -/
theorem consolidate_for_total : ∀ (ws : List Nat) (h : FibonacciHeap) (R : List Nat)
    (ch : Nat → List Nat) (ht : Nat → Nat) (A : List (Option Nat)) (sz : Nat → Nat),
    CInv h R ch ht A ws → SzInv R ch sz → (R.map sz).sum < 2 ^ A.length →
    ∃ res, consolidate_for (A.length : Int) h A ws = .ok res := by
  intro ws
  induction ws with
  | nil =>
    intro h R ch ht A sz _ _ _
    exact ⟨(h, A), rfl⟩
  | cons w ws ih =>
    intro h R ch ht A sz C S hlt
    have hwR : w ∈ R := C.perm.mem_iff.2 (List.mem_append_right _ (List.mem_cons_self _ _))
    have hd := C.forest.degree_nat (Or.inl hwR)
    have hsum : (R.map sz).sum = ((A.filterMap id).map sz).sum + (sz w + (ws.map sz).sum) := by
      rw [(C.perm.map sz).sum_eq]; simp
    have hslot : ∀ i a, A[i]? = some (some a) → 2 ^ (0 + i) ≤ sz a := by
      intro i a hi
      have haR : a ∈ R :=
        C.perm.mem_iff.2 (List.mem_append_left _ (mem_entries.2 ⟨i, hi⟩))
      have h1 := C.ainv i a hi
      have h2 := C.forest.cdeg a (Or.inl haR)
      rw [h1] at h2
      have h3 : i = (ch a).length := by simpa using h2
      have := S.binom a (Or.inl haR)
      rw [Nat.zero_add, h3]
      exact this
    obtain ⟨j, hfree⟩ : ∃ j, HasFree A (ch w).length j := by
      by_contra hno
      have hocc : ∀ i, (ch w).length ≤ 0 + i → i < A.length → ∃ a, A[i]? = some (some a) := by
        intro i hi hl
        rw [Nat.zero_add] at hi
        cases hx : A[i]? with
        | none => rw [List.getElem?_eq_none_iff] at hx; omega
        | some x =>
          cases x with
          | some a => exact ⟨a, rfl⟩
          | none =>
            exfalso
            apply hno
            apply exists_hasFree A (i - (ch w).length) (ch w).length
            rw [show (ch w).length + (i - (ch w).length) = i by omega]
            exact hx
      have h1 := slots_sum sz A 0 (ch w).length hslot hocc
      have h2 := S.binom w (Or.inl hwR)
      rw [Nat.zero_add, max_eq_left (Nat.zero_le _)] at h1
      omega
    obtain ⟨h', R', ch', ht', A', e1, C', lenA, _, _, _, _, _, _, hsz⟩ :=
      consolidate_step_spec C hd hfree
    obtain ⟨sz', S', es⟩ := hsz sz S
    rw [e1, ← lenA]
    exact ih h' R' ch' ht' A' sz' C' S' (by rw [es, lenA]; exact hlt)

/-! ## `remove_min` -/

theorem remove_min_eq (h : FibonacciHeap) (z : Nat) (hz : h.root = some z) :
    remove_min h = (do
      let m ← splice_children h.mem z
      let m ← remove_min_unlink m z
      let zr := (← rd m z).right
      let h ← if z = zr then pure { h with mem := m, root := none }
        else consolidate { h with mem := m, root := some zr }
      remove_min_finish h z) := by
  unfold remove_min splice_children remove_min_unlink remove_min_finish
  simp only [hz, bind_assoc]
  refine bind_congr (fun nz => ?_)
  cases nz.child <;> simp only [bind_assoc, pure_bind]

theorem splice_children_spec {m : Mem} {R : List Nat} {ch : Nat → List Nat} {ht : Nat → Nat}
    {x : Nat} {ring : List Nat} (F : Forest m R ch ht) (hx : InF R ch x)
    (Rg : Ring m (x :: ring)) (hdisj : ∀ c ∈ ch x, c ∉ x :: ring) :
    ∃ m' T, splice_children m x = .ok m' ∧ T.Perm (ch x) ∧ Ring m' (x :: (ring ++ T)) ∧
      m'.length = m.length ∧
      (∀ q, (look m' q).isSome = (look m q).isSome) ∧
      (∀ q, keyOf m' q = keyOf m q) ∧ (∀ q, childOf m' q = childOf m q) ∧
      (∀ q, degreeOf m' q = degreeOf m q) ∧ (∀ q, markOf m' q = markOf m q) ∧
      (∀ q, parentOf m' q = if q ∈ ch x then some none else parentOf m q) ∧
      (∀ q, q ∉ ch x → q ∉ x :: ring →
        rightOf m' q = rightOf m q ∧ leftOf m' q = leftOf m q) := by
  obtain ⟨nx, hnx, rx⟩ := rd_some (F.live hx)
  cases hc : nx.child with
  | none =>
    have hch : ch x = [] := F.cnone x hx (by simp [childOf, hnx, hc])
    refine ⟨m, [], ?_, by rw [hch], by simpa using Rg, rfl, fun _ => rfl, fun _ => rfl,
      fun _ => rfl, fun _ => rfl, fun _ => rfl, ?_, fun _ _ _ => ⟨rfl, rfl⟩⟩
    · simp only [splice_children, bind, Except.bind, rx, hc, pure, Except.pure]
    · intro q; simp [hch]
  | some c1 =>
    have hzc : childOf m x = some (some c1) := by simp [childOf, hnx, hc]
    have hc1 : c1 ∈ ch x := F.csome x c1 hx hzc
    obtain ⟨todo, hperm, hring⟩ := (F.cring x).rotate_to hc1
    have hlive : ∀ q ∈ c1 :: todo, (look m q).isSome :=
      fun q hq => F.live (Or.inr ⟨x, hperm.mem_iff.2 hq⟩)
    have hlen : todo.length < m.length := by
      have := length_le_of_live hring.nodup hring.live_ring
      simp at this
      omega
    obtain ⟨hnd, hchain, hlast⟩ := ring_cons_iff.1 hring
    have hchain' : List.Chain (fun u v => rightOf m u = some v) c1 (todo ++ [c1]) :=
      List.Chain.imp (fun u v huv => huv.1) hring.2
    obtain ⟨n1, hn1, r1⟩ := rd_some (hlive c1 (List.mem_cons_self _ _))
    have hn1r : n1.right = todo.headD c1 := by
      cases todo with
      | nil =>
        have := hlast.1
        simpa [lastOf, rightOf, hn1] using this
      | cons b t =>
        rw [List.chain_cons] at hchain
        have := hchain.1.1
        simpa [rightOf, hn1] using this
    obtain ⟨m', e, Rg', len, live, key, child, deg, mark, par, lr⟩ :=
      splice_loop_spec x c1 todo m.length m c1 0 ring Rg hnd
        (fun q hq => hdisj q (hperm.mem_iff.2 hq)) hlive (hlive c1 (List.mem_cons_self _ _))
        hzc hchain' (List.nodup_cons.1 hnd).1 hlen
    refine ⟨m', c1 :: todo, ?_, hperm.symm, Rg', len, live, key, child, deg, mark, ?_, ?_⟩
    · simp only [splice_children, bind, Except.bind, rx, hc, r1, hn1r]
      exact e
    · intro q
      rw [par]
      by_cases hq : q ∈ c1 :: todo
      · rw [if_pos hq, if_pos (hperm.mem_iff.2 hq)]
      · rw [if_neg hq, if_neg (fun h => hq (hperm.mem_iff.1 h))]
    · intro q hq hq'
      exact lr q (fun h => hq (hperm.mem_iff.2 h)) hq'

theorem remove_min_unlink_spec {m : Mem} {z : Nat} {T : List Nat} (Rg : Ring m (z :: T)) :
    ∃ m', remove_min_unlink m z = .ok m' ∧ rightOf m' z = some (T.headD z) ∧ Ring m' T ∧
      m'.length = m.length ∧
      (∀ q, (look m' q).isSome = (look m q).isSome) ∧
      (∀ q, keyOf m' q = keyOf m q) ∧ (∀ q, childOf m' q = childOf m q) ∧
      (∀ q, degreeOf m' q = degreeOf m q) ∧ (∀ q, markOf m' q = markOf m q) ∧
      (∀ q, parentOf m' q = parentOf m q) ∧
      (∀ q, q ∉ z :: T → rightOf m' q = rightOf m q ∧ leftOf m' q = leftOf m q) := by
  have hzl := Rg.live_ring z (List.mem_cons_self _ _)
  obtain ⟨nz, hnz, rz⟩ := rd_some hzl
  obtain ⟨hnd, hchain, hlast⟩ := ring_cons_iff.1 Rg
  obtain ⟨l, hl⟩ : ∃ l, l = lastOf z T := ⟨_, rfl⟩
  obtain ⟨r, hr⟩ : ∃ r, r = T.headD z := ⟨_, rfl⟩
  rw [← hr]
  rw [← hl] at hlast
  have hlm : l ∈ z :: T := hl ▸ lastOf_mem T z
  have hrm : r ∈ z :: T := by
    cases T with
    | nil => simp at hr; simp [hr]
    | cons b t => simp at hr; simp [hr]
  have hzr : rightOf m z = some r := by
    cases T with
    | nil =>
      simp at hr
      simp only [lastOf] at hl
      rw [hr]; rw [hl] at hlast; exact hlast.1
    | cons b t =>
      rw [List.chain_cons] at hchain
      simp at hr
      rw [hr]
      exact hchain.1.1
  have hleft : nz.left = l := by
    have := hlast.2
    simpa [leftOf, hnz] using this
  have hright : nz.right = r := by
    simpa [rightOf, hnz] using hzr
  have hll : (look m l).isSome := Rg.live_ring _ hlm
  have hrl : (look m r).isSome := Rg.live_ring _ hrm
  have hrl1 : (look (put m l (fun n => { n with right := r })) r).isSome := by simpa using hrl
  have hzl1 : (look (put m l (fun n => { n with right := r })) z).isSome := by simpa using hzl
  obtain ⟨nz1, hnz1, rz1⟩ := rd_some hzl1
  have hleft1 : nz1.left = l := by
    have h1 : leftOf (put m l (fun n => { n with right := r })) z = leftOf m z := by simp
    rw [hlast.2] at h1
    simpa [leftOf, hnz1] using h1
  refine ⟨put (put m l (fun n => { n with right := r })) r
    (fun n => { n with left := l }), ?_, ?_, ?_, by simp, by simp, by simp, by simp,
    by simp, by simp, by simp, ?_⟩
  · simp only [remove_min_unlink, bind, Except.bind, rz, hleft, hright, wr_ok _ hll, rz1, hleft1,
      wr_ok _ hrl1]
  · cases T with
    | nil =>
      simp only [lastOf] at hl
      simp at hr
      subst hl hr
      simp [hzl]
    | cons b t =>
      have hbz : l ≠ z := fun e =>
        (List.nodup_cons.1 hnd).1 (by rw [← e, hl]; exact lastOf_mem t b)
      simp [hll, Ne.symm hbz]
      exact hzr
  · cases T with
    | nil => trivial
    | cons b t =>
      simp at hr
      rw [lastOf_cons] at hl
      subst hl hr
      refine Rg.unlink_head ?_ ?_
      · intro q _
        simp [hll]
      · intro q _
        simp [hrl1]
  · intro q hq
    have h1 : q ≠ l := fun e => hq (e ▸ hlm)
    have h2 : q ≠ r := fun e => hq (e ▸ hrm)
    simp [hll, hrl1, h1, h2]

theorem mem_update_nil {ch : Nat → List Nat} {z p c : Nat} :
    c ∈ Function.update ch z [] p ↔ p ≠ z ∧ c ∈ ch p := by
  by_cases e : p = z
  · subst e; simp
  · simp [Function.update_noteq e, e]

theorem InF_update_nil {m : Mem} {R : List Nat} {ch : Nat → List Nat} {ht : Nat → Nat}
    {z : Nat} {rest T : List Nat} (F : Forest m R ch ht) (hperm : R.Perm (z :: rest))
    (hT : T.Perm (rest ++ ch z)) (q : Nat) :
    InF T (Function.update ch z []) q ↔ InF R ch q ∧ q ≠ z := by
  have hzR : z ∈ R := hperm.mem_iff.2 (List.mem_cons_self _ _)
  have hznr : z ∉ rest := (List.nodup_cons.1 (hperm.nodup_iff.1 F.rnodup)).1
  have hzc : ∀ p, z ∉ ch p := fun p hc => F.child_not_root hc hzR
  constructor
  · rintro (hq | ⟨p, hp⟩)
    · rcases List.mem_append.1 (hT.mem_iff.1 hq) with h1 | h1
      · exact ⟨Or.inl (hperm.mem_iff.2 (List.mem_cons_of_mem _ h1)),
          fun e => hznr (e ▸ h1)⟩
      · exact ⟨Or.inr ⟨z, h1⟩, fun e => hzc z (e ▸ h1)⟩
    · obtain ⟨hpz, hc⟩ := mem_update_nil.1 hp
      exact ⟨Or.inr ⟨p, hc⟩, fun e => hzc p (e ▸ hc)⟩
  · rintro ⟨hq | ⟨p, hp⟩, hne⟩
    · rcases List.mem_cons.1 (hperm.mem_iff.1 hq) with h1 | h1
      · exact absurd h1 hne
      · exact Or.inl (hT.mem_iff.2 (List.mem_append_left _ h1))
    · by_cases e : p = z
      · subst e
        exact Or.inl (hT.mem_iff.2 (List.mem_append_right _ hp))
      · exact Or.inr ⟨p, mem_update_nil.2 ⟨e, hp⟩⟩

/-- The first half of `remove_min`: the children of `z` join the root ring
and `z` leaves it. -/
theorem remove_min_pre_spec {m : Mem} {R : List Nat} {ch : Nat → List Nat} {ht : Nat → Nat}
    {z : Nat} {rest : List Nat} (F : Forest m R ch ht) (hperm : R.Perm (z :: rest))
    (Rg : Ring m (z :: rest)) (O : HeapOrder m) :
    ∃ m' T, (splice_children m z >>= fun m1 => remove_min_unlink m1 z) = .ok m' ∧
      T.Perm (rest ++ ch z) ∧ rightOf m' z = some (T.headD z) ∧ Ring m' T ∧ z ∉ T ∧
      Forest m' T (Function.update ch z []) ht ∧ HeapOrder m' ∧
      m'.length = m.length ∧
      (∀ q, (look m' q).isSome = (look m q).isSome) ∧
      (∀ q, keyOf m' q = keyOf m q) := by
  have hzR : z ∈ R := hperm.mem_iff.2 (List.mem_cons_self _ _)
  have hznr : z ∉ rest := (List.nodup_cons.1 (hperm.nodup_iff.1 F.rnodup)).1
  have hzc : ∀ p, z ∉ ch p := fun p hc => F.child_not_root hc hzR
  have hdisj : ∀ c ∈ ch z, c ∉ z :: rest := fun c hc hc' =>
    F.child_not_root hc (hperm.mem_iff.2 hc')
  obtain ⟨m1, T1, e1, hT1, Rg1, len1, live1, key1, child1, deg1, mark1, par1, lr1⟩ :=
    splice_children_spec F (Or.inl hzR) Rg hdisj
  obtain ⟨m2, e2, hr2, Rg2, len2, live2, key2, child2, deg2, mark2, par2, lr2⟩ :=
    remove_min_unlink_spec Rg1
  have hT : (rest ++ T1).Perm (rest ++ ch z) := List.Perm.append_left _ hT1
  have hzT : z ∉ rest ++ T1 := (List.nodup_cons.1 Rg1.nodup).1
  have iff := InF_update_nil F hperm hT
  have hpar : ∀ q, parentOf m2 q = if q ∈ ch z then some none else parentOf m q := by
    intro q; rw [par2, par1]
  have hlr : ∀ q p, q ∈ ch p → p ≠ z →
      rightOf m2 q = rightOf m q ∧ leftOf m2 q = leftOf m q := by
    intro q p hq hpz
    have h1 : q ∉ ch z := fun h => hpz (F.child_unique hq h)
    have h2 : q ∉ z :: rest := fun h => F.child_not_root hq (hperm.mem_iff.2 h)
    have h3 : q ∉ z :: (rest ++ T1) := by
      intro h
      rcases List.mem_cons.1 h with h | h
      · exact h2 (h ▸ List.mem_cons_self _ _)
      · rcases List.mem_append.1 h with h | h
        · exact h2 (List.mem_cons_of_mem _ h)
        · exact h1 (hT1.mem_iff.1 h)
    obtain ⟨a1, a2⟩ := lr1 q h1 h2
    obtain ⟨b1, b2⟩ := lr2 q h3
    exact ⟨b1.trans a1, b2.trans a2⟩
  have hch : ∀ q, InF (rest ++ T1) (Function.update ch z []) q →
      Function.update ch z [] q = ch q ∧ InF R ch q := by
    intro q hq
    obtain ⟨h1, h2⟩ := (iff q).1 hq
    exact ⟨Function.update_noteq h2 _ _, h1⟩
  refine ⟨m2, rest ++ T1, ?_, hT, hr2, Rg2, hzT, ?_, ?_, by rw [len2, len1], ?_, ?_⟩
  · simp only [bind, Except.bind, e1, e2]
  · refine ⟨Rg2.nodup, ?_, ?_, ?_, ?_, ?_, ?_, ?_, ?_⟩
    · intro r hr
      rw [hpar]
      split_ifs with h
      · rfl
      · rcases List.mem_append.1 hr with h1 | h1
        · exact F.rpar r (hperm.mem_iff.2 (List.mem_cons_of_mem _ h1))
        · exact absurd (hT1.mem_iff.1 h1) h
    · intro p c hc
      obtain ⟨hpz, hc'⟩ := mem_update_nil.1 hc
      rw [hpar, if_neg (fun h => hpz (F.child_unique hc' h))]
      exact F.cpar p c hc'
    · intro p c hc
      obtain ⟨hpz, hc'⟩ := mem_update_nil.1 hc
      exact (iff p).2 ⟨F.pin p c hc', hpz⟩
    · intro p
      by_cases e : p = z
      · subst e; rw [Function.update_same]; trivial
      · rw [Function.update_noteq e]
        exact (F.cring p).frame (fun a ha => hlr a p ha e)
    · intro p hp hc
      obtain ⟨h1, h2⟩ := hch p hp
      rw [h1]
      rw [child2, child1] at hc
      exact F.cnone p h2 hc
    · intro p c hp hc
      obtain ⟨h1, h2⟩ := hch p hp
      rw [h1]
      rw [child2, child1] at hc
      exact F.csome p c h2 hc
    · intro p hp
      obtain ⟨h1, h2⟩ := hch p hp
      rw [h1, deg2, deg1]
      exact F.cdeg p h2
    · intro p c hc
      obtain ⟨hpz, hc'⟩ := mem_update_nil.1 hc
      exact F.hgt p c hc'
  · intro c p hc
    rw [hpar] at hc
    split_ifs at hc with h
    · simp at hc
    · obtain ⟨kp, kc, h1, h2, h3⟩ := O c p hc
      exact ⟨kp, kc, by rw [key2, key1]; exact h1, by rw [key2, key1]; exact h2, h3⟩
  · intro q; rw [live2, live1]
  · intro q; rw [key2, key1]

/-- The minimum of the roots of a heap-ordered forest is a minimum of the
forest. -/
theorem MinIn.forest {m : Mem} {R : List Nat} {ch : Nat → List Nat} {ht : Nat → Nat} {r : Nat}
    (hm : MinIn m r R) (F : Forest m R ch ht) (O : HeapOrder m) :
    ∃ kr, keyOf m r = some kr ∧ ∀ p, InF R ch p → ∃ kp, keyOf m p = some kp ∧ kr ≤ kp := by
  obtain ⟨kr, h1, h2⟩ := hm
  refine ⟨kr, h1, ?_⟩
  refine F.induct (fun p => ∃ kp, keyOf m p = some kp ∧ kr ≤ kp) h2 ?_
  intro p c hc ⟨kp, hp1, hp2⟩
  obtain ⟨kp', kc, a1, a2, a3⟩ := O c p (F.cpar p c hc)
  rw [hp1] at a1
  cases a1
  exact ⟨kc, a2, le_trans hp2 a3⟩

/-- The end of `remove_min`: once `z` is out of the forest, deleting it
leaves a heap that satisfies the invariants. -/
theorem remove_min_post {h2 : FibonacciHeap} {R2 : List Nat} {ch2 : Nat → List Nat}
    {ht2 : Nat → Nat} {z : Nat} (F : Forest h2.mem R2 ch2 ht2) (Rg : Ring h2.mem R2)
    (hroot : ∀ r, h2.root = some r → r ∈ R2 ∧ MinIn h2.mem r R2)
    (hnone : h2.root = none → R2 = []) (O : HeapOrder h2.mem)
    (hz : (look h2.mem z).isSome) (hzF : ¬ InF R2 ch2 z)
    (hcomp : ∀ q, (look h2.mem q).isSome → q ≠ z → InF R2 ch2 q)
    (hcount : h2.N = liveCount h2.mem) :
    ∃ h', remove_min_finish h2 z = .ok h' ∧ Inv h' R2 ch2 ht2 ∧ h'.N = h2.N - 1 ∧
      h'.root = h2.root ∧ h'.mem.length = h2.mem.length ∧
      (∀ q, look h'.mem q = if q = z then none else look h2.mem q) := by
  obtain ⟨nz, hnz, rz⟩ := rd_some hz
  have hlt := look_lt hnz
  have hlook : ∀ q, look (h2.mem.set z none) q = if q = z then none else look h2.mem q :=
    fun q => look_set h2.mem z q none hlt
  have hne : ∀ q, InF R2 ch2 q → q ≠ z := fun q hq e => hzF (e ▸ hq)
  have hsame : ∀ q, q ≠ z → look (h2.mem.set z none) q = look h2.mem q := by
    intro q hq; rw [hlook, if_neg hq]
  have hpar : ∀ q, q ≠ z → parentOf (h2.mem.set z none) q = parentOf h2.mem q := by
    intro q hq; unfold parentOf; rw [hsame q hq]
  have hkey : ∀ q, q ≠ z → keyOf (h2.mem.set z none) q = keyOf h2.mem q := by
    intro q hq; unfold keyOf; rw [hsame q hq]
  refine ⟨{ h2 with N := h2.N - 1, mem := h2.mem.set z none }, ?_, ?_, rfl, rfl, by simp, hlook⟩
  · simp only [remove_min_finish, del, hnz, bind, Except.bind, pure, Except.pure]
  · refine ⟨?_, ?_, ?_, ?_, ?_, ?_, ?_, ?_⟩
    · refine F.frame_forest (fun q hq => hpar q (hne q hq)) ?_ ?_ ?_
      · intro q hq; unfold childOf; rw [hsame q (hne q hq)]
      · intro q hq; unfold degreeOf; rw [hsame q (hne q hq)]
      · intro p c hc
        have := hne c (Or.inr ⟨p, hc⟩)
        unfold rightOf leftOf
        rw [hsame c this]
        exact ⟨rfl, rfl⟩
    · refine Rg.frame ?_
      intro a ha
      have := hne a (Or.inl ha)
      unfold rightOf leftOf
      rw [hsame a this]
      exact ⟨rfl, rfl⟩
    · intro r hr; exact (hroot r hr).1
    · exact hnone
    · intro p hp
      simp only [] at hp
      rw [hlook] at hp
      split_ifs at hp with e
      · simp at hp
      · exact hcomp p hp e
    · have := liveCount_del hnz
      simp only []
      omega
    · intro c p hc
      simp only [] at hc
      have hcz : c ≠ z := by
        intro e
        subst e
        simp [parentOf, hlook] at hc
      rw [hpar c hcz] at hc
      have hcl : (look h2.mem c).isSome := isSome_of_get hc
      have hcF := hcomp c hcl hcz
      have hcp := F.mem_child_of_parent hcF hc
      have hpz := hne p (F.pin p c hcp)
      obtain ⟨kp, kc, a1, a2, a3⟩ := O c p hc
      exact ⟨kp, kc, (hkey p hpz).trans a1, (hkey c hcz).trans a2, a3⟩
    · intro r hr p kp hp
      simp only [] at hr hp ⊢
      obtain ⟨hrR, hmin⟩ := hroot r hr
      obtain ⟨kr, h1, h2'⟩ := hmin.forest F O
      have hpz : p ≠ z := by
        intro e
        subst e
        simp [keyOf, hlook] at hp
      rw [hkey p hpz] at hp
      obtain ⟨kp', b1, b2⟩ := h2' p (hcomp p (isSome_of_get hp) hpz)
      rw [hp] at b1
      cases b1
      exact ⟨kr, (hkey r (hne r (Or.inl hrR))).trans h1, b2⟩

theorem SzInv.remove_root {m : Mem} {R : List Nat} {ch : Nat → List Nat} {ht : Nat → Nat}
    {sz : Nat → Nat} {z : Nat} {rest T : List Nat} (S : SzInv R ch sz) (F : Forest m R ch ht)
    (hperm : R.Perm (z :: rest)) (hT : T.Perm (rest ++ ch z)) :
    SzInv T (Function.update ch z []) sz ∧ (T.map sz).sum + 1 = (R.map sz).sum := by
  have iff := InF_update_nil F hperm hT
  refine ⟨⟨?_, ?_⟩, ?_⟩
  · intro p hp
    obtain ⟨h1, h2⟩ := (iff p).1 hp
    rw [Function.update_noteq h2]
    exact S.size p h1
  · intro p hp
    obtain ⟨h1, h2⟩ := (iff p).1 hp
    rw [Function.update_noteq h2]
    exact S.binom p h1
  · have hz := S.size z (Or.inl (hperm.mem_iff.2 (List.mem_cons_self _ _)))
    rw [(hT.map sz).sum_eq, (hperm.map sz).sum_eq]
    simp only [List.map_append, List.sum_append, List.map_cons, List.sum_cons]
    omega

theorem remove_min_eq2 (h : FibonacciHeap) (z : Nat) (hz : h.root = some z) :
    remove_min h = (do
      let m ← (splice_children h.mem z >>= fun m1 => remove_min_unlink m1 z)
      let zr := (← rd m z).right
      let h ← if z = zr then pure { h with mem := m, root := none }
        else consolidate { h with mem := m, root := some zr }
      remove_min_finish h z) := by
  rw [remove_min_eq h z hz]
  simp only [bind_assoc]

/-- What `remove_min` establishes whenever it completes on a heap that
satisfies the invariants. -/
theorem remove_min_inv {h : FibonacciHeap} {R : List Nat} {ch : Nat → List Nat}
    {ht : Nat → Nat} (I : Inv h R ch ht) {h' : FibonacciHeap} (e : remove_min h = .ok h') :
    ∃ z R' ch' ht', h.root = some z ∧ Inv h' R' ch' ht' ∧ h'.N = h.N - 1 ∧
      h'.mem.length = h.mem.length ∧
      (∀ q, look h'.mem q = none ↔ (q = z ∨ look h.mem q = none)) ∧
      (∀ q, keyOf h'.mem q = if q = z then none else keyOf h.mem q) ∧
      (∀ sz, SzInv R ch sz → ∃ sz', SzInv R' ch' sz' ∧ (R'.map sz').sum + 1 = (R.map sz).sum) := by
  cases hr : h.root with
  | none => simp [remove_min, hr, throw, throwThe, MonadExceptOf.throw] at e
  | some z =>
    have hzR := I.rootIn z hr
    obtain ⟨rest, hperm, hring⟩ := I.ring.rotate_to hzR
    obtain ⟨m, T, epre, hT, hright, Rg, hzT, F, O, len, live, key⟩ :=
      remove_min_pre_spec I.forest hperm hring I.order
    have iff := InF_update_nil I.forest hperm hT
    have hzl : (look h.mem z).isSome := I.forest.live (Or.inl hzR)
    have hzl' : (look m z).isSome := by rw [live]; exact hzl
    obtain ⟨nz, hnz, rz⟩ := rd_some hzl'
    have hnr : nz.right = T.headD z := by simpa [rightOf, hnz] using hright
    have hcount : h.N = liveCount m := by rw [liveCount_congr len live]; exact I.count
    have hcomp : ∀ q, (look m q).isSome → q ≠ z → InF T (Function.update ch z []) q := by
      intro q hq hqz
      rw [live] at hq
      exact (iff q).2 ⟨I.complete q hq, hqz⟩
    have hzF : ¬ InF T (Function.update ch z []) z := fun hq => ((iff z).1 hq).2 rfl
    rw [remove_min_eq2 h z hr, epre] at e
    simp only [bind, Except.bind, rz, hnr] at e
    have fin : ∀ (h2 : FibonacciHeap) (R2 : List Nat) (ch2 : Nat → List Nat) (ht2 : Nat → Nat),
        remove_min_finish h2 z = .ok h' → Forest h2.mem R2 ch2 ht2 → Ring h2.mem R2 →
        (∀ r, h2.root = some r → r ∈ R2 ∧ MinIn h2.mem r R2) → (h2.root = none → R2 = []) →
        HeapOrder h2.mem → h2.N = h.N → h2.mem.length = m.length →
        (∀ q, (look h2.mem q).isSome = (look m q).isSome) →
        (∀ q, keyOf h2.mem q = keyOf m q) →
        (∀ q, InF R2 ch2 q ↔ InF T (Function.update ch z []) q) →
        Inv h' R2 ch2 ht2 ∧ h'.N = h.N - 1 ∧ h'.mem.length = h.mem.length ∧
          (∀ q, look h'.mem q = none ↔ (q = z ∨ look h.mem q = none)) ∧
          (∀ q, keyOf h'.mem q = if q = z then none else keyOf h.mem q) := by
      intro h2 R2 ch2 ht2 e2 F2 Rg2 hroot2 hnone2 O2 hN2 len2 live2 key2 iff2
      obtain ⟨h'', e3, I3, hN3, hroot3, len3, look3⟩ :=
        remove_min_post F2 Rg2 hroot2 hnone2 O2 (by rw [live2]; exact hzl')
          (fun hq => hzF ((iff2 z).1 hq))
          (fun q hq hqz => (iff2 q).2 (hcomp q (by rw [← live2]; exact hq) hqz))
          (by rw [hN2, hcount]; congr 1; exact (liveCount_congr len2 live2).symm)
      rw [e3] at e2
      cases e2
      refine ⟨I3, by rw [hN3, hN2], by rw [len3, len2, len], ?_, ?_⟩
      · intro q
        rw [look3]
        by_cases hq : q = z
        · simp [hq]
        · simp only [if_neg hq, hq, false_or]
          have h1 := live2 q
          have h2' := live q
          rw [h2'] at h1
          cases ha : look h2.mem q <;> cases hb : look h.mem q <;> simp [ha, hb] at h1 ⊢
      · intro q
        by_cases hq : q = z
        · simp [hq, keyOf, look3]
        · rw [if_neg hq, ← key, ← key2]
          unfold keyOf
          rw [look3, if_neg hq]
    cases T with
    | nil =>
      simp only [List.headD_nil, if_true, pure, Except.pure] at e
      obtain ⟨a1, a2, a3, a4, a5⟩ := fin { h with mem := m, root := none } []
        (Function.update ch z []) ht e F Rg (by intro r hr'; simp at hr') (fun _ => rfl) O rfl rfl
        (fun _ => rfl) (fun _ => rfl) (fun _ => Iff.rfl)
      refine ⟨z, [], Function.update ch z [], ht, rfl, a1, a2, a3, a4, a5, ?_⟩
      intro sz S
      exact ⟨sz, S.remove_root I.forest hperm hT⟩
    | cons b t =>
      have hzb : z ≠ b := fun e' => hzT (e' ▸ List.mem_cons_self _ _)
      simp only [List.headD_cons, if_neg hzb] at e
      cases hc : consolidate { h with mem := m, root := some b } with
      | error err => simp [hc] at e
      | ok h2 =>
        simp only [hc] at e
        obtain ⟨R2, ch2, ht2, F2, Rg2, ⟨r2, hr2, hr2R, hmin2⟩, O2, hN2, len2, live2, key2, iff2,
          _, hsz2⟩ := consolidate_spec (h := { h with mem := m, root := some b }) F Rg rfl
            (List.mem_cons_self _ _) O hc
        obtain ⟨a1, a2, a3, a4, a5⟩ := fin h2 R2 ch2 ht2 e F2 Rg2
          (by intro r hr'; rw [hr2] at hr'; cases hr'; exact ⟨hr2R, hmin2⟩)
          (by intro hn; rw [hr2] at hn; cases hn) O2 hN2 len2 live2 key2 iff2
        refine ⟨z, R2, ch2, ht2, rfl, a1, a2, a3, a4, a5, ?_⟩
        intro sz S
        obtain ⟨S1, e1⟩ := S.remove_root I.forest hperm hT
        obtain ⟨sz2, S2, e2⟩ := hsz2 sz S1
        exact ⟨sz2, S2, by rw [e2]; exact e1⟩

/-- On a forest of trees with at least `2 ^ degree` nodes that holds fewer
than `N` nodes, `consolidate` runs to its end. -/
theorem consolidate_total {h : FibonacciHeap} {R : List Nat} {ch : Nat → List Nat}
    {ht : Nat → Nat} {r : Nat} {sz : Nat → Nat} (F : Forest h.mem R ch ht) (Rg : Ring h.mem R)
    (hroot : h.root = some r) (hr : r ∈ R) (O : HeapOrder h.mem) (S : SzInv R ch sz)
    (hN : 2 ≤ h.N) (hsum : (R.map sz).sum < h.N.toNat) :
    ∃ h', consolidate h = .ok h' := by
  obtain ⟨rest, hperm, hring⟩ := Rg.rotate_to hr
  rw [consolidate_eq hroot hring (by omega)]
  have C0 := CInv.init F Rg hroot hperm O (floorLogPhiFrom h.N h.N.toNat 0)
  have hb := N_le_two_pow_D h.N hN
  obtain ⟨res, hres⟩ := consolidate_for_total _ _ _ _ _ _ sz C0 S
    (by rw [List.length_replicate]; omega)
  obtain ⟨R1, ch1, ht1, C1, _, _, _, _, _, _, iff1, _⟩ :=
    consolidate_for_spec _ _ _ _ _ _ _ C0 hres
  have hne : R1 ≠ [] := by
    intro e1
    have h1 : InF R1 ch1 r := (iff1 r).2 (Or.inl hr)
    rw [e1] at C1 h1
    exact C1.forest.empty_of_no_roots r h1
  obtain ⟨h2, L2, e2, _⟩ := consolidate_finish C1 hne
  rw [List.length_replicate] at hres
  refine ⟨h2, ?_⟩
  simp only [bind, Except.bind, hres, e2]

/-- On a heap whose trees have at least `2 ^ degree` nodes each (the heaps
built by `insert` and `remove_min` alone), `remove_min` runs to its end. -/
theorem remove_min_total {h : FibonacciHeap} {R : List Nat} {ch : Nat → List Nat}
    {ht : Nat → Nat} {sz : Nat → Nat} {z : Nat} (I : Inv h R ch ht) (S : SzInv R ch sz)
    (hsum : ((R.map sz).sum : Int) = h.N) (hr : h.root = some z) :
    ∃ h', remove_min h = .ok h' := by
  have hzR := I.rootIn z hr
  obtain ⟨rest, hperm, hring⟩ := I.ring.rotate_to hzR
  obtain ⟨m, T, epre, hT, hright, Rg, hzT, F, O, len, live, key⟩ :=
    remove_min_pre_spec I.forest hperm hring I.order
  have hzl : (look h.mem z).isSome := I.forest.live (Or.inl hzR)
  have hzl' : (look m z).isSome := by rw [live]; exact hzl
  obtain ⟨nz, hnz, rz⟩ := rd_some hzl'
  have hnr : nz.right = T.headD z := by simpa [rightOf, hnz] using hright
  obtain ⟨S1, e1⟩ := S.remove_root I.forest hperm hT
  rw [remove_min_eq2 h z hr, epre]
  simp only [bind, Except.bind, rz, hnr]
  cases T with
  | nil =>
    simp only [List.headD_nil, if_true, pure, Except.pure]
    simp only [remove_min_finish, del, hnz, bind, Except.bind, pure, Except.pure]
    exact ⟨_, rfl⟩
  | cons b t =>
    have hzb : z ≠ b := fun e' => hzT (e' ▸ List.mem_cons_self _ _)
    simp only [List.headD_cons, if_neg hzb]
    have hb1 := S1.size b (Or.inl (List.mem_cons_self _ _))
    have hTsum : 1 ≤ ((b :: t).map sz).sum := by
      simp only [List.map_cons, List.sum_cons]; omega
    obtain ⟨h2, hc⟩ := consolidate_total (h := { h with mem := m, root := some b }) F Rg rfl
      (List.mem_cons_self _ _) O S1 (by simp only []; omega) (by simp only []; omega)
    obtain ⟨R2, ch2, ht2, F2, Rg2, _, O2, hN2, len2, live2, _⟩ :=
      consolidate_spec (h := { h with mem := m, root := some b }) F Rg rfl
        (List.mem_cons_self _ _) O hc
    have hz2 : (look h2.mem z).isSome := by rw [live2]; exact hzl'
    obtain ⟨n2, hn2, _⟩ := rd_some hz2
    simp only [hc, remove_min_finish, del, hn2, bind, Except.bind, pure, Except.pure]
    exact ⟨_, rfl⟩

/-! ## The keys of a heap and the loops of `sort_test` -/

theorem mem_keysOf {m : Mem} {k : Int} : k ∈ keysOf m ↔ ∃ p, keyOf m p = some k := by
  unfold keysOf
  rw [List.mem_filterMap]
  constructor
  · rintro ⟨p, _, hp⟩; exact ⟨p, hp⟩
  · rintro ⟨p, hp⟩
    refine ⟨p, ?_, hp⟩
    have := isSome_of_get hp
    cases hq : look m p with
    | none => simp [hq] at this
    | some n => exact List.mem_range.2 (look_lt hq)

theorem keysOf_insert {m m' : Mem} {k : Int} (hlen : m'.length = m.length + 1)
    (hnew : keyOf m' m.length = some k)
    (hold : ∀ q, q ≠ m.length → keyOf m' q = keyOf m q) :
    keysOf m' = keysOf m ++ [k] := by
  unfold keysOf
  rw [hlen, List.range_succ, List.filterMap_append]
  congr 1
  · apply List.filterMap_congr
    intro q hq
    exact hold q (by have := List.mem_range.1 hq; omega)
  · simp [hnew]

theorem filterMap_remove_one (f g : Nat → Option Int) (z : Nat) (kz : Int)
    (hz : f z = some kz) (hg : ∀ q, g q = if q = z then none else f q) :
    ∀ l : List Nat, l.Nodup → z ∈ l → (l.filterMap f).Perm (kz :: l.filterMap g) := by
  intro l
  induction l with
  | nil => intro _ h; simp at h
  | cons a l ih =>
    intro hn hm
    have hn' := List.nodup_cons.1 hn
    by_cases e : a = z
    · subst e
      have hsame : l.filterMap g = l.filterMap f := by
        apply List.filterMap_congr
        intro q hq
        rw [hg, if_neg (fun (e' : q = a) => hn'.1 (e' ▸ hq))]
      rw [List.filterMap_cons_some hz, List.filterMap_cons_none (by rw [hg, if_pos rfl]), hsame]
    · have hzl : z ∈ l := by
        rcases List.mem_cons.1 hm with h | h
        · exact absurd h.symm e
        · exact h
      have ih' := ih hn'.2 hzl
      have hga : g a = f a := by rw [hg, if_neg e]
      cases hfa : f a with
      | none =>
        rw [List.filterMap_cons_none hfa, List.filterMap_cons_none (hga.trans hfa)]
        exact ih'
      | some v =>
        rw [List.filterMap_cons_some hfa, List.filterMap_cons_some (hga.trans hfa)]
        exact (List.Perm.cons v ih').trans (List.Perm.swap kz v _)

theorem keysOf_remove {m m' : Mem} {z : Nat} {kz : Int} (hlen : m'.length = m.length)
    (hz : keyOf m z = some kz)
    (hk : ∀ q, keyOf m' q = if q = z then none else keyOf m q) :
    (keysOf m).Perm (kz :: keysOf m') := by
  unfold keysOf
  rw [hlen]
  apply filterMap_remove_one (keyOf m) (keyOf m') z kz hz hk _ (List.nodup_range _)
  have := isSome_of_get hz
  cases hq : look m z with
  | none => simp [hq] at this
  | some n => exact List.mem_range.2 (look_lt hq)

theorem keysOf_eq_nil {m : Mem} (h : ∀ p, look m p = none) : keysOf m = [] := by
  apply List.eq_nil_iff_forall_not_mem.2
  intro k hk
  obtain ⟨p, hp⟩ := mem_keysOf.1 hk
  simp [keyOf, h p] at hp

theorem Inv.empty_inv : Inv empty [] (fun _ => []) (fun _ => 0) := by
  have hl : ∀ p, look FibHeap.empty.mem p = none := fun p => by simp [FibHeap.empty, look]
  have hin : ∀ p, ¬ InF [] (fun _ => ([] : List Nat)) p := by
    intro p hp; rcases hp with hp | ⟨q, hq⟩ <;> simp at *
  refine ⟨⟨List.nodup_nil, by simp, by simp, by simp, fun _ => trivial, fun _ _ _ => rfl,
    ?_, ?_, by simp⟩, trivial, ?_, fun _ => rfl, ?_, rfl, ?_, ?_⟩
  · intro p c hp; exact absurd hp (hin p)
  · intro p hp; exact absurd hp (hin p)
  · intro r hr; simp [FibHeap.empty] at hr
  · intro p hp; rw [hl p] at hp; simp at hp
  · intro c p hc; simp [parentOf, hl c] at hc
  · intro r hr; simp [FibHeap.empty] at hr

theorem SInv.empty_sinv : SInv empty :=
  ⟨[], fun _ => [], fun _ => 0, fun _ => 0, Inv.empty_inv,
    ⟨by intro p hp; rcases hp with hp | ⟨q, hq⟩ <;> simp at *,
     by intro p hp; rcases hp with hp | ⟨q, hq⟩ <;> simp at *⟩, rfl⟩

theorem SzInv.add_root_sz {m : Mem} {R R' : List Nat} {ch : Nat → List Nat} {ht : Nat → Nat}
    {sz : Nat → Nat} {x : Nat} (S : SzInv R ch sz) (_F : Forest m R ch ht)
    (hx : ¬ InF R ch x) (hch : ch x = []) (hperm : R'.Perm (R ++ [x])) :
    SzInv R' ch (Function.update sz x 1) ∧
      (R'.map (Function.update sz x 1)).sum = (R.map sz).sum + 1 := by
  have hxc : ∀ p, x ∉ ch p := fun p hc => hx (Or.inr ⟨p, hc⟩)
  have hxR : x ∉ R := fun hr => hx (Or.inl hr)
  have hold : ∀ p, InF R' ch p → p ≠ x → InF R ch p := by
    rintro p (hp | hp) hne
    · rcases List.mem_append.1 (hperm.mem_iff.1 hp) with h | h
      · exact Or.inl h
      · simp at h; exact absurd h hne
    · exact Or.inr hp
  refine ⟨⟨?_, ?_⟩, ?_⟩
  · intro p hp
    rw [map_update_of_not_mem sz x 1 (ch p) (hxc p)]
    by_cases e : p = x
    · subst e; rw [Function.update_same, hch]; rfl
    · rw [Function.update_noteq e]; exact S.size p (hold p hp e)
  · intro p hp
    by_cases e : p = x
    · subst e; rw [Function.update_same, hch]; simp
    · rw [Function.update_noteq e]; exact S.binom p (hold p hp e)
  · rw [(hperm.map _).sum_eq, List.map_append, List.sum_append,
      map_update_of_not_mem sz x 1 R hxR]
    simp

theorem insert_sinv {h : FibonacciHeap} (W : SInv h) (k : Int) :
    ∃ h', insert h k = .ok (h.mem.length, h') ∧ SInv h' ∧ h'.N = h.N + 1 ∧
      keysOf h'.mem = keysOf h.mem ++ [k] := by
  obtain ⟨R, ch, ht, sz, I, S, hsum⟩ := W
  obtain ⟨h', R', e, I', hperm, hN, hlen, hk, hkold, _, _, _⟩ := insert_inv I k
  obtain ⟨S', hs'⟩ := S.add_root_sz I.forest I.not_inF_new
    (I.forest.ch_dead (look_eq_none_of_ge (le_refl _))) hperm
  refine ⟨h', e, ⟨R', ch, ht, _, I', S', ?_⟩, hN, keysOf_insert hlen hk hkold⟩
  rw [hs', hN, ← hsum]
  push_cast
  rfl

theorem insert_all_sinv : ∀ (ks : List Int) (h : FibonacciHeap), SInv h →
    ∃ ps h', insert_all h ks = .ok (ps, h') ∧ SInv h' ∧ h'.N = h.N + ks.length ∧
      keysOf h'.mem = keysOf h.mem ++ ks := by
  intro ks
  induction ks with
  | nil => intro h W; exact ⟨[], h, rfl, W, by simp, by simp⟩
  | cons k ks ih =>
    intro h W
    obtain ⟨h1, e1, W1, hN1, hk1⟩ := insert_sinv W k
    obtain ⟨ps, h2, e2, W2, hN2, hk2⟩ := ih h1 W1
    refine ⟨h.mem.length :: ps, h2, ?_, W2, ?_, ?_⟩
    · simp only [insert_all, bind, Except.bind, e1, e2, pure, Except.pure]
    · rw [hN2, hN1, List.length_cons]; push_cast; ring
    · rw [hk2, hk1]; simp

theorem remove_min_sinv {h : FibonacciHeap} (W : SInv h) {z : Nat} (hr : h.root = some z) :
    ∃ h' kz, get_min h = .ok kz ∧ remove_min h = .ok h' ∧ SInv h' ∧ h'.N = h.N - 1 ∧
      (keysOf h.mem).Perm (kz :: keysOf h'.mem) ∧ (∀ k ∈ keysOf h.mem, kz ≤ k) := by
  obtain ⟨R, ch, ht, sz, I, S, hsum⟩ := W
  obtain ⟨h', e⟩ := remove_min_total I S hsum hr
  obtain ⟨z', R', ch', ht', hz', I', hN, hlen, hlook, hkey, hsz⟩ := remove_min_inv I e
  rw [hr] at hz'
  cases hz'
  obtain ⟨sz', S', es⟩ := hsz sz S
  have hzl := I.forest.live (Or.inl (I.rootIn z hr))
  obtain ⟨nz, hnz, rz⟩ := rd_some hzl
  have hkz : keyOf h.mem z = some nz.key := by simp [keyOf, hnz]
  refine ⟨h', nz.key, ?_, e, ⟨R', ch', ht', sz', I', S', ?_⟩, hN, keysOf_remove hlen hkz hkey, ?_⟩
  · simp only [get_min, hr, bind, Except.bind, rz, pure, Except.pure]
  · rw [hN, ← hsum, ← es]; push_cast; ring
  · intro k hk
    obtain ⟨p, hp⟩ := mem_keysOf.1 hk
    obtain ⟨kr, h1, h2⟩ := I.min z hr p k hp
    rw [hkz] at h1
    cases h1
    exact h2

/-- The extraction loop returns the keys of the heap in non-decreasing order
and leaves the heap empty. -/
theorem drain_sorted : ∀ (n : Nat) (h : FibonacciHeap), SInv h → h.N = (n : Int) →
    ∃ out h', drain n h = .ok (out, h') ∧ out.Sorted (fun a b => a ≤ b) ∧
      out.Perm (keysOf h.mem) ∧ h'.root = none ∧ h'.N = 0 := by
  intro n
  induction n with
  | zero =>
    intro h W hN
    obtain ⟨R, ch, ht, sz, I, S, hsum⟩ := W
    have hroot : h.root = none := by
      cases hr : h.root with
      | none => rfl
      | some z =>
        exfalso
        have hzR := I.rootIn z hr
        obtain ⟨rest, hperm, _⟩ := I.ring.rotate_to hzR
        have h1 := S.size z (Or.inl hzR)
        have h2 := (hperm.map sz).sum_eq
        simp only [List.map_cons, List.sum_cons] at h2
        rw [hN] at hsum
        have : (R.map sz).sum = 0 := by exact_mod_cast hsum
        omega
    have hR := I.rootNone hroot
    subst hR
    have hnone : ∀ p, look h.mem p = none := by
      intro p
      cases hp : look h.mem p with
      | none => rfl
      | some nd =>
        exact absurd (I.complete p (by simp [hp])) (I.forest.empty_of_no_roots p)
    refine ⟨[], h, rfl, List.sorted_nil, ?_, hroot, by simpa using hN⟩
    rw [keysOf_eq_nil hnone]
  | succ n ih =>
    intro h W hN
    have hroot : ∃ z, h.root = some z := by
      obtain ⟨R, ch, ht, sz, I, S, hsum⟩ := W
      cases hr : h.root with
      | some z => exact ⟨z, rfl⟩
      | none =>
        exfalso
        have hR := I.rootNone hr
        subst hR
        simp at hsum
        omega
    obtain ⟨z, hr⟩ := hroot
    obtain ⟨h1, kz, eg, er, W1, hN1, hperm, hmin⟩ := remove_min_sinv W hr
    obtain ⟨out, h2, ed, hs, hp, hroot2, hN2⟩ := ih h1 W1 (by rw [hN1, hN]; push_cast; ring)
    refine ⟨kz :: out, h2, ?_, ?_, ?_, hroot2, hN2⟩
    · simp only [drain, bind, Except.bind, eg, er, ed, pure, Except.pure]
    · refine List.sorted_cons.2 ⟨?_, hs⟩
      intro b hb
      exact hmin b (hperm.mem_iff.2 (List.mem_cons_of_mem _ (hp.mem_iff.1 hb)))
    · exact (List.Perm.cons kz hp).trans hperm.symm

/-! ## Reachable states -/

/-- A call `decrease_key(x, k)` that returns was made on an allocated node
with `k ≤ x->key`. -/
theorem decrease_key_pre {h h' : FibonacciHeap} {x : Nat} {k : Int}
    (e : decrease_key h x k = .ok h') : ∃ kx, keyOf h.mem x = some kx ∧ k ≤ kx := by
  rw [decrease_key_eq] at e
  cases hx : look h.mem x with
  | none =>
    simp [rd, hx, bind, Except.bind] at e
  | some nx =>
    refine ⟨nx.key, by simp [keyOf, hx], ?_⟩
    by_contra hc
    simp only [bind, Except.bind, rd_of_look hx] at e
    rw [if_pos (by omega)] at e
    simp [throw, throwThe, MonadExceptOf.throw] at e

theorem liveCount_pos {m : Mem} {p : Nat} (h : (look m p).isSome) : 0 < liveCount m := by
  unfold liveCount
  rw [List.countP_pos_iff]
  refine ⟨p, ?_, h⟩
  cases hq : look m p with
  | none => simp [hq] at h
  | some n => exact List.mem_range.2 (look_lt hq)

theorem liveCount_eq_zero {m : Mem} (h : ∀ p, look m p = none) : liveCount m = 0 := by
  unfold liveCount
  rw [List.countP_eq_zero]
  intro p _
  simp [h p]

/-- In a heap that satisfies the invariants `root` is null exactly when
`N == 0`. -/
theorem Inv.root_none_iff {h : FibonacciHeap} {R : List Nat} {ch : Nat → List Nat}
    {ht : Nat → Nat} (I : Inv h R ch ht) : h.root = none ↔ h.N = 0 := by
  constructor
  · intro hr
    have hR := I.rootNone hr
    subst hR
    have hnone : ∀ p, look h.mem p = none := by
      intro p
      cases hp : look h.mem p with
      | none => rfl
      | some nd =>
        exact absurd (I.complete p (by simp [hp])) (I.forest.empty_of_no_roots p)
    rw [I.count, liveCount_eq_zero hnone]
    rfl
  · intro hN
    cases hr : h.root with
    | none => rfl
    | some r =>
      have := liveCount_pos (I.forest.live (Or.inl (I.rootIn r hr)))
      have h2 := I.count
      omega

theorem Reach.wf {h : FibonacciHeap} (hr : Reach h) : WF h := by
  induction hr with
  | empty => exact ⟨_, _, _, Inv.empty_inv⟩
  | insert _ e ih =>
    obtain ⟨R, ch, ht, I⟩ := ih
    obtain ⟨h'', R', e', I', _⟩ := insert_inv I _
    rw [e'] at e
    cases e
    exact ⟨R', ch, ht, I'⟩
  | remove_min _ e ih =>
    obtain ⟨R, ch, ht, I⟩ := ih
    obtain ⟨z, R', ch', ht', _, I', _⟩ := remove_min_inv I e
    exact ⟨R', ch', ht', I'⟩
  | decrease_key _ e ih =>
    obtain ⟨R, ch, ht, I⟩ := ih
    obtain ⟨kx, hx, hk⟩ := decrease_key_pre e
    obtain ⟨h'', R', ch', e', I', _⟩ := decrease_key_inv I hx _ hk
    rw [e'] at e
    cases e
    exact ⟨R', ch', ht, I'⟩

theorem Inv.min_key {h : FibonacciHeap} {R : List Nat} {ch : Nat → List Nat}
    {ht : Nat → Nat} (I : Inv h R ch ht) {r : Nat} (hr : h.root = some r) :
    ∃ kr, get_min h = .ok kr ∧ keyOf h.mem r = some kr ∧
      ∀ p kp, keyOf h.mem p = some kp → kr ≤ kp := by
  have hl := I.forest.live (Or.inl (I.rootIn r hr))
  obtain ⟨nr, hnr, rr⟩ := rd_some hl
  have hk : keyOf h.mem r = some nr.key := by simp [keyOf, hnr]
  refine ⟨nr.key, ?_, hk, ?_⟩
  · simp only [get_min, hr, bind, Except.bind, rr, pure, Except.pure]
  · intro p kp hp
    obtain ⟨kr, h1, h2⟩ := I.min r hr p kp hp
    rw [hk] at h1
    cases h1
    exact h2

/-! ## `change_key` and `remove` -/

theorem change_key_eq (h : FibonacciHeap) (x : Nat) (k : Int) :
    change_key h x k = (do
      let nx ← rd h.mem x
      if nx.key = k then throw Err.sameKey
      else if nx.key > k then decrease_key h x k
      else do
        let h1 ← decrease_key h x INT_MIN
        let m ← wr h1.mem x (fun n => { n with key := k })
        let m ← splice_children m x
        let m ← wr m x (fun n => { n with child := none })
        let m ← wr m x (fun n => { n with degree := 0 })
        pure { h1 with mem := m, root := h.root }) := by
  unfold change_key splice_children
  cases hx : rd h.mem x with
  | error err => simp [bind, Except.bind]
  | ok nx =>
    simp only [bind, Except.bind]
    split_ifs
    · rfl
    · rfl
    · cases decrease_key h x INT_MIN with
      | error err => rfl
      | ok h1 =>
        simp only []
        cases wr h1.mem x (fun n => { n with key := k }) with
        | error err => rfl
        | ok m =>
          simp only []
          cases rd m x with
          | error err => rfl
          | ok n1 =>
            simp only []
            cases n1.child with
            | none => rfl
            | some c =>
              simp only []
              cases rd m c with
              | error err => rfl
              | ok v => rfl

/-- Heap order after a call of `change_key` that returns. -/
theorem change_key_order {h : FibonacciHeap} {R : List Nat} {ch : Nat → List Nat}
    {ht : Nat → Nat} (I : Inv h R ch ht) {x : Nat} {k : Int} {h' : FibonacciHeap}
    (e : change_key h x k = .ok h') : HeapOrder h'.mem := by
  rw [change_key_eq] at e
  cases hx : look h.mem x with
  | none => simp [rd, hx, bind, Except.bind] at e
  | some nx =>
    simp only [bind, Except.bind, rd_of_look hx] at e
    by_cases c1 : nx.key = k
    · rw [if_pos c1] at e
      simp [throw, throwThe, MonadExceptOf.throw] at e
    · rw [if_neg c1] at e
      have hkx : keyOf h.mem x = some nx.key := by simp [keyOf, hx]
      by_cases c2 : nx.key > k
      · rw [if_pos c2] at e
        obtain ⟨h'', R', ch', e', I', _⟩ := decrease_key_inv I hkx k (by omega)
        rw [e'] at e
        cases e
        exact I'.order
      · rw [if_neg c2] at e
        cases hd : decrease_key h x INT_MIN with
        | error err => simp [hd] at e
        | ok h1 =>
          obtain ⟨kx, hkx', hle⟩ := decrease_key_pre hd
          rw [hkx] at hkx'
          cases hkx'
          obtain ⟨h1', R1, ch1, e1, I1, _, _, live1, key1, _⟩ := decrease_key_inv I hkx INT_MIN hle
          rw [hd] at e1
          cases e1
          simp only [hd] at e
          have hxl : (look h1.mem x).isSome := by rw [live1]; simp [hx]
          have hxF := I1.complete x hxl
          have F2 : Forest (put h1.mem x (fun n => { n with key := k })) R1 ch1 ht :=
            I1.forest.frame_forest (fun q _ => by simp) (fun q _ => by simp) (fun q _ => by simp)
              (fun p c _ => by simp)
          obtain ⟨rest, Rg, hdisj⟩ : ∃ rest, Ring (put h1.mem x (fun n => { n with key := k }))
              (x :: rest) ∧ ∀ c ∈ ch1 x, c ∉ x :: rest := by
            rcases hxF with hxR | ⟨q, hxq⟩
            · obtain ⟨rest, hperm, hring⟩ := I1.ring.rotate_to hxR
              refine ⟨rest, hring.frame (fun a _ => by simp), ?_⟩
              intro c hc hc'
              exact I1.forest.child_not_root hc (hperm.mem_iff.2 hc')
            · obtain ⟨rest, hperm, hring⟩ := (I1.forest.cring q).rotate_to hxq
              refine ⟨rest, hring.frame (fun a _ => by simp), ?_⟩
              intro c hc hc'
              have := I1.forest.child_unique hc (hperm.mem_iff.2 hc')
              subst this
              exact I1.forest.not_self_child _ hxq
          obtain ⟨m3, T, e3, _, _, _, live3, key3, _, _, _, par3, _⟩ :=
            splice_children_spec F2 hxF Rg hdisj
          have hxl3 : (look m3 x).isSome := by rw [live3]; simpa using hxl
          have hxl4 : (look (put m3 x (fun n => { n with child := none })) x).isSome := by
            simpa using hxl3
          simp only [wr_ok _ hxl, e3, wr_ok _ hxl3, wr_ok _ hxl4, pure, Except.pure] at e
          cases e
          intro c p hc
          simp only [] at hc ⊢
          have hpar : ∀ q, parentOf (put (put m3 x (fun n => { n with child := none })) x
              (fun n => { n with degree := 0 })) q
              = if q ∈ ch1 x then some none else parentOf h1.mem q := by
            intro q; simp [par3]
          have hkey : ∀ q, keyOf (put (put m3 x (fun n => { n with child := none })) x
              (fun n => { n with degree := 0 })) q
              = if q = x then some k else keyOf h1.mem q := by
            intro q; simp [key3, hxl]
          rw [hpar] at hc
          split_ifs at hc with hcx
          · simp at hc
          · obtain ⟨kp, kc, a1, a2, a3⟩ := I1.order c p hc
            have hcF := I1.complete c (isSome_of_get hc)
            have hcp := I1.forest.mem_child_of_parent hcF hc
            have hpx : p ≠ x := fun e' => hcx (e' ▸ hcp)
            rw [hkey, hkey, if_neg hpx]
            by_cases ecx : c = x
            · subst ecx
              rw [key1, if_pos rfl] at a2
              cases a2
              exact ⟨kp, k, a1, by simp, by omega⟩
            · rw [if_neg ecx]
              exact ⟨kp, kc, a1, a2, a3⟩

/-- The invariants after a call of `remove` that returns. -/
theorem remove_inv {h : FibonacciHeap} {R : List Nat} {ch : Nat → List Nat}
    {ht : Nat → Nat} (I : Inv h R ch ht) {x : Nat} {h' : FibonacciHeap}
    (e : remove h x = .ok h') : WF h' ∧ h'.N = h.N - 1 := by
  unfold remove at e
  cases hd : decrease_key h x INT_MIN with
  | error err => simp [hd, bind, Except.bind] at e
  | ok h1 =>
    simp only [hd, bind, Except.bind] at e
    obtain ⟨kx, hkx, hle⟩ := decrease_key_pre hd
    obtain ⟨h1', R1, ch1, e1, I1, hN1, _⟩ := decrease_key_inv I hkx INT_MIN hle
    rw [hd] at e1
    cases e1
    obtain ⟨z, R', ch', ht', _, I', hN', _⟩ := remove_min_inv I1 e
    exact ⟨⟨R', ch', ht', I'⟩, by rw [hN', hN1]⟩

/-! ## The concrete heaps -/

theorem reach_insert_all : ∀ (ks : List Int) {h h' : FibonacciHeap} {ps : List Nat},
    Reach h → insert_all h ks = .ok (ps, h') → Reach h' := by
  intro ks
  induction ks with
  | nil =>
    intro h h' ps hr e
    simp [insert_all, pure, Except.pure] at e
    rw [← e.2]; exact hr
  | cons k ks ih =>
    intro h h' ps hr e
    simp only [insert_all, bind, Except.bind] at e
    cases h1 : insert h k with
    | error err => simp [h1] at e
    | ok r1 =>
      obtain ⟨p1, g1⟩ := r1
      simp only [h1] at e
      cases h2 : insert_all g1 ks with
      | error err => simp [h2] at e
      | ok r2 =>
        obtain ⟨ps2, g2⟩ := r2
        simp only [h2, pure, Except.pure] at e
        cases e
        exact ih (Reach.insert hr h1) h2

theorem degree_two_reach : Reach degree_two_heap := by
  have e : degree_two_run = .ok degree_two_heap := by rfl
  unfold degree_two_run at e
  simp only [bind, Except.bind] at e
  cases h1 : insert_all empty [0, 1, 2, 3, 4] with
  | error err => simp [h1] at e
  | ok r1 =>
    obtain ⟨ps, g1⟩ := r1
    simp only [h1] at e
    cases h2 : remove_min g1 with
    | error err => simp [h2] at e
    | ok g2 =>
      simp only [h2] at e
      exact Reach.decrease_key (Reach.remove_min (reach_insert_all _ Reach.empty h1) h2) e

theorem int_min_reach : Reach int_min_heap :=
  reach_insert_all [INT_MIN, 5] Reach.empty
    (by rfl : insert_all empty [INT_MIN, 5] = .ok ([0, 1], int_min_heap))

theorem increase_reach : Reach increase_heap :=
  reach_insert_all [1, 2] Reach.empty
    (by rfl : insert_all empty [1, 2] = .ok ([0, 1], increase_heap))

theorem three_forest : Forest three_heap.mem [0, 1, 2] (fun _ => []) (fun _ => 0) := by
  have hin : ∀ p, InF [0, 1, 2] (fun _ => ([] : List Nat)) p → p = 0 ∨ p = 1 ∨ p = 2 := by
    intro p hp
    rcases hp with hp | ⟨q, hq⟩
    · simpa using hp
    · simp at hq
  refine ⟨by decide, ?_, by simp, by simp, fun _ => trivial, fun _ _ _ => rfl, ?_, ?_, by simp⟩
  · intro r hr
    simp at hr
    rcases hr with rfl | rfl | rfl <;> rfl
  · intro p c hp hc
    rcases hin p hp with rfl | rfl | rfl <;> simp [childOf, look, three_heap] at hc
  · intro p hp
    rcases hin p hp with rfl | rfl | rfl <;> rfl

theorem three_ring : Ring three_heap.mem [0, 1, 2] := by
  refine ⟨by decide, ?_⟩
  simp [Link, rightOf, leftOf, look, three_heap]

theorem three_order : HeapOrder three_heap.mem := by
  intro c p hc
  match c with
  | 0 => simp [parentOf, look, three_heap] at hc
  | 1 => simp [parentOf, look, three_heap] at hc
  | 2 => simp [parentOf, look, three_heap] at hc
  | n + 3 => simp [parentOf, look, three_heap] at hc

theorem noEmpty_bind {α β : Type} {a : Except Err α} {f : α → Except Err β}
    (ha : NoEmpty a) (hf : ∀ v, a = .ok v → NoEmpty (f v)) : NoEmpty (a >>= f) := by
  cases a with
  | error e =>
    intro h
    apply ha
    simpa [Bind.bind, Except.bind] using h
  | ok v => exact hf v rfl

theorem noEmpty_ok {α : Type} (v : α) : NoEmpty (Except.ok v : Except Err α) := by
  intro h; cases h

theorem noEmpty_pure {α : Type} (v : α) : NoEmpty (pure v : Except Err α) := by
  intro h; cases h

theorem noEmpty_rd (m : Mem) (p : Nat) : NoEmpty (rd m p) := by
  unfold rd NoEmpty; cases look m p <;> simp

theorem noEmpty_wr (m : Mem) (p : Nat) (f : Node → Node) : NoEmpty (wr m p f) := by
  unfold wr NoEmpty; cases look m p <;> simp

theorem noEmpty_del (m : Mem) (p : Nat) : NoEmpty (del m p) := by
  unfold del NoEmpty; cases look m p <;> simp

theorem noEmpty_list_insert (m : Mem) (x l r : Nat) : NoEmpty (list_insert m x l r) := by
  unfold list_insert
  refine noEmpty_bind (noEmpty_wr _ _ _) (fun _ _ => ?_)
  refine noEmpty_bind (noEmpty_wr _ _ _) (fun _ _ => ?_)
  refine noEmpty_bind (noEmpty_wr _ _ _) (fun _ _ => ?_)
  refine noEmpty_bind (noEmpty_wr _ _ _) (fun _ _ => ?_)
  exact noEmpty_pure _

theorem noEmpty_splice_loop (z : Nat) : ∀ (fuel : Nat) (m : Mem) (c n : Nat),
    NoEmpty (splice_loop z fuel m c n) := by
  intro fuel
  induction fuel with
  | zero => intro m c n h; simp [splice_loop] at h
  | succ f ih =>
    intro m c n
    unfold splice_loop
    refine noEmpty_bind (noEmpty_rd _ _) (fun _ _ => ?_)
    refine noEmpty_bind (noEmpty_list_insert _ _ _ _) (fun _ _ => ?_)
    refine noEmpty_bind (noEmpty_wr _ _ _) (fun _ _ => ?_)
    refine noEmpty_bind (noEmpty_rd _ _) (fun _ _ => ?_)
    refine noEmpty_bind (noEmpty_rd _ _) (fun _ _ => ?_)
    split_ifs
    · exact ih _ _ _
    · exact noEmpty_pure _

theorem noEmpty_throw {α : Type} {e : Err} (he : e ≠ Err.heapEmpty) :
    NoEmpty (throw e : Except Err α) := by
  intro h
  apply he
  simpa [throw, throwThe, MonadExceptOf.throw] using h

theorem noEmpty_link_attach (m : Mem) (x y : Nat) : NoEmpty (link_attach m x y) := by
  unfold link_attach
  refine noEmpty_bind (noEmpty_rd _ _) (fun n _ => ?_)
  cases n.child with
  | none =>
    refine noEmpty_bind (noEmpty_wr _ _ _) (fun _ _ => ?_)
    refine noEmpty_bind (noEmpty_wr _ _ _) (fun _ _ => ?_)
    exact noEmpty_wr _ _ _
  | some c =>
    refine noEmpty_bind (noEmpty_rd _ _) (fun _ _ => ?_)
    refine noEmpty_bind (noEmpty_list_insert _ _ _ _) (fun _ _ => ?_)
    exact noEmpty_wr _ _ _

theorem noEmpty_link_body (h : FibonacciHeap) (x y : Nat) : NoEmpty (link_body h x y) := by
  unfold link_body
  refine noEmpty_bind (noEmpty_rd _ _) (fun _ _ => ?_)
  refine noEmpty_bind (noEmpty_rd _ _) (fun _ _ => ?_)
  refine noEmpty_bind (noEmpty_wr _ _ _) (fun _ _ => ?_)
  refine noEmpty_bind (noEmpty_wr _ _ _) (fun _ _ => ?_)
  refine noEmpty_bind (noEmpty_link_attach _ _ _) (fun _ _ => ?_)
  refine noEmpty_bind (noEmpty_wr _ _ _) (fun _ _ => ?_)
  refine noEmpty_bind (noEmpty_wr _ _ _) (fun _ _ => ?_)
  refine noEmpty_bind (noEmpty_wr _ _ _) (fun _ _ => ?_)
  exact noEmpty_pure _

theorem link_body_root {h : FibonacciHeap} {x y : Nat} {r : Nat × FibonacciHeap}
    (e : link_body h x y = .ok r) : r.2.root = h.root := by
  unfold link_body at e
  simp only [bind, Except.bind, pure, Except.pure] at e
  repeat' split at e
  all_goals (cases e <;> rfl)

theorem noEmpty_heap_link (h : FibonacciHeap) (x y : Nat) (hr : h.root ≠ none) :
    NoEmpty (heap_link h (some x) (some y)) := by
  rw [heap_link_eq h x y hr]
  refine noEmpty_bind (noEmpty_rd _ _) (fun _ _ => ?_)
  refine noEmpty_bind (noEmpty_rd _ _) (fun _ _ => ?_)
  exact noEmpty_link_body _ _ _

theorem heap_link_root {h : FibonacciHeap} {x y : Nat} (hr : h.root ≠ none)
    {r : Nat × FibonacciHeap} (e : heap_link h (some x) (some y) = .ok r) :
    r.2.root = h.root := by
  rw [heap_link_eq h x y hr] at e
  simp only [bind, Except.bind] at e
  repeat' split at e
  all_goals first
    | cases e
    | exact link_body_root e

theorem noEmpty_A_get (A : List (Option Nat)) (d : Int) : NoEmpty (A_get A d) := by
  unfold A_get NoEmpty
  split_ifs
  · split <;> simp
  · simp

theorem noEmpty_A_set (A : List (Option Nat)) (d : Int) (v : Option Nat) :
    NoEmpty (A_set A d v) := by
  unfold A_set NoEmpty
  split_ifs <;> simp

theorem noEmpty_link_loop : ∀ (fuel : Nat) (h : FibonacciHeap) (A : List (Option Nat))
    (x : Nat) (d : Int), h.root ≠ none →
    NoEmpty (link_loop fuel h A x d) ∧
      ∀ r, link_loop fuel h A x d = .ok r → r.1.root = h.root := by
  intro fuel
  induction fuel with
  | zero =>
    intro h A x d _
    refine ⟨by intro e; simp [link_loop] at e, by intro r e; simp [link_loop] at e⟩
  | succ f ih =>
    intro h A x d hr
    unfold link_loop
    cases ha : A_get A d with
    | error err =>
      have := noEmpty_A_get A d
      refine ⟨?_, ?_⟩
      · intro e
        apply this
        rw [ha]
        simpa [bind, Except.bind] using e
      · intro r e; simp [bind, Except.bind] at e
    | ok a =>
      cases a with
      | none =>
        simp only [bind, Except.bind]
        exact ⟨noEmpty_pure _, fun r e => by cases e; rfl⟩
      | some y =>
        simp only [bind, Except.bind]
        cases hl : heap_link h (some x) (some y) with
        | error err =>
          have := noEmpty_heap_link h x y hr
          refine ⟨?_, ?_⟩
          · intro e
            apply this
            rw [hl]
            simpa using e
          · intro r e; simp at e
        | ok p =>
          obtain ⟨x', h'⟩ := p
          have hroot : h'.root = h.root := heap_link_root hr hl
          simp only []
          cases hs : A_set A d none with
          | error err =>
            have := noEmpty_A_set A d none
            refine ⟨?_, ?_⟩
            · intro e
              apply this
              rw [hs]
              simpa using e
            · intro r e; simp at e
          | ok A' =>
            simp only []
            obtain ⟨i1, i2⟩ := ih h' A' x' (d + 1) (by rw [hroot]; exact hr)
            exact ⟨i1, fun r e => (i2 r e).trans hroot⟩

theorem noEmpty_consolidate_for (D : Int) : ∀ (ws : List Nat) (h : FibonacciHeap)
    (A : List (Option Nat)), h.root ≠ none → NoEmpty (consolidate_for D h A ws) := by
  intro ws
  induction ws with
  | nil => intro h A _; exact noEmpty_pure _
  | cons w ws ih =>
    intro h A hr
    unfold consolidate_for
    refine noEmpty_bind (noEmpty_rd _ _) (fun n _ => ?_)
    dsimp only
    split_ifs
    · refine noEmpty_bind (noEmpty_pure _) (fun _ _ => ?_)
      obtain ⟨i1, i2⟩ := noEmpty_link_loop (A.length + 1) h A w n.degree hr
      refine noEmpty_bind i1 (fun r hr' => ?_)
      refine noEmpty_bind (noEmpty_A_set _ _ _) (fun _ _ => ?_)
      exact ih _ _ (by rw [i2 _ hr']; exact hr)
    · exact noEmpty_bind (noEmpty_throw (by decide)) (fun _ e => by cases e)

theorem noEmpty_rebuild : ∀ (A : List (Option Nat)) (h : FibonacciHeap),
    NoEmpty (rebuild h A) := by
  intro A
  induction A with
  | nil => intro h; exact noEmpty_pure _
  | cons a A ih =>
    intro h
    cases a with
    | none => unfold rebuild; exact ih h
    | some a =>
      unfold rebuild
      cases hr : h.root with
      | none =>
        simp only []
        refine noEmpty_bind (noEmpty_wr _ _ _) (fun _ _ => ?_)
        refine noEmpty_bind (noEmpty_wr _ _ _) (fun _ _ => ?_)
        refine noEmpty_bind (noEmpty_wr _ _ _) (fun _ _ => ?_)
        exact ih _
      | some root =>
        simp only []
        refine noEmpty_bind (noEmpty_rd _ _) (fun _ _ => ?_)
        refine noEmpty_bind (noEmpty_list_insert _ _ _ _) (fun _ _ => ?_)
        refine noEmpty_bind (noEmpty_wr _ _ _) (fun _ _ => ?_)
        refine noEmpty_bind (noEmpty_rd _ _) (fun _ _ => ?_)
        refine noEmpty_bind (noEmpty_rd _ _) (fun _ _ => ?_)
        exact ih _

theorem noEmpty_root_list_loop (m : Mem) (root : Nat) : ∀ (fuel w : Nat) (acc : List Nat),
    NoEmpty (root_list_loop m root fuel w acc) := by
  intro fuel
  induction fuel with
  | zero => intro w acc e; simp [root_list_loop] at e
  | succ f ih =>
    intro w acc
    unfold root_list_loop
    refine noEmpty_bind (noEmpty_rd _ _) (fun _ _ => ?_)
    dsimp only
    split_ifs
    · exact ih _ _
    · exact noEmpty_pure _

theorem noEmpty_consolidate (h : FibonacciHeap) : NoEmpty (consolidate h) := by
  unfold consolidate
  cases hr : h.root with
  | none => exact noEmpty_throw (by decide)
  | some root =>
    simp only []
    refine noEmpty_bind ?_ (fun D _ => ?_)
    · unfold consolidate_D NoEmpty
      split_ifs <;> simp
    refine noEmpty_bind (noEmpty_root_list_loop _ _ _ _ _) (fun _ _ => ?_)
    refine noEmpty_bind (noEmpty_consolidate_for _ _ _ _ (by rw [hr]; simp)) (fun r _ => ?_)
    exact noEmpty_rebuild _ _

/-- On a heap that is not empty `remove_min` does not stop with the exception
`"heap is empty"`. -/
theorem noEmpty_remove_min (h : FibonacciHeap) (hr : h.root ≠ none) : NoEmpty (remove_min h) := by
  cases hz : h.root with
  | none => exact absurd hz hr
  | some z =>
    rw [remove_min_eq h z hz]
    refine noEmpty_bind ?_ (fun _ _ => ?_)
    · unfold splice_children
      refine noEmpty_bind (noEmpty_rd _ _) (fun n _ => ?_)
      cases n.child with
      | none => exact noEmpty_pure _
      | some c =>
        refine noEmpty_bind (noEmpty_rd _ _) (fun _ _ => ?_)
        exact noEmpty_splice_loop _ _ _ _ _
    refine noEmpty_bind ?_ (fun _ _ => ?_)
    · unfold remove_min_unlink
      refine noEmpty_bind (noEmpty_rd _ _) (fun _ _ => ?_)
      refine noEmpty_bind (noEmpty_rd _ _) (fun _ _ => ?_)
      refine noEmpty_bind (noEmpty_wr _ _ _) (fun _ _ => ?_)
      refine noEmpty_bind (noEmpty_rd _ _) (fun _ _ => ?_)
      exact noEmpty_wr _ _ _
    refine noEmpty_bind (noEmpty_rd _ _) (fun _ _ => ?_)
    dsimp only
    have key : ∀ h2, NoEmpty (remove_min_finish h2 z) := by
      intro h2
      unfold remove_min_finish
      refine noEmpty_bind (noEmpty_del _ _) (fun _ _ => ?_)
      exact noEmpty_pure _
    split_ifs
    · exact noEmpty_bind (noEmpty_pure _) (fun _ _ => key _)
    · exact noEmpty_bind (noEmpty_consolidate _) (fun _ _ => key _)

/-- The result of `get_min_run` is the result of `get_min`. -/
theorem get_min_run_result (h : FibonacciHeap) : (get_min_run h).result = get_min h := by
  unfold get_min_run guarded get_min
  cases hr : h.root with
  | none => rfl
  | some r =>
    simp only [pure, Except.pure, decide_False]
    cases rd h.mem r <;> rfl

/-- The result of `remove_min_run` is the result of `remove_min`. -/
theorem remove_min_run_result (h : FibonacciHeap) :
    (remove_min_run h).result = (remove_min h).map (fun _ => ()) := by
  unfold remove_min_run guarded
  cases hr : h.root with
  | none =>
    simp only [pure, Except.pure, decide_True]
    simp [remove_min, hr, throw, throwThe, MonadExceptOf.throw, Except.map]
  | some r =>
    simp only [pure, Except.pure, decide_False]
    cases remove_min h <;> rfl

/-- The result of `decrease_key_run` is the result of `decrease_key`. -/
theorem decrease_key_run_result (h : FibonacciHeap) (x : Nat) (k : Int) :
    (decrease_key_run h x k).result = (decrease_key h x k).map (fun _ => ()) := by
  unfold decrease_key_run guarded
  rw [decrease_key_eq]
  cases hx : rd h.mem x with
  | error e => rfl
  | ok n =>
    simp only [bind, Except.bind, pure, Except.pure]
    by_cases hk : k > n.key
    · simp [hk, throw, throwThe, MonadExceptOf.throw, Except.map]
    · simp only [hk, decide_False, if_false]
      cases wr h.mem x (fun n => { n with key := k }) with
      | error e => rfl
      | ok m =>
        simp only []
        cases decrease_key_cut { h with mem := m } x with
        | error e => rfl
        | ok h1 =>
          simp only []
          cases decrease_key_root h1 x <;> rfl

/-- The result of `change_key_run` is the result of `change_key`. -/
theorem change_key_run_result (h : FibonacciHeap) (x : Nat) (k : Int) :
    (change_key_run h x k).result = (change_key h x k).map (fun _ => ()) := by
  unfold change_key_run guarded
  rw [change_key_eq]
  cases hx : rd h.mem x with
  | error e => rfl
  | ok n =>
    simp only [bind, Except.bind, pure, Except.pure]
    by_cases hk : n.key = k
    · simp [hk, throw, throwThe, MonadExceptOf.throw, Except.map]
    · simp only [hk, decide_False, if_false]
      split <;> rename_i heq <;> simp only [Except.map] at heq ⊢ <;> split at heq <;>
        simp_all

theorem MarkStep.rfl' (m : Mem) : MarkStep m m := fun _ h => h

theorem MarkStep.trans' {m m' m'' : Mem} (a : MarkStep m m') (b : MarkStep m' m'') :
    MarkStep m m'' := fun q h => a q (b q h)

theorem marksTo_pure {α : Type} {g : α → Mem} {m : Mem} {v : α} (h : MarkStep m (g v)) :
    MarksTo g m (pure v : Except Err α) := by
  intro w e
  cases e
  exact h

theorem marksTo_read {α β : Type} {g : α → Mem} {m : Mem} {a : Except Err β}
    {f : β → Except Err α} (hf : ∀ v, a = .ok v → MarksTo g m (f v)) :
    MarksTo g m (a >>= f) := by
  cases a with
  | error e => intro w e'; simp [Bind.bind, Except.bind] at e'
  | ok v => exact hf v rfl

theorem marksTo_bind {α β : Type} {g : α → Mem} (g1 : β → Mem) {m : Mem} {a : Except Err β}
    {f : β → Except Err α} (ha : MarksTo g1 m a)
    (hf : ∀ v, a = .ok v → MarksTo g (g1 v) (f v)) : MarksTo g m (a >>= f) := by
  cases a with
  | error e => intro w e'; simp [Bind.bind, Except.bind] at e'
  | ok v => exact fun w e => (ha v rfl).trans' (hf v rfl w e)

theorem marksTo_wr (m : Mem) (p : Nat) (f : Node → Node)
    (hf : ∀ n, (f n).mark = true → n.mark = true) : MarksTo id m (wr m p f) := by
  intro m' e q hq
  unfold wr at e
  cases hp : look m p with
  | none => simp [hp] at e
  | some n =>
    simp only [hp] at e
    cases e
    unfold markOf at hq ⊢
    rw [id, look_set m p q _ (look_lt hp)] at hq
    by_cases e' : q = p
    · rw [if_pos e'] at hq
      rw [e', hp]
      simp at hq ⊢
      exact hf n hq
    · rw [if_neg e'] at hq; exact hq

theorem marksTo_del (m : Mem) (p : Nat) : MarksTo id m (del m p) := by
  intro m' e q hq
  unfold del at e
  cases hp : look m p with
  | none => simp [hp] at e
  | some n =>
    simp only [hp] at e
    cases e
    unfold markOf at hq ⊢
    rw [id, look_set m p q _ (look_lt hp)] at hq
    by_cases e' : q = p
    · rw [if_pos e'] at hq; simp at hq
    · rw [if_neg e'] at hq; exact hq

theorem marksTo_list_insert (m : Mem) (x l r : Nat) : MarksTo id m (list_insert m x l r) := by
  unfold list_insert
  refine marksTo_bind id (marksTo_wr _ _ _ (fun _ h => h)) (fun _ _ => ?_)
  refine marksTo_bind id (marksTo_wr _ _ _ (fun _ h => h)) (fun _ _ => ?_)
  refine marksTo_bind id (marksTo_wr _ _ _ (fun _ h => h)) (fun _ _ => ?_)
  refine marksTo_bind id (marksTo_wr _ _ _ (fun _ h => h)) (fun _ _ => ?_)
  exact marksTo_pure (MarkStep.rfl' _)

theorem marksTo_splice_loop (z : Nat) : ∀ (fuel : Nat) (m : Mem) (c n : Nat),
    MarksTo id m (splice_loop z fuel m c n) := by
  intro fuel
  induction fuel with
  | zero => intro m c n v e; simp [splice_loop] at e
  | succ f ih =>
    intro m c n
    unfold splice_loop
    refine marksTo_read (fun _ _ => ?_)
    refine marksTo_bind id (marksTo_list_insert _ _ _ _) (fun _ _ => ?_)
    refine marksTo_bind id (marksTo_wr _ _ _ (fun _ h => h)) (fun _ _ => ?_)
    refine marksTo_read (fun _ _ => ?_)
    refine marksTo_read (fun _ _ => ?_)
    dsimp only
    split_ifs
    · exact ih _ _ _
    · exact marksTo_pure (MarkStep.rfl' _)

theorem marksTo_link_attach (m : Mem) (x y : Nat) : MarksTo id m (link_attach m x y) := by
  unfold link_attach
  refine marksTo_read (fun n _ => ?_)
  cases n.child with
  | none =>
    refine marksTo_bind id (marksTo_wr _ _ _ (fun _ h => h)) (fun _ _ => ?_)
    refine marksTo_bind id (marksTo_wr _ _ _ (fun _ h => h)) (fun _ _ => ?_)
    exact marksTo_wr _ _ _ (fun _ h => h)
  | some c =>
    refine marksTo_read (fun _ _ => ?_)
    refine marksTo_bind id (marksTo_list_insert _ _ _ _) (fun _ _ => ?_)
    exact marksTo_wr _ _ _ (fun _ h => h)

theorem marksTo_link_body (h : FibonacciHeap) (x y : Nat) :
    MarksTo (fun r : Nat × FibonacciHeap => r.2.mem) h.mem (link_body h x y) := by
  unfold link_body
  refine marksTo_read (fun _ _ => ?_)
  refine marksTo_read (fun _ _ => ?_)
  refine marksTo_bind id (marksTo_wr _ _ _ (fun _ h => h)) (fun _ _ => ?_)
  refine marksTo_bind id (marksTo_wr _ _ _ (fun _ h => h)) (fun _ _ => ?_)
  refine marksTo_bind id (marksTo_link_attach _ _ _) (fun _ _ => ?_)
  refine marksTo_bind id (marksTo_wr _ _ _ (fun _ h => h)) (fun _ _ => ?_)
  refine marksTo_bind id (marksTo_wr _ _ _ (fun _ h => by cases h)) (fun _ _ => ?_)
  refine marksTo_bind id (marksTo_wr _ _ _ (fun _ h => h)) (fun _ _ => ?_)
  exact marksTo_pure (MarkStep.rfl' _)

theorem marksTo_heap_link (h : FibonacciHeap) (x y : Nat) (hr : h.root ≠ none) :
    MarksTo (fun r : Nat × FibonacciHeap => r.2.mem) h.mem (heap_link h (some x) (some y)) := by
  rw [heap_link_eq h x y hr]
  refine marksTo_read (fun _ _ => ?_)
  refine marksTo_read (fun _ _ => ?_)
  exact marksTo_link_body _ _ _

theorem marksTo_link_loop : ∀ (fuel : Nat) (h : FibonacciHeap) (A : List (Option Nat))
    (x : Nat) (d : Int), h.root ≠ none →
    MarksTo (fun r : FibonacciHeap × List (Option Nat) × Nat × Int => r.1.mem) h.mem
      (link_loop fuel h A x d) := by
  intro fuel
  induction fuel with
  | zero => intro h A x d _ v e; simp [link_loop] at e
  | succ f ih =>
    intro h A x d hr
    unfold link_loop
    refine marksTo_read (fun a _ => ?_)
    cases a with
    | none => exact marksTo_pure (MarkStep.rfl' _)
    | some y =>
      dsimp only
      refine marksTo_bind (fun r : Nat × FibonacciHeap => r.2.mem) (marksTo_heap_link h x y hr)
        (fun r hl => ?_)
      refine marksTo_read (fun _ _ => ?_)
      exact ih _ _ _ _ (by rw [heap_link_root hr hl]; exact hr)

theorem marksTo_consolidate_for (D : Int) : ∀ (ws : List Nat) (h : FibonacciHeap)
    (A : List (Option Nat)), h.root ≠ none →
    MarksTo (fun r : FibonacciHeap × List (Option Nat) => r.1.mem) h.mem
      (consolidate_for D h A ws) := by
  intro ws
  induction ws with
  | nil => intro h A _; exact marksTo_pure (MarkStep.rfl' _)
  | cons w ws ih =>
    intro h A hr
    unfold consolidate_for
    refine marksTo_read (fun n _ => ?_)
    dsimp only
    split_ifs
    · refine marksTo_read (fun _ _ => ?_)
      refine marksTo_bind (fun r : FibonacciHeap × List (Option Nat) × Nat × Int => r.1.mem)
        (marksTo_link_loop _ h A w n.degree hr) (fun r hl => ?_)
      refine marksTo_read (fun _ _ => ?_)
      exact ih _ _ (by rw [(noEmpty_link_loop _ h A w n.degree hr).2 r hl]; exact hr)
    · refine marksTo_read (fun _ e => ?_)
      simp [throw, throwThe, MonadExceptOf.throw] at e

theorem marksTo_rebuild : ∀ (A : List (Option Nat)) (h : FibonacciHeap),
    MarksTo (fun r : FibonacciHeap => r.mem) h.mem (rebuild h A) := by
  intro A
  induction A with
  | nil => intro h; exact marksTo_pure (MarkStep.rfl' _)
  | cons a A ih =>
    intro h
    cases a with
    | none => unfold rebuild; exact ih h
    | some a =>
      unfold rebuild
      cases hr : h.root with
      | none =>
        dsimp only
        refine marksTo_bind id (marksTo_wr _ _ _ (fun _ h => h)) (fun _ _ => ?_)
        refine marksTo_bind id (marksTo_wr _ _ _ (fun _ h => h)) (fun _ _ => ?_)
        refine marksTo_bind id (marksTo_wr _ _ _ (fun _ h => h)) (fun _ _ => ?_)
        exact ih _
      | some root =>
        dsimp only
        refine marksTo_read (fun _ _ => ?_)
        refine marksTo_bind id (marksTo_list_insert _ _ _ _) (fun _ _ => ?_)
        refine marksTo_bind id (marksTo_wr _ _ _ (fun _ h => h)) (fun _ _ => ?_)
        refine marksTo_read (fun _ _ => ?_)
        refine marksTo_read (fun _ _ => ?_)
        exact ih _

/-- `consolidate` never sets a mark. -/
theorem marksTo_consolidate (h : FibonacciHeap) :
    MarksTo (fun r : FibonacciHeap => r.mem) h.mem (consolidate h) := by
  unfold consolidate
  cases hr : h.root with
  | none => intro v e; simp [throw, throwThe, MonadExceptOf.throw] at e
  | some root =>
    dsimp only
    refine marksTo_read (fun D _ => ?_)
    refine marksTo_read (fun _ _ => ?_)
    refine marksTo_bind (fun r : FibonacciHeap × List (Option Nat) => r.1.mem)
      (marksTo_consolidate_for _ _ _ _ (by rw [hr]; simp)) (fun r _ => ?_)
    exact marksTo_rebuild _ _

/-- `remove_min` never sets a mark: every node that is marked afterwards was
marked before the call. -/
theorem marksTo_remove_min (h : FibonacciHeap) :
    MarksTo (fun r : FibonacciHeap => r.mem) h.mem (remove_min h) := by
  cases hz : h.root with
  | none => intro v e; simp [remove_min, hz, throw, throwThe, MonadExceptOf.throw] at e
  | some z =>
    rw [remove_min_eq h z hz]
    refine marksTo_bind id ?_ (fun _ _ => ?_)
    · unfold splice_children
      refine marksTo_read (fun n _ => ?_)
      cases n.child with
      | none => exact marksTo_pure (MarkStep.rfl' _)
      | some c =>
        refine marksTo_read (fun _ _ => ?_)
        exact marksTo_splice_loop _ _ _ _ _
    refine marksTo_bind id ?_ (fun _ _ => ?_)
    · unfold remove_min_unlink
      refine marksTo_read (fun _ _ => ?_)
      refine marksTo_read (fun _ _ => ?_)
      refine marksTo_bind id (marksTo_wr _ _ _ (fun _ h => h)) (fun _ _ => ?_)
      refine marksTo_read (fun _ _ => ?_)
      exact marksTo_wr _ _ _ (fun _ h => h)
    refine marksTo_read (fun _ _ => ?_)
    dsimp only
    have key : ∀ h2 : FibonacciHeap,
        MarksTo (fun r : FibonacciHeap => r.mem) h2.mem (remove_min_finish h2 z) := by
      intro h2
      unfold remove_min_finish
      refine marksTo_bind id (marksTo_del _ _) (fun _ _ => ?_)
      exact marksTo_pure (MarkStep.rfl' _)
    split_ifs
    · exact marksTo_bind (fun r : FibonacciHeap => r.mem) (marksTo_pure (MarkStep.rfl' _))
        (fun _ _ => key _)
    · exact marksTo_bind (fun r : FibonacciHeap => r.mem) (marksTo_consolidate _)
        (fun _ _ => key _)

theorem noNewMarkedRoot_append (m : Mem) (k : Int) :
    NoNewMarkedRoot m (m ++ [some (newNode k m.length)]) := by
  intro q h1 h2
  by_cases e : q = m.length
  · subst e
    simp [markOf, look_append_new, newNode] at h2
  · unfold parentOf at h1
    unfold markOf at h2
    rw [look_append_left _ _ _ e] at h1 h2
    exact ⟨h1, h2⟩

/-- `insert` leaves no marked node without a parent that was not one
before. -/
theorem insert_marks {h : FibonacciHeap} {R : List Nat} {ch : Nat → List Nat} {ht : Nat → Nat}
    (I : Inv h R ch ht) (k : Int) :
    ∃ h', insert h k = .ok (h.mem.length, h') ∧ NoNewMarkedRoot h.mem h'.mem := by
  cases hroot : h.root with
  | none => exact ⟨_, insert_empty k hroot, noNewMarkedRoot_append _ _⟩
  | some r =>
    have hrR := I.rootIn r hroot
    obtain ⟨rest, hperm, hring⟩ := I.ring.rotate_to hrR
    have hrl := hring.live_ring r (List.mem_cons_self _ _)
    cases hr : look h.mem r with
    | none => simp [hr] at hrl
    | some nr =>
      have hlast := hring.last_link
      have hleft : nr.left = lastOf r rest := by
        have := hlast.2
        simpa [leftOf, hr] using this
      have hll := hring.live_ring _ (lastOf_mem rest r)
      cases hl : look h.mem nr.left with
      | none => rw [← hleft, hl] at hll; simp at hll
      | some nl =>
        obtain ⟨m', e, u, eins⟩ := insert_nonempty k hroot hr hl
        have u' : Upd (h.mem ++ [some (newNode k h.mem.length)]) m'
            (liG h.mem.length nr.left r) := u
        have gC := liG_core u'
        refine ⟨_, eins, ?_⟩
        intro q h1 h2
        have h1' := (gC q).1 ▸ h1
        have h2' := (gC q).2.2.2.2 ▸ h2
        exact noNewMarkedRoot_append _ _ q h1' h2'

theorem marked_root_reach : Reach marked_root_heap := by
  have e : marked_root_run = .ok marked_root_heap := by rfl
  unfold marked_root_run at e
  simp only [bind, Except.bind] at e
  cases h1 : insert_all empty [0, 1, 30, 20, 25, 50, 60] with
  | error err => simp [h1] at e
  | ok r1 =>
    obtain ⟨ps, g1⟩ := r1
    simp only [h1] at e
    cases h2 : remove_min g1 with
    | error err => simp [h2] at e
    | ok g2 =>
      simp only [h2] at e
      cases h3 : decrease_key g2 4 (-1) with
      | error err => simp [h3] at e
      | ok g3 =>
        simp only [h3] at e
        cases h4 : remove_min g3 with
        | error err => simp [h4] at e
        | ok g4 =>
          simp only [h4] at e
          exact Reach.remove_min (Reach.remove_min (Reach.decrease_key
            (Reach.remove_min (reach_insert_all _ Reach.empty h1) h2) h3) h4) e

theorem Ring.split_at {m : Mem} {R : List Nat} {r : Nat} (h : Ring m R) (hr : r ∈ R) :
    ∃ pre post, R = pre ++ r :: post ∧ Ring m (r :: (post ++ pre)) := by
  obtain ⟨pre, post, e⟩ := List.append_of_mem hr
  refine ⟨pre, post, e, ?_⟩
  have := e ▸ h
  exact this.rotate

theorem link_body_ring {h : FibonacciHeap} {R : List Nat} {ch : Nat → List Nat} {ht : Nat → Nat}
    {w l : Nat} {T : List Nat} (F : Forest h.mem R ch ht) (Rg : Ring h.mem (l :: T))
    (hR : ∀ q, q ∈ l :: T → q ∈ R) (hw : w ∈ T) :
    ∃ m', link_body h w l = .ok (w, { h with mem := m' }) ∧ Ring m' T ∧
      (∀ q, markOf m' q = if q = l then some false else markOf h.mem q) ∧
      (∀ q, childOf m' q = if q = w then some (some l) else childOf h.mem q) ∧
      (∀ q, q ∉ R → q ∉ ch w → rightOf m' q = rightOf h.mem q ∧ leftOf m' q = leftOf h.mem q) := by
  have hl : l ∈ R := hR l (List.mem_cons_self _ _)
  have hwR : w ∈ R := hR w (List.mem_cons_of_mem _ hw)
  have hwl : w ≠ l := fun e => (List.nodup_cons.1 Rg.nodup).1 (e ▸ hw)
  have hlF : InF R ch l := Or.inl hl
  have hwF : InF R ch w := Or.inl hwR
  have hll := F.live hlF
  have hwlive := F.live hwF
  obtain ⟨nl, hnl, rl⟩ := rd_some hll
  have hlast := Rg.last_link
  obtain ⟨b, rest, hT⟩ : ∃ b rest, T = b :: rest := by
    cases T with
    | nil => simp at hw
    | cons b rest => exact ⟨b, rest, rfl⟩
  subst hT
  have hlb : Link h.mem l b := by
    have := (ring_cons_iff.1 Rg).2.1
    rw [List.chain_cons] at this
    exact this.1
  have hnleft : nl.left = lastOf b rest := by
    have := hlast.2
    simpa [leftOf, hnl, lastOf] using this
  have hnright : nl.right = b := by
    have := hlb.1
    simpa [rightOf, hnl] using this
  have ha : lastOf b rest ∈ R := hR _ (List.mem_cons_of_mem _ (lastOf_mem rest b))
  have hb : b ∈ R := hR _ (by simp)
  have hal' := F.live (Or.inl ha)
  have hbl' := F.live (Or.inl hb)
  have hb1 : (look (put h.mem (lastOf b rest) (fun n => { n with right := b })) b).isSome := by
    simp [hbl']
  have notRoot : ∀ p q, q ∈ ch p → q ∉ R := fun p q hq => F.child_not_root hq
  have Rg2 : Ring (put (put h.mem (lastOf b rest) (fun n => { n with right := b })) b
      (fun n => { n with left := lastOf b rest })) (ch w) :=
    (F.cring w).frame (fun q hq => by
      have h1 : q ≠ lastOf b rest := fun e => notRoot w q hq (e ▸ ha)
      have h2 : q ≠ b := fun e => notRoot w q hq (e ▸ hb)
      simp [hal', hbl', h1, h2])
  have RgT : Ring (put (put h.mem (lastOf b rest) (fun n => { n with right := b })) b
      (fun n => { n with left := lastOf b rest })) (b :: rest) := by
    refine Rg.unlink_head ?_ ?_
    · intro q _
      by_cases e : q = lastOf b rest
      · subst e; simp [hal', hbl']
      · simp [hal', hbl', e]
    · intro q _
      by_cases e : q = b
      · subst e; simp [hal', hbl']
      · simp [hal', hbl', e]
  obtain ⟨m3, cw, e3, Rg3, hperm, len3, live3, key3, par3, deg3, mark3, child3, lr3⟩ :=
    link_attach_spec Rg2 (by simp [hwlive]) (by simp [hll]) hwl
      (fun e => notRoot w l e hl) (fun e => notRoot w w e hwR)
      (fun e => F.cnone w hwF (by simpa using e))
      (fun c e => F.csome w c hwF (by simpa using e))
  have hl3 : (look m3 l).isSome := by rw [live3]; simp [hll]
  have hw3 : (look m3 w).isSome := by rw [live3]; simp [hwlive]
  refine ⟨put (put (put m3 l (fun n => { n with parent := some w })) l
    (fun n => { n with mark := false })) w (fun n => { n with degree := n.degree + 1 }),
    ?_, ?_, ?_, ?_, ?_⟩
  · have h4 : (look (put m3 l (fun n => { n with parent := some w })) l).isSome := by
      simp [hl3]
    have h5 : (look (put (put m3 l (fun n => { n with parent := some w })) l
        (fun n => { n with mark := false })) w).isSome := by simp [hw3]
    simp only [link_body, bind, Except.bind, rl, hnleft, hnright, wr_ok _ hal', wr_ok _ hb1, e3,
      wr_ok _ hl3, wr_ok _ h4, wr_ok _ h5, pure, Except.pure]
  · refine RgT.frame (fun q hq => ?_)
    have hql : q ≠ l := fun e => (List.nodup_cons.1 Rg.nodup).1 (e ▸ hq)
    have hqc : q ∉ ch w := fun e => notRoot w q e (hR q (List.mem_cons_of_mem _ hq))
    have := lr3 q hql hqc
    simp [this.1, this.2]
  · intro q
    by_cases e : q = l
    · subst e; simp [hl3]
    · simp [hl3, mark3, e, hal', hbl']
  · intro q
    by_cases e : q = w
    · subst e; simp [child3]
    · simp [child3, e, hal', hbl']
  · intro q hq hqc
    have hql : q ≠ l := fun e => hq (e ▸ hl)
    have h1 : q ≠ lastOf b rest := fun e => hq (e ▸ ha)
    have h2 : q ≠ b := fun e => hq (e ▸ hb)
    have := lr3 q hql hqc
    simp [this.1, this.2, hal', hbl', h1, h2]

theorem degree_break_start_reach {h : FibonacciHeap} (e : degree_break_start = .ok h) :
    Reach h := by
  unfold degree_break_start at e
  simp only [bind, Except.bind] at e
  cases h1 : insert_all empty [INT_MIN, INT_MIN, 20, 30, 40] with
  | error err => simp [h1] at e
  | ok r1 =>
    obtain ⟨ps, g1⟩ := r1
    simp only [h1] at e
    exact Reach.remove_min (reach_insert_all _ Reach.empty h1) e

/-- The result of `cut_run` is the result of `cut`. -/
theorem cut_run_result (h : FibonacciHeap) (x y : Nat) :
    (cut_run h x y).result = (cut h x y).map (fun _ => ()) := by
  unfold cut_run guarded
  rw [cut_eq]
  cases hx : rd h.mem x with
  | error e => rfl
  | ok n =>
    simp only [bind, Except.bind, pure, Except.pure]
    by_cases hp : n.parent = some y
    · simp only [hp, ne_eq, not_true_eq_false, decide_False, if_false]
      cases cut_unlink h.mem x y with
      | error e => rfl
      | ok m =>
        simp only []
        cases cut_relink h m x <;> rfl
    · simp [hp, throw, throwThe, MonadExceptOf.throw, Except.map]

theorem degree_two_forest : Forest degree_two_heap.mem [4, 1]
    (fun p => if p = 1 then [3, 2] else []) (fun p => if p = 1 then 1 else 0) := by
  have hch : ∀ p c, c ∈ (fun p => if p = 1 then [3, 2] else ([] : List Nat)) p →
      p = 1 ∧ (c = 3 ∨ c = 2) := by
    intro p c hc
    by_cases e : p = 1
    · simpa [e] using hc
    · simp [e] at hc
  have hin : ∀ p, InF [4, 1] (fun p => if p = 1 then [3, 2] else ([] : List Nat)) p →
      p = 4 ∨ p = 1 ∨ p = 3 ∨ p = 2 := by
    intro p hp
    rcases hp with hp | ⟨q, hq⟩
    · simp at hp; tauto
    · have := (hch q p hq).2; tauto
  refine ⟨by decide, ?_, ?_, ?_, ?_, ?_, ?_, ?_, ?_⟩
  · intro r hr
    simp at hr
    rcases hr with rfl | rfl <;> rfl
  · intro p c hc
    obtain ⟨rfl, rfl | rfl⟩ := hch p c hc <;> rfl
  · intro p c hc
    obtain ⟨rfl, _⟩ := hch p c hc
    exact Or.inl (by simp)
  · intro p
    by_cases e : p = 1
    · subst e
      refine ⟨by decide, ?_⟩
      simp [Link, rightOf, leftOf, look, degree_two_heap]
    · simp [e, Ring]
  · intro p hp hc
    rcases hin p hp with rfl | rfl | rfl | rfl
    · rfl
    · simp [childOf, look, degree_two_heap] at hc
    · rfl
    · rfl
  · intro p c hp hc
    rcases hin p hp with rfl | rfl | rfl | rfl <;>
      simp [childOf, look, degree_two_heap] at hc
    subst hc; simp
  · intro p hp
    rcases hin p hp with rfl | rfl | rfl | rfl <;> rfl
  · intro p c hc
    obtain ⟨rfl, rfl | rfl⟩ := hch p c hc <;> simp

theorem degree_two_ring : Ring degree_two_heap.mem [4, 1] := by
  refine ⟨by decide, ?_⟩
  simp [Link, rightOf, leftOf, look, degree_two_heap]

theorem MarkedChain.transport {m m1 : Mem} {R : List Nat} {ch : Nat → List Nat}
    {ht : Nat → Nat} (F : Forest m1 R ch ht) {z : Nat} {c : List Nat} {e : Nat}
    (hc : MarkedChain m1 z c e) (hz : InF R ch z) (b : Nat) (hb : b ≤ ht z)
    (hsame : ∀ q, b ≤ ht q → parentOf m q = parentOf m1 q ∧ markOf m q = markOf m1 q) :
    MarkedChain m z c e ∧ ∀ q ∈ e :: c, b ≤ ht q := by
  induction hc with
  | root hp =>
    refine ⟨MarkedChain.root (by rw [(hsame _ hb).1]; exact hp), ?_⟩
    intro q hq
    simp at hq
    exact hq ▸ hb
  | unmarked hp hm =>
    refine ⟨MarkedChain.unmarked (by rw [(hsame _ hb).1]; exact hp)
      (by rw [(hsame _ hb).2]; exact hm), ?_⟩
    intro q hq
    simp at hq
    exact hq ▸ hb
  | marked hp hm _ ih =>
    have hyz := F.mem_child_of_parent hz hp
    have hlt := F.hgt _ _ hyz
    obtain ⟨h1, h2⟩ := ih (F.pin _ _ hyz) (by omega)
    refine ⟨MarkedChain.marked (by rw [(hsame _ hb).1]; exact hp)
      (by rw [(hsame _ hb).2]; exact hm) h1, ?_⟩
    intro q hq
    rcases List.mem_cons.1 hq with e | hq
    · exact h2 q (e ▸ List.mem_cons_self _ _)
    · rcases List.mem_cons.1 hq with e | hq
      · exact e ▸ hb
      · exact h2 q (List.mem_cons_of_mem _ hq)

theorem cascading_cut_chain : ∀ (fuel : Nat) (h : FibonacciHeap) (R : List Nat)
    (ch : Nat → List Nat) (ht : Nat → Nat) (r y : Nat),
    Forest h.mem R ch ht → Ring h.mem R → h.root = some r → r ∈ R → InF R ch y →
    parCount h.mem < fuel →
    ∃ c e m' R' ch', MarkedChain h.mem y c e ∧
      cascading_cut fuel h y = .ok { h with mem := m' } ∧
      Forest m' R' ch' ht ∧ Ring m' R' ∧ R'.Perm (R ++ c) ∧
      (∀ q, InF R' ch' q ↔ InF R ch q) ∧
      (∀ q, keyOf m' q = keyOf h.mem q) ∧
      (∀ q, parentOf m' q = if q ∈ c then some none else parentOf h.mem q) ∧
      (∀ q, markOf m' q = if q ∈ c then some false
        else if q = e ∧ parentOf h.mem e ≠ some none then some true else markOf h.mem q) := by
  intro fuel
  induction fuel with
  | zero => intro h R ch ht r y _ _ _ _ _ hf; omega
  | succ f ih =>
    intro h R ch ht r y F Rg hroot hrR hy hf
    have hyl := F.live hy
    obtain ⟨ny, hny, ry⟩ := rd_some hyl
    cases hpar : ny.parent with
    | none =>
      have hpn : parentOf h.mem y = some none := by simp [parentOf, hny, hpar]
      refine ⟨[], y, h.mem, R, ch, MarkedChain.root hpn, ?_, F, Rg, by simp, fun _ => Iff.rfl,
        fun _ => rfl, fun _ => by simp, fun q => ?_⟩
      · simp only [cascading_cut, bind, Except.bind, ry, hpar, pure, Except.pure]
      · simp [hpn]
    | some z =>
      have hpz : parentOf h.mem y = some (some z) := by simp [parentOf, hny, hpar]
      by_cases hmark : ny.mark = true
      · have hmy : markOf h.mem y = some true := by simp [markOf, hny, hmark]
        have hyz : y ∈ ch z := F.mem_child_of_parent hy hpz
        obtain ⟨m1, R1, rest, e1, hperm, hpermR, F1, Rg1, len1, live1, key1, par1, mark1, iff1⟩ :=
          cut_spec F Rg hroot hrR hyz
        have hr1 : r ∈ R1 := hpermR.mem_iff.2 (List.mem_append_left _ hrR)
        have hz1 : InF R1 (Function.update ch z rest) z := (iff1 z).2 (F.pin z y hyz)
        have hcnt := parCount_cut len1 hpz par1
        obtain ⟨c, e, m2, R2, ch2, hc, e2, F2, Rg2, hperm2, iff2, key2, par2, mark2⟩ :=
          ih { h with mem := m1 } R1 (Function.update ch z rest) ht r z F1 Rg1 hroot hr1 hz1
            (by show parCount m1 < f; omega)
        have hlt := F.hgt z y hyz
        have hne : ∀ q, ht z ≤ ht q → q ≠ y := by
          intro q hq e'
          rw [e'] at hq
          omega
        obtain ⟨hc', hge⟩ := MarkedChain.transport (m := h.mem) F1 hc hz1 (ht z) le_rfl
          (by
            intro q hq
            have := hne q hq
            constructor
            · show _ = parentOf m1 q
              rw [par1, if_neg this]
            · show _ = markOf m1 q
              rw [mark1, if_neg this])
        have hyc : y ∉ c := fun e' => hne y (hge y (List.mem_cons_of_mem _ e')) rfl
        have hye : e ≠ y := hne e (hge e (List.mem_cons_self _ _))
        refine ⟨y :: c, e, m2, R2, ch2, MarkedChain.marked hpz hmy hc', ?_, F2, Rg2, ?_, ?_, ?_,
          ?_, ?_⟩
        · simp only [cascading_cut, bind, Except.bind, ry, hpar, hmark, not_true_eq_false,
            if_false, e1]
          exact e2
        · refine hperm2.trans ?_
          have := hpermR.append_right c
          simpa [List.append_assoc] using this
        · intro q; rw [iff2, iff1]
        · intro q; rw [key2]; exact key1 q
        · intro q
          rw [par2]
          show (if q ∈ c then some none else parentOf m1 q) = _
          rw [par1]
          by_cases h1 : q ∈ c
          · simp [h1]
          · by_cases h2 : q = y
            · simp [h2]
            · simp [h1, h2]
        · intro q
          rw [mark2]
          show (if q ∈ c then some false
            else if q = e ∧ parentOf m1 e ≠ some none then some true else markOf m1 q) = _
          rw [mark1, par1, if_neg hye]
          by_cases h1 : q ∈ c
          · simp [h1]
          · by_cases h2 : q = y
            · subst h2
              have : ¬ (q = e) := fun e' => hye e'.symm
              simp [this]
            · simp [h1, h2]
      · have hy1 : (look h.mem y).isSome := hyl
        have hmark' : ny.mark = false := by simpa using hmark
        have hmy : markOf h.mem y = some false := by simp [markOf, hny, hmark']
        refine ⟨[], y, put h.mem y (fun n => { n with mark := true }), R, ch,
          MarkedChain.unmarked hpz hmy, ?_, ?_, ?_, by simp, fun _ => Iff.rfl, ?_, ?_, ?_⟩
        · simp [cascading_cut, bind, Except.bind, ry, hpar, hmark', wr_ok _ hy1, pure,
            Except.pure]
        · exact F.frame_forest (fun q _ => by simp) (fun q _ => by simp) (fun q _ => by simp)
            (fun p c _ => by simp)
        · exact Rg.frame (fun a _ => by simp)
        · intro q; simp
        · intro q; simp
        · intro q
          by_cases e : q = y
          · subst e; simp [hy1, hpz]
          · simp [hy1, e]

/-! ## Claims -/

/-- C1: for every list of keys, inserting the keys into the empty heap with
`insert` and then reading `get_min` and calling `remove_min` once per key
returns the keys in non-decreasing order, the sequence returned is a
permutation of the inserted keys, and the heap is empty at the end. -/
theorem sort_correct (ks : List Int) :
    ∃ ps h out h', insert_all empty ks = .ok (ps, h) ∧ drain ks.length h = .ok (out, h') ∧
      out.Sorted (fun a b => a ≤ b) ∧ out.Perm ks ∧ h'.root = none ∧ h'.N = 0 := by
  obtain ⟨ps, h, e1, W, hN, hk⟩ := insert_all_sinv ks empty SInv.empty_sinv
  obtain ⟨out, h', e2, hs, hp, hr, hN'⟩ := drain_sorted ks.length h W (by rw [hN]; simp [empty])
  refine ⟨ps, h, out, h', e1, e2, hs, ?_, hr, hN'⟩
  rw [hk] at hp
  simpa [keysOf, empty] using hp

/-- C2 (evaluation at the failing input): the heap `degree_two_heap` satisfies
the structural invariants and is not empty, its minimum is `-1`, and
`remove_min` does not remove anything: it stops in `consolidate` at
`assert(d < D)`. -/
theorem remove_min_fails_on_wf_heap :
    WF degree_two_heap ∧ get_min degree_two_heap = .ok (-1) ∧
    remove_min degree_two_heap = .error Err.assertFail :=
  ⟨degree_two_reach.wf, by rfl, by rfl⟩

/-- On a heap that satisfies the structural invariants `insert(k)`
returns; it returns a node that was not allocated before, that holds `k` and
lies on the root ring (a ring through `root`); `N` has grown by one; and
`get_min` is `k` if the heap was empty and the smaller of `k` and the previous
`get_min` otherwise. -/
theorem insert_correct (h : FibonacciHeap) (W : WF h) (k : Int) :
    ∃ p h', insert h k = .ok (p, h') ∧ h'.N = h.N + 1 ∧ look h.mem p = none ∧
      keyOf h'.mem p = some k ∧
      (∃ R', Ring h'.mem R' ∧ p ∈ R' ∧ ∃ r, h'.root = some r ∧ r ∈ R') ∧
      (h.root = none → get_min h' = .ok k) ∧
      (∀ kmin, get_min h = .ok kmin → get_min h' = .ok (min k kmin)) ∧ WF h' := by
  obtain ⟨R, ch, ht, I⟩ := W
  obtain ⟨h', R', e, I', hperm, hN, hlen, hk, _, _, _, hmin⟩ := insert_inv I k
  have hpR : h.mem.length ∈ R' := hperm.mem_iff.2 (by simp)
  obtain ⟨r, hr⟩ := I'.root_some (I'.forest.live (Or.inl hpR))
  refine ⟨h.mem.length, h', e, hN, look_eq_none_of_ge (le_refl _), hk,
    ⟨R', I'.ring, hpR, r, hr, I'.rootIn r hr⟩, ?_, ?_, ⟨R', ch, ht, I'⟩⟩
  · intro hn
    rw [hmin, hn]
  · intro kmin hg
    cases hroot : h.root with
    | none => simp [get_min, hroot, throw, throwThe, MonadExceptOf.throw] at hg
    | some r0 =>
      obtain ⟨kr, hg', hkr, _⟩ := I.min_key hroot
      rw [hg'] at hg
      cases hg
      rw [hmin, hroot]
      simp only [hkr]

theorem insert_correct_witness :
    WF empty ∧ ∃ p h', insert empty 7 = .ok (p, h') ∧ h'.N = empty.N + 1 ∧
      look empty.mem p = none ∧ keyOf h'.mem p = some 7 ∧
      (∃ R', Ring h'.mem R' ∧ p ∈ R' ∧ ∃ r, h'.root = some r ∧ r ∈ R') ∧
      (empty.root = none → get_min h' = .ok 7) ∧
      (∀ kmin, get_min empty = .ok kmin → get_min h' = .ok (min 7 kmin)) ∧ WF h' :=
  ⟨⟨_, _, _, Inv.empty_inv⟩, insert_correct empty ⟨_, _, _, Inv.empty_inv⟩ 7⟩

/-- C4: in every state reachable from the empty heap by `insert`,
`remove_min` and `decrease_key`, `root` is null exactly when `N == 0`, and
when `N` is not `0` the key of `root`, which is what `get_min` returns, is
less than or equal to the key of every node of the heap. -/
theorem reachable_root_min (h : FibonacciHeap) (hr : Reach h) :
    (h.root = none ↔ h.N = 0) ∧
    (h.N ≠ 0 → ∃ r kr, h.root = some r ∧ get_min h = .ok kr ∧ keyOf h.mem r = some kr ∧
      ∀ p kp, keyOf h.mem p = some kp → kr ≤ kp) := by
  obtain ⟨R, ch, ht, I⟩ := hr.wf
  refine ⟨I.root_none_iff, ?_⟩
  intro hN
  cases hroot : h.root with
  | none => exact absurd (I.root_none_iff.1 hroot) hN
  | some r =>
    obtain ⟨kr, h1, h2, h3⟩ := I.min_key hroot
    exact ⟨r, kr, rfl, h1, h2, h3⟩

theorem reachable_root_min_witness :
    Reach degree_two_heap ∧ (degree_two_heap.root = none ↔ degree_two_heap.N = 0) ∧
    (degree_two_heap.N ≠ 0 → ∃ r kr, degree_two_heap.root = some r ∧
      get_min degree_two_heap = .ok kr ∧ keyOf degree_two_heap.mem r = some kr ∧
      ∀ p kp, keyOf degree_two_heap.mem p = some kp → kr ≤ kp) :=
  ⟨degree_two_reach, reachable_root_min degree_two_heap degree_two_reach⟩

/-- C5: on a heap that satisfies the structural invariants, for an allocated
node `x` and `k ≤ x->key`, `decrease_key(x, k)` returns, and afterwards the
key of `x` is `k`, `get_min` is at most `k`, and the key of every node that has
a parent is at least the key of the parent. -/
theorem decrease_key_correct (h : FibonacciHeap) (W : WF h) (x : Nat) (kx k : Int)
    (hx : keyOf h.mem x = some kx) (hk : k ≤ kx) :
    ∃ h', decrease_key h x k = .ok h' ∧ keyOf h'.mem x = some k ∧
      (∃ km, get_min h' = .ok km ∧ km ≤ k) ∧ HeapOrder h'.mem ∧ WF h' := by
  obtain ⟨R, ch, ht, I⟩ := W
  obtain ⟨h', R', ch', e, I', _, _, _, key, _⟩ := decrease_key_inv I hx k hk
  have hkx : keyOf h'.mem x = some k := by rw [key, if_pos rfl]
  obtain ⟨r, hr⟩ := I'.root_some (isSome_of_get hkx)
  obtain ⟨kr, h1, _, h3⟩ := I'.min_key hr
  exact ⟨h', e, hkx, ⟨kr, h1, h3 x k hkx⟩, I'.order, ⟨R', ch', ht, I'⟩⟩

theorem decrease_key_correct_witness :
    WF increase_heap ∧ keyOf increase_heap.mem 1 = some 2 ∧ (0 : Int) ≤ 2 ∧
    ∃ h', decrease_key increase_heap 1 0 = .ok h' ∧ keyOf h'.mem 1 = some 0 ∧
      (∃ km, get_min h' = .ok km ∧ km ≤ 0) ∧ HeapOrder h'.mem ∧ WF h' :=
  ⟨increase_reach.wf, by rfl, by decide,
    decrease_key_correct increase_heap increase_reach.wf 1 2 0 (by rfl) (by decide)⟩

/-- C6 (evaluation at the failing input): `int_min_heap` is the heap built by
`insert(INT_MIN)`, `insert(5)`, it satisfies the structural invariants and
its node at address `1` holds `5`; `remove` of that node returns a heap in
which the node at address `1` is still allocated and is the root, while the
other node, at address `0`, has been deleted. -/
theorem remove_deletes_other_node :
    insert_all empty [INT_MIN, 5] = .ok ([0, 1], int_min_heap) ∧ WF int_min_heap ∧
    keyOf int_min_heap.mem 1 = some 5 ∧
    remove int_min_heap 1 = .ok int_min_removed ∧
    int_min_removed.root = some 1 ∧ (look int_min_removed.mem 1).isSome = true ∧
    look int_min_removed.mem 0 = none :=
  ⟨by rfl, int_min_reach.wf, by rfl, by rfl, by rfl, by rfl, by rfl⟩

/-- C7 (evaluation at the failing input): `increase_heap` is the heap built by
`insert(1)`, `insert(2)`, it satisfies the structural invariants and its root
is the node at address `0`; after `change_key` of that node to `10`, `get_min`
returns `10` although the heap holds the key `2`, and the extraction loop
returns `10` before `2`. -/
theorem change_key_root_not_min :
    insert_all empty [1, 2] = .ok ([0, 1], increase_heap) ∧ WF increase_heap ∧
    change_key increase_heap 0 10 = .ok increase_changed ∧
    keyOf increase_changed.mem 0 = some 10 ∧ keyOf increase_changed.mem 1 = some 2 ∧
    get_min increase_changed = .ok 10 ∧
    drain 2 increase_changed = .ok ([10, 2], { N := 0, root := none, mem := [none, none] }) :=
  ⟨by rfl, increase_reach.wf, by rfl, by rfl, by rfl, by rfl, by rfl⟩

/-- C8 (evaluation at the failing input): the state `degree_two_heap` is
reached from the empty heap by `insert`, `remove_min` and `decrease_key`, and
the next `remove_min` stops in `consolidate` at `assert(d < D)`: the remaining
root has degree 2 while `N = 4` gives `D = 2`. -/
theorem consolidate_assert_fails_reachable :
    degree_two_run = .ok degree_two_heap ∧
    consolidate_D 4 = .ok 2 ∧
    (degree_two_run >>= remove_min) = .error Err.assertFail := by
  refine ⟨by rfl, by rfl, by rfl⟩

/-- C9: whenever `consolidate` returns on a heap-ordered forest whose root
ring is not empty, the roots of the result form a ring through `root` on
which no two nodes have the same degree. -/
theorem consolidate_distinct_degrees (h : FibonacciHeap) (R : List Nat) (ch : Nat → List Nat)
    (ht : Nat → Nat) (r : Nat) (F : Forest h.mem R ch ht) (Rg : Ring h.mem R)
    (hroot : h.root = some r) (hr : r ∈ R) (O : HeapOrder h.mem) (h' : FibonacciHeap)
    (e : consolidate h = .ok h') :
    ∃ R' ch' ht', Forest h'.mem R' ch' ht' ∧ Ring h'.mem R' ∧
      (∃ r', h'.root = some r' ∧ r' ∈ R') ∧
      ∀ a ∈ R', ∀ b ∈ R', a ≠ b →
        ∃ da db, degreeOf h'.mem a = some da ∧ degreeOf h'.mem b = some db ∧ da ≠ db := by
  obtain ⟨R', ch', ht', F', Rg', ⟨r', h1, h2, _⟩, _, _, _, _, _, _, dist, _⟩ :=
    consolidate_spec F Rg hroot hr O e
  refine ⟨R', ch', ht', F', Rg', ⟨r', h1, h2⟩, ?_⟩
  intro a ha b hb hab
  have h3 := dist a ha b hb hab
  rw [F'.cdeg a (Or.inl ha), F'.cdeg b (Or.inl hb)] at h3 ⊢
  exact ⟨_, _, rfl, rfl, fun e' => h3 (by rw [e'])⟩

theorem consolidate_distinct_degrees_witness :
    Forest three_heap.mem [0, 1, 2] (fun _ => []) (fun _ => 0) ∧ Ring three_heap.mem [0, 1, 2] ∧
    three_heap.root = some 0 ∧ HeapOrder three_heap.mem ∧
    consolidate three_heap = .ok three_consolidated ∧
    ∃ R' ch' ht', Forest three_consolidated.mem R' ch' ht' ∧ Ring three_consolidated.mem R' ∧
      (∃ r', three_consolidated.root = some r' ∧ r' ∈ R') ∧
      ∀ a ∈ R', ∀ b ∈ R', a ≠ b →
        ∃ da db, degreeOf three_consolidated.mem a = some da ∧
          degreeOf three_consolidated.mem b = some db ∧ da ≠ db :=
  ⟨three_forest, three_ring, rfl, three_order, by rfl,
    consolidate_distinct_degrees three_heap [0, 1, 2] (fun _ => []) (fun _ => 0) 0 three_forest
      three_ring rfl (by decide) three_order three_consolidated (by rfl)⟩

/-- On a heap that satisfies the structural invariants, of which heap
order is one, every call of `insert`, `remove_min`, `decrease_key`, `remove`
or `change_key` that returns leaves a heap in which the key of every node that
has a parent is at least the key of the parent. -/
theorem heap_order_preserved (h : FibonacciHeap) (W : WF h) :
    (∀ k p h', insert h k = .ok (p, h') → HeapOrder h'.mem) ∧
    (∀ h', remove_min h = .ok h' → HeapOrder h'.mem) ∧
    (∀ x k h', decrease_key h x k = .ok h' → HeapOrder h'.mem) ∧
    (∀ x h', remove h x = .ok h' → HeapOrder h'.mem) ∧
    (∀ x k h', change_key h x k = .ok h' → HeapOrder h'.mem) := by
  obtain ⟨R, ch, ht, I⟩ := W
  refine ⟨?_, ?_, ?_, ?_, ?_⟩
  · intro k p h' e
    obtain ⟨h'', R', e', I', _⟩ := insert_inv I k
    rw [e'] at e
    cases e
    exact I'.order
  · intro h' e
    obtain ⟨z, R', ch', ht', _, I', _⟩ := remove_min_inv I e
    exact I'.order
  · intro x k h' e
    obtain ⟨kx, hx, hk⟩ := decrease_key_pre e
    obtain ⟨h'', R', ch', e', I', _⟩ := decrease_key_inv I hx k hk
    rw [e'] at e
    cases e
    exact I'.order
  · intro x h' e
    obtain ⟨⟨R', ch', ht', I'⟩, _⟩ := remove_inv I e
    exact I'.order
  · intro x k h' e
    exact change_key_order I e

theorem heap_order_preserved_witness :
    WF increase_heap ∧ change_key increase_heap 0 10 = .ok increase_changed ∧
    HeapOrder increase_changed.mem :=
  ⟨increase_reach.wf, by rfl,
    (heap_order_preserved increase_heap increase_reach.wf).2.2.2.2 0 10 increase_changed
      (by rfl)⟩

/-- C11 (evaluation at the failing input): the state `ring_break_heap` is
reached from the empty heap by `insert`, `remove_min`, `change_key` and
`decrease_key`; in it the node at address `3` is allocated and its `right` is
the node at address `2`, but the `left` of that node is not `3`. -/
theorem ring_broken_reachable :
    ring_break_run = .ok ring_break_heap ∧
    (look ring_break_heap.mem 3).isSome = true ∧
    rightOf ring_break_heap.mem 3 = some 2 ∧ leftOf ring_break_heap.mem 2 = some 2 :=
  ⟨by rfl, by rfl, by rfl, by rfl⟩

/-- C12 (evaluation at the failing input): the state `degree_break_heap` is
reached from the empty heap by `insert`, `remove_min` and `change_key`; in it
the node at address `1` has `degree == 2` and `child` at address `3`, while
the ring of that child, followed through `right`, has the three nodes `3`,
`2` and `4`. -/
theorem degree_child_ring_mismatch :
    degree_break_run = .ok degree_break_heap ∧
    degreeOf degree_break_heap.mem 1 = some 2 ∧
    childOf degree_break_heap.mem 1 = some (some 3) ∧
    root_list_loop degree_break_heap.mem 3 5 3 [] = .ok [3, 2, 4] :=
  ⟨by rfl, by rfl, by rfl, by rfl⟩

/-- C13 (counterexample): the state `marked_root_heap` is reached from the
empty heap by `insert`, `remove_min` and `decrease_key`; its `root` is the
node at address `3`, which is in the root ring (it has no parent) and has
`mark == true`. -/
theorem marked_root_reachable :
    marked_root_run = .ok marked_root_heap ∧ Reach marked_root_heap ∧
    marked_root_heap.root = some 3 ∧ parentOf marked_root_heap.mem 3 = some none ∧
    markOf marked_root_heap.mem 3 = some true :=
  ⟨by rfl, marked_root_reach, by rfl, by rfl, by rfl⟩

/-- C13 (amended): on a heap that satisfies the structural invariants, a call
of `insert` or `decrease_key` that returns leaves no marked node in the root
ring (no marked node without a parent) that was not a marked node of the root
ring before the call, and a call of `remove_min` that returns sets no mark:
every node marked afterwards was marked before. -/
theorem no_new_marked_root (h : FibonacciHeap) (W : WF h) :
    (∀ k p h', insert h k = .ok (p, h') → NoNewMarkedRoot h.mem h'.mem) ∧
    (∀ x k h', decrease_key h x k = .ok h' → NoNewMarkedRoot h.mem h'.mem) ∧
    (∀ h', remove_min h = .ok h' →
      ∀ q, markOf h'.mem q = some true → markOf h.mem q = some true) := by
  obtain ⟨R, ch, ht, I⟩ := W
  refine ⟨?_, ?_, ?_⟩
  · intro k p h' e
    obtain ⟨h'', e', hm⟩ := insert_marks I k
    rw [e'] at e
    cases e
    exact hm
  · intro x k h' e
    obtain ⟨kx, hx, hk⟩ := decrease_key_pre e
    obtain ⟨h'', R', ch', e', _, _, _, _, _, _, hm⟩ := decrease_key_inv I hx k hk
    rw [e'] at e
    cases e
    exact hm
  · intro h' e
    exact marksTo_remove_min h h' e

theorem no_new_marked_root_witness :
    WF increase_heap ∧
    decrease_key increase_heap 1 0 = .ok
      { N := 2, root := some 1,
        mem := [some { key := 1, mark := false, child := none, degree := 0, left := 1,
                       right := 1, parent := none },
          some { key := 0, mark := false, child := none, degree := 0, left := 0, right := 0,
                 parent := none }] } ∧
    NoNewMarkedRoot increase_heap.mem
      [some { key := 1, mark := false, child := none, degree := 0, left := 1,
              right := 1, parent := none },
        some { key := 0, mark := false, child := none, degree := 0, left := 0, right := 0,
               parent := none }] :=
  ⟨increase_reach.wf, by rfl,
    (no_new_marked_root increase_heap increase_reach.wf).2.1 1 0 _ (by rfl)⟩

/-- C14: on an empty heap (`root == nullptr`) `get_min` and `remove_min` throw
`"heap is empty"` and leave the heap, so `root` and `N`, as it is; on a heap
that is not empty neither of them stops with that exception. -/
theorem empty_heap_error (h : FibonacciHeap) :
    ((get_min_run h).result = .error Err.heapEmpty ↔ h.root = none) ∧
    ((remove_min_run h).result = .error Err.heapEmpty ↔ h.root = none) ∧
    (h.root = none → get_min_run h = ⟨.error Err.heapEmpty, some h⟩ ∧
      remove_min_run h = ⟨.error Err.heapEmpty, some h⟩) := by
  have h1 : h.root = none → get_min_run h = ⟨.error Err.heapEmpty, some h⟩ ∧
      remove_min_run h = ⟨.error Err.heapEmpty, some h⟩ := by
    intro hr
    simp [get_min_run, remove_min_run, guarded, hr, pure, Except.pure]
  refine ⟨⟨?_, fun hr => by rw [(h1 hr).1]⟩, ⟨?_, fun hr => by rw [(h1 hr).2]⟩, h1⟩
  · intro e
    rw [get_min_run_result] at e
    cases hr : h.root with
    | none => rfl
    | some r =>
      exfalso
      unfold get_min at e
      simp only [hr] at e
      exact noEmpty_bind (noEmpty_rd _ _) (fun _ _ => noEmpty_pure _) e
  · intro e
    rw [remove_min_run_result] at e
    by_contra hr
    have := noEmpty_remove_min h hr
    cases hm : remove_min h with
    | error err =>
      rw [hm] at e this
      simp only [Except.map] at e
      cases e
      exact this rfl
    | ok v => rw [hm] at e; simp [Except.map] at e

theorem empty_heap_error_witness :
    get_min_run empty = ⟨.error Err.heapEmpty, some empty⟩ ∧
    remove_min_run empty = ⟨.error Err.heapEmpty, some empty⟩ ∧
    (get_min_run increase_heap).result = .ok 1 :=
  ⟨((empty_heap_error empty).2.2 rfl).1, ((empty_heap_error empty).2.2 rfl).2, by rfl⟩

/-- On a heap that satisfies the structural invariants, for a node `x`
of the heap, `decrease_key(x, k)` fails if and only if `k > x->key`, and then
it throws at its first statement and leaves the heap (every field of every
node, `root` and `N`) as it is. -/
theorem decrease_key_fails_iff (h : FibonacciHeap) (W : WF h) (x : Nat) (kx k : Int)
    (hx : keyOf h.mem x = some kx) :
    ((∃ e, (decrease_key_run h x k).result = .error e) ↔ k > kx) ∧
    (k > kx → decrease_key_run h x k = ⟨.error Err.keyGreater, some h⟩) := by
  obtain ⟨R, ch, ht, I⟩ := W
  cases hl : look h.mem x with
  | none => simp [keyOf, hl] at hx
  | some nx =>
    have hkey : nx.key = kx := by simpa [keyOf, hl] using hx
    have h1 : k > kx → decrease_key_run h x k = ⟨.error Err.keyGreater, some h⟩ := by
      intro hk
      simp [decrease_key_run, guarded, rd_of_look hl, hkey, hk, bind, Except.bind, pure,
        Except.pure]
    refine ⟨⟨?_, fun hk => ⟨_, by rw [h1 hk]⟩⟩, h1⟩
    rintro ⟨e, he⟩
    by_contra hk
    obtain ⟨h', R', ch', e', _⟩ := decrease_key_inv I hx k (by omega)
    rw [decrease_key_run_result, e'] at he
    simp [Except.map] at he

theorem decrease_key_fails_iff_witness :
    WF increase_heap ∧ keyOf increase_heap.mem 1 = some 2 ∧
    ((∃ e, (decrease_key_run increase_heap 1 3).result = .error e) ↔ (3 : Int) > 2) ∧
    ((3 : Int) > 2 →
      decrease_key_run increase_heap 1 3 = ⟨.error Err.keyGreater, some increase_heap⟩) :=
  ⟨increase_reach.wf, by rfl,
    decrease_key_fails_iff increase_heap increase_reach.wf 1 2 3 (by rfl)⟩

/-- C16: for a node `x` that holds the key `k`, `change_key(x, k)` throws at
its first statement and leaves the heap as it is. -/
theorem change_key_same_key (h : FibonacciHeap) (x : Nat) (k : Int)
    (hx : keyOf h.mem x = some k) :
    change_key_run h x k = ⟨.error Err.sameKey, some h⟩ ∧
    change_key h x k = .error Err.sameKey := by
  cases hl : look h.mem x with
  | none => simp [keyOf, hl] at hx
  | some nx =>
    have hkey : nx.key = k := by simpa [keyOf, hl] using hx
    refine ⟨?_, ?_⟩
    · simp [change_key_run, guarded, rd_of_look hl, hkey, bind, Except.bind, pure, Except.pure]
    · rw [change_key_eq]
      simp [bind, Except.bind, rd_of_look hl, hkey, throw, throwThe, MonadExceptOf.throw]

theorem change_key_same_key_witness :
    keyOf increase_heap.mem 1 = some 2 ∧
    change_key_run increase_heap 1 2 = ⟨.error Err.sameKey, some increase_heap⟩ ∧
    change_key increase_heap 1 2 = .error Err.sameKey :=
  ⟨by rfl, change_key_same_key increase_heap 1 2 (by rfl)⟩

/-- C17: for an allocated node `x` and `k < x->key`, `change_key(x, k)` is
`decrease_key(x, k)`: the two calls give the same result, the same heap when
they return and the same error when they do not. -/
theorem change_key_decrease (h : FibonacciHeap) (x : Nat) (k kx : Int)
    (hx : keyOf h.mem x = some kx) (hk : k < kx) :
    change_key h x k = decrease_key h x k := by
  rw [change_key_eq]
  cases hl : look h.mem x with
  | none => simp [keyOf, hl] at hx
  | some nx =>
    have hkey : nx.key = kx := by simpa [keyOf, hl] using hx
    simp only [bind, Except.bind, rd_of_look hl, hkey]
    rw [if_neg (by omega), if_pos (by omega)]

theorem change_key_decrease_witness :
    keyOf increase_heap.mem 1 = some 2 ∧ (0 : Int) < 2 ∧
    change_key increase_heap 1 0 = decrease_key increase_heap 1 0 :=
  ⟨by rfl, by decide, change_key_decrease increase_heap 1 0 2 (by rfl) (by decide)⟩

/-- C18: whenever `consolidate` returns on a heap-ordered forest whose root
ring is not empty, with `root` at any node of the root ring, the roots of the
result form a ring, `root` is a node of that ring whose key is less than or
equal to the key of every node of the ring, and no node of the ring has a
parent. -/
theorem consolidate_root_min (h : FibonacciHeap) (R : List Nat) (ch : Nat → List Nat)
    (ht : Nat → Nat) (r : Nat) (F : Forest h.mem R ch ht) (Rg : Ring h.mem R)
    (hroot : h.root = some r) (hr : r ∈ R) (O : HeapOrder h.mem) (h' : FibonacciHeap)
    (e : consolidate h = .ok h') :
    ∃ R', Ring h'.mem R' ∧ R' ≠ [] ∧
      (∃ r' kr, h'.root = some r' ∧ r' ∈ R' ∧ keyOf h'.mem r' = some kr ∧
        ∀ p ∈ R', ∃ kp, keyOf h'.mem p = some kp ∧ kr ≤ kp) ∧
      ∀ p ∈ R', parentOf h'.mem p = some none := by
  obtain ⟨R', ch', ht', F', Rg', ⟨r', h1, h2, kr, h3, h4⟩, _⟩ :=
    consolidate_spec F Rg hroot hr O e
  exact ⟨R', Rg', List.ne_nil_of_mem h2, ⟨r', kr, h1, h2, h3, h4⟩, F'.rpar⟩

theorem consolidate_root_min_witness :
    Forest three_heap_at_max.mem [0, 1, 2] (fun _ => []) (fun _ => 0) ∧
    Ring three_heap_at_max.mem [0, 1, 2] ∧ three_heap_at_max.root = some 2 ∧
    keyOf three_heap_at_max.mem 2 = some 3 ∧ keyOf three_heap_at_max.mem 0 = some 1 ∧
    HeapOrder three_heap_at_max.mem ∧
    consolidate three_heap_at_max = .ok three_at_max_consolidated ∧
    ∃ R', Ring three_at_max_consolidated.mem R' ∧ R' ≠ [] ∧
      (∃ r' kr, three_at_max_consolidated.root = some r' ∧ r' ∈ R' ∧
        keyOf three_at_max_consolidated.mem r' = some kr ∧
        ∀ p ∈ R', ∃ kp, keyOf three_at_max_consolidated.mem p = some kp ∧ kr ≤ kp) ∧
      ∀ p ∈ R', parentOf three_at_max_consolidated.mem p = some none :=
  ⟨three_forest, three_ring, rfl, by rfl, by rfl, three_order, by rfl,
    consolidate_root_min three_heap_at_max [0, 1, 2] (fun _ => []) (fun _ => 0) 2 three_forest
      three_ring rfl (by decide) three_order three_at_max_consolidated (by rfl)⟩

/-- C26: in a non-empty heap whose root ring is `R` and whose child rings are
`ch`, for two distinct nodes `x`, `y` of the root ring, `heap_link(x, y)`
returns the node `w` with the smaller key (`x` when the keys are equal).  The
other node `l` leaves the root ring, which stays a ring; its parent is `w`,
its mark is `false`, `w->child` points to it and it is in the child ring `cw`
of `w`, which holds `l` and the former children of `w`.  The degree of `w`
grows by exactly 1; the degree, the child pointer and the child ring of `l`
are as before. -/
theorem heap_link_correct {h : FibonacciHeap} {R : List Nat} {ch : Nat → List Nat}
    {ht : Nat → Nat} {x y : Nat} (F : Forest h.mem R ch ht) (Rg : Ring h.mem R)
    (hroot : h.root ≠ none) (hx : x ∈ R) (hy : y ∈ R) (hxy : x ≠ y) :
    ∃ kx ky w l m' cw,
      keyOf h.mem x = some kx ∧ keyOf h.mem y = some ky ∧
      (w, l) = (if kx > ky then (y, x) else (x, y)) ∧
      heap_link h (some x) (some y) = .ok (w, { h with mem := m' }) ∧
      Ring m' (R.erase l) ∧
      parentOf m' l = some (some w) ∧ markOf m' l = some false ∧
      childOf m' w = some (some l) ∧ cw.Perm (l :: ch w) ∧ Ring m' cw ∧
      (∃ d, degreeOf h.mem w = some d ∧ degreeOf m' w = some (d + 1)) ∧
      degreeOf m' l = degreeOf h.mem l ∧ childOf m' l = childOf h.mem l ∧
      Ring m' (ch l) ∧
      (∀ c ∈ ch l, rightOf m' c = rightOf h.mem c ∧ leftOf m' c = leftOf h.mem c) ∧
      Forest m' (R.erase l) (Function.update ch w cw)
        (Function.update ht w (max (ht w) (ht l + 1))) := by
  obtain ⟨nx, hnx, rx⟩ := rd_some (F.live (Or.inl hx))
  obtain ⟨ny, hny, ry⟩ := rd_some (F.live (Or.inl hy))
  have main : ∀ w l, w ∈ R → l ∈ R → w ≠ l →
      ∃ m' cw, link_body h w l = .ok (w, { h with mem := m' }) ∧
      Ring m' (R.erase l) ∧
      parentOf m' l = some (some w) ∧ markOf m' l = some false ∧
      childOf m' w = some (some l) ∧ cw.Perm (l :: ch w) ∧ Ring m' cw ∧
      (∃ d, degreeOf h.mem w = some d ∧ degreeOf m' w = some (d + 1)) ∧
      degreeOf m' l = degreeOf h.mem l ∧ childOf m' l = childOf h.mem l ∧
      Ring m' (ch l) ∧
      (∀ c ∈ ch l, rightOf m' c = rightOf h.mem c ∧ leftOf m' c = leftOf h.mem c) ∧
      Forest m' (R.erase l) (Function.update ch w cw)
        (Function.update ht w (max (ht w) (ht l + 1))) := by
    intro w l hw hl hwl
    obtain ⟨m', cw, e, hperm, F', _, _, _, _, par, deg, _⟩ :=
      link_body_spec F Rg.rootLocal hw hl hwl
    obtain ⟨pre, post, eR, RgT⟩ := Rg.split_at hl
    have hmem : ∀ q, q ∈ l :: (post ++ pre) → q ∈ R := by
      intro q hq
      rw [eR]
      simp only [List.mem_cons, List.mem_append] at hq ⊢
      tauto
    have hwT : w ∈ post ++ pre := by
      have := hw
      rw [eR] at this
      simp only [List.mem_cons, List.mem_append] at this ⊢
      rcases this with h1 | h1 | h1
      · exact Or.inr h1
      · exact absurd h1 hwl
      · exact Or.inl h1
    obtain ⟨m'', e', RgT', mark, child, lr⟩ := link_body_ring F RgT hmem hwT
    rw [e] at e'
    have em : m' = m'' := by
      have := (Prod.mk.inj (Except.ok.inj e')).2
      exact congrArg FibonacciHeap.mem this
    subst em
    have hlpre : l ∉ pre := by
      have hn := Rg.nodup
      rw [eR] at hn
      intro hin
      exact (List.nodup_append.1 hn).2.2 hin (List.mem_cons_self _ _)
    have herase : R.erase l = pre ++ post := by
      rw [eR, List.erase_append_right _ hlpre, List.erase_cons_head]
    have hlw : l ∉ ch w ∧ l ≠ w := ⟨fun e => F.child_not_root e hl, fun e => hwl e.symm⟩
    have hcl : Function.update ch w cw l = ch l := Function.update_noteq hlw.2 _ _
    obtain ⟨nw, hnw, _⟩ := rd_some (F.live (Or.inl hw))
    refine ⟨m', cw, e, ?_, ?_, ?_, ?_, hperm, ?_, ⟨nw.degree, ?_, ?_⟩, ?_, ?_, ?_, ?_, F'⟩
    · rw [herase]; exact RgT'.rotate
    · rw [par, if_pos rfl]
    · rw [mark, if_pos rfl]
    · rw [child, if_pos rfl]
    · have := F'.cring w
      rwa [Function.update_same] at this
    · simp [degreeOf, hnw]
    · rw [deg, if_pos rfl]; simp [degreeOf, hnw]
    · rw [deg, if_neg hlw.2]
    · rw [child, if_neg hlw.2]
    · have := F'.cring l
      rwa [hcl] at this
    · intro c hc
      refine lr c (fun e => F.child_not_root hc e) (fun e => ?_)
      exact hlw.2 (F.child_unique hc e)
  refine ⟨nx.key, ny.key, ?_⟩
  by_cases hgt : nx.key > ny.key
  · obtain ⟨m', cw, e, rest⟩ := main y x hy hx hxy.symm
    refine ⟨y, x, m', cw, get_of_look Node.key hnx, get_of_look Node.key hny, by rw [if_pos hgt],
      ?_, rest⟩
    rw [heap_link_eq h x y hroot]
    simp only [bind, Except.bind, rx, ry, hgt, if_true]
    exact e
  · obtain ⟨m', cw, e, rest⟩ := main x y hx hy hxy
    refine ⟨x, y, m', cw, get_of_look Node.key hnx, get_of_look Node.key hny, by rw [if_neg hgt],
      ?_, rest⟩
    rw [heap_link_eq h x y hroot]
    simp only [bind, Except.bind, rx, ry, hgt, if_false]
    exact e

theorem heap_link_correct_witness :
    ∃ kx ky w l m' cw,
      keyOf three_heap.mem 0 = some kx ∧ keyOf three_heap.mem 1 = some ky ∧
      (w, l) = (if kx > ky then (1, 0) else (0, 1)) ∧
      heap_link three_heap (some 0) (some 1) = .ok (w, { three_heap with mem := m' }) ∧
      Ring m' ([0, 1, 2].erase l) ∧
      parentOf m' l = some (some w) ∧ markOf m' l = some false ∧
      childOf m' w = some (some l) ∧ cw.Perm (l :: (fun _ => []) w) ∧ Ring m' cw ∧
      (∃ d, degreeOf three_heap.mem w = some d ∧ degreeOf m' w = some (d + 1)) ∧
      degreeOf m' l = degreeOf three_heap.mem l ∧ childOf m' l = childOf three_heap.mem l ∧
      Ring m' ((fun _ => []) l) ∧
      (∀ c ∈ (fun _ => ([] : List Nat)) l,
        rightOf m' c = rightOf three_heap.mem c ∧ leftOf m' c = leftOf three_heap.mem c) ∧
      Forest m' ([0, 1, 2].erase l) (Function.update (fun _ => []) w cw)
        (Function.update (fun _ => 0) w (max ((fun _ => 0) w) ((fun _ => 0) l + 1))) :=
  heap_link_correct three_forest three_ring (by decide) (by decide) (by decide) (by decide)

/-- C27: in a heap whose root ring is `R` (through `root = r`) and whose child
rings are `ch`, with `degree` the size of the child ring, for a node `x`
whose parent is `y`: `cut(x, y)` returns; the child ring of `y`, which was
`pre ++ x :: post`, is the ring `post ++ pre` (the other children in their
order); `y->child` is null exactly when that ring is empty and points into it
otherwise; `y->degree` has decreased by exactly 1; `x` is in the root ring, to
the left of `root`, with `parent == nullptr` and `mark == false`, and has its
child pointer, degree and child ring as before.  When `x->parent` is not `y`,
`cut(x, y)` throws at its first statement and leaves the heap as it is. -/
theorem cut_correct {h : FibonacciHeap} {R : List Nat} {ch : Nat → List Nat} {ht : Nat → Nat}
    {r x y : Nat} (F : Forest h.mem R ch ht) (Rg : Ring h.mem R) (hroot : h.root = some r)
    (hrR : r ∈ R) (hx : InF R ch x) :
    (parentOf h.mem x = some (some y) →
      ∃ pre post preR postR m' d,
        ch y = pre ++ x :: post ∧ R = preR ++ r :: postR ∧
        cut_run h x y = ⟨.ok (), some { h with mem := m' }⟩ ∧
        Ring m' (post ++ pre) ∧ (∀ c ∈ post ++ pre, parentOf m' c = some (some y)) ∧
        (childOf m' y = some none ↔ post ++ pre = []) ∧
        (∀ c, childOf m' y = some (some c) → c ∈ post ++ pre) ∧
        degreeOf h.mem y = some d ∧ degreeOf m' y = some (d - 1) ∧
        Ring m' (r :: (postR ++ preR ++ [x])) ∧
        parentOf m' x = some none ∧ markOf m' x = some false ∧
        childOf m' x = childOf h.mem x ∧ degreeOf m' x = degreeOf h.mem x ∧
        Ring m' (ch x) ∧ (∀ c ∈ ch x, parentOf m' c = some (some x)) ∧
        Forest m' (r :: (postR ++ preR ++ [x])) (Function.update ch y (post ++ pre)) ht) ∧
    (∀ p, parentOf h.mem x = some p → p ≠ some y →
      cut_run h x y = ⟨.error Err.notParent, some h⟩ ∧ cut h x y = .error Err.notParent) := by
  constructor
  · intro hp
    have hxy : x ∈ ch y := F.mem_child_of_parent hx hp
    obtain ⟨pre, post, ech, hring⟩ := (F.cring y).split_at hxy
    obtain ⟨preR, postR, eR, hringR⟩ := Rg.split_at hrR
    have hperm : (ch y).Perm (x :: (post ++ pre)) := by
      rw [ech]
      have : (pre ++ x :: post).Perm ((x :: post) ++ pre) := List.perm_append_comm
      simpa using this
    have hpermR : R.Perm (r :: (postR ++ preR)) := by
      rw [eR]
      have : (preR ++ r :: postR).Perm ((r :: postR) ++ preR) := List.perm_append_comm
      simpa using this
    obtain ⟨m', e, F', Rg', _, _, _, par, mark, _, cn, cs, child, degy, deg, _⟩ :=
      cut_spec_of F hroot hperm hring hpermR hringR
    have hyF : InF R ch y := F.pin y x hxy
    have hxney : x ≠ y := fun e => F.not_self_child y (e ▸ hxy)
    have hd := F.cdeg y hyF
    have hcx : Function.update ch y (post ++ pre) x = ch x := Function.update_noteq hxney _ _
    have hrun : cut_run h x y = ⟨.ok (), some { h with mem := m' }⟩ := by
      obtain ⟨nx, hnx, rx⟩ := rd_some (F.live hx)
      have hnp : nx.parent = some y := by simpa [parentOf, hnx] using hp
      simp [cut_run, guarded, rx, hnp, e, bind, Except.bind, pure, Except.pure, Except.map]
    refine ⟨pre, post, preR, postR, m', ((ch y).length : Int), ech, eR, hrun, ?_, ?_, ?_, ?_, hd,
      ?_, ?_, ?_, ?_, ?_, ?_, ?_, ?_, ?_⟩
    · have := F'.cring y
      rwa [Function.update_same] at this
    · intro c hc
      exact F'.cpar y c (by rw [Function.update_same]; exact hc)
    · constructor
      · intro hnone
        by_contra hne
        obtain ⟨c', h1, _⟩ := cs hne
        rw [h1] at hnone
        simp at hnone
      · exact cn
    · intro c hc
      by_cases hne : post ++ pre = []
      · rw [cn hne] at hc; simp at hc
      · obtain ⟨c', h1, h2⟩ := cs hne
        rw [h1] at hc
        simp at hc
        exact hc ▸ h2
    · rw [degy, hperm.length_eq]
      simp
    · simpa [List.append_assoc] using Rg'
    · rw [par, if_pos rfl]
    · rw [mark, if_pos rfl]
    · exact child x hxney
    · exact deg x hxney
    · have := F'.cring x
      rwa [hcx] at this
    · intro c hc
      exact F'.cpar x c (by rw [hcx]; exact hc)
    · simpa [List.append_assoc] using F'
  · intro p hp hne
    obtain ⟨nx, hnx⟩ : ∃ nx, look h.mem x = some nx := by
      cases hl : look h.mem x with
      | none => simp [parentOf, hl] at hp
      | some nx => exact ⟨nx, rfl⟩
    have hnp : nx.parent ≠ some y := by
      have : nx.parent = p := by simpa [parentOf, hnx] using hp
      rw [this]; exact hne
    constructor
    · simp [cut_run, guarded, rd_of_look hnx, hnp, bind, Except.bind, pure, Except.pure]
    · simp [cut, rd_of_look hnx, hnp, bind, Except.bind, throw, throwThe, MonadExceptOf.throw]

theorem cut_correct_witness :
    ∃ pre post preR postR m' d,
      (fun p => if p = 1 then [3, 2] else []) 1 = pre ++ 3 :: post ∧
      [4, 1] = preR ++ 4 :: postR ∧
      cut_run degree_two_heap 3 1 = ⟨.ok (), some { degree_two_heap with mem := m' }⟩ ∧
      Ring m' (post ++ pre) ∧ (∀ c ∈ post ++ pre, parentOf m' c = some (some 1)) ∧
      (childOf m' 1 = some none ↔ post ++ pre = []) ∧
      (∀ c, childOf m' 1 = some (some c) → c ∈ post ++ pre) ∧
      degreeOf degree_two_heap.mem 1 = some d ∧ degreeOf m' 1 = some (d - 1) ∧
      Ring m' (4 :: (postR ++ preR ++ [3])) ∧
      parentOf m' 3 = some none ∧ markOf m' 3 = some false ∧
      childOf m' 3 = childOf degree_two_heap.mem 3 ∧
      degreeOf m' 3 = degreeOf degree_two_heap.mem 3 ∧
      Ring m' ((fun p => if p = 1 then [3, 2] else []) 3) ∧
      (∀ c ∈ (fun p => if p = 1 then [3, 2] else ([] : List Nat)) 3,
        parentOf m' c = some (some 3)) ∧
      Forest m' (4 :: (postR ++ preR ++ [3]))
        (Function.update (fun p => if p = 1 then [3, 2] else []) 1 (post ++ pre))
        (fun p => if p = 1 then 1 else 0) :=
  (cut_correct degree_two_forest degree_two_ring (by rfl) (by decide)
    (Or.inr ⟨1, by decide⟩)).1 (by rfl)

/-- C28: in a heap whose root ring is `R` (through `root = r`) and whose child
rings are `ch`, for a node `y` of the heap and enough fuel for the recursion:
when `y` has no parent, `cascading_cut(y)` returns the heap as it is; when `y`
has a parent and is not marked, it returns the heap with only `y->mark` set to
`true`; when `y` has the parent `z` and is marked, it is `cut(y, z)` followed
by `cascading_cut(z)`.  Overall, with `c` the consecutive marked nodes with a
parent met from `y` upwards and `e` the first node after them, the call
returns, the nodes of `c` are in the root ring with no parent and no mark,
`e` is marked when it has a parent, and no other parent, mark or key
changes. -/
theorem cascading_cut_correct {h : FibonacciHeap} {R : List Nat} {ch : Nat → List Nat}
    {ht : Nat → Nat} {r y fuel : Nat} (F : Forest h.mem R ch ht) (Rg : Ring h.mem R)
    (hroot : h.root = some r) (hrR : r ∈ R) (hy : InF R ch y) (hf : parCount h.mem < fuel) :
    (parentOf h.mem y = some none → cascading_cut fuel h y = .ok h) ∧
    (∀ z, parentOf h.mem y = some (some z) → markOf h.mem y = some false →
      cascading_cut fuel h y =
        .ok { h with mem := put h.mem y (fun n => { n with mark := true }) }) ∧
    (∀ z, parentOf h.mem y = some (some z) → markOf h.mem y = some true →
      cascading_cut fuel h y = cut h y z >>= fun h' => cascading_cut (fuel - 1) h' z) ∧
    (∃ c e m' R' ch', MarkedChain h.mem y c e ∧
      cascading_cut fuel h y = .ok { h with mem := m' } ∧
      Forest m' R' ch' ht ∧ Ring m' R' ∧ R'.Perm (R ++ c) ∧
      (∀ q, keyOf m' q = keyOf h.mem q) ∧
      (∀ q, parentOf m' q = if q ∈ c then some none else parentOf h.mem q) ∧
      (∀ q, markOf m' q = if q ∈ c then some false
        else if q = e ∧ parentOf h.mem e ≠ some none then some true else markOf h.mem q)) := by
  obtain ⟨f, rfl⟩ : ∃ f, fuel = f + 1 := ⟨fuel - 1, by omega⟩
  obtain ⟨ny, hny, ry⟩ := rd_some (F.live hy)
  refine ⟨?_, ?_, ?_, ?_⟩
  · intro hp
    have : ny.parent = none := by simpa [parentOf, hny] using hp
    simp only [cascading_cut, bind, Except.bind, ry, this, pure, Except.pure]
  · intro z hp hm
    have h1 : ny.parent = some z := by simpa [parentOf, hny] using hp
    have h2 : ny.mark = false := by simpa [markOf, hny] using hm
    simp [cascading_cut, bind, Except.bind, ry, h1, h2, wr_ok _ (F.live hy), pure, Except.pure]
  · intro z hp hm
    have h1 : ny.parent = some z := by simpa [parentOf, hny] using hp
    have h2 : ny.mark = true := by simpa [markOf, hny] using hm
    simp only [cascading_cut, bind, Except.bind, ry, h1, h2, not_true_eq_false, if_false,
      Nat.add_sub_cancel]
  · obtain ⟨c, e, m', R', ch', hc, e', F', Rg', hperm, _, key, par, mark⟩ :=
      cascading_cut_chain (f + 1) h R ch ht r y F Rg hroot hrR hy hf
    exact ⟨c, e, m', R', ch', hc, e', F', Rg', hperm, key, par, mark⟩

theorem cascading_cut_correct_witness :
    (parentOf degree_two_heap.mem 3 = some none →
      cascading_cut 6 degree_two_heap 3 = .ok degree_two_heap) ∧
    (∀ z, parentOf degree_two_heap.mem 3 = some (some z) →
      markOf degree_two_heap.mem 3 = some false →
      cascading_cut 6 degree_two_heap 3 = .ok { degree_two_heap with
        mem := put degree_two_heap.mem 3 (fun n => { n with mark := true }) }) ∧
    (∀ z, parentOf degree_two_heap.mem 3 = some (some z) →
      markOf degree_two_heap.mem 3 = some true →
      cascading_cut 6 degree_two_heap 3 =
        cut degree_two_heap 3 z >>= fun h' => cascading_cut (6 - 1) h' z) ∧
    (∃ c e m' R' ch', MarkedChain degree_two_heap.mem 3 c e ∧
      cascading_cut 6 degree_two_heap 3 = .ok { degree_two_heap with mem := m' } ∧
      Forest m' R' ch' (fun p => if p = 1 then 1 else 0) ∧ Ring m' R' ∧
      R'.Perm ([4, 1] ++ c) ∧
      (∀ q, keyOf m' q = keyOf degree_two_heap.mem q) ∧
      (∀ q, parentOf m' q = if q ∈ c then some none else parentOf degree_two_heap.mem q) ∧
      (∀ q, markOf m' q = if q ∈ c then some false
        else if q = e ∧ parentOf degree_two_heap.mem e ≠ some none then some true
        else markOf degree_two_heap.mem q)) :=
  cascading_cut_correct degree_two_forest degree_two_ring (by rfl) (by decide)
    (Or.inr ⟨1, by decide⟩) (by decide)

/-- C29 (evaluation at the failing input): after `insert` of the keys
`INT_MIN, INT_MIN, 20, 30, 40` and `remove_min`, the heap satisfies the
structural invariants, and the node at address `3` holds the key `30`, has the
parent `1` and the child `4`.  `change_key` of that node to `50` returns the
state `degree_break_heap`, in which the node still has the parent `1`: it is
not in the root ring. -/
theorem change_key_increase_keeps_parent :
    ∃ h, degree_break_start = .ok h ∧ WF h ∧ keyOf h.mem 3 = some 30 ∧
      parentOf h.mem 3 = some (some 1) ∧ childOf h.mem 3 = some (some 4) ∧
      keyOf h.mem 1 = some INT_MIN ∧
      change_key h 3 50 = .ok degree_break_heap ∧
      parentOf degree_break_heap.mem 3 = some (some 1) ∧
      degree_break_heap.root = some 1 ∧ rightOf degree_break_heap.mem 1 = some 1 :=
  ⟨_, by rfl, (degree_break_start_reach (by rfl)).wf, by rfl, by rfl, by rfl, by rfl, by rfl,
    by rfl, by rfl, by rfl⟩

/-- C30 (evaluation at the failing input): after `insert(k)` on the empty heap
the heap holds one node, `N == 1`, which is the root and has degree `0`;
`consolidate` computes `D == 0` and stops at `assert(d < D)`. -/
theorem consolidate_single_node_fails (k : Int) :
    ∃ p h, insert empty k = .ok (p, h) ∧ h.N = 1 ∧ h.root = some p ∧
      degreeOf h.mem p = some 0 ∧ rightOf h.mem p = some p ∧
      consolidate_D h.N = .ok 0 ∧ consolidate h = .error Err.assertFail :=
  ⟨_, _, by rfl, by rfl, by rfl, by rfl, by rfl, by rfl, by rfl⟩

theorem chain_right_reach {m : Mem} (P : Nat → Prop)
    (hP : ∀ u v, P u → rightOf m u = some v → P v) :
    ∀ (l : List Nat) (a : Nat), List.Chain (Link m) a l → P a → ∀ q ∈ l, P q := by
  intro l
  induction l with
  | nil => intro a _ _ q hq; simp at hq
  | cons b l ih =>
    intro a hc ha q hq
    rw [List.chain_cons] at hc
    have hb : P b := hP a b ha hc.1.1
    rcases List.mem_cons.1 hq with rfl | hq
    · exact hb
    · exact ih b hc.2 hb q hq

/-- Following `right` from a member of a ring reaches every member. -/
theorem Ring.reach {m : Mem} {L : List Nat} (h : Ring m L) (P : Nat → Prop)
    (hP : ∀ u v, P u → rightOf m u = some v → P v) {r : Nat} (hr : r ∈ L) (hPr : P r) :
    ∀ q ∈ L, P q := by
  obtain ⟨rest, hperm, hring⟩ := Ring.rotate_to h hr
  intro q hq
  have hq' : q ∈ r :: rest := hperm.mem_iff.1 hq
  rcases List.mem_cons.1 hq' with rfl | hq'
  · exact hPr
  · exact chain_right_reach P hP _ r hring.2 hPr q (by simp [hq'])

/-- The field `right` of a member of a ring points into the ring. -/
theorem Ring.right_in {m : Mem} {L : List Nat} (h : Ring m L) {p q : Nat} (hp : p ∈ L)
    (hq : rightOf m p = some q) : q ∈ L := by
  obtain ⟨_, _, b, hb, _, hl⟩ := Ring.rootLocal h p hp
  rw [hl.1] at hq
  cases hq
  exact hb

theorem fromRoot_inF {h : FibonacciHeap} {R : List Nat} {ch : Nat → List Nat} {ht : Nat → Nat}
    (F : Forest h.mem R ch ht) (Rg : Ring h.mem R) (hin : ∀ r, h.root = some r → r ∈ R)
    {q : Nat} (hq : FromRoot h q) : InF R ch q := by
  induction hq with
  | root hr => exact Or.inl (hin _ hr)
  | right _ hright ih =>
    rcases ih with hp | ⟨x, hp⟩
    · exact Or.inl (Ring.right_in Rg hp hright)
    · exact Or.inr ⟨x, Ring.right_in (F.cring x) hp hright⟩
  | child _ hchild ih => exact Or.inr ⟨_, F.csome _ _ ih hchild⟩

theorem inF_fromRoot {h : FibonacciHeap} {R : List Nat} {ch : Nat → List Nat} {ht : Nat → Nat}
    (F : Forest h.mem R ch ht) (Rg : Ring h.mem R) {r : Nat} (hroot : h.root = some r)
    (hr : r ∈ R) : ∀ q, InF R ch q → FromRoot h q := by
  refine Forest.induct F (FromRoot h) ?_ ?_
  · exact Ring.reach Rg (FromRoot h) (fun u v hu huv => FromRoot.right hu huv) hr
      (FromRoot.root hroot)
  · intro p c hc hp
    have hpin : InF R ch p := F.pin p c hc
    have hlive := F.live hpin
    obtain ⟨n, hn⟩ := Option.isSome_iff_exists.1 hlive
    cases hch : n.child with
    | none =>
      have := F.cnone p hpin (by simp [childOf, hn, hch])
      rw [this] at hc
      simp at hc
    | some c0 =>
      have hc0 : childOf h.mem p = some (some c0) := by simp [childOf, hn, hch]
      exact Ring.reach (F.cring p) (FromRoot h) (fun u v hu huv => FromRoot.right hu huv)
        (F.csome p c0 hpin hc0) (FromRoot.child hp hc0) c hc

theorem rootRing_of_mem {h : FibonacciHeap} {R : List Nat} (Rg : Ring h.mem R) {r : Nat}
    (hroot : h.root = some r) (hr : r ∈ R) : ∀ q ∈ R, RootRing h q :=
  Ring.reach Rg (RootRing h) (fun _ _ hu huv => RootRing.right hu huv) hr (RootRing.root hroot)

theorem inF_root_or_desc {m : Mem} {R : List Nat} {ch : Nat → List Nat} {ht : Nat → Nat}
    (F : Forest m R ch ht) : ∀ q, InF R ch q → q ∈ R ∨ ∃ p ∈ R, Desc m p q := by
  refine Forest.induct F (fun q => q ∈ R ∨ ∃ p ∈ R, Desc m p q) (fun r hr => Or.inl hr) ?_
  intro p c hc hp
  rcases hp with hp | ⟨a, ha, hd⟩
  · exact Or.inr ⟨p, hp, Desc.child (F.cpar p c hc)⟩
  · exact Or.inr ⟨a, ha, Desc.step hd (F.cpar p c hc)⟩

theorem keysOf_congr {m m' : Mem} (hl : m'.length = m.length)
    (hk : ∀ q, keyOf m' q = keyOf m q) : keysOf m' = keysOf m := by
  unfold keysOf
  rw [hl, funext hk]

/-- Every pointer stored in a node of a heap that satisfies the invariants
points to an allocated node. -/
theorem Inv.fields_live {h : FibonacciHeap} {R : List Nat} {ch : Nat → List Nat}
    {ht : Nat → Nat} (I : Inv h R ch ht) {q : Nat} {n : Node} (hq : look h.mem q = some n) :
    (look h.mem n.left).isSome ∧ (look h.mem n.right).isSome ∧
      (∀ p, n.parent = some p → (look h.mem p).isSome) ∧
      (∀ c, n.child = some c → (look h.mem c).isSome) := by
  have hin : InF R ch q := I.complete q (by simp [hq])
  have hring : ∃ L, Ring h.mem L ∧ q ∈ L := by
    rcases hin with hr | ⟨x, hx⟩
    · exact ⟨R, I.ring, hr⟩
    · exact ⟨ch x, I.forest.cring x, hx⟩
  obtain ⟨L, hL, hqL⟩ := hring
  obtain ⟨a, ha, b, hb, hla, hlb⟩ := Ring.rootLocal hL q hqL
  have hleft : n.left = a := by
    have := hla.2
    simpa [leftOf, hq] using this
  have hright : n.right = b := by
    have := hlb.1
    simpa [rightOf, hq] using this
  refine ⟨by rw [hleft]; exact Ring.live_ring hL a ha, by rw [hright]; exact Ring.live_ring hL b hb,
    ?_, ?_⟩
  · intro p hp
    rcases hin with hr | ⟨x, hx⟩
    · have := I.forest.rpar q hr
      simp [parentOf, hq, hp] at this
    · have := I.forest.cpar x q hx
      simp only [parentOf, hq, Option.map_some', hp, Option.some.injEq] at this
      subst this
      exact I.forest.live (I.forest.pin p q hx)
  · intro c hc
    exact I.forest.live (Or.inr ⟨q, I.forest.csome q c hin (by simp [childOf, hq, hc])⟩)


theorem remove_min_with_consolidate (h : FibonacciHeap) :
    remove_min h = remove_min_with consolidate h := rfl

theorem liveCount_one {m : Mem} {a b : Nat} (h1 : liveCount m = 1) (ha : (look m a).isSome)
    (hb : (look m b).isSome) : a = b := by
  by_contra hne
  have hlt : ∀ q, (look m q).isSome → q < m.length := by
    intro q hq
    by_contra hc
    rw [look_eq_none_of_ge (by omega)] at hq
    simp at hq
  have hsub : [a, b] ⊆ (List.range m.length).filter (fun p => (look m p).isSome) := by
    intro q hq
    simp only [List.mem_cons, List.mem_singleton, List.not_mem_nil, or_false] at hq
    rcases hq with rfl | rfl
    · exact List.mem_filter.2 ⟨List.mem_range.2 (hlt _ ha), ha⟩
    · exact List.mem_filter.2 ⟨List.mem_range.2 (hlt _ hb), hb⟩
  have hnd : [a, b].Nodup := by simp [hne]
  have := (List.subperm_of_subset hnd hsub).length_le
  unfold liveCount at h1
  rw [List.countP_eq_length_filter] at h1
  simp only [List.length_cons, List.length_nil] at this
  omega

/-- C36: on a heap that satisfies the structural invariants, for an allocated
node `x` and `k <= x->key`, `decrease_key(x, k)` returns and leaves a heap
that satisfies the invariants, with `N` as it was, with the same set of nodes
reached from `root` through `right` and `child`, with the key `k` in `x` and
with the key of every other node as it was. -/
theorem decrease_key_keeps_nodes (h : FibonacciHeap) (W : WF h) (x : Nat) (kx k : Int)
    (hx : keyOf h.mem x = some kx) (hk : k ≤ kx) :
    ∃ h', decrease_key h x k = .ok h' ∧ WF h' ∧ h'.N = h.N ∧
      (∀ q, FromRoot h' q ↔ FromRoot h q) ∧
      (∀ q, (look h'.mem q).isSome = (look h.mem q).isSome) ∧
      keyOf h'.mem x = some k ∧ (∀ q, q ≠ x → keyOf h'.mem q = keyOf h.mem q) := by
  obtain ⟨R, ch, ht, I⟩ := W
  obtain ⟨h', R', ch', e, I', hN, _, hlive, key, hin, _⟩ := decrease_key_inv I hx k hk
  have hxl : (look h.mem x).isSome := isSome_of_get hx
  obtain ⟨r, hr⟩ := I.root_some hxl
  obtain ⟨r', hr'⟩ := I'.root_some (by rw [hlive]; exact hxl)
  refine ⟨h', e, ⟨R', ch', ht, I'⟩, hN, ?_, hlive, by rw [key, if_pos rfl], ?_⟩
  · intro q
    constructor
    · intro hq
      exact inF_fromRoot I.forest I.ring hr (I.rootIn r hr) q
        ((hin q).1 (fromRoot_inF I'.forest I'.ring I'.rootIn hq))
    · intro hq
      exact inF_fromRoot I'.forest I'.ring hr' (I'.rootIn r' hr') q
        ((hin q).2 (fromRoot_inF I.forest I.ring I.rootIn hq))
  · intro q hq
    rw [key, if_neg hq]

theorem decrease_key_keeps_nodes_witness :
    WF increase_heap ∧ keyOf increase_heap.mem 1 = some 2 ∧ (0 : Int) ≤ 2 ∧
    ∃ h', decrease_key increase_heap 1 0 = .ok h' ∧ WF h' ∧ h'.N = increase_heap.N ∧
      (∀ q, FromRoot h' q ↔ FromRoot increase_heap q) ∧
      (∀ q, (look h'.mem q).isSome = (look increase_heap.mem q).isSome) ∧
      keyOf h'.mem 1 = some 0 ∧
      (∀ q, q ≠ 1 → keyOf h'.mem q = keyOf increase_heap.mem q) :=
  ⟨increase_reach.wf, by rfl, by decide,
    decrease_key_keeps_nodes increase_heap increase_reach.wf 1 2 0 (by rfl) (by decide)⟩

/-- C37: when `consolidate` returns on a heap that holds a forest in heap
order whose root list is a ring through `root`, then `N`, the set of
allocated nodes and the key of every node are as before, so the keys of the
heap are the same with the same multiplicities, and every node that was
reached from `root` through `right` and `child` before the call is
afterwards on the root ring or a descendant of a node of the root ring. -/
theorem consolidate_keeps_nodes (h : FibonacciHeap) (R : List Nat) (ch : Nat → List Nat)
    (ht : Nat → Nat) (r : Nat) (F : Forest h.mem R ch ht) (Rg : Ring h.mem R)
    (hroot : h.root = some r) (hr : r ∈ R) (O : HeapOrder h.mem) (h' : FibonacciHeap)
    (e : consolidate h = .ok h') :
    h'.N = h.N ∧ h'.mem.length = h.mem.length ∧
      (∀ q, (look h'.mem q).isSome = (look h.mem q).isSome) ∧
      (∀ q, keyOf h'.mem q = keyOf h.mem q) ∧ keysOf h'.mem = keysOf h.mem ∧
      (∀ q, FromRoot h q → RootRing h' q ∨ ∃ p, RootRing h' p ∧ Desc h'.mem p q) := by
  obtain ⟨R', ch', ht', F', Rg', ⟨r', hr', hrR', _⟩, _, hN, hlen, hlive, hkey, hin, _⟩ :=
    consolidate_spec F Rg hroot hr O e
  refine ⟨hN, hlen, hlive, hkey, keysOf_congr hlen hkey, ?_⟩
  intro q hq
  have h1 : InF R ch q := fromRoot_inF F Rg (fun a ha => by rw [hroot] at ha; cases ha; exact hr) hq
  rcases inF_root_or_desc F' q ((hin q).2 h1) with h2 | ⟨p, hp, hd⟩
  · exact Or.inl (rootRing_of_mem Rg' hr' hrR' q h2)
  · exact Or.inr ⟨p, rootRing_of_mem Rg' hr' hrR' p hp, hd⟩

theorem consolidate_keeps_nodes_witness :
    Forest three_heap.mem [0, 1, 2] (fun _ => []) (fun _ => 0) ∧ Ring three_heap.mem [0, 1, 2] ∧
    three_heap.root = some 0 ∧ HeapOrder three_heap.mem ∧
    consolidate three_heap = .ok three_consolidated ∧
    three_consolidated.N = three_heap.N ∧
    three_consolidated.mem.length = three_heap.mem.length ∧
      (∀ q, (look three_consolidated.mem q).isSome = (look three_heap.mem q).isSome) ∧
      (∀ q, keyOf three_consolidated.mem q = keyOf three_heap.mem q) ∧
      keysOf three_consolidated.mem = keysOf three_heap.mem ∧
      (∀ q, FromRoot three_heap q →
        RootRing three_consolidated q ∨
          ∃ p, RootRing three_consolidated p ∧ Desc three_consolidated.mem p q) :=
  ⟨three_forest, three_ring, rfl, three_order, by rfl,
    consolidate_keeps_nodes three_heap [0, 1, 2] (fun _ => []) (fun _ => 0) 0 three_forest
      three_ring rfl (by decide) three_order three_consolidated (by rfl)⟩

/-- C38: when `remove_min` returns on a heap that satisfies the structural
invariants, the node `z` that `root` pointed to is deleted, `root` does not
point to it, and no allocated node has `z` in its field `left`, `right`,
`parent` or `child`. -/
theorem remove_min_no_dangling (h : FibonacciHeap) (W : WF h) (h' : FibonacciHeap)
    (e : remove_min h = .ok h') :
    ∃ z, h.root = some z ∧ (look h.mem z).isSome ∧ look h'.mem z = none ∧ h'.root ≠ some z ∧
      ∀ q n, look h'.mem q = some n →
        n.left ≠ z ∧ n.right ≠ z ∧ n.parent ≠ some z ∧ n.child ≠ some z := by
  obtain ⟨R, ch, ht, I⟩ := W
  obtain ⟨z, R', ch', ht', hz, I', _, _, hlook, _⟩ := remove_min_inv I e
  have hdead : look h'.mem z = none := (hlook z).2 (Or.inl rfl)
  have hzl : (look h.mem z).isSome := I.forest.live (Or.inl (I.rootIn z hz))
  refine ⟨z, hz, hzl, hdead, ?_, ?_⟩
  · intro hc
    have := I'.forest.live (Or.inl (I'.rootIn z hc))
    rw [hdead] at this
    simp at this
  · intro q n hq
    obtain ⟨h1, h2, h3, h4⟩ := I'.fields_live hq
    refine ⟨?_, ?_, ?_, ?_⟩
    · intro hc
      rw [hc, hdead] at h1
      simp at h1
    · intro hc
      rw [hc, hdead] at h2
      simp at h2
    · intro hc
      have := h3 z hc
      rw [hdead] at this
      simp at this
    · intro hc
      have := h4 z hc
      rw [hdead] at this
      simp at this

theorem remove_min_no_dangling_witness :
    WF increase_heap ∧ remove_min increase_heap = .ok increase_removed ∧
    ∃ z, increase_heap.root = some z ∧ (look increase_heap.mem z).isSome ∧
      look increase_removed.mem z = none ∧ increase_removed.root ≠ some z ∧
      ∀ q n, look increase_removed.mem q = some n →
        n.left ≠ z ∧ n.right ≠ z ∧ n.parent ≠ some z ∧ n.child ≠ some z :=
  ⟨increase_reach.wf, by rfl,
    remove_min_no_dangling increase_heap increase_reach.wf increase_removed (by rfl)⟩


theorem single_inv : Inv single_heap [0] (fun _ => []) (fun _ => 0) := by
  obtain ⟨h', R', e, I', hperm, _⟩ := insert_inv Inv.empty_inv 3
  have e2 : insert empty 3 = .ok (0, single_heap) := by rfl
  rw [e2] at e
  cases e
  have : R' = [0] := List.perm_singleton.1 hperm
  rw [this] at I'
  exact I'

/-- C31: on a heap that satisfies the structural invariants and holds one
node (`N == 1`), that node `z` is the root, has no child and is its own right
neighbour; `remove_min` returns the same heap whatever is put in the place of
the call of `consolidate`, so `consolidate` is not called; the heap it leaves
has `root == nullptr`, `N == 0` and no allocated node; and `insert(k)` on it
returns a heap with `N == 1` whose only allocated node is the new node, which
is the root, and `get_min()` returns `k`. -/
theorem remove_min_single_node (h : FibonacciHeap) (W : WF h) (hN : h.N = 1) :
    ∃ z h', h.root = some z ∧ childOf h.mem z = some none ∧ rightOf h.mem z = some z ∧
      (∀ cons, remove_min_with cons h = .ok h') ∧ remove_min h = .ok h' ∧
      h'.root = none ∧ h'.N = 0 ∧ (∀ q, look h'.mem q = none) ∧ WF h' ∧
      ∀ k, ∃ p h'', insert h' k = .ok (p, h'') ∧ h''.N = 1 ∧ h''.root = some p ∧
        get_min h'' = .ok k ∧ (∀ q, (look h''.mem q).isSome ↔ q = p) ∧ WF h'' := by
  obtain ⟨R, ch, ht, I⟩ := W
  have hcount : liveCount h.mem = 1 := by
    have := I.count
    rw [hN] at this
    exact_mod_cast this.symm
  have hroot : ∃ z, h.root = some z := by
    cases hr : h.root with
    | none =>
      have := I.root_none_iff.1 hr
      omega
    | some z => exact ⟨z, rfl⟩
  obtain ⟨z, hz⟩ := hroot
  have hzR := I.rootIn z hz
  have hzl : (look h.mem z).isSome := I.forest.live (Or.inl hzR)
  obtain ⟨rest, hperm, hring⟩ := Ring.rotate_to I.ring hzR
  have hrest : rest = [] := by
    cases rest with
    | nil => rfl
    | cons b rest =>
      have hb := Ring.live_ring hring b (by simp)
      have := liveCount_one hcount hzl hb
      subst this
      have := hring.1
      simp at this
  subst hrest
  have hlink : Link h.mem z z := by
    have := hring.2
    simpa using this
  obtain ⟨n, hn⟩ := Option.isSome_iff_exists.1 hzl
  have hright : n.right = z := by simpa [rightOf, hn] using hlink.1
  have hleft : n.left = z := by simpa [leftOf, hn] using hlink.2
  have hchild : n.child = none := by
    cases hc : n.child with
    | none => rfl
    | some c =>
      have hcz : c ∈ ch z := I.forest.csome z c (Or.inl hzR) (by simp [childOf, hn, hc])
      have hcl := I.forest.live (Or.inr ⟨z, hcz⟩)
      have := liveCount_one hcount hzl hcl
      subst this
      have := I.forest.hgt z z hcz
      omega
  have hrun : ∀ cons, remove_min_with cons h = .ok (FibonacciHeap.mk (h.N - 1) none
      ((put (put h.mem z (fun n => { n with right := z })) z
        (fun n => { n with left := z })).set z none)) := by
    intro cons
    have h1 : look (put h.mem z (fun n => { n with right := z })) z
        = some { n with right := z } := by simp [look_put, hn]
    have h2 : look (put (put h.mem z (fun n => { n with right := z })) z
        (fun n => { n with left := z })) z = some { n with right := z, left := z } := by
      simp [look_put, hn]
    unfold remove_min_with
    simp only [hz, rd_of_look hn, bind, Except.bind, hchild, pure, Except.pure, hleft, hright,
      wr_ok _ hzl, rd_of_look h1, wr_ok _ (show (look (put h.mem z
        (fun n => { n with right := z })) z).isSome by simp [h1]), rd_of_look h2, if_true, del,
      h2]
  have e : remove_min h = .ok (FibonacciHeap.mk (h.N - 1) none
      ((put (put h.mem z (fun n => { n with right := z })) z
        (fun n => { n with left := z })).set z none)) := by
    rw [remove_min_with_consolidate]
    exact hrun consolidate
  obtain ⟨z', R', ch', ht', _, I', hN', _, _, _⟩ := remove_min_inv I e
  have hN0 : (FibonacciHeap.mk (h.N - 1) none
      ((put (put h.mem z (fun n => { n with right := z })) z
        (fun n => { n with left := z })).set z none)).N = 0 := by
    show h.N - 1 = 0
    omega
  have hR' : R' = [] := I'.rootNone rfl
  subst hR'
  have hdead : ∀ q, look ((put (put h.mem z (fun n => { n with right := z })) z
        (fun n => { n with left := z })).set z none) q = none := by
    intro q
    cases hq : look ((put (put h.mem z (fun n => { n with right := z })) z
        (fun n => { n with left := z })).set z none) q with
    | none => rfl
    | some nq =>
      exact absurd (I'.complete q (by simp [hq])) (I'.forest.empty_of_no_roots q)
  refine ⟨z, _, hz, by simp [childOf, hn, hchild], by simp [rightOf, hn, hright], hrun, e, rfl,
    hN0, hdead, ⟨_, _, _, I'⟩, ?_⟩
  intro k
  obtain ⟨h'', R'', e'', I'', hperm'', hN'', _, hk'', _, _, _, hmin''⟩ := insert_inv I' k
  have hR'' : R'' = [_] := List.perm_singleton.1 hperm''
  have hpl : (look h''.mem ((put (put h.mem z (fun n => { n with right := z })) z
        (fun n => { n with left := z })).set z none).length).isSome := isSome_of_get hk''
  obtain ⟨r, hr⟩ := I''.root_some hpl
  have hrR := I''.rootIn r hr
  rw [hR''] at hrR
  simp only [List.mem_singleton] at hrR
  have hc'' : liveCount h''.mem = 1 := by
    have := I''.count
    rw [hN'', hN0] at this
    exact_mod_cast this.symm
  refine ⟨_, h'', e'', by rw [hN'', hN0]; rfl, by rw [hr, hrR], hmin'', ?_, ⟨_, _, _, I''⟩⟩
  intro q
  constructor
  · intro hq
    exact liveCount_one hc'' hq hpl
  · intro hq
    rw [hq]
    exact hpl

theorem remove_min_single_node_witness :
    WF single_heap ∧ single_heap.N = 1 ∧
    ∃ z h', single_heap.root = some z ∧ childOf single_heap.mem z = some none ∧
      rightOf single_heap.mem z = some z ∧
      (∀ cons, remove_min_with cons single_heap = .ok h') ∧ remove_min single_heap = .ok h' ∧
      h'.root = none ∧ h'.N = 0 ∧ (∀ q, look h'.mem q = none) ∧ WF h' ∧
      ∀ k, ∃ p h'', insert h' k = .ok (p, h'') ∧ h''.N = 1 ∧ h''.root = some p ∧
        get_min h'' = .ok k ∧ (∀ q, (look h''.mem q).isSome ↔ q = p) ∧ WF h'' :=
  ⟨⟨_, _, _, single_inv⟩, rfl, remove_min_single_node single_heap ⟨_, _, _, single_inv⟩ rfl⟩

/-- C32: when `x` has no parent, or has a parent whose key is at most `k`,
`decrease_key(x, k)` with `k <= x->key` on a heap whose `root` points to an
allocated node returns, and afterwards `N` and every field of every node are
as before, apart from the key of `x`, which is `k`; `root` points to `x` if
`k` is smaller than the key `root` pointed to before, and is unchanged
otherwise. -/
theorem decrease_key_no_cut (h : FibonacciHeap) (x r : Nat) (nx nr : Node) (k : Int)
    (hx : look h.mem x = some nx) (hk : k ≤ nx.key) (hroot : h.root = some r)
    (hr : look h.mem r = some nr)
    (hp : nx.parent = none ∨
      ∃ y ny, nx.parent = some y ∧ look h.mem y = some ny ∧ ny.key ≤ k) :
    ∃ h', decrease_key h x k = .ok h' ∧ h'.N = h.N ∧ h'.mem.length = h.mem.length ∧
      look h'.mem x = some { nx with key := k } ∧
      (∀ q, q ≠ x → look h'.mem q = look h.mem q) ∧
      h'.root = (if k < nr.key then some x else some r) := by
  have hxl : (look h.mem x).isSome := by simp [hx]
  have hm : look (put h.mem x (fun n => { n with key := k })) x = some { nx with key := k } := by
    simp [look_put, hx]
  have hcut : decrease_key_cut { h with mem := put h.mem x (fun n => { n with key := k }) } x
      = .ok { h with mem := put h.mem x (fun n => { n with key := k }) } := by
    unfold decrease_key_cut
    simp only [rd_of_look hm, bind, Except.bind]
    rcases hp with hp | ⟨y, ny, hp, hy, hyk⟩
    · simp only [hp]
      rfl
    · simp only [hp]
      by_cases hyx : y = x
      · subst hyx
        simp [rd_of_look hm, pure, Except.pure]
      · have hy' : look (put h.mem x (fun n => { n with key := k })) y = some ny := by
          rw [look_put_ne _ hyx]
          exact hy
        have : ¬ k < ny.key := by omega
        simp [rd_of_look hy', this, pure, Except.pure]
  have hroot' : decrease_key_root { h with mem := put h.mem x (fun n => { n with key := k }) } x
      = .ok (FibonacciHeap.mk h.N (if k < nr.key then some x else some r)
          (put h.mem x (fun n => { n with key := k }))) := by
    unfold decrease_key_root
    simp only [hroot, deref, bind, Except.bind, rd_of_look hm]
    by_cases hrx : r = x
    · subst hrx
      rw [hx] at hr
      cases hr
      simp [rd_of_look hm, pure, Except.pure, hroot]
    · have hr' : look (put h.mem x (fun n => { n with key := k })) r = some nr := by
        rw [look_put_ne _ hrx]
        exact hr
      simp only [rd_of_look hr', pure, Except.pure]
      split_ifs <;> simp [hroot]
  refine ⟨FibonacciHeap.mk h.N (if k < nr.key then some x else some r)
    (put h.mem x (fun n => { n with key := k })), ?_, ?_, ?_, ?_, ?_, ?_⟩
  · rw [decrease_key_eq]
    have hnot : ¬ k > nx.key := by omega
    simp only [rd_of_look hx, bind, Except.bind, hnot, if_false, pure, Except.pure, wr_ok _ hxl,
      hcut]
    exact hroot'
  · rfl
  · simp [put, hx]
  · exact hm
  · intro q hq
    exact look_put_ne _ hq
  · rfl

theorem decrease_key_no_cut_witness :
    look marked_root_heap.mem 6 = some (Node.mk 60 false none 0 6 6 (some 5)) ∧
    (55 : Int) ≤ 60 ∧
    marked_root_heap.root = some 3 ∧
    ∃ h', decrease_key marked_root_heap 6 55 = .ok h' ∧ h'.N = marked_root_heap.N ∧
      h'.mem.length = marked_root_heap.mem.length ∧
      look h'.mem 6 = some (Node.mk 55 false none 0 6 6 (some 5)) ∧
      (∀ q, q ≠ 6 → look h'.mem q = look marked_root_heap.mem q) ∧
      h'.root = (if (55 : Int) < 20 then some 6 else some 3) :=
  ⟨by rfl, by decide, by rfl,
    decrease_key_no_cut marked_root_heap 6 3 _ _ 55 (by rfl) (by decide) (by rfl)
      (by rfl : look marked_root_heap.mem 3 = some (Node.mk 20 true (some 5) 2 3 3 none))
      (Or.inr ⟨5, Node.mk 50 false (some 6) 1 2 2 (some 3), rfl, by rfl, by decide⟩)⟩

theorem ends_bind {α β : Type} {a : Except Err α} {f : α → Except Err β}
    (ha : Ends a) (hf : ∀ v, a = .ok v → Ends (f v)) : Ends (a >>= f) := by
  cases a with
  | error e =>
    intro h
    apply ha
    simpa [Bind.bind, Except.bind] using h
  | ok v => exact hf v rfl

theorem ends_ok {α : Type} (v : α) : Ends (Except.ok v : Except Err α) := by
  intro h; cases h

theorem ends_error {α β : Type} {e : Err} (h : Ends (Except.error e : Except Err α)) :
    Ends (Except.error e : Except Err β) := by
  intro hc
  apply h
  cases hc
  rfl

theorem ends_of_ok {α : Type} {x : Except Err α} {v : α} (h : x = .ok v) : Ends x := by
  rw [h]
  exact ends_ok v

theorem ends_pure {α : Type} (v : α) : Ends (pure v : Except Err α) := by
  intro h; cases h

theorem ends_rd (m : Mem) (p : Nat) : Ends (rd m p) := by
  unfold rd Ends; cases look m p <;> simp

theorem ends_wr (m : Mem) (p : Nat) (f : Node → Node) : Ends (wr m p f) := by
  unfold wr Ends; cases look m p <;> simp

theorem ends_del (m : Mem) (p : Nat) : Ends (del m p) := by
  unfold del Ends; cases look m p <;> simp

theorem ends_throw {α : Type} {e : Err} (he : e ≠ Err.diverge) :
    Ends (throw e : Except Err α) := by
  intro h
  apply he
  simpa [throw, throwThe, MonadExceptOf.throw] using h

theorem ends_list_insert (m : Mem) (x l r : Nat) : Ends (list_insert m x l r) := by
  unfold list_insert
  refine ends_bind (ends_wr _ _ _) (fun _ _ => ?_)
  refine ends_bind (ends_wr _ _ _) (fun _ _ => ?_)
  refine ends_bind (ends_wr _ _ _) (fun _ _ => ?_)
  refine ends_bind (ends_wr _ _ _) (fun _ _ => ?_)
  exact ends_pure _

theorem ends_link_attach (m : Mem) (x y : Nat) : Ends (link_attach m x y) := by
  unfold link_attach
  refine ends_bind (ends_rd _ _) (fun n _ => ?_)
  cases n.child with
  | none =>
    refine ends_bind (ends_wr _ _ _) (fun _ _ => ?_)
    refine ends_bind (ends_wr _ _ _) (fun _ _ => ?_)
    exact ends_wr _ _ _
  | some c =>
    refine ends_bind (ends_rd _ _) (fun _ _ => ?_)
    refine ends_bind (ends_list_insert _ _ _ _) (fun _ _ => ?_)
    exact ends_wr _ _ _

theorem ends_link_body (h : FibonacciHeap) (x y : Nat) : Ends (link_body h x y) := by
  unfold link_body
  refine ends_bind (ends_rd _ _) (fun _ _ => ?_)
  refine ends_bind (ends_rd _ _) (fun _ _ => ?_)
  refine ends_bind (ends_wr _ _ _) (fun _ _ => ?_)
  refine ends_bind (ends_wr _ _ _) (fun _ _ => ?_)
  refine ends_bind (ends_link_attach _ _ _) (fun _ _ => ?_)
  refine ends_bind (ends_wr _ _ _) (fun _ _ => ?_)
  refine ends_bind (ends_wr _ _ _) (fun _ _ => ?_)
  refine ends_bind (ends_wr _ _ _) (fun _ _ => ?_)
  exact ends_pure _

theorem ends_heap_link (h : FibonacciHeap) (x y : Nat) :
    Ends (heap_link h (some x) (some y)) := by
  by_cases hr : h.root = none
  · unfold heap_link
    simp only [hr, if_true]
    exact ends_bind (ends_throw (by decide)) (fun _ e => by cases e)
  · rw [heap_link_eq h x y hr]
    refine ends_bind (ends_rd _ _) (fun _ _ => ?_)
    refine ends_bind (ends_rd _ _) (fun _ _ => ?_)
    exact ends_link_body _ _ _

theorem ends_A_get (A : List (Option Nat)) (d : Int) : Ends (A_get A d) := by
  unfold A_get Ends
  split_ifs
  · split <;> simp
  · simp

theorem ends_A_set (A : List (Option Nat)) (d : Int) (v : Option Nat) :
    Ends (A_set A d v) := by
  unfold A_set Ends
  split_ifs <;> simp

/-- The loop `while (A[d] != nullptr)` ends: `d` grows by one in every round
and the read of `A[d]` is inside the vector. -/
theorem ends_link_loop : ∀ (fuel : Nat) (h : FibonacciHeap) (A : List (Option Nat))
    (x : Nat) (d : Int), 1 ≤ fuel → A.length + 1 ≤ fuel + d.toNat →
    Ends (link_loop fuel h A x d) := by
  intro fuel
  induction fuel with
  | zero => intro h A x d h1; omega
  | succ f ih =>
    intro h A x d _ hb
    unfold link_loop
    cases ha : A_get A d with
    | error err =>
      have := ends_A_get A d
      rw [ha] at this
      intro e
      apply this
      simpa [bind, Except.bind] using e
    | ok a =>
      cases a with
      | none =>
        simp only [bind, Except.bind]
        exact ends_pure _
      | some y =>
        have hd : 0 ≤ d ∧ d.toNat < A.length := by
          unfold A_get at ha
          split_ifs at ha with h0
          · refine ⟨h0, ?_⟩
            by_contra hc
            rw [List.getElem?_eq_none (by omega)] at ha
            simp at ha
        simp only [bind, Except.bind]
        cases hl : heap_link h (some x) (some y) with
        | error err =>
          have := ends_heap_link h x y
          rw [hl] at this
          exact ends_error this
        | ok p =>
          obtain ⟨x', h'⟩ := p
          simp only []
          cases hs : A_set A d none with
          | error err =>
            have := ends_A_set A d none
            rw [hs] at this
            exact ends_error this
          | ok A' =>
            simp only []
            have hlen : A'.length = A.length := by
              unfold A_set at hs
              split_ifs at hs
              cases hs
              simp
            have hd1 : (d + 1).toNat = d.toNat + 1 := by omega
            exact ih h' A' x' (d + 1) (by omega) (by rw [hlen, hd1]; omega)

theorem ends_consolidate_for (D : Int) : ∀ (ws : List Nat) (h : FibonacciHeap)
    (A : List (Option Nat)), Ends (consolidate_for D h A ws) := by
  intro ws
  induction ws with
  | nil => intro h A; exact ends_pure _
  | cons w ws ih =>
    intro h A
    unfold consolidate_for
    refine ends_bind (ends_rd _ _) (fun n _ => ?_)
    dsimp only
    split_ifs
    · refine ends_bind (ends_pure _) (fun _ _ => ?_)
      refine ends_bind (ends_link_loop (A.length + 1) h A w n.degree (by omega) (by omega))
        (fun r _ => ?_)
      refine ends_bind (ends_A_set _ _ _) (fun _ _ => ?_)
      exact ih _ _
    · exact ends_bind (ends_throw (by decide)) (fun _ e => by cases e)

theorem ends_rebuild : ∀ (A : List (Option Nat)) (h : FibonacciHeap),
    Ends (rebuild h A) := by
  intro A
  induction A with
  | nil => intro h; exact ends_pure _
  | cons a A ih =>
    intro h
    cases a with
    | none => unfold rebuild; exact ih h
    | some a =>
      unfold rebuild
      cases hr : h.root with
      | none =>
        simp only []
        refine ends_bind (ends_wr _ _ _) (fun _ _ => ?_)
        refine ends_bind (ends_wr _ _ _) (fun _ _ => ?_)
        refine ends_bind (ends_wr _ _ _) (fun _ _ => ?_)
        exact ih _
      | some root =>
        simp only []
        refine ends_bind (ends_rd _ _) (fun _ _ => ?_)
        refine ends_bind (ends_list_insert _ _ _ _) (fun _ _ => ?_)
        refine ends_bind (ends_wr _ _ _) (fun _ _ => ?_)
        refine ends_bind (ends_rd _ _) (fun _ _ => ?_)
        refine ends_bind (ends_rd _ _) (fun _ _ => ?_)
        exact ih _

/-- `consolidate` ends on a heap whose `root` lies on a ring. -/
theorem ends_consolidate {h : FibonacciHeap} {r : Nat} {rest : List Nat}
    (hroot : h.root = some r) (hring : Ring h.mem (r :: rest)) : Ends (consolidate h) := by
  have hlen : rest.length < h.mem.length := by
    have := length_le_of_live hring.nodup hring.live_ring
    simp at this
    omega
  unfold consolidate
  simp only [hroot]
  refine ends_bind ?_ (fun D _ => ?_)
  · unfold consolidate_D Ends
    split_ifs <;> simp
  rw [Ring.root_list hring hlen]
  refine ends_bind (ends_ok _) (fun _ _ => ?_)
  refine ends_bind (ends_consolidate_for _ _ _ _) (fun r _ => ?_)
  exact ends_rebuild _ _

/-- `remove_min` ends on a heap that satisfies the structural invariants. -/
theorem ends_remove_min {h : FibonacciHeap} {R : List Nat} {ch : Nat → List Nat}
    {ht : Nat → Nat} (I : Inv h R ch ht) : Ends (remove_min h) := by
  cases hz : h.root with
  | none =>
    unfold remove_min
    simp only [hz]
    exact ends_throw (by decide)
  | some z =>
    rw [remove_min_eq h z hz]
    obtain ⟨rest, hperm, hring⟩ := I.ring.rotate_to (I.rootIn z hz)
    obtain ⟨m', T, e, _, hright, hT, hzT, _⟩ :=
      remove_min_pre_spec I.forest hperm hring I.order
    have key : ∀ h2, Ends (remove_min_finish h2 z) := by
      intro h2
      unfold remove_min_finish
      refine ends_bind (ends_del _ _) (fun _ _ => ?_)
      exact ends_pure _
    simp only [bind_assoc] at e ⊢
    cases h1 : splice_children h.mem z with
    | error err => simp [h1, bind, Except.bind] at e
    | ok m1 =>
      simp only [h1, bind, Except.bind] at e ⊢
      simp only [e]
      cases hrd : rd m' z with
      | error err =>
        simp only []
        have := ends_rd m' z
        rw [hrd] at this
        exact ends_error this
      | ok nz =>
        simp only []
        have hnz : nz.right = T.headD z := by
          unfold rd at hrd
          cases hl : look m' z with
          | none => simp [hl] at hrd
          | some n =>
            simp only [hl] at hrd
            cases hrd
            simpa [rightOf, hl] using hright
        by_cases hzz : z = nz.right
        · simp only [hzz.symm, if_true, pure, Except.pure]
          exact key _
        · simp only [hzz, if_false]
          cases T with
          | nil => simp [hnz] at hzz
          | cons t T =>
            simp only [List.headD_cons] at hnz
            have hc : Ends (consolidate { h with mem := m', root := some nz.right }) :=
              ends_consolidate (by rfl) (by rw [hnz]; exact hT)
            cases hcons : consolidate { h with mem := m', root := some nz.right } with
            | error err =>
              simp only []
              rw [hcons] at hc
              exact hc
            | ok h3 =>
              simp only []
              exact key _


theorem ends_decrease_key {h : FibonacciHeap} {R : List Nat} {ch : Nat → List Nat}
    {ht : Nat → Nat} (I : Inv h R ch ht) (x : Nat) (k : Int) : Ends (decrease_key h x k) := by
  cases hx : look h.mem x with
  | none =>
    rw [decrease_key_eq]
    simp only [rd, hx, bind, Except.bind]
    intro e
    cases e
  | some nx =>
    have hkx : keyOf h.mem x = some nx.key := by simp [keyOf, hx]
    by_cases hk : k ≤ nx.key
    · obtain ⟨h', _, _, e, _⟩ := decrease_key_inv I hkx k hk
      exact ends_of_ok e
    · rw [decrease_key_eq]
      simp only [rd_of_look hx, bind, Except.bind]
      rw [if_pos (by omega)]
      intro e
      simp [throw, throwThe, MonadExceptOf.throw] at e

theorem ends_remove {h : FibonacciHeap} {R : List Nat} {ch : Nat → List Nat}
    {ht : Nat → Nat} (I : Inv h R ch ht) (x : Nat) : Ends (remove h x) := by
  unfold remove
  refine ends_bind (ends_decrease_key I x INT_MIN) (fun h1 hd => ?_)
  obtain ⟨kx, hkx, hle⟩ := decrease_key_pre hd
  obtain ⟨h1', R1, ch1, e1, I1, _⟩ := decrease_key_inv I hkx INT_MIN hle
  rw [hd] at e1
  cases e1
  exact ends_remove_min I1

theorem ends_change_key {h : FibonacciHeap} {R : List Nat} {ch : Nat → List Nat}
    {ht : Nat → Nat} (I : Inv h R ch ht) (x : Nat) (k : Int) : Ends (change_key h x k) := by
  rw [change_key_eq]
  cases hx : look h.mem x with
  | none =>
    simp only [rd, hx, bind, Except.bind]
    intro e
    cases e
  | some nx =>
    simp only [bind, Except.bind, rd_of_look hx]
    by_cases c1 : nx.key = k
    · rw [if_pos c1]
      exact ends_throw (by decide)
    · rw [if_neg c1]
      have hkx : keyOf h.mem x = some nx.key := by simp [keyOf, hx]
      by_cases c2 : nx.key > k
      · rw [if_pos c2]
        exact ends_decrease_key I x k
      · rw [if_neg c2]
        cases hd : decrease_key h x INT_MIN with
        | error err =>
          have := ends_decrease_key I x INT_MIN
          rw [hd] at this
          exact ends_error this
        | ok h1 =>
          obtain ⟨kx, hkx', hle⟩ := decrease_key_pre hd
          rw [hkx] at hkx'
          cases hkx'
          obtain ⟨h1', R1, ch1, e1, I1, _, _, live1, key1, _⟩ := decrease_key_inv I hkx INT_MIN hle
          rw [hd] at e1
          cases e1
          simp only []
          have hxl : (look h1.mem x).isSome := by rw [live1]; simp [hx]
          have hxF := I1.complete x hxl
          have F2 : Forest (put h1.mem x (fun n => { n with key := k })) R1 ch1 ht :=
            I1.forest.frame_forest (fun q _ => by simp) (fun q _ => by simp) (fun q _ => by simp)
              (fun p c _ => by simp)
          obtain ⟨rest, Rg, hdisj⟩ : ∃ rest, Ring (put h1.mem x (fun n => { n with key := k }))
              (x :: rest) ∧ ∀ c ∈ ch1 x, c ∉ x :: rest := by
            rcases hxF with hxR | ⟨q, hxq⟩
            · obtain ⟨rest, hperm, hring⟩ := I1.ring.rotate_to hxR
              refine ⟨rest, hring.frame (fun a _ => by simp), ?_⟩
              intro c hc hc'
              exact I1.forest.child_not_root hc (hperm.mem_iff.2 hc')
            · obtain ⟨rest, hperm, hring⟩ := (I1.forest.cring q).rotate_to hxq
              refine ⟨rest, hring.frame (fun a _ => by simp), ?_⟩
              intro c hc hc'
              have := I1.forest.child_unique hc (hperm.mem_iff.2 hc')
              subst this
              exact I1.forest.not_self_child _ hxq
          obtain ⟨m3, T, e3, _, _, _, live3, _⟩ := splice_children_spec F2 hxF Rg hdisj
          have hxl3 : (look m3 x).isSome := by rw [live3]; simpa using hxl
          have hxl4 : (look (put m3 x (fun n => { n with child := none })) x).isSome := by
            simpa using hxl3
          simp only [wr_ok _ hxl, e3, wr_ok _ hxl3, wr_ok _ hxl4, pure, Except.pure]
          exact ends_ok _

theorem Depth.unique_depth {m : Mem} {y a : Nat} (h1 : Depth m y a) :
    ∀ b, Depth m y b → a = b := by
  induction h1 with
  | root hp =>
    intro b h2
    cases h2 with
    | root _ => rfl
    | step hp2 _ => rw [hp] at hp2; cases hp2
  | step hp _ ih =>
    intro b h2
    cases h2 with
    | root hp2 => rw [hp] at hp2; cases hp2
    | step hp2 hd2 =>
      rw [hp] at hp2
      cases hp2
      rw [ih _ hd2]

theorem Depth.transport_depth {m m' : Mem} {N : Nat}
    (hf : ∀ q j, Depth m q j → j ≤ N → parentOf m' q = parentOf m q) {z n : Nat}
    (h : Depth m z n) : n ≤ N → Depth m' z n := by
  induction h with
  | root hp =>
    intro hn
    exact Depth.root ((hf _ 0 (Depth.root hp) hn).trans hp)
  | step hp hd ih =>
    intro hn
    exact Depth.step ((hf _ _ (Depth.step hp hd) hn).trans hp) (ih (by omega))

theorem Forest.depth_exists {m : Mem} {R : List Nat} {ch : Nat → List Nat} {ht : Nat → Nat}
    (F : Forest m R ch ht) : ∀ y, InF R ch y → ∃ n, Depth m y n := by
  refine Forest.induct F (fun y => ∃ n, Depth m y n) ?_ ?_
  · intro r hr
    exact ⟨0, Depth.root (F.rpar r hr)⟩
  · intro p c hc ⟨n, hn⟩
    exact ⟨n + 1, Depth.step (F.cpar p c hc) hn⟩

/-- `cascading_cut(y)` returns after at most one recursive call for every
ancestor of `y`. -/
theorem cascading_cut_depth : ∀ (n : Nat) (h : FibonacciHeap) (R : List Nat)
    (ch : Nat → List Nat) (ht : Nat → Nat) (r y : Nat),
    Forest h.mem R ch ht → Ring h.mem R → h.root = some r → r ∈ R → InF R ch y →
    Depth h.mem y n → ∃ h', cascading_cut (n + 1) h y = .ok h' := by
  intro n
  induction n with
  | zero =>
    intro h R ch ht r y F _ _ _ hy hD
    cases hD with
    | root hp =>
      obtain ⟨ny, hny, ry⟩ := rd_some (F.live hy)
      have : ny.parent = none := by simpa [parentOf, hny] using hp
      exact ⟨h, by simp only [cascading_cut, bind, Except.bind, ry, this, pure, Except.pure]⟩
  | succ n ih =>
    intro h R ch ht r y F Rg hroot hrR hy hD
    cases hD with
    | @step _ z _ hp hd =>
      obtain ⟨ny, hny, ry⟩ := rd_some (F.live hy)
      have hpar : ny.parent = some z := by simpa [parentOf, hny] using hp
      by_cases hm : ny.mark = true
      · have hyz : y ∈ ch z := F.mem_child_of_parent hy hp
        obtain ⟨m', R', rest, e, _, hperm, F', Rg', _, _, _, par, _, hin⟩ :=
          cut_spec F Rg hroot hrR hyz
        have hzF : InF R' (Function.update ch z rest) z := (hin z).2 (F.pin z y hyz)
        have hD' : Depth m' z n := by
          refine Depth.transport_depth (N := n) ?_ hd (le_refl _)
          intro q j hq hj
          rw [par]
          have hqy : q ≠ y := by
            intro hc
            subst hc
            have := Depth.unique_depth hq _ (Depth.step hp hd)
            omega
          rw [if_neg hqy]
        obtain ⟨h', e'⟩ := ih { h with mem := m' } R' (Function.update ch z rest) ht r z F' Rg'
          hroot (hperm.mem_iff.2 (by simp [hrR])) hzF hD'
        refine ⟨h', ?_⟩
        rw [cascading_cut]
        simp only [bind, Except.bind, ry, hpar, hm, not_true_eq_false, if_false, e]
        exact e'
      · have hyl := F.live hy
        refine ⟨{ h with mem := put h.mem y (fun n => { n with mark := true }) }, ?_⟩
        rw [cascading_cut]
        simp [bind, Except.bind, ry, hpar, hm, wr_ok _ hyl, pure, Except.pure]

/-- The traversal of the child ring of `x` in `remove_min` and `change_key`
returns after one round for every member of the ring. -/
theorem splice_loop_once {m : Mem} {R : List Nat} {ch : Nat → List Nat} {ht : Nat → Nat}
    {x c : Nat} (F : Forest m R ch ht) (Rg0 : Ring m R) (hx : InF R ch x)
    (hc : childOf m x = some (some c)) :
    ∃ todo m', (c :: todo).Perm (ch x) ∧ Ring m (c :: todo) ∧
      splice_loop x (ch x).length m c (todo.headD c) = .ok m' ∧
      ∀ q, parentOf m' q = if q ∈ ch x then some none else parentOf m q := by
  obtain ⟨ring, Rg, hdisj⟩ : ∃ ring, Ring m (x :: ring) ∧ ∀ c ∈ ch x, c ∉ x :: ring := by
    rcases hx with hxR | ⟨q, hxq⟩
    · obtain ⟨rest, hperm, hring⟩ := Rg0.rotate_to hxR
      refine ⟨rest, hring, ?_⟩
      intro c hc hc'
      exact F.child_not_root hc (hperm.mem_iff.2 hc')
    · obtain ⟨rest, hperm, hring⟩ := (F.cring q).rotate_to hxq
      refine ⟨rest, hring, ?_⟩
      intro c hc hc'
      have := F.child_unique hc (hperm.mem_iff.2 hc')
      subst this
      exact F.not_self_child _ hxq
  have hc1 : c ∈ ch x := F.csome x c hx hc
  obtain ⟨todo, hperm, hring⟩ := (F.cring x).rotate_to hc1
  have hlive : ∀ q ∈ c :: todo, (look m q).isSome :=
    fun q hq => F.live (Or.inr ⟨x, hperm.mem_iff.2 hq⟩)
  obtain ⟨hnd, hchain, hlast⟩ := ring_cons_iff.1 hring
  have hchain' : List.Chain (fun u v => rightOf m u = some v) c (todo ++ [c]) :=
    List.Chain.imp (fun u v huv => huv.1) hring.2
  have hlen : (ch x).length = todo.length + 1 := by
    rw [hperm.length_eq]
    simp
  obtain ⟨m', e, _, _, _, _, _, _, _, par, _⟩ :=
    splice_loop_spec x c todo (ch x).length m c 0 ring Rg hnd
      (fun q hq => hdisj q (hperm.mem_iff.2 hq)) hlive (hlive c (List.mem_cons_self _ _))
      hc hchain' (List.nodup_cons.1 hnd).1 (by omega)
  refine ⟨todo, m', hperm.symm, hring, e, ?_⟩
  intro q
  rw [par]
  by_cases hq : q ∈ c :: todo
  · rw [if_pos hq, if_pos (hperm.mem_iff.2 hq)]
  · rw [if_neg hq, if_neg (fun h => hq (hperm.mem_iff.1 h))]

/-- On a heap that satisfies the structural invariants (its root list
and child lists are rings and its parent chains lead to a root), the calls
`insert`, `get_min`, `remove_min`, `decrease_key`, `remove` and `change_key`
never stop because a loop or a recursion has used up its bound, for all
arguments (a call can still stop on an exception, on a failed assertion or on
an access outside the vector `A`); every allocated node `y` has a number `n`
of ancestors and `cascading_cut(y)` returns after at most `n` recursive
calls; the loop of `consolidate` that walks the root ring returns the
members of the ring, each once, after one round for each member; and the
loop of `remove_min` and `change_key` that walks the child ring of a node
returns after one round for each member, having visited each of them. -/
theorem operations_terminate (h : FibonacciHeap) (W : WF h) :
    (∀ k, Ends (insert h k)) ∧ Ends (get_min h) ∧ Ends (remove_min h) ∧
    (∀ x k, Ends (decrease_key h x k)) ∧ (∀ x, Ends (remove h x)) ∧
    (∀ x k, Ends (change_key h x k)) ∧
    (∀ y, (look h.mem y).isSome → ∃ n, Depth h.mem y n) ∧
    (∀ y n, (look h.mem y).isSome → Depth h.mem y n →
      ∃ h', cascading_cut (n + 1) h y = .ok h') ∧
    (∀ r, h.root = some r → ∃ rest, Ring h.mem (r :: rest) ∧
      root_list_loop h.mem r (rest.length + 1) r [] = .ok (r :: rest)) ∧
    (∀ x c, (look h.mem x).isSome → childOf h.mem x = some (some c) →
      ∃ todo m', Ring h.mem (c :: todo) ∧
        splice_loop x (todo.length + 1) h.mem c (todo.headD c) = .ok m' ∧
        ∀ q, parentOf m' q = if q ∈ c :: todo then some none else parentOf h.mem q) := by
  obtain ⟨R, ch, ht, I⟩ := W
  refine ⟨?_, ?_, ends_remove_min I, ends_decrease_key I, ends_remove I, ends_change_key I,
    ?_, ?_, ?_, ?_⟩
  · intro k
    obtain ⟨h', _, e, _⟩ := insert_inv I k
    exact ends_of_ok e
  · unfold get_min
    cases h.root with
    | none => intro e; cases e
    | some r =>
      simp only []
      exact ends_bind (ends_rd _ _) (fun _ _ => ends_pure _)
  · intro y hy
    exact I.forest.depth_exists y (I.complete y hy)
  · intro y n hy hD
    obtain ⟨r, hr⟩ := I.root_some hy
    exact cascading_cut_depth n h R ch ht r y I.forest I.ring hr (I.rootIn r hr)
      (I.complete y hy) hD
  · intro r hr
    obtain ⟨rest, hperm, hring⟩ := I.ring.rotate_to (I.rootIn r hr)
    exact ⟨rest, hring, Ring.root_list hring (by simp)⟩
  · intro x c hx hc
    obtain ⟨todo, m', hperm, hring, e, par⟩ :=
      splice_loop_once I.forest I.ring (I.complete x hx) hc
    refine ⟨todo, m', hring, ?_, ?_⟩
    · rw [← hperm.length_eq] at e
      exact e
    · intro q
      rw [par]
      by_cases hq : q ∈ c :: todo
      · rw [if_pos hq, if_pos (hperm.mem_iff.1 hq)]
      · rw [if_neg hq, if_neg (fun h => hq (hperm.mem_iff.2 h))]

theorem operations_terminate_witness :
    WF marked_root_heap ∧
    (∀ k, Ends (insert marked_root_heap k)) ∧ Ends (get_min marked_root_heap) ∧
    Ends (remove_min marked_root_heap) ∧
    (∀ x k, Ends (decrease_key marked_root_heap x k)) ∧
    (∀ x, Ends (remove marked_root_heap x)) ∧
    (∀ x k, Ends (change_key marked_root_heap x k)) ∧
    (∀ y, (look marked_root_heap.mem y).isSome → ∃ n, Depth marked_root_heap.mem y n) ∧
    (∀ y n, (look marked_root_heap.mem y).isSome → Depth marked_root_heap.mem y n →
      ∃ h', cascading_cut (n + 1) marked_root_heap y = .ok h') ∧
    (∀ r, marked_root_heap.root = some r → ∃ rest, Ring marked_root_heap.mem (r :: rest) ∧
      root_list_loop marked_root_heap.mem r (rest.length + 1) r [] = .ok (r :: rest)) ∧
    (∀ x c, (look marked_root_heap.mem x).isSome →
      childOf marked_root_heap.mem x = some (some c) →
      ∃ todo m', Ring marked_root_heap.mem (c :: todo) ∧
        splice_loop x (todo.length + 1) marked_root_heap.mem c (todo.headD c) = .ok m' ∧
        ∀ q, parentOf m' q = if q ∈ c :: todo then some none
          else parentOf marked_root_heap.mem q) :=
  ⟨marked_root_reach.wf, operations_terminate marked_root_heap marked_root_reach.wf⟩

/-- C15 (evaluation at the failing input): the ten calls of `ring_break_run`
and one more `remove_min()` lead from the empty heap to the state
`root_lost_heap`, in which `root` is null and the node at address `3` holds
the key `30`; `decrease_key` of that node to `0`, a key that is not greater
than `30`, fails there: it does not throw at its first statement, it writes
the key and stops in `cut` at a write through the `right` of the node, which
points to the deleted node at address `2`. -/
theorem decrease_key_fails_below_key :
    ring_break_run = .ok ring_break_heap ∧
    remove_min ring_break_heap = .ok root_lost_heap ∧
    root_lost_heap.root = none ∧ keyOf root_lost_heap.mem 3 = some 30 ∧
    rightOf root_lost_heap.mem 3 = some 2 ∧ look root_lost_heap.mem 2 = none ∧
    decrease_key root_lost_heap 3 0 = .error Err.badAccess ∧
    decrease_key_run root_lost_heap 3 0 = ⟨.error Err.badAccess, none⟩ :=
  ⟨by rfl, by rfl, by rfl, by rfl, by rfl, by rfl, by rfl, by rfl⟩

end FibHeap

namespace Dijkstra
open FibHeap

theorem two_cycle_eq : two_cycle = .ok ⟨3, [[], [⟨2, 1⟩], [⟨1, 1⟩]]⟩ := by rfl

theorem two_cycle_reach (v : Nat)
    (h : Graph.Reachable ⟨3, [[], [⟨2, 1⟩], [⟨1, 1⟩]]⟩ 0 v) : v = 0 := by
  induction h with
  | source => rfl
  | step _ hes he ih =>
    subst ih
    simp at hes
    subst hes
    simp at he

/-- C19 (evaluation at the failing input): in the graph with the vertices
`0, 1, 2` and the two edges `1 → 2` and `2 → 1` of weight `1`, the vertex `1`
cannot be reached from `0`, and `dijkstras(g, 0)` ends with
`dist[1] == INT_MIN`, not `INT_MAX`. -/
theorem dijkstras_unreachable_not_max :
    ∃ g, two_cycle = .ok g ∧ ¬ g.Reachable 0 1 ∧
      (∀ es ∈ g.vertex, ∀ e ∈ es, 0 ≤ e.value) ∧
      dijkstras g 0 = .ok [0, -2147483648, INT_MAX] := by
  refine ⟨_, two_cycle_eq, fun h => absurd (two_cycle_reach 1 h) (by decide), by decide, by rfl⟩

end Dijkstra

namespace EdmondsKarp

theorem detour_graph_eq : detour_graph = .ok
    ⟨6, [[0, 6], [1, 2, 10], [3, 4, 9], [7, 8], [11, 12], [5, 13]],
     [⟨0, 1, false, 1, 0, 1, 1⟩, ⟨1, 0, true, 1, 0, 0, 0⟩,
      ⟨1, 2, false, 1, 0, 1, 3⟩, ⟨2, 1, true, 1, 0, 0, 2⟩,
      ⟨2, 5, false, 1, 0, 1, 5⟩, ⟨5, 2, true, 1, 0, 0, 4⟩,
      ⟨0, 3, false, 2, 0, 2, 7⟩, ⟨3, 0, true, 2, 0, 0, 6⟩,
      ⟨3, 2, false, 2, 0, 2, 9⟩, ⟨2, 3, true, 2, 0, 0, 8⟩,
      ⟨1, 4, false, 2, 0, 2, 11⟩, ⟨4, 1, true, 2, 0, 0, 10⟩,
      ⟨4, 5, false, 2, 0, 2, 13⟩, ⟨5, 4, true, 2, 0, 0, 12⟩]⟩ := by rfl

theorem detour_flow_le (g : Graph) (hg : detour_graph = .ok g) (f : Nat → Int)
    (h : IsFlow g 0 5 f) : flow_value g 0 f ≤ 2 := by
  rw [detour_graph_eq] at hg
  cases hg
  have h0 := h.1 0 _ rfl rfl
  have h2 := h.1 2 _ rfl rfl
  have h4 := h.1 4 _ rfl rfl
  have c2 := h.2 2 (by decide) (by decide) (by decide)
  have c3 := h.2 3 (by decide) (by decide) (by decide)
  change f 2 + (f 8 + 0) = f 4 + 0 at c2
  change f 6 + 0 = f 8 + 0 at c3
  change f 0 + (f 6 + 0) - 0 ≤ 2
  change 0 ≤ f 0 ∧ f 0 ≤ 1 at h0
  change 0 ≤ f 2 ∧ f 2 ≤ 1 at h2
  change 0 ≤ f 4 ∧ f 4 ≤ 1 at h4
  omega

/-- C20 (evaluation at the failing input): on the graph with six vertices
built by `insert(0,1,1)`, `insert(1,2,1)`, `insert(2,5,1)`, `insert(0,3,2)`,
`insert(3,2,2)`, `insert(1,4,2)`, `insert(4,5,2)`, all capacities positive,
`edmonds_karp(g, 0, 5)` returns `3`, while a flow from `0` to `5` of value
`2` exists and no flow from `0` to `5` has a value above `2`. -/
theorem edmonds_karp_above_max_flow :
    ∃ g, detour_graph = .ok g ∧ (∀ e ∈ g.edges, 0 ≤ e._capacity) ∧
      edmonds_karp g 0 5 = .ok 3 ∧
      (∃ f, IsFlow g 0 5 f ∧ flow_value g 0 f = 2) ∧
      (∀ f, IsFlow g 0 5 f → flow_value g 0 f ≤ 2) := by
  refine ⟨_, detour_graph_eq, by decide, by rfl, ?_, fun f h => detour_flow_le _ detour_graph_eq f h⟩
  refine ⟨fun p => if p = 0 ∨ p = 10 ∨ p = 12 ∨ p = 6 ∨ p = 8 ∨ p = 4 then 1 else 0, ⟨?_, ?_⟩, by rfl⟩
  · intro p e hp hr
    have hlt : p < 14 := by
      by_contra hc
      rw [List.getElem?_eq_none (by simpa using hc)] at hp
      cases hp
    interval_cases p <;> simp at hp <;> subst hp <;> simp at hr ⊢
  · intro v hv h0 h5
    change v < 6 at hv
    interval_cases v <;> first | rfl | exact absurd rfl h0 | exact absurd rfl h5

theorem ek_get_ok {α : Type} {v : List α} {i : Nat} {a : α} (h : v[i]? = some a) :
    vec_get v i = .ok a := by
  simp [vec_get, h]

theorem ek_get_inv {α : Type} {v : List α} {i : Nat} {a : α} (h : vec_get v i = .ok a) :
    v[i]? = some a := by
  unfold vec_get at h
  split at h
  · rename_i b hb
    cases h
    exact hb
  · cases h

theorem ek_set_ok {α : Type} {v : List α} {i : Nat} (a : α) (h : i < v.length) :
    vec_set v i a = .ok (v.set i a) := by
  simp [vec_set, h]

theorem ek_lt {α : Type} {v : List α} {i : Nat} {a : α} (h : v[i]? = some a) : i < v.length := by
  by_contra hc
  rw [List.getElem?_eq_none (by omega)] at h
  cases h

/-- A successful `update_to(f)` on an original edge. -/
theorem update_to_orig {g g' : Graph} {p : Nat} {f : Int} {e : Edge}
    (he : g.edges[p]? = some e) (hr : e.is_reverse = false)
    (h : update_to g p f = .ok g') :
    0 ≤ f ∧ f ≤ e._capacity ∧ ∃ o, (g.edges.set p
        (Edge.mk e.from_ e.to_ e.is_reverse e._capacity f (e._capacity - f) e.other))[e.other]? = some o ∧
      g' = Graph.mk g.N g.vertices ((g.edges.set p
        (Edge.mk e.from_ e.to_ e.is_reverse e._capacity f (e._capacity - f) e.other)).set e.other
          (Edge.mk o.from_ o.to_ o.is_reverse o._capacity o._flow f o.other)) := by
  have hp := ek_lt he
  obtain ⟨a, b, c, d, fl, rc, ot⟩ := e
  simp only at hr
  subst hr
  dsimp only
  unfold update_to at h
  simp only [ek_get_ok he, bind, Except.bind, Bool.false_eq_true, not_false_eq_true,
    if_true] at h
  by_cases h0 : f < 0
  · simp [h0, throw, throwThe, MonadExceptOf.throw, pure, Except.pure] at h
  by_cases h1 : f > d
  · simp [h0, h1, throw, throwThe, MonadExceptOf.throw, pure, Except.pure] at h
  simp only [h0, h1, if_false, pure, Except.pure, ek_set_ok _ hp] at h
  refine ⟨by omega, by omega, ?_⟩
  cases ho : vec_get (g.edges.set p (Edge.mk a b false d f (d - f) ot)) ot with
  | error er => simp [ho] at h
  | ok o =>
    have ho' := ek_get_inv ho
    have hq := ek_lt ho'
    simp only [ho, ek_set_ok _ hq] at h
    exact ⟨o, ho', by cases h; rfl⟩

/-- A successful `update_to(f)` on a reverse edge. -/
theorem update_to_rev {g g' : Graph} {p : Nat} {f : Int} {e : Edge}
    (he : g.edges[p]? = some e) (hr : e.is_reverse = true)
    (h : update_to g p f = .ok g') :
    0 ≤ f ∧ ∃ o, g.edges[e.other]? = some o ∧ f ≤ o._capacity ∧
      ∃ e2, (g.edges.set e.other
        (Edge.mk o.from_ o.to_ o.is_reverse o._capacity f (o._capacity - f) o.other))[p]? = some e2 ∧
      g' = Graph.mk g.N g.vertices ((g.edges.set e.other
        (Edge.mk o.from_ o.to_ o.is_reverse o._capacity f (o._capacity - f) o.other)).set p
          (Edge.mk e2.from_ e2.to_ e2.is_reverse e2._capacity e2._flow f e2.other)) := by
  have hp := ek_lt he
  unfold update_to at h
  simp only [ek_get_ok he, bind, Except.bind, hr, not_true_eq_false, if_false] at h
  by_cases h0 : f < 0
  · simp [h0, throw, throwThe, MonadExceptOf.throw, pure, Except.pure] at h
  simp only [h0, if_false, pure, Except.pure] at h
  cases ho : vec_get g.edges e.other with
  | error er => simp [ho] at h
  | ok o =>
    have ho' := ek_get_inv ho
    have hq := ek_lt ho'
    simp only [ho] at h
    by_cases h1 : f > o._capacity
    · simp [h1, throw, throwThe, MonadExceptOf.throw, pure, Except.pure] at h
    simp only [h1, if_false, ek_set_ok _ hq] at h
    refine ⟨by omega, o, ho', by omega, ?_⟩
    cases h2 : vec_get (g.edges.set e.other
        (Edge.mk o.from_ o.to_ o.is_reverse o._capacity f (o._capacity - f) o.other)) p with
    | error er => simp [h2] at h
    | ok e2 =>
      have h2' := ek_get_inv h2
      have hp2 := ek_lt h2'
      simp only [h2, ek_set_ok _ hp2] at h
      exact ⟨e2, h2', by cases h; rfl⟩


theorem Keep.same_keep (l : List Edge) : Keep l l := by
  unfold Keep
  exact fun _ e he => ⟨e, he, rfl, rfl, rfl, rfl, rfl⟩

theorem Keep.comp_keep {l l2 l3 : List Edge} (h1 : Keep l l2) (h2 : Keep l2 l3) : Keep l l3 := by
  unfold Keep
  intro y e he
  obtain ⟨e2, he2, a1, a2, a3, a4, a5⟩ := h1 y e he
  obtain ⟨e3, he3, b1, b2, b3, b4, b5⟩ := h2 y e2 he2
  exact ⟨e3, he3, b1.trans a1, b2.trans a2, b3.trans a3, b4.trans a4, b5.trans a5⟩

theorem Keep.set {l : List Edge} {x : Nat} {o n : Edge} (ho : l[x]? = some o)
    (h1 : n.from_ = o.from_) (h2 : n.to_ = o.to_) (h3 : n.is_reverse = o.is_reverse)
    (h4 : n._capacity = o._capacity) (h5 : n.other = o.other) : Keep l (l.set x n) := by
  unfold Keep
  intro y e he
  by_cases hy : x = y
  · subst hy
    rw [ho] at he
    cases he
    exact ⟨n, by simp [List.getElem?_set, ek_lt ho], h1, h2, h3, h4, h5⟩
  · exact ⟨e, by simp [List.getElem?_set, hy, he], rfl, rfl, rfl, rfl, rfl⟩

theorem Keep.append_keep (l l2 : List Edge) : Keep l (l ++ l2) := by
  unfold Keep
  intro y e he
  exact ⟨e, by rw [List.getElem?_append_left (ek_lt he)]; exact he, rfl, rfl, rfl, rfl, rfl⟩

/-- The edges after `insert(from, to, c)`. -/
theorem insert_edges {g g' : Graph} {a b : Nat} {c : Int} (h : g.insert a b c = .ok g') :
    g'.edges = g.edges ++ [Edge.mk a b false c 0 c (g.edges.length + 1),
      Edge.mk b a true c 0 0 g.edges.length] := by
  unfold Graph.insert Graph.add_edge at h
  simp only [bind, Except.bind, pure, Except.pure] at h
  cases h1 : vec_get g.vertices a with
  | error er => simp [h1] at h
  | ok l1 =>
    simp only [h1] at h
    have h2 : vec_get (g.edges ++ [Edge.mk a b false c 0 c (g.edges.length + 1),
        Edge.mk b a true c 0 c g.edges.length]) (g.edges.length + 1)
        = .ok (Edge.mk b a true c 0 c g.edges.length) := by
      apply ek_get_ok
      rw [List.getElem?_append_right (by omega)]
      simp
    simp only [h2] at h
    cases h3 : vec_get (g.vertices.set a (l1 ++ [g.edges.length])) b with
    | error er => simp [h3] at h
    | ok l2 =>
      simp only [h3] at h
      cases h
      simp [List.set_append]

theorem update_to_keep {g g' : Graph} {p : Nat} {f : Int} (h : update_to g p f = .ok g') :
    Keep g.edges g'.edges := by
  cases he : vec_get g.edges p with
  | error er => simp [update_to, he, bind, Except.bind] at h
  | ok e =>
    have he' := ek_get_inv he
    cases hr : e.is_reverse with
    | false =>
      obtain ⟨_, _, o, ho, rfl⟩ := update_to_orig he' hr h
      refine Keep.comp_keep ?_ (Keep.set ho ?_ ?_ ?_ ?_ ?_)
      · exact Keep.set he' rfl rfl rfl rfl rfl
      all_goals rfl
    | true =>
      obtain ⟨_, o, ho, _, e2, he2, rfl⟩ := update_to_rev he' hr h
      refine Keep.comp_keep ?_ (Keep.set he2 ?_ ?_ ?_ ?_ ?_)
      · exact Keep.set ho rfl rfl rfl rfl rfl
      all_goals rfl

theorem update_by_eq {g g' : Graph} {p : Nat} {f : Int} (h : update_by g p f = .ok g') :
    ∃ f2, update_to g p f2 = .ok g' := by
  unfold update_by at h
  cases he : vec_get g.edges p with
  | error er => simp [he, bind, Except.bind] at h
  | ok e =>
    simp only [he, bind, Except.bind] at h
    exact ⟨_, h⟩


theorem paired_init (n : Nat) : Paired (Graph.init n) := by
  intro x e he
  simp [Graph.init] at he

theorem paired_insert {g g' : Graph} {a b : Nat} {c : Int} (hP : Paired g)
    (h : g.insert a b c = .ok g') : Paired g' := by
  have hE := insert_edges h
  intro x e he
  rw [hE] at he
  unfold PairAt
  rw [hE]
  by_cases hx : x < g.edges.length
  · rw [List.getElem?_append_left hx] at he
    obtain ⟨r, hr, h1, h2, h3, h4⟩ := hP x e he
    exact ⟨r, by rw [List.getElem?_append_left (ek_lt hr)]; exact hr, h1, h2, h3, h4⟩
  · rw [List.getElem?_append_right (by omega)] at he
    obtain hx0 | hx1 | hx2 : x = g.edges.length ∨ x = g.edges.length + 1 ∨
        g.edges.length + 2 ≤ x := by omega
    · subst hx0
      simp at he
      subst he
      refine ⟨Edge.mk b a true c 0 0 g.edges.length, ?_, rfl, rfl, rfl, ?_⟩
      · rw [List.getElem?_append_right (by simp)]
        simp
      · intro _
        simp
    · subst hx1
      simp at he
      subst he
      refine ⟨Edge.mk a b false c 0 c (g.edges.length + 1), ?_, rfl, rfl, rfl, ?_⟩
      · rw [List.getElem?_append_right (by simp)]
        simp
      · intro hf
        simp at hf
    · have : x - g.edges.length = (x - g.edges.length - 2) + 2 := by omega
      rw [this] at he
      simp at he

/-- Writing the flow `f` to an original edge and to the residual capacities of
the pair keeps every edge with its partner. -/
theorem paired_set {g : Graph} (hP : Paired g) {po : Nat} {o r : Edge}
    (ho : g.edges[po]? = some o) (hor : o.is_reverse = false)
    (hr : g.edges[o.other]? = some r) {f : Int} (h0 : 0 ≤ f) (h1 : f ≤ o._capacity) :
    Paired (Graph.mk g.N g.vertices ((g.edges.set po
      (Edge.mk o.from_ o.to_ o.is_reverse o._capacity f (o._capacity - f) o.other)).set o.other
      (Edge.mk r.from_ r.to_ r.is_reverse r._capacity r._flow f r.other))) := by
  obtain ⟨r0, hr0, hb, hrev, hcap, _⟩ := hP po o ho
  rw [hr] at hr0
  cases hr0
  have hne : po ≠ o.other := by
    intro hc
    rw [← hc, ho] at hr
    cases hr
    simp [hor] at hrev
  have hlo := ek_lt ho
  have hlr := ek_lt hr
  intro x e he
  dsimp only at he
  unfold PairAt
  dsimp only
  by_cases hx1 : x = o.other
  · subst hx1
    simp [List.getElem?_set, hlr] at he
    subst he
    refine ⟨Edge.mk o.from_ o.to_ o.is_reverse o._capacity f (o._capacity - f) o.other,
      ?_, rfl, ?_, hcap.symm, ?_⟩
    · simp [List.getElem?_set, hb, hne, hlo, Ne.symm hne]
    · simp [hrev]
    · intro hc
      simp [hrev, hor] at hc
  by_cases hx2 : x = po
  · subst hx2
    simp [List.getElem?_set, hlo, hne, Ne.symm hne] at he
    subst he
    refine ⟨Edge.mk r.from_ r.to_ r.is_reverse r._capacity r._flow f r.other,
      ?_, hb, hrev, hcap, ?_⟩
    · simp [List.getElem?_set, hlr]
    · intro _
      exact ⟨h0, Or.inl h1, rfl, rfl⟩
  · simp [List.getElem?_set, Ne.symm hx1, Ne.symm hx2] at he
    obtain ⟨r1, hr1, a1, a2, a3, a4⟩ := hP x e he
    have n1 : e.other ≠ po := by
      intro hc
      rw [hc, ho] at hr1
      cases hr1
      exact hx1 a1.symm
    have n2 : e.other ≠ o.other := by
      intro hc
      rw [hc, hr] at hr1
      cases hr1
      exact hx2 (a1.symm.trans hb)
    exact ⟨r1, by simp [List.getElem?_set, Ne.symm n1, Ne.symm n2, hr1], a1, a2, a3, a4⟩

theorem paired_update_to {g g' : Graph} {p : Nat} {f : Int} (hP : Paired g)
    (h : update_to g p f = .ok g') : Paired g' := by
  cases he : vec_get g.edges p with
  | error er => simp [update_to, he, bind, Except.bind] at h
  | ok e =>
    have he' := ek_get_inv he
    obtain ⟨r, hr, hb, hrev, hcap, _⟩ := hP p e he'
    cases hrv : e.is_reverse with
    | false =>
      obtain ⟨h0, h1, o, ho, rfl⟩ := update_to_orig he' hrv h
      have hne : p ≠ e.other := by
        intro hc
        rw [← hc, he'] at hr
        cases hr
        simp [hrv] at hrev
      simp [List.getElem?_set, hne, hr] at ho
      subst ho
      exact paired_set hP he' hrv hr h0 h1
    | true =>
      obtain ⟨h0, o, ho, h1, e2, he2, rfl⟩ := update_to_rev he' hrv h
      rw [hr] at ho
      cases ho
      have hne : p ≠ e.other := by
        intro hc
        rw [← hc, he'] at hr
        cases hr
        simp [hrv] at hrev
      simp [List.getElem?_set, Ne.symm hne, he'] at he2
      subst he2
      have hro : r.is_reverse = false := by simp [hrev, hrv]
      have hh := paired_set hP hr hro (by rw [hb]; exact he') h0 h1
      simpa only [hb] using hh

theorem built_paired {g : Graph} (h : Built g) : Paired g := by
  induction h with
  | init n => exact paired_init n
  | insert a b c _ h ih => exact paired_insert ih h
  | update_to p f _ h ih => exact paired_update_to ih h
  | update_by p f _ h ih =>
    obtain ⟨f2, h2⟩ := update_by_eq h
    exact paired_update_to ih h2

theorem pairFrom_static {p : Nat} {c : Int} {g : Graph} (h : PairFrom p c g) :
    Built g ∧ ∃ e, g.edges[p]? = some e ∧ e.is_reverse = false ∧ e._capacity = c ∧
      e.other = p + 1 := by
  induction h with
  | created a b hB h hp =>
    refine ⟨Built.insert a b c hB h, ?_⟩
    rw [insert_edges h, hp]
    exact ⟨_, by rw [List.getElem?_append_right (by simp)]; simp; rfl, rfl, rfl, rfl⟩
  | @insert g0 g1 a b c2 _ h ih =>
    obtain ⟨hB, e, he, h1, h2, h3⟩ := ih
    refine ⟨Built.insert a b c2 hB h, ?_⟩
    rw [insert_edges h]
    obtain ⟨e2, he2, _, _, b1, b2, b3⟩ := Keep.append_keep g0.edges _ p e he
    exact ⟨e2, he2, b1.trans h1, b2.trans h2, b3.trans h3⟩
  | update_to x f _ h ih =>
    obtain ⟨hB, e, he, h1, h2, h3⟩ := ih
    refine ⟨Built.update_to x f hB h, ?_⟩
    obtain ⟨e2, he2, _, _, b1, b2, b3⟩ := update_to_keep h p e he
    exact ⟨e2, he2, b1.trans h1, b2.trans h2, b3.trans h3⟩
  | update_by x f _ h ih =>
    obtain ⟨hB, e, he, h1, h2, h3⟩ := ih
    refine ⟨Built.update_by x f hB h, ?_⟩
    obtain ⟨f2, hh⟩ := update_by_eq h
    obtain ⟨e2, he2, _, _, b1, b2, b3⟩ := update_to_keep hh p e he
    exact ⟨e2, he2, b1.trans h1, b2.trans h2, b3.trans h3⟩

/-- The result of `update_to_run` is the result of `update_to`. -/
theorem update_to_run_result (g : Graph) (p : Nat) (f : Int) :
    (update_to_run g p f).result = (update_to g p f).map (fun _ => ()) := by
  unfold update_to_run update_to
  cases he : vec_get g.edges p with
  | error er => rfl
  | ok e =>
    simp only [bind, Except.bind]
    by_cases h0 : f < 0
    · cases hr : e.is_reverse <;>
        simp [h0, hr, throw, throwThe, MonadExceptOf.throw, Except.map, pure, Except.pure]
    cases hr : e.is_reverse with
    | false =>
      simp only [h0, if_false, Bool.false_eq_true, not_false_eq_true, if_true, pure, Except.pure]
      by_cases h1 : f > e._capacity
      · simp [h1, throw, throwThe, MonadExceptOf.throw, Except.map]
      · simp only [h1, if_false]
        split <;> rename_i hh <;> simp only [hh] <;> rfl
    | true =>
      simp only [h0, if_false, not_true_eq_false, pure, Except.pure]
      cases ho : vec_get g.edges e.other with
      | error er => simp [Except.map]
      | ok o =>
        by_cases h1 : f > o._capacity
        · simp [h1, throw, throwThe, MonadExceptOf.throw, Except.map]
        · simp only [h1, if_false]
          split <;> rename_i hh <;> simp only [hh] <;> rfl

/-- C34 (amended claim): for the pair of edges that `insert(from, to, c)` with
`0 <= c` created behind the pointers `p` (original edge) and `p + 1` (reverse
edge), after the `insert` and after every further successful `insert`,
`update_to` or `update_by`: the two edges point at each other, the flow `f`
of the original edge satisfies `0 <= f <= c`, its residual capacity is
`c - f`, the residual capacity of the reverse edge is `f`, and `update_to`
with a flow below `0` or above `c` on either edge throws and leaves the
graph as it is. -/
theorem pair_invariant {p : Nat} {c : Int} {g : Graph} (h : PairFrom p c g) (hc : 0 ≤ c) :
    ∃ e r, g.edges[p]? = some e ∧ g.edges[p + 1]? = some r ∧
      e.is_reverse = false ∧ r.is_reverse = true ∧ e.other = p + 1 ∧ r.other = p ∧
      e._capacity = c ∧ 0 ≤ e._flow ∧ e._flow ≤ c ∧
      e._residaul_capacity = c - e._flow ∧ r._residaul_capacity = e._flow ∧
      ∀ f, f < 0 ∨ f > c →
        (∃ er, update_to_run g p f = ⟨.error er, some g⟩) ∧
        (∃ er, update_to_run g (p + 1) f = ⟨.error er, some g⟩) := by
  obtain ⟨hB, e, he, h1, h2, h3⟩ := pairFrom_static h
  obtain ⟨r, hr, a1, a2, a3, a4⟩ := built_paired hB p e he
  obtain ⟨b1, b2, b3, b4⟩ := a4 h1
  rw [h3] at hr
  rw [h2] at b2 b3
  have hrr : r.is_reverse = true := by simp [a2, h1]
  refine ⟨e, r, he, hr, h1, hrr, h3, a1, h2, b1, by omega, b3, b4, ?_⟩
  intro f hf
  constructor
  · unfold update_to_run
    rw [ek_get_ok he]
    dsimp only
    by_cases h0 : f < 0
    · exact ⟨_, by rw [if_pos h0]⟩
    · rw [if_neg h0]
      simp only [h1, Bool.false_eq_true, not_false_eq_true, if_true, pure, Except.pure]
      exact ⟨_, by rw [if_pos (by omega)]⟩
  · unfold update_to_run
    rw [ek_get_ok hr]
    dsimp only
    by_cases h0 : f < 0
    · exact ⟨_, by rw [if_pos h0]⟩
    · rw [if_neg h0]
      simp only [hrr, not_true_eq_false, if_false, a1, ek_get_ok he]
      exact ⟨_, by rw [if_pos (by omega)]⟩

theorem pair_invariant_witness :
    (0 : Int) ≤ 5 ∧ ∃ e r, one_edge_graph.edges[0]? = some e ∧
      one_edge_graph.edges[0 + 1]? = some r ∧
      e.is_reverse = false ∧ r.is_reverse = true ∧ e.other = 0 + 1 ∧ r.other = 0 ∧
      e._capacity = 5 ∧ 0 ≤ e._flow ∧ e._flow ≤ 5 ∧
      e._residaul_capacity = 5 - e._flow ∧ r._residaul_capacity = e._flow ∧
      ∀ f, f < 0 ∨ f > 5 →
        (∃ er, update_to_run one_edge_graph 0 f = ⟨.error er, some one_edge_graph⟩) ∧
        (∃ er, update_to_run one_edge_graph (0 + 1) f = ⟨.error er, some one_edge_graph⟩) :=
  ⟨by decide, pair_invariant (PairFrom.created 0 1 (Built.init 2) (by rfl) rfl) (by decide)⟩

/-- C34 (the claim as stated fails): after `Graph g(2); g.insert(0, 1, -1);`
the pair behind the pointers `0` and `1` exists, and the flow `0` of the
original edge is above its capacity `-1`. -/
theorem pair_flow_above_negative_capacity :
    ∃ g e, (Graph.init 2).insert 0 1 (-1) = .ok g ∧ PairFrom 0 (-1) g ∧
      g.edges[0]? = some e ∧ e.is_reverse = false ∧ e._capacity = -1 ∧ e._flow = 0 ∧
      ¬ (0 ≤ e._flow ∧ e._flow ≤ e._capacity) :=
  ⟨_, _, by rfl, PairFrom.created 0 1 (Built.init 2) (by rfl) rfl, by rfl, rfl, rfl, rfl,
    by decide⟩

/-- C40 (evaluation at the failing input): on the graph with six vertices
built by `insert(0,1,1)`, `insert(1,2,1)`, `insert(2,5,1)`, `insert(0,3,2)`,
`insert(3,2,2)`, `insert(1,4,2)`, `insert(4,5,2)`, all capacities positive,
`edmonds_karp(g, 0, 5)` returns, and in the graph it leaves every original
edge has a flow between `0` and its capacity, but at vertex `1` flow `1`
enters on original edges and flow `3` leaves: the stored flows are not a
flow from `0` to `5`. -/
theorem edmonds_karp_flow_not_conserved :
    ∃ g, detour_graph = .ok g ∧ (∀ e ∈ g.edges, 0 ≤ e._capacity) ∧
      edmonds_karp g 0 5 = .ok 3 ∧ edmonds_karp_graph g 0 5 = .ok detour_final ∧
      (∀ e ∈ detour_final.edges, e.is_reverse = false → 0 ≤ e._flow ∧ e._flow ≤ e._capacity) ∧
      inflow detour_final (stored_flow detour_final) 1 = 1 ∧
      outflow detour_final (stored_flow detour_final) 1 = 3 ∧
      ¬ IsFlow detour_final 0 5 (stored_flow detour_final) := by
  refine ⟨_, detour_graph_eq, by decide, by rfl, by rfl, by decide, by rfl, by rfl, ?_⟩
  intro h
  have h1 := h.2 1 (by decide) (by decide) (by decide)
  revert h1
  decide

end EdmondsKarp

namespace BellmanFord

theorem lone_edge_eq : lone_edge = .ok ⟨3, [⟨-1, 1, 2⟩]⟩ := by rfl

theorem lone_edge_walk {u v n : Nat} {w : Int} (h : Walk ⟨3, [⟨-1, 1, 2⟩]⟩ u v n w) :
    (u = v ∧ w = 0) ∨ (u = 1 ∧ v = 2) := by
  induction h with
  | nil => exact Or.inl ⟨rfl, rfl⟩
  | snoc _ he hf ih =>
    simp at he
    subst he
    simp at hf
    subst hf
    rcases ih with ⟨h1, _⟩ | ⟨_, h2⟩
    · exact Or.inr ⟨h1, rfl⟩
    · omega

/-- C21 (evaluation at the failing input): the graph with the vertices
`0, 1, 2` and the single edge `1 → 2` of weight `-1` has no cycle of negative
weight that can be reached from `0` (it has no cycle), and
`shortestPathFrom(0)` returns `false`. -/
theorem bellman_ford_false_without_cycle :
    ∃ g st, lone_edge = .ok g ∧ ¬ NegCycle g 0 ∧
      shortestPathFrom g 0 = .ok (false, st) := by
  refine ⟨_, _, lone_edge_eq, ?_, by rfl⟩
  rintro ⟨u, n, w, _, hc, hw⟩
  rcases lone_edge_walk hc with ⟨_, h0⟩ | ⟨h1, h2⟩
  · omega
  · omega

theorem getD_set {l : List Int} {b : Nat} (v : Nat) (x d : Int) (hb : b < l.length) :
    (l.set b x).getD v d = if v = b then x else l.getD v d := by
  simp only [List.getD_eq_getElem?_getD, List.getElem?_set]
  by_cases h : b = v
  · subst h; simp [hb]
  · have : ¬ v = b := fun e => h e.symm
    simp [h, this]

theorem vec_get_ok {l : List Int} {i : Nat} {a : Int} (h : vec_get l i = .ok a) (d : Int) :
    i < l.length ∧ l.getD i d = a := by
  unfold vec_get at h
  cases hi : l[i]? with
  | none => simp [hi] at h
  | some b =>
    simp [hi] at h
    subst h
    exact ⟨(List.getElem?_eq_some_iff.1 hi).1, by simp [hi]⟩

theorem vec_set_ok {l l' : List Int} {i : Nat} {a : Int} (h : vec_set l i a = .ok l') :
    i < l.length ∧ l' = l.set i a := by
  unfold vec_set at h
  by_cases hi : i < l.length
  · simp [hi] at h; exact ⟨hi, h.symm⟩
  · simp [hi] at h

theorem int_add_exact {a b : Int} (h1 : -2147483648 ≤ a + b) (h2 : a + b < 2147483648) :
    int_add a b = a + b := by
  unfold int_add
  omega

theorem BInv.mono {g : Graph} {s t : Nat} {st : State} {stamp : Nat → Nat}
    (I : BInv g s t st stamp) : BInv g s (t + 1) st stamp :=
  { dlen := I.dlen, plen := I.plen,
    walk := fun v hv => by
      obtain ⟨n, hn, hw⟩ := I.walk v hv
      exact ⟨n, by omega, hw⟩
    src := I.src, fresh := I.fresh, pred := I.pred,
    stamps := fun v => by have := I.stamps v; omega }

theorem BInv.lt_max {g : Graph} {s t : Nat} {st : State} {stamp : Nat → Nat}
    (I : BInv g s t st stamp) (hno : NoOverflow g s)
    (ht : t ≤ (g.N - 1) * g.edges.length) (v : Nat) (hv : distOf st v ≠ INT_MAX) :
    distOf st v < INT_MAX := by
  obtain ⟨n, hn, hw⟩ := I.walk v hv
  exact (hno v n _ hw (by omega)).2

/-- One step of `relax_loop` keeps the invariant. -/
theorem relax_step {g : Graph} {s t : Nat} {st : State} {stamp : Nat → Nat} {e : Edge}
    {da db : Int} (I : BInv g s t st stamp) (hno : NoOverflow g s)
    (ht : t < (g.N - 1) * g.edges.length) (he : e ∈ g.edges)
    (_ha : e.from_ < g.N) (hb : e.to_ < g.N)
    (hda : distOf st e.from_ = da) (hdb : distOf st e.to_ = db) (hne : da ≠ INT_MAX)
    (hlt : int_add da e.value < db) :
    BInv g s (t + 1)
      (State.mk (st.dist.set e.to_ (int_add da e.value)) (st.prev.set e.to_ (e.from_ : Int)))
      (Function.update stamp e.to_ (t + 1)) := by
  obtain ⟨n, hn, hw⟩ := I.walk e.from_ (by rw [hda]; exact hne)
  rw [hda] at hw
  have hw' := Walk.snoc hw he rfl
  have hrange := hno _ _ _ hw' (by omega)
  have hx : int_add da e.value = da + e.value :=
    int_add_exact hrange.1 (lt_of_lt_of_le hrange.2 (by unfold INT_MAX; omega))
  rw [hx] at hlt ⊢
  have hdamax : da < INT_MAX := by
    have := I.lt_max hno (le_of_lt ht) e.from_ (by rw [hda]; exact hne)
    rwa [hda] at this
  have hbd : e.to_ < st.dist.length := by rw [I.dlen]; exact hb
  have hbp : e.to_ < st.prev.length := by rw [I.plen]; exact hb
  have hD : ∀ v, distOf (State.mk (st.dist.set e.to_ (da + e.value))
      (st.prev.set e.to_ (e.from_ : Int))) v =
      if v = e.to_ then da + e.value else distOf st v := by
    intro v
    unfold distOf
    exact getD_set v _ _ hbd
  have hP : ∀ v, prevOf (State.mk (st.dist.set e.to_ (da + e.value))
      (st.prev.set e.to_ (e.from_ : Int))) v =
      if v = e.to_ then (e.from_ : Int) else prevOf st v := by
    intro v
    unfold prevOf
    exact getD_set v _ _ hbp
  refine ⟨by simp [I.dlen], by simp [I.plen], ?_, ?_, ?_, ?_, ?_⟩
  · intro v hv
    rw [hD] at hv ⊢
    by_cases h : v = e.to_
    · rw [if_pos h]
      exact ⟨n + 1, by omega, h ▸ hw'⟩
    · rw [if_neg h] at hv ⊢
      obtain ⟨n', hn', hw''⟩ := I.walk v hv
      exact ⟨n', by omega, hw''⟩
  · rw [hD]
    by_cases h : s = e.to_
    · rw [if_pos h]
      have := I.src.1
      rw [h, hdb] at this
      exact ⟨by omega, fun _ => by omega⟩
    · rw [if_neg h, Function.update_noteq h]
      exact I.src
  · intro v hvs hst
    by_cases h : v = e.to_
    · rw [h, Function.update_same] at hst; omega
    · rw [Function.update_noteq h] at hst
      rw [hD, if_neg h]
      exact I.fresh v hvs hst
  · intro v hst
    by_cases h : v = e.to_
    · refine ⟨e.from_, e, da, ?_, he, rfl, h.symm, ?_, ?_, hdamax, ?_⟩
      · rw [hP, if_pos h]
      · rw [hD, if_pos h]
      · rw [hD]
        by_cases h' : e.from_ = e.to_
        · rw [if_pos h']
          rw [h', hdb] at hda
          omega
        · rw [if_neg h', hda]
      · rw [hD]
        by_cases h' : e.from_ = e.to_
        · rw [if_pos h']
          rw [h', hdb] at hda
          intro; omega
        · rw [if_neg h', h, Function.update_same, Function.update_noteq h']
          intro _
          have := I.stamps e.from_
          omega
    · rw [Function.update_noteq h] at hst
      obtain ⟨u, e', d0, h1, h2, h3, h4, h5, h6, h7, h8⟩ := I.pred v hst
      refine ⟨u, e', d0, ?_, h2, h3, h4, ?_, ?_, h7, ?_⟩
      · rw [hP, if_neg h]; exact h1
      · rw [hD, if_neg h]; exact h5
      · rw [hD]
        by_cases h' : u = e.to_
        · rw [if_pos h']
          rw [h', hdb] at h6
          omega
        · rw [if_neg h']; exact h6
      · rw [hD]
        by_cases h' : u = e.to_
        · rw [if_pos h']
          rw [h', hdb] at h6
          intro; omega
        · rw [if_neg h', Function.update_noteq h', Function.update_noteq h]
          exact h8
  · intro v
    by_cases h : v = e.to_
    · rw [h, Function.update_same]
    · rw [Function.update_noteq h]
      have := I.stamps v
      omega

theorem relax_loop_inv {g : Graph} {s : Nat} (hno : NoOverflow g s) :
    ∀ (es : List Edge) (st st' : State) (t : Nat) (stamp : Nat → Nat),
      (∀ e ∈ es, e ∈ g.edges) → BInv g s t st stamp →
      t + es.length ≤ (g.N - 1) * g.edges.length → relax_loop es st = .ok st' →
      ∃ stamp', BInv g s (t + es.length) st' stamp' := by
  intro es
  induction es with
  | nil =>
    intro st st' t stamp _ I _ h
    simp [relax_loop, pure, Except.pure] at h
    exact ⟨stamp, h ▸ I⟩
  | cons e es ih =>
    intro st st' t stamp hes I ht h
    have hes' : ∀ e' ∈ es, e' ∈ g.edges := fun e' h' => hes e' (List.mem_cons_of_mem _ h')
    have hlen : t + (e :: es).length = (t + 1) + es.length := by simp; omega
    rw [hlen]
    simp only [List.length_cons] at ht
    unfold relax_loop at h
    cases hga : vec_get st.dist e.from_ with
    | error err => simp [hga, bind, Except.bind] at h
    | ok da =>
      simp only [hga, bind, Except.bind] at h
      have ha := vec_get_ok hga INT_MAX
      by_cases hmax : da = INT_MAX
      · simp only [hmax, if_true] at h
        exact ih st st' (t + 1) stamp hes' I.mono (by omega) h
      · simp only [hmax, if_false] at h
        cases hgb : vec_get st.dist e.to_ with
        | error err => simp [hgb] at h
        | ok db =>
          simp only [hgb] at h
          have hb := vec_get_ok hgb INT_MAX
          by_cases hlt : int_add da e.value < db
          · simp only [hlt, if_true] at h
            cases hs1 : vec_set st.dist e.to_ (int_add da e.value) with
            | error err => simp [hs1] at h
            | ok dist' =>
              simp only [hs1] at h
              cases hs2 : vec_set st.prev e.to_ (e.from_ : Int) with
              | error err => simp [hs2] at h
              | ok prev' =>
                simp only [hs2] at h
                have e1 := (vec_set_ok hs1).2
                have e2 := (vec_set_ok hs2).2
                subst e1 e2
                have I' := relax_step I hno (by omega) (hes e (List.mem_cons_self _ _))
                  (by rw [← I.dlen]; exact ha.1) (by rw [← I.dlen]; exact hb.1)
                  ha.2 hb.2 hmax hlt
                exact ih _ st' (t + 1) _ hes' I' (by omega) h
          · simp only [hlt, if_false] at h
            exact ih st st' (t + 1) stamp hes' I.mono (by omega) h

theorem rounds_inv {g : Graph} {s : Nat} (hno : NoOverflow g s) :
    ∀ (n : Nat) (st st' : State) (t : Nat) (stamp : Nat → Nat),
      BInv g s t st stamp → t + n * g.edges.length ≤ (g.N - 1) * g.edges.length →
      rounds g n st = .ok st' → ∃ stamp', BInv g s (t + n * g.edges.length) st' stamp' := by
  intro n
  induction n with
  | zero =>
    intro st st' t stamp I _ h
    simp [rounds, pure, Except.pure] at h
    exact ⟨stamp, by simpa using h ▸ I⟩
  | succ n ih =>
    intro st st' t stamp I ht h
    unfold rounds at h
    cases h1 : relax_loop g.edges st with
    | error err => simp [h1, bind, Except.bind] at h
    | ok st1 =>
      simp only [h1, bind, Except.bind] at h
      have hle : t + g.edges.length + n * g.edges.length ≤ (g.N - 1) * g.edges.length := by
        have : (n + 1) * g.edges.length = n * g.edges.length + g.edges.length := by ring
        omega
      obtain ⟨stamp1, I1⟩ := relax_loop_inv hno g.edges st st1 t stamp (fun _ h => h) I
        (by omega) h1
      obtain ⟨stamp2, I2⟩ := ih st1 st' _ stamp1 I1 hle h
      refine ⟨stamp2, ?_⟩
      have : t + (n + 1) * g.edges.length = t + g.edges.length + n * g.edges.length := by ring
      rw [this]
      exact I2

theorem detect_true : ∀ (es : List Edge) (st : State), detect_loop es st = .ok true →
    ∀ e ∈ es, e.from_ < st.dist.length ∧ e.to_ < st.dist.length ∧
      ¬ (int_add (distOf st e.from_) e.value < distOf st e.to_) := by
  intro es
  induction es with
  | nil => intro st _ e he; simp at he
  | cons e0 es ih =>
    intro st h e he
    unfold detect_loop at h
    cases hga : vec_get st.dist e0.from_ with
    | error err => simp [hga, bind, Except.bind] at h
    | ok da =>
      cases hgb : vec_get st.dist e0.to_ with
      | error err => simp [hga, hgb, bind, Except.bind] at h
      | ok db =>
        simp only [hga, hgb, bind, Except.bind] at h
        have ha := vec_get_ok hga INT_MAX
        have hb := vec_get_ok hgb INT_MAX
        by_cases hlt : int_add da e0.value < db
        · simp [hlt, pure, Except.pure] at h
        · simp only [hlt, if_false] at h
          rcases List.mem_cons.1 he with rfl | he
          · refine ⟨ha.1, hb.1, ?_⟩
            unfold distOf
            rw [ha.2, hb.2]
            exact hlt
          · exact ih st h e he

theorem init_inv {g : Graph} {s : Nat} (hs : s < g.N) :
    BInv g s 0 (State.mk ((List.replicate g.N INT_MAX).set s 0)
      ((List.replicate g.N (-1)).set s (s : Int))) (fun _ => 0) := by
  have hD : ∀ v, distOf (State.mk ((List.replicate g.N INT_MAX).set s 0)
      ((List.replicate g.N (-1)).set s (s : Int))) v = if v = s then 0 else INT_MAX := by
    intro v
    unfold distOf
    rw [getD_set v _ _ (by simpa using hs)]
    by_cases h : v = s
    · simp [h]
    · simp only [h, if_false, List.getD_eq_getElem?_getD]
      by_cases hv : v < g.N
      · simp [List.getElem?_replicate, hv]
      · simp [List.getElem?_replicate, hv]
  refine ⟨by simp, by simp, ?_, ?_, ?_, ?_, ?_⟩
  · intro v hv
    rw [hD] at hv ⊢
    by_cases h : v = s
    · rw [if_pos h]
      exact ⟨0, le_rfl, h ▸ Walk.nil⟩
    · rw [if_neg h] at hv
      exact absurd rfl hv
  · rw [hD, if_pos rfl]
    exact ⟨le_rfl, fun h => absurd h (lt_irrefl _)⟩
  · intro v hv _
    rw [hD, if_neg hv]
  · intro v hv
    exact absurd hv (lt_irrefl _)
  · intro v
    exact le_rfl

theorem getElem?_of_distOf {st : State} {v : Nat} (hv : v < st.dist.length) :
    st.dist[v]? = some (distOf st v) := by
  unfold distOf
  rw [List.getD_eq_getElem?_getD, List.getElem?_eq_getElem hv]
  rfl

theorem getElem?_of_prevOf {st : State} {v : Nat} (hv : v < st.prev.length) :
    st.prev[v]? = some (prevOf st v) := by
  unfold prevOf
  rw [List.getD_eq_getElem?_getD, List.getElem?_eq_getElem hv]
  rfl

/-- What the invariant and the last loop give at the end of a run that
returns `true`. -/
theorem final_facts {g : Graph} {s : Nat} {st : State} {stamp : Nat → Nat}
    (hno : NoOverflow g s) (I : BInv g s ((g.N - 1) * g.edges.length) st stamp)
    (hdet : ∀ e ∈ g.edges, e.from_ < st.dist.length ∧ e.to_ < st.dist.length ∧
      ¬ (int_add (distOf st e.from_) e.value < distOf st e.to_)) :
    (∀ e ∈ g.edges, distOf st e.from_ ≠ INT_MAX →
      distOf st e.to_ ≤ distOf st e.from_ + e.value ∧ distOf st e.to_ ≠ INT_MAX) ∧
    (∀ v n w, Walk g s v n w → distOf st v ≠ INT_MAX ∧ distOf st v ≤ w) ∧
    distOf st s = 0 := by
  have tri : ∀ e ∈ g.edges, distOf st e.from_ ≠ INT_MAX →
      distOf st e.to_ ≤ distOf st e.from_ + e.value ∧ distOf st e.to_ ≠ INT_MAX := by
    intro e he hfin
    obtain ⟨n, hn, hw⟩ := I.walk _ hfin
    have hr := hno _ _ _ (Walk.snoc hw he rfl) (by omega)
    have hx := int_add_exact hr.1 (lt_of_lt_of_le hr.2 (by unfold INT_MAX; omega))
    have := (hdet e he).2.2
    rw [hx] at this
    constructor
    · omega
    · omega
  have low : ∀ v n w, Walk g s v n w → distOf st v ≠ INT_MAX ∧ distOf st v ≤ distOf st s + w := by
    intro v n w hw
    induction hw with
    | nil =>
      refine ⟨?_, by omega⟩
      have := I.src.1
      unfold INT_MAX
      omega
    | snoc _ he hf ih =>
      subst hf
      obtain ⟨h1, h2⟩ := tri _ he ih.1
      exact ⟨h2, by omega⟩
  have hs0 : distOf st s = 0 := by
    have hfin : distOf st s ≠ INT_MAX := (low s 0 0 Walk.nil).1
    obtain ⟨n, _, hw⟩ := I.walk s hfin
    have := (low s n _ hw).2
    have := I.src.1
    omega
  refine ⟨tri, ?_, hs0⟩
  intro v n w hw
  have := low v n w hw
  rw [hs0] at this
  exact ⟨this.1, by omega⟩

theorem prev_path {g : Graph} {s : Nat} {st : State} {stamp : Nat → Nat}
    (hno : NoOverflow g s) (I : BInv g s ((g.N - 1) * g.edges.length) st stamp)
    (hdet : ∀ e ∈ g.edges, e.from_ < st.dist.length ∧ e.to_ < st.dist.length ∧
      ¬ (int_add (distOf st e.from_) e.value < distOf st e.to_)) :
    ∀ (k v : Nat), stamp v ≤ k → v ≠ s → distOf st v ≠ INT_MAX →
      PrevPath g st.prev s v (distOf st v) := by
  obtain ⟨tri, _, hs0⟩ := final_facts hno I hdet
  intro k
  induction k with
  | zero =>
    intro v hk hvs hfin
    exact absurd (I.fresh v hvs (by omega)) hfin
  | succ k ih =>
    intro v hk hvs hfin
    have hpos : 0 < stamp v := by
      by_contra h
      exact hfin (I.fresh v hvs (by omega))
    obtain ⟨u, e, d0, h1, h2, h3, h4, h5, h6, h7, h8⟩ := I.pred v hpos
    have hufin : distOf st u ≠ INT_MAX := by omega
    have htri := (tri e h2 (by rw [h3]; exact hufin)).1
    rw [h3, h4] at htri
    have heq : distOf st u = d0 := by omega
    have hlt := h8 heq
    have hvlen : v < st.prev.length := by
      rw [I.plen, ← I.dlen, ← h4]
      exact (hdet e h2).2.1
    have hprev : st.prev[v]? = some (u : Int) := by
      rw [getElem?_of_prevOf hvlen, h1]
    rw [h5, ← heq]
    by_cases hus : u = s
    · have hsrc : PrevPath g st.prev s u 0 := by rw [hus]; exact PrevPath.source
      have := PrevPath.step hvs hprev h2 h3 h4 hsrc
      rw [hus, hs0]
      exact this
    · exact PrevPath.step hvs hprev h2 h3 h4 (ih u (by omega) hus hufin)

/-- C22 (amended): when `shortestPathFrom(s)` returns `true` and every walk
from `s` that the run can follow has a weight in the range of `int` and below
`INT_MAX`, the value the code uses for infinity, then for every vertex `v`:
if `v` can be reached from `s`,
`dist[v]` is the weight of a shortest walk from `s` to `v`, and for `v ≠ s`
following `prev` from `v` reaches `s` along edges of total weight `dist[v]`;
if `v` cannot be reached from `s`, `dist[v] == INT_MAX`. -/
theorem bellman_ford_distances (g : Graph) (s : Nat) (st : State) (hno : NoOverflow g s)
    (hrun : shortestPathFrom g s = .ok (true, st)) :
    ∀ v, v < g.N →
      (Reachable g s v → ∃ d, st.dist[v]? = some d ∧ IsShortest g s v d ∧
        (v ≠ s → PrevPath g st.prev s v d)) ∧
      (¬ Reachable g s v → st.dist[v]? = some INT_MAX) := by
  unfold shortestPathFrom at hrun
  simp only [bind, Except.bind] at hrun
  cases h1 : vec_set (List.replicate g.N INT_MAX) s 0 with
  | error err => simp [h1] at hrun
  | ok dist0 =>
    simp only [h1] at hrun
    cases h2 : vec_set (List.replicate g.N (-1 : Int)) s (s : Int) with
    | error err => simp [h2] at hrun
    | ok prev0 =>
      simp only [h2] at hrun
      cases h3 : rounds g (g.N - 1) { dist := dist0, prev := prev0 } with
      | error err => simp [h3] at hrun
      | ok st1 =>
        simp only [h3] at hrun
        cases h4 : detect_loop g.edges st1 with
        | error err => simp [h4] at hrun
        | ok b =>
          simp only [h4, pure, Except.pure] at hrun
          have hb : b = true := (Prod.mk.inj (Except.ok.inj hrun)).1
          have hst : st1 = st := (Prod.mk.inj (Except.ok.inj hrun)).2
          subst hb hst
          obtain ⟨hs, e1⟩ := vec_set_ok h1
          obtain ⟨_, e2⟩ := vec_set_ok h2
          subst e1 e2
          have hsN : s < g.N := by simpa using hs
          obtain ⟨stamp, I⟩ := rounds_inv hno (g.N - 1) _ st1 0 _ (init_inv hsN)
            (by omega) h3
          rw [Nat.zero_add] at I
          have hdet := detect_true g.edges st1 h4
          obtain ⟨_, low, hs0⟩ := final_facts hno I hdet
          intro v hv
          have hvlen : v < st1.dist.length := by rw [I.dlen]; exact hv
          constructor
          · rintro ⟨n, w, hw⟩
            have hfin := (low v n w hw).1
            obtain ⟨n', _, hw'⟩ := I.walk v hfin
            refine ⟨distOf st1 v, getElem?_of_distOf hvlen, ⟨⟨n', hw'⟩, ?_⟩, ?_⟩
            · intro n'' w'' hw''
              exact (low v n'' w'' hw'').2
            · intro hvs
              exact prev_path hno I hdet (stamp v) v le_rfl hvs hfin
          · intro hnr
            rw [getElem?_of_distOf hvlen]
            by_contra hne
            have hfin : distOf st1 v ≠ INT_MAX := fun e => hne (by rw [e])
            obtain ⟨n', _, hw'⟩ := I.walk v hfin
            exact hnr ⟨n', _, hw'⟩

theorem walk_bound {g : Graph} {W : Int} (hW : ∀ e ∈ g.edges, -W ≤ e.value ∧ e.value ≤ W)
    {u v n : Nat} {w : Int} (h : Walk g u v n w) : -(n * W) ≤ w ∧ w ≤ n * W := by
  induction h with
  | nil => simp
  | snoc _ he _ ih =>
    have := hW _ he
    push_cast
    constructor <;> nlinarith [ih.1, ih.2, this.1, this.2]

theorem graph2_eq : graph2 = .ok graph2_graph := by rfl

theorem graph2_no_overflow : NoOverflow graph2_graph 0 := by
  intro v n w hw hn
  have hb := walk_bound (W := 9) (by
    intro e he
    simp [graph2_graph] at he
    rcases he with rfl | rfl | rfl | rfl | rfl | rfl | rfl | rfl | rfl | rfl <;> decide) hw
  have hn' : (n : Int) ≤ 41 := by
    have : n ≤ 41 := hn
    exact_mod_cast this
  unfold INT_MAX
  constructor <;> nlinarith [hb.1, hb.2]

theorem bellman_ford_distances_witness :
    NoOverflow graph2_graph 0 ∧
    shortestPathFrom graph2_graph 0 = .ok (true, ⟨[0, 2, 4, -2, 7], [0, 2, 4, 1, 0]⟩) ∧
    Reachable graph2_graph 0 3 ∧
    ∃ d, ([0, 2, 4, -2, 7] : List Int)[3]? = some d ∧ IsShortest graph2_graph 0 3 d ∧
      ((3 : Nat) ≠ 0 → PrevPath graph2_graph [0, 2, 4, 1, 0] 0 3 d) :=
  have hr : Reachable graph2_graph 0 3 :=
    ⟨2, _, Walk.snoc (e := ⟨-4, 1, 3⟩)
      (Walk.snoc (e := ⟨6, 0, 1⟩) Walk.nil (by decide) rfl) (by decide) rfl⟩
  ⟨graph2_no_overflow, by rfl, hr,
    (bellman_ford_distances graph2_graph 0 ⟨[0, 2, 4, -2, 7], [0, 2, 4, 1, 0]⟩
      graph2_no_overflow (by rfl) 3 (by decide)).1 hr⟩

theorem max_edge_walks {v n : Nat} {w : Int} (hw : Walk max_edge_graph 0 v n w) :
    (v = 0 ∧ w = 0) ∨ (v = 1 ∧ w = 2147483647) := by
  induction hw with
  | nil => exact Or.inl ⟨rfl, rfl⟩
  | @snoc v n w e _ he hf ih =>
    simp [max_edge_graph] at he
    subst he
    simp only at hf
    rcases ih with ⟨h0, hw0⟩ | ⟨h1, _⟩
    · subst hw0
      exact Or.inr ⟨rfl, by simp⟩
    · omega

/-- C22 (counterexample): in the graph with the vertices `0, 1` and the
single edge `0 → 1` of weight `INT_MAX` every walk from `0` has a weight in
the range of `int`, so no path weight overflows; `shortestPathFrom(0)` returns
`true` with `dist == {0, INT_MAX}` and `prev == {0, -1}`.  The vertex `1` can
be reached from `0` and `dist[1]` is the weight of the shortest walk, but
`prev[1]` is still `-1`: following `prev` from `1` does not reach `0`. -/
theorem int_max_edge_prev_unset :
    max_edge = .ok max_edge_graph ∧
    (∀ v n w, Walk max_edge_graph 0 v n w → -2147483648 ≤ w ∧ w ≤ INT_MAX) ∧
    shortestPathFrom max_edge_graph 0 = .ok (true, ⟨[0, 2147483647], [0, -1]⟩) ∧
    Reachable max_edge_graph 0 1 ∧ IsShortest max_edge_graph 0 1 2147483647 ∧
    ¬ ∃ d, PrevPath max_edge_graph [0, -1] 0 1 d := by
  have hw1 : Walk max_edge_graph 0 1 1 2147483647 := by
    have := Walk.snoc (e := ⟨2147483647, 0, 1⟩) (Walk.nil (g := max_edge_graph) (u := 0))
      (by simp [max_edge_graph]) rfl
    simpa using this
  refine ⟨by rfl, ?_, by rfl, ⟨1, _, hw1⟩, ⟨⟨1, hw1⟩, ?_⟩, ?_⟩
  · intro v n w hw
    rcases max_edge_walks hw with ⟨_, h⟩ | ⟨_, h⟩ <;> subst h <;> simp [INT_MAX]
  · intro n w hw
    rcases max_edge_walks hw with ⟨h, _⟩ | ⟨_, h⟩
    · omega
    · omega
  · rintro ⟨d, hp⟩
    cases hp with
    | step hvs hprev he hf ht hrest =>
      simp at hprev

end BellmanFord

namespace DisjointSet

theorem node_rd_ok {d : DisjointSetForest} {x : Nat} (hx : x < d.nodes.length) :
    ∃ n, d.nodes[x]? = some n ∧ rd d x = .ok n ∧ parentOf d x = n.parent ∧
      rankOf d x = n.rank := by
  refine ⟨d.nodes[x], List.getElem?_eq_getElem hx, ?_, ?_, ?_⟩ <;>
    simp [rd, parentOf, rankOf, List.getElem?_eq_getElem hx]

theorem node_wr_ok {d : DisjointSetForest} {x : Nat} {n : Node} (f : Node → Node)
    (hx : d.nodes[x]? = some n) :
    wr d x f = .ok { d with nodes := d.nodes.set x (f n) } := by
  simp [wr, hx]

theorem parentOf_set (d : DisjointSetForest) (x : Nat) (n : Node) (hx : x < d.nodes.length)
    (y : Nat) :
    parentOf { d with nodes := d.nodes.set x n } y = if y = x then n.parent else parentOf d y := by
  unfold parentOf
  simp only [List.getElem?_set]
  by_cases h : x = y
  · subst h; simp [hx]
  · have : ¬ y = x := fun e => h e.symm
    simp [h, this]

theorem rankOf_set (d : DisjointSetForest) (x : Nat) (n : Node) (hx : x < d.nodes.length)
    (y : Nat) :
    rankOf { d with nodes := d.nodes.set x n } y = if y = x then n.rank else rankOf d y := by
  unfold rankOf
  simp only [List.getElem?_set]
  by_cases h : x = y
  · subst h; simp [hx]
  · have : ¬ y = x := fun e => h e.symm
    simp [h, this]

theorem RootOf.lt {d : DisjointSetForest} {x r : Nat} (h : RootOf d x r) :
    x < d.nodes.length := by
  cases h with
  | root hx _ => exact hx
  | step hx _ _ => exact hx

theorem RootOf.is_root {d : DisjointSetForest} {x r : Nat} (h : RootOf d x r) :
    r < d.nodes.length ∧ parentOf d r = r := by
  induction h with
  | root hx hp => exact ⟨hx, hp⟩
  | step _ _ _ ih => exact ih

theorem RootOf.unique {d : DisjointSetForest} {x r r' : Nat} (h : RootOf d x r)
    (h' : RootOf d x r') : r = r' := by
  induction h with
  | root _ hp =>
    cases h' with
    | root _ _ => rfl
    | step _ hp' _ => exact absurd hp hp'
  | step _ hp _ ih =>
    cases h' with
    | root _ hp' => exact absurd hp' hp
    | step _ _ h'' => exact ih h''

theorem RootOf.rank_lt {d : DisjointSetForest} (W : WF d) {x r : Nat} (h : RootOf d x r)
    (hne : x ≠ r) : rankOf d x < rankOf d r := by
  induction h with
  | root _ _ => exact absurd rfl hne
  | @step x r hx hp h' ih =>
    have h1 := W.rank _ hx hp
    by_cases e : parentOf d x = r
    · rw [← e]; exact h1
    · exact lt_trans h1 (ih e)

theorem above_lt {d : DisjointSetForest} (W : WF d) {x : Nat} (hx : x < d.nodes.length)
    (hp : parentOf d x ≠ x) : above d (parentOf d x) < above d x := by
  unfold above
  have hr := W.rank x hx hp
  have hb := W.bound x hx
  have h1 := FibHeap.countP_remove_one (fun y => decide (rankOf d x < rankOf d y))
    (parentOf d x) (List.range d.nodes.length) (List.nodup_range _) (List.mem_range.2 hb)
    (by simpa using hr)
  simp only [] at h1
  have h2 : List.countP (fun y => decide (rankOf d (parentOf d x) < rankOf d y))
      (List.range d.nodes.length) ≤
      List.countP (fun q => if q = parentOf d x then false
        else decide (rankOf d x < rankOf d q)) (List.range d.nodes.length) := by
    apply List.countP_mono_left
    intro y _ hy
    have hy' : rankOf d (parentOf d x) < rankOf d y := by simpa using hy
    have hne : y ≠ parentOf d x := by
      intro e
      rw [e] at hy'
      exact lt_irrefl _ hy'
    simp only [hne, if_false, decide_eq_true_eq]
    exact lt_trans hr hy'
  omega

theorem above_lt_length {d : DisjointSetForest} {x : Nat} (hx : x < d.nodes.length) :
    above d x < d.nodes.length := by
  unfold above
  have h1 := FibHeap.countP_remove_one (fun _ => true) x (List.range d.nodes.length)
    (List.nodup_range _) (List.mem_range.2 hx) rfl
  simp only [] at h1
  have h2 : List.countP (fun y => decide (rankOf d x < rankOf d y))
      (List.range d.nodes.length) ≤
      List.countP (fun q => if q = x then false else true) (List.range d.nodes.length) := by
    apply List.countP_mono_left
    intro y _ hy
    have hy' : rankOf d x < rankOf d y := by simpa using hy
    have hne : y ≠ x := by
      intro e
      rw [e] at hy'
      exact lt_irrefl _ hy'
    simp [hne]
  have h3 : List.countP (fun _ : Nat => true) (List.range d.nodes.length) ≤ d.nodes.length := by
    simp
  omega

theorem RootOf.exists {d : DisjointSetForest} (W : WF d) :
    ∀ (k x : Nat), above d x < k → x < d.nodes.length → ∃ r, RootOf d x r := by
  intro k
  induction k with
  | zero => intro x h; omega
  | succ k ih =>
    intro x hk hx
    by_cases hp : parentOf d x = x
    · exact ⟨x, RootOf.root hx hp⟩
    · have := above_lt W hx hp
      obtain ⟨r, hr⟩ := ih (parentOf d x) (by omega) (W.bound x hx)
      exact ⟨r, RootOf.step hx hp hr⟩

theorem Compress.same (d : DisjointSetForest) : Compress d d :=
  ⟨rfl, rfl, rfl, fun _ => rfl, fun _ _ => Or.inl rfl⟩

theorem Compress.root_keep {d d' : DisjointSetForest} (C : Compress d d') {r : Nat}
    (hr : r < d.nodes.length) (hp : parentOf d r = r) : parentOf d' r = r := by
  rcases C.parent r hr with h | h
  · rw [h, hp]
  · exact (RootOf.unique (RootOf.root hr hp) h).symm

theorem Compress.rootOf {d d' : DisjointSetForest} (C : Compress d d') {x r : Nat}
    (h : RootOf d x r) : RootOf d' x r := by
  induction h with
  | root hx hp => exact RootOf.root (by rw [C.len]; exact hx) (C.root_keep hx hp)
  | @step x r hx hp h' ih =>
    have hx' : x < d'.nodes.length := by rw [C.len]; exact hx
    have hroot := h'.is_root
    rcases C.parent x hx with e | e
    · exact RootOf.step hx' (by rw [e]; exact hp) (by rw [e]; exact ih)
    · have er := RootOf.unique e (RootOf.step hx hp h')
      rw [er] at e
      have hne : parentOf d' x ≠ x := by
        rw [er]
        intro e'
        rw [e'] at hroot
        exact hp hroot.2
      refine RootOf.step hx' hne ?_
      rw [er]
      exact RootOf.root (by rw [C.len]; exact hroot.1) (C.root_keep hroot.1 hroot.2)

theorem Compress.keeps_wf {d d' : DisjointSetForest} (C : Compress d d') (W : WF d) : WF d' := by
  constructor
  · intro x hx
    rw [C.len] at hx ⊢
    rcases C.parent x hx with e | e
    · rw [e]; exact W.bound x hx
    · exact e.is_root.1
  · intro x hx hp
    rw [C.len] at hx
    rw [C.rank, C.rank]
    rcases C.parent x hx with e | e
    · rw [e] at hp ⊢
      exact W.rank x hx hp
    · exact e.rank_lt W (fun e' => hp e'.symm)

theorem Compress.rootOf_iff {d d' : DisjointSetForest} (C : Compress d d') (W : WF d)
    {x r : Nat} : RootOf d' x r ↔ RootOf d x r := by
  constructor
  · intro h
    have hx : x < d.nodes.length := by rw [← C.len]; exact h.lt
    obtain ⟨r', hr'⟩ := RootOf.exists W (above d x + 1) x (Nat.lt_succ_self _) hx
    have := RootOf.unique (C.rootOf hr') h
    exact this ▸ hr'
  · exact C.rootOf

theorem Compress.comp {d d' d'' : DisjointSetForest} (W : WF d) (C : Compress d d')
    (C' : Compress d' d'') : Compress d d'' := by
  refine ⟨C'.len.trans C.len, C'.size.trans C.size, C'.sets.trans C.sets,
    fun x => (C'.rank x).trans (C.rank x), ?_⟩
  intro x hx
  rcases C'.parent x (by rw [C.len]; exact hx) with e | e
  · rw [e]; exact C.parent x hx
  · exact Or.inr ((C.rootOf_iff W).1 e)

theorem Compress.rootCount_eq {d d' : DisjointSetForest} (C : Compress d d') (_W : WF d) :
    rootCount d' = rootCount d := by
  unfold rootCount
  rw [C.len]
  apply List.countP_congr
  intro x hx
  have hx' := List.mem_range.1 hx
  simp only [decide_eq_true_eq]
  constructor
  · intro h
    rcases C.parent x hx' with e | e
    · rw [← e]; exact h
    · rw [h] at e
      exact e.is_root.2
  · exact C.root_keep hx'

/-- `find_set` returns the representative and only compresses paths. -/
theorem find_set_spec {d : DisjointSetForest} (W : WF d) :
    ∀ (fuel x : Nat), above d x < fuel → x < d.nodes.length →
      ∃ r d', find_set fuel d x = .ok (r, d') ∧ RootOf d x r ∧ Compress d d' := by
  intro fuel
  induction fuel with
  | zero => intro x h; omega
  | succ f ih =>
    intro x hf hx
    obtain ⟨n, hn, hrd, hpar, _⟩ := node_rd_ok hx
    by_cases hp : n.parent = x
    · refine ⟨x, d, ?_, RootOf.root hx (hpar.trans hp), Compress.same d⟩
      simp only [find_set, hrd, hp, bind, Except.bind, pure, Except.pure, ne_eq,
        not_true_eq_false, if_false]
    · have hp' : parentOf d x ≠ x := by rw [hpar]; exact hp
      have hlt := above_lt W hx hp'
      obtain ⟨r, d1, e1, hr, C1⟩ := ih (parentOf d x) (by omega) (W.bound x hx)
      rw [hpar] at e1
      have hx1 : x < d1.nodes.length := by rw [C1.len]; exact hx
      obtain ⟨n1, hn1, _, hpar1, hrank1⟩ := node_rd_ok hx1
      have hroot : RootOf d x r := RootOf.step hx hp' hr
      have hrank : ∀ y, rankOf (DisjointSetForest.mk d1.N d1.nsets
          (d1.nodes.set x { n1 with parent := r })) y = rankOf d y := by
        intro y
        rw [rankOf_set d1 x _ hx1, ← C1.rank]
        by_cases e : y = x
        · rw [if_pos e, e, hrank1]
        · rw [if_neg e]
      refine ⟨r, { d1 with nodes := d1.nodes.set x { n1 with parent := r } }, ?_, hroot,
        ⟨by simp [C1.len], C1.size, C1.sets, hrank, ?_⟩⟩
      · have hget : (d1.nodes.set x { n1 with parent := r })[x]? =
            some { n1 with parent := r } := by
          simp [List.getElem?_set, hx1]
        have hrd2 : rd (DisjointSetForest.mk d1.N d1.nsets
            (d1.nodes.set x { n1 with parent := r })) x = .ok { n1 with parent := r } := by
          simp only [rd, hget]
        simp only [find_set, hrd, hp, e1, bind, Except.bind, pure, Except.pure, node_wr_ok _ hn1,
          hrd2, ne_eq, not_false_eq_true, if_true]
      · intro y hy
        rw [parentOf_set d1 x _ hx1]
        by_cases e : y = x
        · rw [if_pos e, e]
          exact Or.inr hroot
        · rw [if_neg e]
          exact C1.parent y hy

/-- `link` on two distinct representatives: `l` becomes a child of `w`. -/
theorem link_spec {d : DisjointSetForest} (W : WF d) {x y : Nat} (hx : x < d.nodes.length)
    (hy : y < d.nodes.length) (_hpx : parentOf d x = x) (hpy : parentOf d y = y) (hxy : x ≠ y) :
    ∃ d' w l, link d x y = .ok d' ∧ ((w = x ∧ l = y) ∨ (w = y ∧ l = x)) ∧ WF d' ∧
      d'.nodes.length = d.nodes.length ∧ d'.N = d.N ∧ d'.nsets = d.nsets ∧
      (∀ q, parentOf d' q = if q = l then w else parentOf d q) := by
  obtain ⟨nx, hnx, rx, px, kx⟩ := node_rd_ok hx
  obtain ⟨ny, hny, ry, py, ky⟩ := node_rd_ok hy
  by_cases hgt : nx.rank > ny.rank
  · -- `y` becomes a child of `x`
    have hP := parentOf_set d y { ny with parent := x } hy
    have hR := rankOf_set d y { ny with parent := x } hy
    refine ⟨{ d with nodes := d.nodes.set y { ny with parent := x } }, x, y, ?_,
      Or.inl ⟨rfl, rfl⟩, ⟨?_, ?_⟩, by simp, rfl, rfl, hP⟩
    · simp only [link, rx, ry, hgt, bind, Except.bind, if_true, node_wr_ok _ hny]
    · intro q hq
      simp only [List.length_set] at hq ⊢
      rw [hP]
      by_cases e : q = y
      · rw [if_pos e]; exact hx
      · rw [if_neg e]; exact W.bound q hq
    · intro q hq hp
      simp only [List.length_set] at hq
      rw [hP] at hp ⊢
      have hRq : ∀ z, rankOf (DisjointSetForest.mk d.N d.nsets
          (d.nodes.set y { ny with parent := x })) z = rankOf d z := by
        intro z
        rw [hR]
        by_cases e : z = y
        · rw [if_pos e, e, ky]
        · rw [if_neg e]
      rw [hRq, hRq]
      by_cases e : q = y
      · rw [if_pos e, e, kx, ky]
        exact hgt
      · rw [if_neg e] at hp ⊢
        exact W.rank q hq hp
  · -- `x` becomes a child of `y`
    have hP1 := parentOf_set d x { nx with parent := y } hx
    have hR1 := rankOf_set d x { nx with parent := y } hx
    have hx1 : (d.nodes.set x { nx with parent := y })[x]? = some { nx with parent := y } := by
      simp [List.getElem?_set, hx]
    have hy1 : (d.nodes.set x { nx with parent := y })[y]? = some ny := by
      simp [List.getElem?_set, hxy, hny]
    have hrx1 : rd (DisjointSetForest.mk d.N d.nsets (d.nodes.set x { nx with parent := y })) x
        = .ok { nx with parent := y } := by simp only [rd, hx1]
    have hry1 : rd (DisjointSetForest.mk d.N d.nsets (d.nodes.set x { nx with parent := y })) y
        = .ok ny := by simp only [rd, hy1]
    have hRq1 : ∀ z, rankOf (DisjointSetForest.mk d.N d.nsets
        (d.nodes.set x { nx with parent := y })) z = rankOf d z := by
      intro z
      rw [hR1]
      by_cases e : z = x
      · rw [if_pos e, e, kx]
      · rw [if_neg e]
    by_cases heq : nx.rank = ny.rank
    · have hylen : y < (d.nodes.set x { nx with parent := y }).length := by simpa using hy
      have hP2 := parentOf_set (DisjointSetForest.mk d.N d.nsets
        (d.nodes.set x { nx with parent := y })) y { ny with rank := ny.rank + 1 } hylen
      have hR2 := rankOf_set (DisjointSetForest.mk d.N d.nsets
        (d.nodes.set x { nx with parent := y })) y { ny with rank := ny.rank + 1 } hylen
      have hPq : ∀ q, parentOf (DisjointSetForest.mk d.N d.nsets
          ((d.nodes.set x { nx with parent := y }).set y { ny with rank := ny.rank + 1 })) q =
          if q = x then y else parentOf d q := by
        intro q
        rw [hP2, hP1]
        by_cases e : q = y
        · have : ¬ q = x := fun e' => hxy (e'.symm.trans e)
          rw [if_pos e, if_neg this, e, py]
        · rw [if_neg e]
      refine ⟨DisjointSetForest.mk d.N d.nsets
        ((d.nodes.set x { nx with parent := y }).set y { ny with rank := ny.rank + 1 }),
        y, x, ?_, Or.inr ⟨rfl, rfl⟩, ⟨?_, ?_⟩, by simp, rfl, rfl, hPq⟩
      · simp only [link, rx, ry, hgt, bind, Except.bind, if_false, node_wr_ok _ hnx, hrx1, hry1]
        rw [if_pos heq]
        exact node_wr_ok (d := DisjointSetForest.mk d.N d.nsets
          (d.nodes.set x { nx with parent := y })) _ hy1
      · intro q hq
        simp only [List.length_set] at hq ⊢
        rw [hPq]
        by_cases e : q = x
        · rw [if_pos e]; exact hy
        · rw [if_neg e]; exact W.bound q hq
      · intro q hq hp
        simp only [List.length_set] at hq
        rw [hPq] at hp ⊢
        rw [hR2, hR2, hRq1, hRq1]
        by_cases e : q = x
        · have hxy' : ¬ x = y := hxy
          rw [if_pos e, e, if_neg hxy', if_pos rfl, kx]
          simp only []
          omega
        · rw [if_neg e] at hp ⊢
          have hqy : ¬ q = y := fun e' => hp (by rw [e', hpy])
          rw [if_neg hqy]
          have := W.rank q hq hp
          by_cases e' : parentOf d q = y
          · rw [if_pos e']
            rw [e', ky] at this
            simp only []
            omega
          · rw [if_neg e']; exact this
    · have hPq : ∀ q, parentOf (DisjointSetForest.mk d.N d.nsets
          (d.nodes.set x { nx with parent := y })) q = if q = x then y else parentOf d q := hP1
      refine ⟨{ d with nodes := d.nodes.set x { nx with parent := y } }, y, x, ?_,
        Or.inr ⟨rfl, rfl⟩, ⟨?_, ?_⟩, by simp, rfl, rfl, hPq⟩
      · simp only [link, rx, ry, hgt, bind, Except.bind, if_false, node_wr_ok _ hnx, hrx1, hry1, heq,
          pure, Except.pure]
      · intro q hq
        simp only [List.length_set] at hq ⊢
        rw [hPq]
        by_cases e : q = x
        · rw [if_pos e]; exact hy
        · rw [if_neg e]; exact W.bound q hq
      · intro q hq hp
        simp only [List.length_set] at hq
        rw [hPq] at hp ⊢
        rw [hRq1, hRq1]
        by_cases e : q = x
        · rw [if_pos e, e, kx, ky]
          omega
        · rw [if_neg e] at hp ⊢
          exact W.rank q hq hp

/-- The representatives after `l`, a representative, has become a child of
the representative `w`. -/
theorem rootOf_link {d d' : DisjointSetForest} {w l : Nat}
    (hlen : d'.nodes.length = d.nodes.length) (hw : w < d.nodes.length)
    (hpw : parentOf d w = w) (hpl : parentOf d l = l) (hwl : w ≠ l)
    (hP : ∀ q, parentOf d' q = if q = l then w else parentOf d q) {y r : Nat}
    (h : RootOf d y r) : RootOf d' y (if r = l then w else r) := by
  have hww : RootOf d' w w :=
    RootOf.root (by rw [hlen]; exact hw) (by rw [hP, if_neg hwl]; exact hpw)
  induction h with
  | @root y hy hp =>
    by_cases e : y = l
    · rw [if_pos e]
      refine RootOf.step (by rw [hlen]; exact hy) ?_ ?_
      · rw [hP, if_pos e, e]; exact hwl
      · rw [hP, if_pos e]; exact hww
    · rw [if_neg e]
      exact RootOf.root (by rw [hlen]; exact hy) (by rw [hP, if_neg e]; exact hp)
  | @step y r hy hp _ ih =>
    have e : y ≠ l := fun e => hp (e ▸ hpl)
    refine RootOf.step (by rw [hlen]; exact hy) ?_ ?_
    · rw [hP, if_neg e]; exact hp
    · rw [hP, if_neg e]; exact ih

theorem rootCount_link {d d' : DisjointSetForest} {w l : Nat}
    (hlen : d'.nodes.length = d.nodes.length) (hl : l < d.nodes.length)
    (hpl : parentOf d l = l) (hwl : w ≠ l)
    (hP : ∀ q, parentOf d' q = if q = l then w else parentOf d q) :
    rootCount d' + 1 = rootCount d := by
  unfold rootCount
  rw [hlen]
  have h1 := FibHeap.countP_remove_one (fun x => decide (parentOf d x = x)) l
    (List.range d.nodes.length) (List.nodup_range _) (List.mem_range.2 hl) (by simpa using hpl)
  simp only [] at h1
  rw [← h1]
  congr 1
  apply List.countP_congr
  intro q _
  rw [hP]
  by_cases e : q = l
  · simp [e, hwl]
  · simp [e]

theorem Same.of_compress {d d' : DisjointSetForest} (C : Compress d d') (W : WF d) (i j : Nat) :
    Same d' i j ↔ Same d i j := by
  constructor
  · rintro ⟨r, h1, h2⟩
    exact ⟨r, (C.rootOf_iff W).1 h1, (C.rootOf_iff W).1 h2⟩
  · rintro ⟨r, h1, h2⟩
    exact ⟨r, C.rootOf h1, C.rootOf h2⟩

/-- The two calls of `find_set` of `join` and `same_set`. -/
theorem find_two {d : DisjointSetForest} (W : WF d) {a b : Nat} (ha : a < d.nodes.length)
    (hb : b < d.nodes.length) :
    ∃ pa pb d1 d2, find_set d.nodes.length d a = .ok (pa, d1) ∧
      find_set d1.nodes.length d1 b = .ok (pb, d2) ∧ RootOf d a pa ∧ RootOf d b pb ∧
      Compress d d2 := by
  obtain ⟨pa, d1, e1, r1, C1⟩ := find_set_spec W _ a (above_lt_length ha) ha
  have W1 := C1.keeps_wf W
  have hb1 : b < d1.nodes.length := by rw [C1.len]; exact hb
  obtain ⟨pb, d2, e2, r2, C2⟩ := find_set_spec W1 _ b (above_lt_length hb1) hb1
  exact ⟨pa, pb, d1, d2, e1, e2, r1, (C1.rootOf_iff W).1 r2, Compress.comp W C1 C2⟩

theorem same_set_spec {d : DisjointSetForest} (W : WF d) {a b : Nat} (ha : a < d.nodes.length)
    (hb : b < d.nodes.length) :
    ∃ r d', same_set d a b = .ok (r, d') ∧ (r = true ↔ Same d a b) ∧ Compress d d' := by
  obtain ⟨pa, pb, d1, d2, e1, e2, r1, r2, C⟩ := find_two W ha hb
  refine ⟨decide (pa = pb), d2, ?_, ?_, C⟩
  · simp only [same_set, e1, e2, bind, Except.bind, pure, Except.pure]
  · simp only [decide_eq_true_eq]
    constructor
    · intro e
      exact ⟨pa, r1, e ▸ r2⟩
    · rintro ⟨r, h1, h2⟩
      exact (RootOf.unique r1 h1).trans (RootOf.unique h2 r2)

theorem join_spec {d : DisjointSetForest} (I : DInv d) {a b : Nat} (ha : a < d.nodes.length)
    (hb : b < d.nodes.length) :
    ∃ d', join d a b = .ok d' ∧ DInv d' ∧ d'.nodes.length = d.nodes.length ∧ d'.N = d.N ∧
      (∀ i j, Same d' i j ↔
        Same d i j ∨ (Same d i a ∧ Same d b j) ∨ (Same d i b ∧ Same d a j)) ∧
      (Same d a b → d'.nsets = d.nsets) ∧ (¬ Same d a b → d'.nsets = d.nsets - 1) := by
  have W := I.wf
  obtain ⟨pa, pb, d1, d2, e1, e2, r1, r2, C⟩ := find_two W ha hb
  have W2 := C.keeps_wf W
  have hsame : Same d a b ↔ pa = pb := by
    constructor
    · rintro ⟨r, h1, h2⟩
      exact (RootOf.unique r1 h1).trans (RootOf.unique h2 r2)
    · intro e
      exact ⟨pa, r1, e ▸ r2⟩
  by_cases hp : pa = pb
  · refine ⟨d2, ?_, ⟨W2, ?_⟩, C.len, C.size, ?_, fun _ => C.sets, fun h => absurd (hsame.2 hp) h⟩
    · simp only [join, e1, e2, bind, Except.bind, hp, ne_eq, not_true_eq_false, if_false, pure,
        Except.pure]
    · rw [C.sets, I.count, C.rootCount_eq W]
    · intro i j
      rw [Same.of_compress C W]
      constructor
      · exact Or.inl
      · rintro (h | ⟨⟨r, h1, h2⟩, ⟨r', h3, h4⟩⟩ | ⟨⟨r, h1, h2⟩, ⟨r', h3, h4⟩⟩)
        · exact h
        · have e1' := RootOf.unique h2 r1
          have e2' := RootOf.unique h3 r2
          exact ⟨r, h1, by rw [e1', hp, ← e2']; exact h4⟩
        · have e1' := RootOf.unique h2 r2
          have e2' := RootOf.unique h3 r1
          exact ⟨r, h1, by rw [e1', ← hp, ← e2']; exact h4⟩
  · have ra := (C.rootOf r1).is_root
    have rb := (C.rootOf r2).is_root
    obtain ⟨d3, w, l, e3, hwl, W3, len3, N3, sets3, hP⟩ := link_spec W2 ra.1 rb.1 ra.2 rb.2 hp
    have hw : w < d2.nodes.length ∧ parentOf d2 w = w ∧ l < d2.nodes.length ∧
        parentOf d2 l = l ∧ w ≠ l := by
      rcases hwl with ⟨rfl, rfl⟩ | ⟨rfl, rfl⟩
      · exact ⟨ra.1, ra.2, rb.1, rb.2, hp⟩
      · exact ⟨rb.1, rb.2, ra.1, ra.2, fun e => hp e.symm⟩
    have hcount := rootCount_link len3 hw.2.2.1 hw.2.2.2.1 hw.2.2.2.2 hP
    have hfwd : ∀ y r, RootOf d y r → RootOf d3 y (if r = l then w else r) := fun y r h =>
      rootOf_link len3 hw.1 hw.2.1 hw.2.2.2.1 hw.2.2.2.2 hP (C.rootOf h)
    have hnsets : (DisjointSetForest.mk d3.N (d3.nsets - 1) d3.nodes).nsets = d.nsets - 1 := by
      show d3.nsets - 1 = d.nsets - 1
      rw [sets3, C.sets]
    refine ⟨{ d3 with nsets := d3.nsets - 1 }, ?_, ⟨⟨W3.bound, W3.rank⟩, ?_⟩,
      len3.trans C.len, N3.trans C.size, ?_, fun h => absurd (hsame.1 h) hp, fun _ => hnsets⟩
    · simp only [join, e1, e2, bind, Except.bind, hp, ne_eq, not_false_eq_true, if_true, e3,
        pure, Except.pure]
    · show d3.nsets - 1 = ((rootCount d3 : Nat) : Int)
      have h1 : rootCount (DisjointSetForest.mk d3.N (d3.nsets - 1) d3.nodes) = rootCount d3 :=
        rfl
      rw [sets3, C.sets, I.count, ← C.rootCount_eq W, ← hcount]
      push_cast
      ring
    · intro i j
      have hS3 : Same (DisjointSetForest.mk d3.N (d3.nsets - 1) d3.nodes) i j ↔ Same d3 i j := by
        constructor
        · rintro ⟨r, h1, h2⟩
          refine ⟨r, ?_, ?_⟩
          · clear h2
            induction h1 with
            | root hx hp' => exact RootOf.root hx hp'
            | step hx hp' _ ih => exact RootOf.step hx hp' ih
          · clear h1
            induction h2 with
            | root hx hp' => exact RootOf.root hx hp'
            | step hx hp' _ ih => exact RootOf.step hx hp' ih
        · rintro ⟨r, h1, h2⟩
          refine ⟨r, ?_, ?_⟩
          · clear h2
            induction h1 with
            | root hx hp' => exact RootOf.root hx hp'
            | step hx hp' _ ih => exact RootOf.step hx hp' ih
          · clear h1
            induction h2 with
            | root hx hp' => exact RootOf.root hx hp'
            | step hx hp' _ ih => exact RootOf.step hx hp' ih
      rw [hS3]
      have hex : ∀ y, y < d.nodes.length → ∃ r, RootOf d y r := fun y hy =>
        RootOf.exists W (above d y + 1) y (Nat.lt_succ_self _) hy
      -- the representatives of `a` and `b` are `w` and `l`, in some order
      have hab : (pa = w ∧ pb = l) ∨ (pa = l ∧ pb = w) := by
        rcases hwl with ⟨h1, h2⟩ | ⟨h1, h2⟩
        · exact Or.inl ⟨h1.symm, h2.symm⟩
        · exact Or.inr ⟨h2.symm, h1.symm⟩
      constructor
      · rintro ⟨r, h1, h2⟩
        have hi : i < d.nodes.length := by rw [← C.len, ← len3]; exact h1.lt
        have hj : j < d.nodes.length := by rw [← C.len, ← len3]; exact h2.lt
        obtain ⟨ri, hri⟩ := hex i hi
        obtain ⟨rj, hrj⟩ := hex j hj
        have ei := RootOf.unique (hfwd i ri hri) h1
        have ej := RootOf.unique (hfwd j rj hrj) h2
        by_cases hil : ri = l
        · by_cases hjl : rj = l
          · exact Or.inl ⟨ri, hri, by rw [hil, ← hjl]; exact hrj⟩
          · rw [if_pos hil] at ei
            rw [if_neg hjl] at ej
            have hjw : rj = w := ej.trans ei.symm
            rcases hab with ⟨h1', h2'⟩ | ⟨h1', h2'⟩
            · exact Or.inr (Or.inr ⟨⟨ri, hri, by rw [hil, ← h2']; exact r2⟩,
                ⟨rj, by rw [hjw, ← h1']; exact r1, hrj⟩⟩)
            · exact Or.inr (Or.inl ⟨⟨ri, hri, by rw [hil, ← h1']; exact r1⟩,
                ⟨rj, by rw [hjw, ← h2']; exact r2, hrj⟩⟩)
        · by_cases hjl : rj = l
          · rw [if_neg hil] at ei
            rw [if_pos hjl] at ej
            have hiw : ri = w := ei.trans ej.symm
            rcases hab with ⟨h1', h2'⟩ | ⟨h1', h2'⟩
            · exact Or.inr (Or.inl ⟨⟨ri, hri, by rw [hiw, ← h1']; exact r1⟩,
                ⟨rj, by rw [hjl, ← h2']; exact r2, hrj⟩⟩)
            · exact Or.inr (Or.inr ⟨⟨ri, hri, by rw [hiw, ← h2']; exact r2⟩,
                ⟨rj, by rw [hjl, ← h1']; exact r1, hrj⟩⟩)
          · rw [if_neg hil] at ei
            rw [if_neg hjl] at ej
            exact Or.inl ⟨ri, hri, by rw [ei, ← ej]; exact hrj⟩
      · have key : ∀ y r, RootOf d y r → (r = pa ∨ r = pb) → RootOf d3 y w := by
          intro y r hr hrr
          have := hfwd y r hr
          rcases hab with ⟨h1', h2'⟩ | ⟨h1', h2'⟩
          · rcases hrr with e | e
            · rw [e, h1', if_neg hw.2.2.2.2] at this; exact this
            · rw [e, h2', if_pos rfl] at this; exact this
          · rcases hrr with e | e
            · rw [e, h1', if_pos rfl] at this; exact this
            · rw [e, h2', if_neg hw.2.2.2.2] at this; exact this
        rintro (⟨r, h1, h2⟩ | ⟨⟨r, h1, h2⟩, ⟨r', h3, h4⟩⟩ | ⟨⟨r, h1, h2⟩, ⟨r', h3, h4⟩⟩)
        · exact ⟨_, hfwd i r h1, hfwd j r h2⟩
        · exact ⟨w, key i r h1 (Or.inl (RootOf.unique h2 r1)),
            key j r' h4 (Or.inr (RootOf.unique h3 r2))⟩
        · exact ⟨w, key i r h1 (Or.inr (RootOf.unique h2 r2)),
            key j r' h4 (Or.inl (RootOf.unique h3 r1))⟩

theorem init_nodes (n : Nat) : (init n).nodes.length = n := by simp [init]

theorem init_parent (n x : Nat) : parentOf (init n) x = x := by
  unfold parentOf init
  by_cases hx : x < n
  · have : ((List.range n).map (fun i => ({ parent := i, rank := 0 } : Node)))[x]? =
        some { parent := x, rank := 0 } := by
      rw [List.getElem?_map, List.getElem?_range hx]
      rfl
    simp only [this]
  · have : ((List.range n).map (fun i => ({ parent := i, rank := 0 } : Node)))[x]? = none := by
      rw [List.getElem?_eq_none]
      simpa using hx
    simp only [this]

theorem init_rootOf {n x r : Nat} (h : RootOf (init n) x r) : x = r := by
  cases h with
  | root _ _ => rfl
  | step _ hp _ => exact absurd (init_parent n x) hp

theorem init_dinv (n : Nat) : DInv (init n) := by
  refine ⟨⟨?_, ?_⟩, ?_⟩
  · intro x hx
    rw [init_parent]; exact hx
  · intro x _ hp
    exact absurd (init_parent n x) hp
  · unfold rootCount
    rw [init_nodes]
    have : List.countP (fun x => decide (parentOf (init n) x = x)) (List.range n) =
        (List.range n).length := by
      rw [List.countP_eq_length]
      intro x _
      simp [init_parent]
    rw [this]
    simp [init]

theorem init_same {n i j : Nat} (hi : i < n) : Same (init n) i j ↔ i = j := by
  constructor
  · rintro ⟨r, h1, h2⟩
    exact (init_rootOf h1).trans (init_rootOf h2).symm
  · intro e
    subst e
    exact ⟨i, RootOf.root (by rw [init_nodes]; exact hi) (init_parent n i),
      RootOf.root (by rw [init_nodes]; exact hi) (init_parent n i)⟩

/-- The equivalence generated by a relation and one more pair. -/
theorem eqvGen_add {r : Nat → Nat → Prop} (a b i j : Nat) :
    Relation.EqvGen (fun x y => r x y ∨ (x = a ∧ y = b)) i j ↔
      Relation.EqvGen r i j ∨ (Relation.EqvGen r i a ∧ Relation.EqvGen r b j) ∨
        (Relation.EqvGen r i b ∧ Relation.EqvGen r a j) := by
  constructor
  · intro h
    induction h with
    | rel x y hxy =>
      rcases hxy with h | ⟨rfl, rfl⟩
      · exact Or.inl (Relation.EqvGen.rel _ _ h)
      · exact Or.inr (Or.inl ⟨Relation.EqvGen.refl _, Relation.EqvGen.refl _⟩)
    | refl x => exact Or.inl (Relation.EqvGen.refl _)
    | symm x y _ ih =>
      rcases ih with h | ⟨h1, h2⟩ | ⟨h1, h2⟩
      · exact Or.inl (Relation.EqvGen.symm _ _ h)
      · exact Or.inr (Or.inr ⟨Relation.EqvGen.symm _ _ h2, Relation.EqvGen.symm _ _ h1⟩)
      · exact Or.inr (Or.inl ⟨Relation.EqvGen.symm _ _ h2, Relation.EqvGen.symm _ _ h1⟩)
    | trans x y z _ _ ih1 ih2 =>
      have T := @Relation.EqvGen.trans Nat r
      have S := @Relation.EqvGen.symm Nat r
      rcases ih1 with h | ⟨h1, h2⟩ | ⟨h1, h2⟩ <;> rcases ih2 with k | ⟨k1, k2⟩ | ⟨k1, k2⟩
      · exact Or.inl (T _ _ _ h k)
      · exact Or.inr (Or.inl ⟨T _ _ _ h k1, k2⟩)
      · exact Or.inr (Or.inr ⟨T _ _ _ h k1, k2⟩)
      · exact Or.inr (Or.inl ⟨h1, T _ _ _ h2 k⟩)
      · exact Or.inr (Or.inl ⟨h1, k2⟩)
      · exact Or.inl (T _ _ _ h1 k2)
      · exact Or.inr (Or.inr ⟨h1, T _ _ _ h2 k⟩)
      · exact Or.inl (T _ _ _ h1 k2)
      · exact Or.inr (Or.inr ⟨h1, k2⟩)
  · have M : ∀ x y, Relation.EqvGen r x y →
        Relation.EqvGen (fun x y => r x y ∨ (x = a ∧ y = b)) x y :=
      fun x y h => Relation.EqvGen.mono (fun _ _ h' => Or.inl h') h
    have AB : Relation.EqvGen (fun x y => r x y ∨ (x = a ∧ y = b)) a b :=
      Relation.EqvGen.rel _ _ (Or.inr ⟨rfl, rfl⟩)
    rintro (h | ⟨h1, h2⟩ | ⟨h1, h2⟩)
    · exact M _ _ h
    · exact Relation.EqvGen.trans _ _ _ (M _ _ h1) (Relation.EqvGen.trans _ _ _ AB (M _ _ h2))
    · exact Relation.EqvGen.trans _ _ _ (M _ _ h1)
        (Relation.EqvGen.trans _ _ _ (Relation.EqvGen.symm _ _ AB) (M _ _ h2))

theorem eqvGen_nil {i j : Nat}
    (h : Relation.EqvGen (fun x y => (x, y) ∈ ([] : List (Nat × Nat))) i j) : i = j := by
  induction h with
  | rel x y hxy => simp at hxy
  | refl x => rfl
  | symm x y _ ih => exact ih.symm
  | trans x y z _ _ ih1 ih2 => exact ih1.trans ih2

theorem eqvGen_congr (r r' : Nat → Nat → Prop) (h : ∀ x y, r x y ↔ r' x y) (i j : Nat) :
    Relation.EqvGen r i j ↔ Relation.EqvGen r' i j :=
  ⟨Relation.EqvGen.mono (fun x y => (h x y).1), Relation.EqvGen.mono (fun x y => (h x y).2)⟩

theorem join_all_spec {n : Nat} : ∀ (ps done : List (Nat × Nat)) (d : DisjointSetForest),
    DInv d → d.nodes.length = n → (∀ p ∈ ps, p.1 < n ∧ p.2 < n) →
    (∀ p ∈ done, p.1 < n ∧ p.2 < n) →
    (∀ i j, i < n → j < n →
      (Same d i j ↔ Relation.EqvGen (fun x y => (x, y) ∈ done) i j)) →
    ∃ d', join_all d ps = .ok d' ∧ DInv d' ∧ d'.nodes.length = n ∧
      ∀ i j, i < n → j < n →
        (Same d' i j ↔ Relation.EqvGen (fun x y => (x, y) ∈ done ++ ps) i j) := by
  intro ps
  induction ps with
  | nil =>
    intro done d I hn _ _ hS
    refine ⟨d, rfl, I, hn, ?_⟩
    simpa using hS
  | cons p ps ih =>
    intro done d I hn hps hdone hS
    obtain ⟨a, b⟩ := p
    have hab := hps (a, b) (List.mem_cons_self _ _)
    simp only at hab
    obtain ⟨d1, e1, I1, len1, _, hS1, _, _⟩ :=
      join_spec I (a := a) (b := b) (by rw [hn]; exact hab.1) (by rw [hn]; exact hab.2)
    have hdone1 : ∀ p ∈ done ++ [(a, b)], p.1 < n ∧ p.2 < n := by
      intro p hp
      rcases List.mem_append.1 hp with h | h
      · exact hdone p h
      · simp at h; subst h; exact hab
    obtain ⟨d', e', I', len', hS'⟩ := ih (done ++ [(a, b)]) d1 I1 (len1.trans hn)
      (fun p hp => hps p (List.mem_cons_of_mem _ hp)) hdone1 (by
        intro i j hi hj
        rw [hS1]
        have hc := eqvGen_congr (fun x y => (x, y) ∈ done ++ [(a, b)])
          (fun x y => (x, y) ∈ done ∨ (x = a ∧ y = b)) (by
            intro x y
            simp [List.mem_append]) i j
        rw [hc, eqvGen_add, hS i j hi hj, hS i a hi hab.1, hS b j hab.2 hj, hS i b hi hab.2,
          hS a j hab.1 hj])
    refine ⟨d', ?_, I', len', ?_⟩
    · simp only [join_all, e1, bind, Except.bind]
      exact e'
    · intro i j hi hj
      rw [hS' i j hi hj]
      simp [List.append_assoc]

theorem Reach.inv {n : Nat} {d : DisjointSetForest} (h : Reach n d) :
    DInv d ∧ d.nodes.length = n := by
  induction h with
  | init => exact ⟨init_dinv n, init_nodes n⟩
  | join _ ha hb e ih =>
    obtain ⟨d', e', I', len', _⟩ := join_spec ih.1 (by rw [ih.2]; exact ha) (by rw [ih.2]; exact hb)
    rw [e'] at e
    cases e
    exact ⟨I', len'.trans ih.2⟩
  | same_set _ ha hb e ih =>
    obtain ⟨r, d', e', _, C⟩ := same_set_spec ih.1.wf (by rw [ih.2]; exact ha)
      (by rw [ih.2]; exact hb)
    rw [e'] at e
    cases e
    exact ⟨⟨C.keeps_wf ih.1.wf, by rw [C.sets, ih.1.count, C.rootCount_eq ih.1.wf]⟩, C.len.trans ih.2⟩

/-- C23: for every `n`, every sequence of calls `join(a, b)` with `a, b < n`
on `DisjointSetForest(n)` returns, and afterwards, for all `i, j < n`,
`same_set(i, j)` returns `true` exactly when `i` and `j` are related by the
reflexive, symmetric and transitive closure of the joined pairs. -/
theorem same_set_correct (n : Nat) (pairs : List (Nat × Nat))
    (hp : ∀ p ∈ pairs, p.1 < n ∧ p.2 < n) (i j : Nat) (hi : i < n) (hj : j < n) :
    ∃ d r d', join_all (init n) pairs = .ok d ∧ same_set d i j = .ok (r, d') ∧
      (r = true ↔ Relation.EqvGen (fun a b => (a, b) ∈ pairs) i j) := by
  obtain ⟨d, e, I, len, hS⟩ := join_all_spec pairs [] (init n) (init_dinv n) (init_nodes n) hp
    (by simp) (by
      intro i j hi _
      rw [init_same hi]
      constructor
      · intro e; exact e ▸ Relation.EqvGen.refl _
      · exact eqvGen_nil)
  obtain ⟨r, d', e', hr, _⟩ := same_set_spec I.wf (a := i) (b := j) (by rw [len]; exact hi)
    (by rw [len]; exact hj)
  refine ⟨d, r, d', e, e', ?_⟩
  rw [hr, hS i j hi hj]
  simp

theorem same_set_correct_witness :
    ∃ d r d', join_all (init 4) [(0, 1), (2, 3), (1, 3)] = .ok d ∧
      same_set d 0 2 = .ok (r, d') ∧
      (r = true ↔ Relation.EqvGen (fun a b => (a, b) ∈ [(0, 1), (2, 3), (1, 3)]) 0 2) :=
  same_set_correct 4 [(0, 1), (2, 3), (1, 3)] (by decide) 0 2 (by decide) (by decide)

/-- C24: in every forest reached from `DisjointSetForest(n)` by calls of
`join` and `same_set`, `n_sets()` is the number of distinct representatives
of the `n` elements; it is `n` after construction; `join(a, b)` returns and
leaves it unchanged when `a` and `b` were in the same set and decreases it by
exactly 1 otherwise; `same_set` returns and does not change it. -/
theorem n_sets_correct (n : Nat) (d : DisjointSetForest) (hr : Reach n d) :
    (∃ reps : List Nat, reps.Nodup ∧ (∀ r, r ∈ reps ↔ ∃ x, x < n ∧ RootOf d x r) ∧
      n_sets d = reps.length) ∧
    n_sets (init n) = n ∧
    (∀ a b, a < n → b < n → ∃ d', join d a b = .ok d' ∧
      (Same d a b → n_sets d' = n_sets d) ∧ (¬ Same d a b → n_sets d' = n_sets d - 1)) ∧
    (∀ a b, a < n → b < n → ∃ r d', same_set d a b = .ok (r, d') ∧ n_sets d' = n_sets d) := by
  obtain ⟨I, len⟩ := hr.inv
  refine ⟨⟨(List.range n).filter (fun r => decide (parentOf d r = r)),
    (List.nodup_range n).filter _, ?_, ?_⟩, rfl, ?_, ?_⟩
  · intro r
    simp only [List.mem_filter, List.mem_range, decide_eq_true_eq]
    constructor
    · rintro ⟨h1, h2⟩
      exact ⟨r, h1, RootOf.root (by rw [len]; exact h1) h2⟩
    · rintro ⟨x, _, h⟩
      have := h.is_root
      exact ⟨by rw [← len]; exact this.1, this.2⟩
  · show d.nsets = _
    rw [I.count, rootCount, len, List.countP_eq_length_filter]
  · intro a b ha hb
    obtain ⟨d', e, _, _, _, _, h1, h2⟩ := join_spec I (a := a) (b := b) (by rw [len]; exact ha)
      (by rw [len]; exact hb)
    exact ⟨d', e, h1, h2⟩
  · intro a b ha hb
    obtain ⟨r, d', e, _, C⟩ := same_set_spec I.wf (a := a) (b := b) (by rw [len]; exact ha)
      (by rw [len]; exact hb)
    exact ⟨r, d', e, C.sets⟩

theorem n_sets_correct_witness :
    Reach 3 (init 3) ∧
    (∃ reps : List Nat, reps.Nodup ∧ (∀ r, r ∈ reps ↔ ∃ x, x < 3 ∧ RootOf (init 3) x r) ∧
      n_sets (init 3) = reps.length) ∧
    n_sets (init 3) = (3 : Nat) ∧
    (∀ a b, a < 3 → b < 3 → ∃ d', join (init 3) a b = .ok d' ∧
      (Same (init 3) a b → n_sets d' = n_sets (init 3)) ∧
      (¬ Same (init 3) a b → n_sets d' = n_sets (init 3) - 1)) ∧
    (∀ a b, a < 3 → b < 3 → ∃ r d', same_set (init 3) a b = .ok (r, d') ∧
      n_sets d' = n_sets (init 3)) :=
  ⟨Reach.init, n_sets_correct 3 (init 3) Reach.init⟩

end DisjointSet

namespace BinaryHeap

theorem heap_vec_get_ok {a : List Int} {i : Nat} (hi : i < a.length) :
    vec_get a i = .ok (a.getD i 0) := by
  simp [vec_get, List.getElem?_eq_getElem hi, List.getD_eq_getElem?_getD]

theorem swap_ok {a : List Int} {i j : Nat} (hi : i < a.length) (hj : j < a.length) :
    swap a i j = .ok ((a.set i (a.getD j 0)).set j (a.getD i 0)) := by
  simp only [swap, heap_vec_get_ok hi, heap_vec_get_ok hj, bind, Except.bind, pure, Except.pure]

theorem heap_getD_set {l : List Int} {b : Nat} (v : Nat) (x d : Int) (hb : b < l.length) :
    (l.set b x).getD v d = if v = b then x else l.getD v d := by
  simp only [List.getD_eq_getElem?_getD, List.getElem?_set]
  by_cases h : b = v
  · subst h; simp [hb]
  · have : ¬ v = b := fun e => h e.symm
    simp [h, this]

theorem swap_getD {a : List Int} {i j : Nat} (hi : i < a.length) (hj : j < a.length) (q : Nat) :
    ((a.set i (a.getD j 0)).set j (a.getD i 0)).getD q 0 =
      if q = j then a.getD i 0 else if q = i then a.getD j 0 else a.getD q 0 := by
  rw [heap_getD_set q _ _ (by simpa using hj), heap_getD_set q _ _ hi]

theorem count_set_add (l : List Int) (i : Nat) (v x : Int) (h : i < l.length) :
    List.count x (l.set i v) + (if l.getD i 0 = x then 1 else 0) =
      List.count x l + (if v = x then 1 else 0) := by
  have gi : l.getD i 0 = l[i] := by
    simp [List.getD_eq_getElem?_getD, List.getElem?_eq_getElem h]
  rw [List.count_set _ _ _ _ h, gi]
  by_cases e1 : l[i] = x
  · have h1 : 1 ≤ List.count x l := List.count_pos_iff.2 (e1 ▸ List.getElem_mem h)
    by_cases e2 : v = x <;> simp [e1, e2] <;> omega
  · by_cases e2 : v = x <;> simp [e1, e2]

theorem swap_perm {a : List Int} {i j : Nat} (hi : i < a.length) (hj : j < a.length) :
    ((a.set i (a.getD j 0)).set j (a.getD i 0)).Perm a := by
  rw [List.perm_iff_count]
  intro x
  have h1 := count_set_add (a.set i (a.getD j 0)) j (a.getD i 0) x (by simpa using hj)
  have h2 := count_set_add a i (a.getD j 0) x hi
  rw [heap_getD_set j _ _ hi] at h1
  have h3 : (if j = i then a.getD j 0 else a.getD j 0) = a.getD j 0 := by
    by_cases e : j = i <;> simp [e]
  rw [h3] at h1
  omega

theorem child_eqs {i : Nat} (hi : i + 1 < 9223372036854775808) :
    left_child i = 2 * i + 1 ∧ right_child i = 2 * i + 2 := by
  unfold left_child right_child SIZE
  omega

/-- One comparison of `percolateDown`, with the rest of the body `k`. -/
theorem pick_ok {β : Type} {a : List Int} {c t : Nat} (ht : t < a.length)
    (k : Nat → Except Err β) :
    (if c < a.length then do
        let y ← (do
          let x1 ← vec_get a t
          let x2 ← vec_get a c
          if x1 < x2 then pure c else pure t)
        k y
      else do
        let y ← pure t
        k y) = k (if c < a.length ∧ a.getD t 0 < a.getD c 0 then c else t) := by
  by_cases h1 : c < a.length
  · simp only [h1, if_true, heap_vec_get_ok ht, heap_vec_get_ok h1, bind, Except.bind, true_and]
    by_cases h2 : a.getD t 0 < a.getD c 0
    · simp only [h2, if_true]; rfl
    · simp only [h2, if_false]; rfl
  · simp only [h1, if_false, false_and]; rfl

theorem percolateDown_spec : ∀ (fuel : Nat) (a : List Int) (i lo : Nat),
    a.length < 9223372036854775808 → i < a.length → lo ≤ i → a.length - i ≤ fuel →
    (∀ p, lo ≤ p → p ≠ i → HeapAt a p) →
    (∀ g, lo ≤ g → (i = 2 * g + 1 ∨ i = 2 * g + 2) →
      ∀ c, c < a.length → (c = 2 * i + 1 ∨ c = 2 * i + 2) → a.getD c 0 ≤ a.getD g 0) →
    ∃ a', percolateDown fuel a i = .ok a' ∧ a'.Perm a ∧ ∀ p, lo ≤ p → HeapAt a' p := by
  intro fuel
  induction fuel with
  | zero => intro a i lo _ hi _ hf; omega
  | succ f ih =>
    intro a i lo hs hi hlo hf pre1 pre2
    obtain ⟨el, er⟩ := child_eqs (i := i) (by omega)
    -- the index of the largest of `a[i]` and its children
    obtain ⟨t1, ht1⟩ : ∃ t1, t1 =
        if 2 * i + 1 < a.length ∧ a.getD i 0 < a.getD (2 * i + 1) 0 then 2 * i + 1 else i :=
      ⟨_, rfl⟩
    have ht1s : t1 < a.length := by
      rw [ht1]
      split_ifs with h
      · exact h.1
      · exact hi
    obtain ⟨t2, ht2⟩ : ∃ t2, t2 =
        if 2 * i + 2 < a.length ∧ a.getD t1 0 < a.getD (2 * i + 2) 0 then 2 * i + 2 else t1 :=
      ⟨_, rfl⟩
    have hrun : percolateDown (f + 1) a i =
        if t2 ≠ i then (do let a ← swap a t2 i; percolateDown f a t2) else pure a := by
      rw [percolateDown]
      dsimp only
      rw [el, er, pick_ok hi, ← ht1, pick_ok ht1s, ← ht2]
    -- what the two comparisons give
    have facts : t2 < a.length ∧ (t2 = i ∨ t2 = 2 * i + 1 ∨ t2 = 2 * i + 2) ∧
        a.getD i 0 ≤ a.getD t2 0 ∧
        ∀ c, c < a.length → (c = 2 * i + 1 ∨ c = 2 * i + 2) → a.getD c 0 ≤ a.getD t2 0 := by
      by_cases h1 : 2 * i + 1 < a.length ∧ a.getD i 0 < a.getD (2 * i + 1) 0
      · rw [if_pos h1] at ht1
        rw [ht1] at ht2
        by_cases h2 : 2 * i + 2 < a.length ∧ a.getD (2 * i + 1) 0 < a.getD (2 * i + 2) 0
        · rw [if_pos h2] at ht2
          rw [ht2]
          refine ⟨h2.1, Or.inr (Or.inr rfl), by omega, ?_⟩
          rintro c _ (rfl | rfl)
          · omega
          · exact le_rfl
        · rw [if_neg h2] at ht2
          rw [ht2]
          refine ⟨h1.1, Or.inr (Or.inl rfl), by omega, ?_⟩
          rintro c hc (rfl | rfl)
          · exact le_rfl
          · have : ¬ a.getD (2 * i + 1) 0 < a.getD (2 * i + 2) 0 := fun h => h2 ⟨hc, h⟩
            omega
      · rw [if_neg h1] at ht1
        rw [ht1] at ht2
        by_cases h2 : 2 * i + 2 < a.length ∧ a.getD i 0 < a.getD (2 * i + 2) 0
        · rw [if_pos h2] at ht2
          rw [ht2]
          refine ⟨h2.1, Or.inr (Or.inr rfl), by omega, ?_⟩
          rintro c hc (rfl | rfl)
          · have : ¬ a.getD i 0 < a.getD (2 * i + 1) 0 := fun h => h1 ⟨hc, h⟩
            omega
          · exact le_rfl
        · rw [if_neg h2] at ht2
          rw [ht2]
          refine ⟨hi, Or.inl rfl, le_rfl, ?_⟩
          rintro c hc (rfl | rfl)
          · have : ¬ a.getD i 0 < a.getD (2 * i + 1) 0 := fun h => h1 ⟨hc, h⟩
            omega
          · have : ¬ a.getD i 0 < a.getD (2 * i + 2) 0 := fun h => h2 ⟨hc, h⟩
            omega
    obtain ⟨ht2s, hcase, hge, hch⟩ := facts
    by_cases htop : t2 = i
    · refine ⟨a, ?_, List.Perm.refl _, ?_⟩
      · rw [hrun]; simp [htop, pure, Except.pure]
      · intro p hp
        by_cases e : p = i
        · intro c hc hcc
          rw [e] at hcc ⊢
          have := hch c hc hcc
          rw [htop] at this
          exact this
        · exact pre1 p hp e
    · have hchild : t2 = 2 * i + 1 ∨ t2 = 2 * i + 2 := by
        rcases hcase with h | h
        · exact absurd h htop
        · exact h
      have hG := swap_getD (a := a) ht2s hi
      have hlen : ((a.set t2 (a.getD i 0)).set i (a.getD t2 0)).length = a.length := by simp
      obtain ⟨a', ea, hperm, hheap⟩ := ih ((a.set t2 (a.getD i 0)).set i (a.getD t2 0)) t2 lo
        (by rw [hlen]; exact hs) (by rw [hlen]; exact ht2s) (by omega) (by rw [hlen]; omega)
        (by
          intro p hp hpt c hc hcc
          rw [hlen] at hc
          rw [hG, hG]
          by_cases e : p = i
          · have hci : ¬ c = i := by omega
            rw [if_pos e, if_neg hci]
            by_cases ect : c = t2
            · rw [if_pos ect]; exact hge
            · rw [if_neg ect]
              exact hch c hc (by rw [e] at hcc; exact hcc)
          · rw [if_neg e, if_neg hpt]
            by_cases eci : c = i
            · rw [if_pos eci]
              exact pre2 p hp (by omega) t2 ht2s hchild
            · have ect : ¬ c = t2 := by omega
              rw [if_neg eci, if_neg ect]
              exact pre1 p hp e c hc hcc)
        (by
          intro g hg hgt c hc hcc
          rw [hlen] at hc
          have hgi : g = i := by omega
          have hci : ¬ c = i := by omega
          have hct : ¬ c = t2 := by omega
          rw [hG, hG, if_neg hci, if_neg hct, if_pos hgi]
          exact pre1 t2 (by omega) htop c hc hcc)
      refine ⟨a', ?_, hperm.trans (swap_perm ht2s hi), hheap⟩
      rw [hrun]
      simp only [htop, ne_eq, not_false_eq_true, if_true, swap_ok ht2s hi, bind, Except.bind]
      exact ea

theorem heapify_loop_spec : ∀ (i : Nat) (a : List Int), a.length < 9223372036854775808 →
    i ≤ a.length → (∀ p, i ≤ p → HeapAt a p) →
    ∃ a', heapify_loop i a = .ok a' ∧ a'.Perm a ∧ ∀ p, HeapAt a' p := by
  intro i
  induction i with
  | zero =>
    intro a _ _ h
    exact ⟨a, rfl, List.Perm.refl _, fun p => h p (Nat.zero_le _)⟩
  | succ i ih =>
    intro a hs hi h
    obtain ⟨a1, e1, hperm1, h1⟩ := percolateDown_spec a.length a i i hs (by omega) le_rfl
      (by omega) (fun p hp hne => h p (by omega)) (fun g hg hgi => by omega)
    have hlen := hperm1.length_eq
    obtain ⟨a', e', hperm', h'⟩ := ih a1 (by rw [hlen]; exact hs) (by rw [hlen]; omega) h1
    refine ⟨a', ?_, hperm'.trans hperm1, h'⟩
    simp only [heapify_loop, e1, bind, Except.bind]
    exact e'

/-- C25: for every vector `a` (of a size below `2 ^ 63`, as every vector in
memory), `heapify(a)` returns, the result is a permutation of `a`, and in it
`a[(i-1)/2] >= a[i]` for every `i` with `1 <= i < a.size()`. -/
theorem heapify_correct (a : List Int) (hs : a.length < 9223372036854775808) :
    ∃ a', heapify a = .ok a' ∧ a'.Perm a ∧
      ∀ i, 1 ≤ i → i < a'.length → a'.getD i 0 ≤ a'.getD ((i - 1) / 2) 0 := by
  have fin : ∀ a' : List Int, (∀ p, HeapAt a' p) →
      ∀ i, 1 ≤ i → i < a'.length → a'.getD i 0 ≤ a'.getD ((i - 1) / 2) 0 := by
    intro a' h i hi hlt
    exact h ((i - 1) / 2) i hlt (by omega)
  by_cases h2 : a.length < 2
  · refine ⟨a, by simp [heapify, h2, pure, Except.pure], List.Perm.refl _, ?_⟩
    intro i hi hlt
    omega
  · have hp : parent (a.length - 1) = (a.length - 2) / 2 := by
      unfold parent SIZE
      omega
    obtain ⟨a', e, hperm, h⟩ := heapify_loop_spec ((a.length - 2) / 2 + 1) a hs (by omega)
      (by
        intro p hp c hc hcc
        omega)
    refine ⟨a', ?_, hperm, fin a' h⟩
    simp only [heapify, h2, if_false, hp]
    exact e

theorem heapify_correct_witness :
    ([3, 1, 4, 1, 5, 9, 2, 6] : List Int).length < 9223372036854775808 ∧
    ∃ a', heapify [3, 1, 4, 1, 5, 9, 2, 6] = .ok a' ∧ a'.Perm [3, 1, 4, 1, 5, 9, 2, 6] ∧
      ∀ i, 1 ≤ i → i < a'.length → a'.getD i 0 ≤ a'.getD ((i - 1) / 2) 0 :=
  ⟨by decide, heapify_correct [3, 1, 4, 1, 5, 9, 2, 6] (by decide)⟩

theorem parent_eq {i : Nat} (h1 : 1 ≤ i) (h2 : i < SIZE) : parent i = (i - 1) / 2 := by
  unfold parent
  unfold SIZE at h2 ⊢
  omega

theorem percolateUp_loop_spec : ∀ (fuel : Nat) (a : List Int) (i : Nat),
    a.length ≤ SIZE → i < a.length → i < fuel →
    (∀ k, 1 ≤ k → k < a.length → k ≠ i → a.getD k 0 ≤ a.getD ((k - 1) / 2) 0) →
    (∀ c, 1 ≤ i → 1 ≤ c → c < a.length → (c - 1) / 2 = i →
      a.getD c 0 ≤ a.getD ((i - 1) / 2) 0) →
    ∃ b, percolateUp_loop fuel a i = .ok b ∧ b.Perm a ∧ MaxHeap b := by
  intro fuel
  induction fuel with
  | zero => intro a i _ _ hf; omega
  | succ f ih =>
    intro a i hs hi hf pre1 pre2
    by_cases h0 : i = 0
    · subst h0
      refine ⟨a, by simp [percolateUp_loop, pure, Except.pure], List.Perm.refl _, ?_⟩
      intro k hk1 hk2
      exact pre1 k hk1 hk2 (by omega)
    · have hpar : parent i = (i - 1) / 2 := parent_eq (by omega) (by omega)
      obtain ⟨j, hj⟩ : ∃ j, j = (i - 1) / 2 := ⟨_, rfl⟩
      have hji : j < i := by omega
      have hjl : j < a.length := by omega
      by_cases hgt : a.getD j 0 > a.getD i 0
      · refine ⟨a, ?_, List.Perm.refl _, ?_⟩
        · rw [percolateUp_loop, hpar, ← hj]
          simp only [h0, ne_eq, not_false_eq_true, if_true, heap_vec_get_ok hjl,
            heap_vec_get_ok hi, bind, Except.bind, hgt]
          rfl
        · intro k hk1 hk2
          by_cases hki : k = i
          · subst hki
            rw [← hj]
            omega
          · exact pre1 k hk1 hk2 hki
      · have hlen : ((a.set j (a.getD i 0)).set i (a.getD j 0)).length = a.length := by simp
        have hget : ∀ q, ((a.set j (a.getD i 0)).set i (a.getD j 0)).getD q 0 =
            if q = i then a.getD j 0 else if q = j then a.getD i 0 else a.getD q 0 :=
          fun q => swap_getD hjl hi q
        have hjj : ∀ q, 1 ≤ q → (q - 1) / 2 < q := by intro q hq; omega
        obtain ⟨b, hb, hperm, hheap⟩ := ih ((a.set j (a.getD i 0)).set i (a.getD j 0)) j
          (by rw [hlen]; exact hs) (by rw [hlen]; exact hjl) (by omega)
          (by
            intro k hk1 hk2 hkj
            rw [hlen] at hk2
            rw [hget, hget]
            by_cases hki : k = i
            · subst hki
              rw [if_pos rfl, ← hj, if_neg (by omega), if_pos rfl]
              omega
            · rw [if_neg hki, if_neg hkj]
              by_cases hp1 : (k - 1) / 2 = i
              · rw [if_pos hp1]
                have := pre2 k (by omega) hk1 hk2 hp1
                rw [← hj] at this
                exact this
              · rw [if_neg hp1]
                by_cases hp2 : (k - 1) / 2 = j
                · rw [if_pos hp2]
                  have := pre1 k hk1 hk2 hki
                  rw [hp2] at this
                  omega
                · rw [if_neg hp2]
                  exact pre1 k hk1 hk2 hki)
          (by
            intro c hj1 hc1 hc2 hcp
            rw [hlen] at hc2
            have hg := hjj j hj1
            have hR : ((a.set j (a.getD i 0)).set i (a.getD j 0)).getD ((j - 1) / 2) 0 =
                a.getD ((j - 1) / 2) 0 := by
              rw [hget, if_neg (by omega), if_neg (by omega)]
            rw [hR, hget]
            have hjg := pre1 j hj1 hjl (by omega)
            by_cases hci : c = i
            · rw [if_pos hci]
              exact hjg
            · rw [if_neg hci, if_neg (by omega)]
              have := pre1 c hc1 hc2 hci
              rw [hcp] at this
              omega)
        refine ⟨b, ?_, hperm.trans (swap_perm hjl hi), hheap⟩
        rw [percolateUp_loop, hpar, ← hj]
        simp only [h0, ne_eq, not_false_eq_true, if_true, heap_vec_get_ok hjl, heap_vec_get_ok hi,
          bind, Except.bind, hgt, if_false, swap_ok hjl hi]
        exact hb

/-- C35: `percolateUp(a, 0)` returns with `a` as it was; and when `a` is a
max-heap and `a[i]` is replaced by a value `v` that is at least the old
value, `percolateUp(a, i)` returns with a vector that is a max-heap and a
permutation of the vector it was called on. -/
theorem percolateUp_correct :
    (∀ a : List Int, percolateUp a 0 = .ok a) ∧
    ∀ (a : List Int) (i : Nat) (v : Int), a.length ≤ SIZE → i < a.length → MaxHeap a →
      a.getD i 0 ≤ v →
      ∃ b, percolateUp (a.set i v) i = .ok b ∧ b.Perm (a.set i v) ∧ MaxHeap b := by
  refine ⟨fun a => by simp [percolateUp, pure, Except.pure], ?_⟩
  intro a i v hs hi hheap hv
  have hlen : (a.set i v).length = a.length := by simp
  have hget : ∀ q, (a.set i v).getD q 0 = if q = i then v else a.getD q 0 :=
    fun q => heap_getD_set q v 0 hi
  by_cases h0 : i = 0
  · subst h0
    refine ⟨a.set 0 v, by simp [percolateUp, pure, Except.pure], List.Perm.refl _, ?_⟩
    intro k hk1 hk2
    rw [hlen] at hk2
    rw [hget, hget, if_neg (by omega)]
    have := hheap k hk1 hk2
    split_ifs with h
    · rw [h] at this
      omega
    · exact this
  · have hrun : percolateUp (a.set i v) i = percolateUp_loop (i + 1) (a.set i v) i := by
      simp [percolateUp, h0]
    rw [hrun]
    refine percolateUp_loop_spec (i + 1) (a.set i v) i (by rw [hlen]; exact hs)
      (by rw [hlen]; exact hi) (by omega) ?_ ?_
    · intro k hk1 hk2 hki
      rw [hlen] at hk2
      rw [hget, hget, if_neg hki]
      have := hheap k hk1 hk2
      split_ifs with h
      · rw [h] at this
        omega
      · exact this
    · intro c hi1 hc1 hc2 hcp
      rw [hlen] at hc2
      have hR : (a.set i v).getD ((i - 1) / 2) 0 = a.getD ((i - 1) / 2) 0 := by
        rw [hget, if_neg (by omega)]
      rw [hR, hget, if_neg (by omega)]
      have h1 := hheap c hc1 hc2
      rw [hcp] at h1
      have h2 := hheap i hi1 hi
      omega

theorem percolateUp_correct_witness :
    [9, 7, 8, 3].length ≤ SIZE ∧ 3 < [9, 7, 8, 3].length ∧ MaxHeap [9, 7, 8, 3] ∧
    ([9, 7, 8, 3] : List Int).getD 3 0 ≤ 100 ∧
    ∃ b, percolateUp (([9, 7, 8, 3] : List Int).set 3 100) 3 = .ok b ∧
      b.Perm (([9, 7, 8, 3] : List Int).set 3 100) ∧ MaxHeap b :=
  have hm : MaxHeap [9, 7, 8, 3] := by
    intro j h1 h2
    simp only [List.length_cons, List.length_nil] at h2
    interval_cases j <;> decide
  ⟨by decide, by decide, hm, by decide,
    percolateUp_correct.2 [9, 7, 8, 3] 3 100 (by decide) (by decide) hm (by decide)⟩

end BinaryHeap

namespace ValueHeap
open FibHeap (Err INT_MIN consolidate_D A_get A_set)

theorem ValStep.id_step {T : Type} (m : Mem T) : ValStep m m := fun _ n h => ⟨n, h, rfl⟩

theorem ValStep.then_step {T : Type} {m m2 m3 : Mem T} (a : ValStep m m2) (b : ValStep m2 m3) :
    ValStep m m3 := by
  intro q n3 h3
  obtain ⟨n2, h2, e2⟩ := b q n3 h3
  obtain ⟨n, h1, e1⟩ := a q n2 h2
  exact ⟨n, h1, e2.trans e1⟩

theorem keeps_pure {T α : Type} {g : α → Mem T} {m : Mem T} {v : α} (h : ValStep m (g v)) :
    Keeps g m (pure v : Except Err α) := by
  intro w e
  cases e
  exact h

theorem keeps_read {T α β : Type} {g : α → Mem T} {m : Mem T} {a : Except Err β}
    {f : β → Except Err α} (hf : ∀ v, a = .ok v → Keeps g m (f v)) :
    Keeps g m (a >>= f) := by
  cases a with
  | error e => intro w e2; simp [Bind.bind, Except.bind] at e2
  | ok v => exact hf v rfl

theorem keeps_bind {T α β : Type} {g : α → Mem T} (g1 : β → Mem T) {m : Mem T}
    {a : Except Err β} {f : β → Except Err α} (ha : Keeps g1 m a)
    (hf : ∀ v, a = .ok v → Keeps g (g1 v) (f v)) : Keeps g m (a >>= f) := by
  cases a with
  | error e => intro w e2; simp [Bind.bind, Except.bind] at e2
  | ok v => exact fun w e => (ha v rfl).then_step (hf v rfl w e)

theorem keeps_throw {T α : Type} {g : α → Mem T} {m : Mem T} (e : Err) :
    Keeps g m (throw e : Except Err α) := by
  intro w e2
  simp [throw, throwThe, MonadExceptOf.throw] at e2

theorem val_look_lt {T : Type} {m : Mem T} {p : Nat} {n : Node T} (h : look m p = some n) :
    p < m.length := by
  by_contra hc
  unfold look at h
  rw [List.getElem?_eq_none (by omega)] at h
  simp at h

theorem val_look_set {T : Type} (m : Mem T) (p q : Nat) (v : Option (Node T))
    (hp : p < m.length) : look (m.set p v) q = if q = p then v else look m q := by
  unfold look
  rw [List.getElem?_set]
  by_cases h : p = q
  · subst h
    simp [hp]
    cases v <;> rfl
  · have : ¬ q = p := fun e => h e.symm
    simp [h, this]

theorem keeps_wr {T : Type} (m : Mem T) (p : Nat) (f : Node T → Node T)
    (hf : ∀ n, (f n).value = n.value) : Keeps id m (wr m p f) := by
  intro m2 e q n2 hq
  unfold wr at e
  cases hp : look m p with
  | none => simp [hp] at e
  | some n =>
    simp only [hp] at e
    cases e
    rw [id, val_look_set m p q _ (val_look_lt hp)] at hq
    by_cases e2 : q = p
    · rw [if_pos e2] at hq
      cases hq
      rw [e2]
      exact ⟨n, hp, hf n⟩
    · rw [if_neg e2] at hq
      exact ⟨n2, hq, rfl⟩

theorem keeps_del {T : Type} (m : Mem T) (p : Nat) : Keeps id m (del m p) := by
  intro m2 e q n2 hq
  unfold del at e
  cases hp : look m p with
  | none => simp [hp] at e
  | some n =>
    simp only [hp] at e
    cases e
    rw [id, val_look_set m p q _ (val_look_lt hp)] at hq
    by_cases e2 : q = p
    · rw [if_pos e2] at hq
      cases hq
    · rw [if_neg e2] at hq
      exact ⟨n2, hq, rfl⟩

theorem keeps_list_insert {T : Type} (m : Mem T) (x l r : Nat) :
    Keeps id m (list_insert m x l r) := by
  unfold list_insert
  refine keeps_bind id (keeps_wr _ _ _ (fun _ => rfl)) (fun _ _ => ?_)
  refine keeps_bind id (keeps_wr _ _ _ (fun _ => rfl)) (fun _ _ => ?_)
  refine keeps_bind id (keeps_wr _ _ _ (fun _ => rfl)) (fun _ _ => ?_)
  refine keeps_bind id (keeps_wr _ _ _ (fun _ => rfl)) (fun _ _ => ?_)
  exact keeps_pure (ValStep.id_step _)

theorem keeps_splice_loop {T : Type} (z : Nat) : ∀ (fuel : Nat) (m : Mem T) (c n : Nat),
    Keeps id m (splice_loop z fuel m c n) := by
  intro fuel
  induction fuel with
  | zero => intro m c n v e; simp [splice_loop] at e
  | succ f ih =>
    intro m c n
    unfold splice_loop
    refine keeps_read (fun _ _ => ?_)
    refine keeps_bind id (keeps_list_insert _ _ _ _) (fun _ _ => ?_)
    refine keeps_bind id (keeps_wr _ _ _ (fun _ => rfl)) (fun _ _ => ?_)
    refine keeps_read (fun _ _ => ?_)
    refine keeps_read (fun _ _ => ?_)
    dsimp only
    split_ifs
    · exact ih _ _ _
    · exact keeps_pure (ValStep.id_step _)

theorem keeps_heap_link {T : Type} (h : FibonacciHeap T) (x y : Option Nat) :
    Keeps (fun r : Nat × FibonacciHeap T => r.2.mem) h.mem (heap_link h x y) := by
  unfold heap_link
  by_cases hr : h.root = none
  · rw [if_pos hr]
    exact keeps_read (fun _ e => by simp [throw, throwThe, MonadExceptOf.throw] at e)
  · rw [if_neg hr]
    refine keeps_read (fun _ _ => ?_)
    cases x with
    | none => exact keeps_throw _
    | some x =>
      cases y with
      | none => exact keeps_throw _
      | some y =>
        dsimp only
        refine keeps_read (fun nx _ => ?_)
        refine keeps_read (fun ny _ => ?_)
        generalize (if nx.key > ny.key then (y, x) else (x, y)) = pq
        refine keeps_read (fun _ _ => ?_)
        refine keeps_read (fun _ _ => ?_)
        refine keeps_bind id (keeps_wr _ _ _ (fun _ => rfl)) (fun _ _ => ?_)
        refine keeps_bind id (keeps_wr _ _ _ (fun _ => rfl)) (fun _ _ => ?_)
        refine keeps_read (fun n _ => ?_)
        cases n.child with
        | none =>
          dsimp only
          refine keeps_bind id (keeps_wr _ _ _ (fun _ => rfl)) (fun _ _ => ?_)
          refine keeps_bind id (keeps_wr _ _ _ (fun _ => rfl)) (fun _ _ => ?_)
          refine keeps_bind id (keeps_wr _ _ _ (fun _ => rfl)) (fun _ _ => ?_)
          refine keeps_bind id (keeps_wr _ _ _ (fun _ => rfl)) (fun _ _ => ?_)
          refine keeps_bind id (keeps_wr _ _ _ (fun _ => rfl)) (fun _ _ => ?_)
          refine keeps_bind id (keeps_wr _ _ _ (fun _ => rfl)) (fun _ _ => ?_)
          exact keeps_pure (ValStep.id_step _)
        | some c =>
          dsimp only
          refine keeps_read (fun _ _ => ?_)
          refine keeps_bind id (keeps_list_insert _ _ _ _) (fun _ _ => ?_)
          refine keeps_bind id (keeps_wr _ _ _ (fun _ => rfl)) (fun _ _ => ?_)
          refine keeps_bind id (keeps_wr _ _ _ (fun _ => rfl)) (fun _ _ => ?_)
          refine keeps_bind id (keeps_wr _ _ _ (fun _ => rfl)) (fun _ _ => ?_)
          refine keeps_bind id (keeps_wr _ _ _ (fun _ => rfl)) (fun _ _ => ?_)
          exact keeps_pure (ValStep.id_step _)

theorem keeps_link_loop {T : Type} : ∀ (fuel : Nat) (h : FibonacciHeap T)
    (A : List (Option Nat)) (x : Nat) (d : Int),
    Keeps (fun r : FibonacciHeap T × List (Option Nat) × Nat × Int => r.1.mem) h.mem
      (link_loop fuel h A x d) := by
  intro fuel
  induction fuel with
  | zero => intro h A x d v e; simp [link_loop] at e
  | succ f ih =>
    intro h A x d
    unfold link_loop
    refine keeps_read (fun a _ => ?_)
    cases a with
    | none => exact keeps_pure (ValStep.id_step _)
    | some y =>
      dsimp only
      refine keeps_bind (fun r : Nat × FibonacciHeap T => r.2.mem) (keeps_heap_link h _ _)
        (fun r _ => ?_)
      refine keeps_read (fun _ _ => ?_)
      exact ih _ _ _ _

theorem keeps_consolidate_for {T : Type} (D : Int) : ∀ (ws : List Nat) (h : FibonacciHeap T)
    (A : List (Option Nat)),
    Keeps (fun r : FibonacciHeap T × List (Option Nat) => r.1.mem) h.mem
      (consolidate_for D h A ws) := by
  intro ws
  induction ws with
  | nil => intro h A; exact keeps_pure (ValStep.id_step _)
  | cons w ws ih =>
    intro h A
    unfold consolidate_for
    refine keeps_read (fun n _ => ?_)
    dsimp only
    split_ifs
    · refine keeps_read (fun _ _ => ?_)
      refine keeps_bind (fun r : FibonacciHeap T × List (Option Nat) × Nat × Int => r.1.mem)
        (keeps_link_loop _ h A w n.degree) (fun r _ => ?_)
      refine keeps_read (fun _ _ => ?_)
      exact ih _ _
    · refine keeps_read (fun _ e => ?_)
      simp [throw, throwThe, MonadExceptOf.throw] at e

theorem keeps_rebuild {T : Type} : ∀ (A : List (Option Nat)) (h : FibonacciHeap T),
    Keeps (fun r : FibonacciHeap T => r.mem) h.mem (rebuild h A) := by
  intro A
  induction A with
  | nil => intro h; exact keeps_pure (ValStep.id_step _)
  | cons a A ih =>
    intro h
    cases a with
    | none => unfold rebuild; exact ih h
    | some a =>
      unfold rebuild
      cases hr : h.root with
      | none =>
        dsimp only
        refine keeps_bind id (keeps_wr _ _ _ (fun _ => rfl)) (fun _ _ => ?_)
        refine keeps_bind id (keeps_wr _ _ _ (fun _ => rfl)) (fun _ _ => ?_)
        refine keeps_bind id (keeps_wr _ _ _ (fun _ => rfl)) (fun _ _ => ?_)
        exact ih _
      | some root =>
        dsimp only
        refine keeps_read (fun _ _ => ?_)
        refine keeps_bind id (keeps_list_insert _ _ _ _) (fun _ _ => ?_)
        refine keeps_bind id (keeps_wr _ _ _ (fun _ => rfl)) (fun _ _ => ?_)
        refine keeps_read (fun _ _ => ?_)
        refine keeps_read (fun _ _ => ?_)
        exact ih _

theorem keeps_consolidate {T : Type} (h : FibonacciHeap T) :
    Keeps (fun r : FibonacciHeap T => r.mem) h.mem (consolidate h) := by
  unfold consolidate
  cases hr : h.root with
  | none => intro v e; simp [throw, throwThe, MonadExceptOf.throw] at e
  | some root =>
    dsimp only
    refine keeps_read (fun D _ => ?_)
    refine keeps_read (fun _ _ => ?_)
    refine keeps_bind (fun r : FibonacciHeap T × List (Option Nat) => r.1.mem)
      (keeps_consolidate_for _ _ _ _) (fun r _ => ?_)
    exact keeps_rebuild _ _

theorem keeps_remove_min {T : Type} (h : FibonacciHeap T) :
    Keeps (fun r : FibonacciHeap T => r.mem) h.mem (remove_min h) := by
  unfold remove_min
  cases hz : h.root with
  | none => intro v e; simp [throw, throwThe, MonadExceptOf.throw] at e
  | some z =>
    dsimp only
    refine keeps_read (fun n _ => ?_)
    have key : ∀ h2 : FibonacciHeap T, Keeps (fun r : FibonacciHeap T => r.mem) h2.mem (do
        let m ← del h2.mem z
        pure (FibonacciHeap.mk (h2.N - 1) h2.root m)) := by
      intro h2
      refine keeps_bind id (keeps_del _ _) (fun _ _ => ?_)
      exact keeps_pure (ValStep.id_step _)
    cases n.child with
    | none =>
      dsimp only
      refine keeps_bind id (keeps_pure (ValStep.id_step _)) (fun _ _ => ?_)
      refine keeps_read (fun _ _ => ?_)
      refine keeps_read (fun _ _ => ?_)
      refine keeps_read (fun _ _ => ?_)
      refine keeps_bind id (keeps_wr _ _ _ (fun _ => rfl)) (fun _ _ => ?_)
      refine keeps_read (fun _ _ => ?_)
      refine keeps_bind id (keeps_wr _ _ _ (fun _ => rfl)) (fun _ _ => ?_)
      refine keeps_read (fun _ _ => ?_)
      dsimp only
      split_ifs
      · exact keeps_bind (fun r : FibonacciHeap T => r.mem) (keeps_pure (ValStep.id_step _))
          (fun _ _ => key _)
      · exact keeps_bind (fun r : FibonacciHeap T => r.mem) (keeps_consolidate _)
          (fun _ _ => key _)
    | some c =>
      dsimp only
      refine keeps_read (fun _ _ => ?_)
      refine keeps_bind id (keeps_splice_loop _ _ _ _ _) (fun _ _ => ?_)
      refine keeps_read (fun _ _ => ?_)
      refine keeps_read (fun _ _ => ?_)
      refine keeps_read (fun _ _ => ?_)
      refine keeps_bind id (keeps_wr _ _ _ (fun _ => rfl)) (fun _ _ => ?_)
      refine keeps_read (fun _ _ => ?_)
      refine keeps_bind id (keeps_wr _ _ _ (fun _ => rfl)) (fun _ _ => ?_)
      refine keeps_read (fun _ _ => ?_)
      dsimp only
      split_ifs
      · exact keeps_bind (fun r : FibonacciHeap T => r.mem) (keeps_pure (ValStep.id_step _))
          (fun _ _ => key _)
      · exact keeps_bind (fun r : FibonacciHeap T => r.mem) (keeps_consolidate _)
          (fun _ _ => key _)

theorem keeps_cut {T : Type} (h : FibonacciHeap T) (x y : Nat) :
    Keeps (fun r : FibonacciHeap T => r.mem) h.mem (cut h x y) := by
  unfold cut
  refine keeps_read (fun nx _ => ?_)
  split_ifs
  · exact keeps_read (fun _ e => by simp [throw, throwThe, MonadExceptOf.throw] at e)
  · refine keeps_read (fun _ _ => ?_)
    dsimp only
    refine keeps_read (fun ny _ => ?_)
    refine keeps_read (fun nx2 _ => ?_)
    have jp : ∀ m1 : Mem T, Keeps (fun r : FibonacciHeap T => r.mem) m1 (do
          let root ← deref h.root
          let m ← list_insert m1 x (← rd m1 root).left root
          let m ← wr m x (fun n => { n with parent := none })
          let m ← wr m x (fun n => { n with mark := false })
          pure (FibonacciHeap.mk h.N h.root m)) := by
      intro m1
      refine keeps_read (fun _ _ => ?_)
      refine keeps_read (fun _ _ => ?_)
      refine keeps_bind id (keeps_list_insert _ _ _ _) (fun _ _ => ?_)
      refine keeps_bind id (keeps_wr _ _ _ (fun _ => rfl)) (fun _ _ => ?_)
      refine keeps_bind id (keeps_wr _ _ _ (fun _ => rfl)) (fun _ _ => ?_)
      exact keeps_pure (ValStep.id_step _)
    split_ifs
    · refine keeps_bind id (keeps_wr _ _ _ (fun _ => rfl)) (fun _ _ => ?_)
      refine keeps_bind id (keeps_wr _ _ _ (fun _ => rfl)) (fun _ _ => ?_)
      exact jp _
    · refine keeps_read (fun _ _ => ?_)
      refine keeps_read (fun _ _ => ?_)
      refine keeps_bind id (keeps_wr _ _ _ (fun _ => rfl)) (fun _ _ => ?_)
      refine keeps_read (fun _ _ => ?_)
      refine keeps_read (fun _ _ => ?_)
      refine keeps_bind id (keeps_wr _ _ _ (fun _ => rfl)) (fun _ _ => ?_)
      refine keeps_read (fun _ _ => ?_)
      split_ifs
      · refine keeps_read (fun _ _ => ?_)
        refine keeps_bind id (keeps_wr _ _ _ (fun _ => rfl)) (fun _ _ => ?_)
        refine keeps_bind id (keeps_wr _ _ _ (fun _ => rfl)) (fun _ _ => ?_)
        exact jp _
      · refine keeps_bind id (keeps_pure (ValStep.id_step _)) (fun _ _ => ?_)
        refine keeps_bind id (keeps_wr _ _ _ (fun _ => rfl)) (fun _ _ => ?_)
        exact jp _

theorem keeps_cascading_cut {T : Type} : ∀ (fuel : Nat) (h : FibonacciHeap T) (y : Nat),
    Keeps (fun r : FibonacciHeap T => r.mem) h.mem (cascading_cut fuel h y) := by
  intro fuel
  induction fuel with
  | zero => intro h y v e; simp [cascading_cut] at e
  | succ f ih =>
    intro h y
    unfold cascading_cut
    refine keeps_read (fun ny _ => ?_)
    cases ny.parent with
    | none => exact keeps_pure (ValStep.id_step _)
    | some z =>
      dsimp only
      refine keeps_read (fun _ _ => ?_)
      split_ifs
      · refine keeps_bind (fun r : FibonacciHeap T => r.mem) (keeps_cut _ _ _) (fun _ _ => ?_)
        exact ih _ _
      · refine keeps_bind id (keeps_wr _ _ _ (fun _ => rfl)) (fun _ _ => ?_)
        exact keeps_pure (ValStep.id_step _)

theorem keeps_decrease_key {T : Type} (h : FibonacciHeap T) (x : Nat) (k : Int) :
    Keeps (fun r : FibonacciHeap T => r.mem) h.mem (decrease_key h x k) := by
  unfold decrease_key
  refine keeps_read (fun nx _ => ?_)
  split_ifs
  · exact keeps_read (fun _ e => by simp [throw, throwThe, MonadExceptOf.throw] at e)
  · refine keeps_read (fun _ _ => ?_)
    dsimp only
    refine keeps_bind id (keeps_wr _ _ _ (fun _ => rfl)) (fun m1 _ => ?_)
    refine keeps_read (fun nx2 _ => ?_)
    have jp : ∀ h1 : FibonacciHeap T, Keeps (fun r : FibonacciHeap T => r.mem) h1.mem (do
          let root ← deref h1.root
          if (← rd h1.mem x).key < (← rd h1.mem root).key then
            pure (FibonacciHeap.mk h1.N (some x) h1.mem)
          else pure h1) := by
      intro h1
      refine keeps_read (fun _ _ => ?_)
      refine keeps_read (fun _ _ => ?_)
      refine keeps_read (fun _ _ => ?_)
      split_ifs
      · exact keeps_pure (ValStep.id_step _)
      · exact keeps_pure (ValStep.id_step _)
    cases nx2.parent with
    | none =>
      dsimp only
      exact keeps_bind (fun r : FibonacciHeap T => r.mem) (keeps_pure (ValStep.id_step _))
        (fun _ _ => jp _)
    | some y =>
      dsimp only
      refine keeps_read (fun _ _ => ?_)
      refine keeps_read (fun _ _ => ?_)
      split_ifs
      · refine keeps_bind (fun r : FibonacciHeap T => r.mem) (keeps_cut _ _ _) (fun _ _ => ?_)
        refine keeps_bind (fun r : FibonacciHeap T => r.mem) (keeps_cascading_cut _ _ _)
          (fun _ _ => ?_)
        exact jp _
      · exact keeps_bind (fun r : FibonacciHeap T => r.mem) (keeps_pure (ValStep.id_step _))
          (fun _ _ => jp _)


theorem keeps_remove {T : Type} (h : FibonacciHeap T) (x : Nat) :
    Keeps (fun r : FibonacciHeap T => r.mem) h.mem (remove h x) := by
  unfold remove
  refine keeps_bind (fun r : FibonacciHeap T => r.mem) (keeps_decrease_key _ _ _) (fun _ _ => ?_)
  exact keeps_remove_min _

theorem keeps_change_key {T : Type} (h : FibonacciHeap T) (x : Nat) (k : Int) :
    Keeps (fun r : FibonacciHeap T => r.mem) h.mem (change_key h x k) := by
  unfold change_key
  refine keeps_read (fun nx _ => ?_)
  split_ifs
  · exact keeps_throw _
  · refine keeps_read (fun nx2 _ => ?_)
    split_ifs
    · exact keeps_decrease_key _ _ _
    · dsimp only
      refine keeps_bind (fun r : FibonacciHeap T => r.mem) (keeps_decrease_key _ _ _)
        (fun h1 _ => ?_)
      refine keeps_bind id (keeps_wr _ _ _ (fun _ => rfl)) (fun m1 _ => ?_)
      refine keeps_read (fun n _ => ?_)
      cases n.child with
      | none =>
        dsimp only
        refine keeps_bind id (keeps_pure (ValStep.id_step _)) (fun _ _ => ?_)
        refine keeps_bind id (keeps_wr _ _ _ (fun _ => rfl)) (fun _ _ => ?_)
        refine keeps_bind id (keeps_wr _ _ _ (fun _ => rfl)) (fun _ _ => ?_)
        exact keeps_pure (ValStep.id_step _)
      | some c =>
        dsimp only
        refine keeps_read (fun _ _ => ?_)
        refine keeps_bind id (keeps_splice_loop _ _ _ _ _) (fun _ _ => ?_)
        refine keeps_bind id (keeps_wr _ _ _ (fun _ => rfl)) (fun _ _ => ?_)
        refine keeps_bind id (keeps_wr _ _ _ (fun _ => rfl)) (fun _ _ => ?_)
        exact keeps_pure (ValStep.id_step _)

theorem val_look_append_left {T : Type} (m : Mem T) (x : Option (Node T)) {q : Nat}
    (h : q ≠ m.length) : look (m ++ [x]) q = look m q := by
  unfold look
  by_cases hq : q < m.length
  · rw [List.getElem?_append_left hq]
  · rw [List.getElem?_eq_none (by simp; omega), List.getElem?_eq_none (by omega)]

theorem val_look_append_new {T : Type} (m : Mem T) (n : Node T) :
    look (m ++ [some n]) m.length = some n := by
  unfold look
  rw [List.getElem?_append_right (le_refl _)]
  simp

/-- What `insert(k, v)` does to the values: the node it returns holds `v`,
and every other node of the new heap was allocated before and holds the
value it held. -/
theorem insert_values {T : Type} {h h2 : FibonacciHeap T} {k : Int} {v : T} {p : Nat}
    (e : insert h k v = .ok (p, h2)) :
    p = h.mem.length ∧ ∀ q n2, look h2.mem q = some n2 →
      (q = p ∧ n2.value = v) ∨ (q ≠ p ∧ ∃ n, look h.mem q = some n ∧ n2.value = n.value) := by
  have hstep : ∀ m2 : Mem T, ValStep (h.mem ++ [some (newNode k v h.mem.length)]) m2 →
      ∀ q n2, look m2 q = some n2 →
        (q = h.mem.length ∧ n2.value = v) ∨
          (q ≠ h.mem.length ∧ ∃ n, look h.mem q = some n ∧ n2.value = n.value) := by
    intro m2 hs q n2 hq
    obtain ⟨n, hn, hv⟩ := hs q n2 hq
    by_cases hql : q = h.mem.length
    · subst hql
      rw [val_look_append_new] at hn
      cases hn
      exact Or.inl ⟨rfl, hv⟩
    · rw [val_look_append_left _ _ hql] at hn
      exact Or.inr ⟨hql, n, hn, hv⟩
  unfold insert at e
  cases hr : h.root with
  | none =>
    simp only [hr, pure, Except.pure] at e
    cases e
    exact ⟨rfl, hstep _ (ValStep.id_step _)⟩
  | some r =>
    simp only [hr] at e
    have hk : Keeps (fun r : Nat × FibonacciHeap T => r.2.mem)
        (h.mem ++ [some (newNode k v h.mem.length)]) (do
          let m ← list_insert (h.mem ++ [some (newNode k v h.mem.length)]) h.mem.length
            (← rd (h.mem ++ [some (newNode k v h.mem.length)]) r).left r
          let root := if (← rd m h.mem.length).key < (← rd m r).key then h.mem.length else r
          pure (h.mem.length, FibonacciHeap.mk (h.N + 1) (some root) m)) := by
      refine keeps_read (fun _ _ => ?_)
      refine keeps_bind id (keeps_list_insert _ _ _ _) (fun _ _ => ?_)
      refine keeps_read (fun _ _ => ?_)
      refine keeps_read (fun _ _ => ?_)
      exact keeps_pure (ValStep.id_step _)
    have hp : p = h.mem.length := by
      simp only [bind, Except.bind, pure, Except.pure] at e
      repeat' split at e
      all_goals (cases e <;> rfl)
    subst hp
    exact ⟨rfl, hstep _ (hk _ e)⟩

/-- C39, first part: in a heap built from the empty heap by calls of `insert`,
`remove_min`, `decrease_key`, `change_key` and `remove`, every allocated
node holds the value that was passed to the call of `insert` that returned
it. -/
theorem hist_values {T : Type} {h : FibonacciHeap T} {ins : Nat → Option T} (H : Hist h ins) :
    ∀ q n, look h.mem q = some n → ins q = some n.value := by
  induction H with
  | empty =>
    intro q n hq
    simp [empty, look] at hq
  | insert _ e ih =>
    intro q n hq
    obtain ⟨_, hv⟩ := insert_values e
    rcases hv q n hq with ⟨rfl, hval⟩ | ⟨hne, n0, hn0, hval⟩
    · simp [hval]
    · rw [Function.update_noteq hne, ih q n0 hn0, hval]
  | remove_min _ e ih =>
    intro q n hq
    obtain ⟨n0, hn0, hval⟩ := keeps_remove_min _ _ e q n hq
    rw [ih q n0 hn0, hval]
  | decrease_key _ e ih =>
    intro q n hq
    obtain ⟨n0, hn0, hval⟩ := keeps_decrease_key _ _ _ _ e q n hq
    rw [ih q n0 hn0, hval]
  | change_key _ e ih =>
    intro q n hq
    obtain ⟨n0, hn0, hval⟩ := keeps_change_key _ _ _ _ e q n hq
    rw [ih q n0 hn0, hval]
  | remove _ e ih =>
    intro q n hq
    obtain ⟨n0, hn0, hval⟩ := keeps_remove _ _ _ e q n hq
    rw [ih q n0 hn0, hval]


theorem good_wr {T : Type} {kvs : List (Int × T)} {m : Mem T} {p : Nat} (f : Node T → Node T)
    (G : Good kvs m) (hp : p < kvs.length) (hk : ∀ n, (f n).key = n.key)
    (hv : ∀ n, (f n).value = n.value)
    (hl : ∀ n, n.left < kvs.length → (f n).left < kvs.length)
    (hr : ∀ n, n.right < kvs.length → (f n).right < kvs.length) :
    ∃ m2, wr m p f = .ok m2 ∧ Good kvs m2 := by
  obtain ⟨np, hnp, _⟩ := G.2 p _ (List.getElem?_eq_getElem hp)
  refine ⟨m.set p (some (f np)), by simp [wr, hnp], by simp [G.1], ?_⟩
  intro q kv hq
  obtain ⟨n, hn, h1, h2, h3, h4⟩ := G.2 q kv hq
  rw [val_look_set m p q _ (by rw [G.1]; exact hp)]
  by_cases e : q = p
  · subst e
    rw [hnp] at hn
    cases hn
    rw [if_pos rfl]
    exact ⟨_, rfl, (hk _).trans h1, (hv _).trans h2, hl _ h3, hr _ h4⟩
  · rw [if_neg e]
    exact ⟨n, hn, h1, h2, h3, h4⟩

theorem good_rd {T : Type} {kvs : List (Int × T)} {m : Mem T} {p : Nat} (G : Good kvs m)
    (hp : p < kvs.length) :
    ∃ n, rd m p = .ok n ∧ n.left < kvs.length ∧ n.right < kvs.length := by
  obtain ⟨np, hnp, _, _, h3, h4⟩ := G.2 p _ (List.getElem?_eq_getElem hp)
  exact ⟨np, by simp [rd, hnp], h3, h4⟩

theorem good_list_insert {T : Type} {kvs : List (Int × T)} {m : Mem T} {x l r : Nat}
    (G : Good kvs m) (hx : x < kvs.length) (hl : l < kvs.length) (hr : r < kvs.length) :
    ∃ m2, list_insert m x l r = .ok m2 ∧ Good kvs m2 := by
  obtain ⟨m1, e1, G1⟩ := good_wr (p := x) (fun n => { n with left := l }) G hx
    (fun _ => rfl) (fun _ => rfl) (fun _ _ => hl) (fun _ h => h)
  obtain ⟨m2, e2, G2⟩ := good_wr (p := x) (fun n => { n with right := r }) G1 hx
    (fun _ => rfl) (fun _ => rfl) (fun _ h => h) (fun _ _ => hr)
  obtain ⟨m3, e3, G3⟩ := good_wr (p := r) (fun n => { n with left := x }) G2 hr
    (fun _ => rfl) (fun _ => rfl) (fun _ _ => hx) (fun _ h => h)
  obtain ⟨m4, e4, G4⟩ := good_wr (p := l) (fun n => { n with right := x }) G3 hl
    (fun _ => rfl) (fun _ => rfl) (fun _ h => h) (fun _ _ => hx)
  refine ⟨m4, ?_, G4⟩
  simp only [list_insert, e1, e2, e3, e4, bind, Except.bind, pure, Except.pure]

theorem good_append {T : Type} {kvs : List (Int × T)} {m : Mem T} (G : Good kvs m) (k : Int)
    (v : T) : Good (kvs ++ [(k, v)]) (m ++ [some (newNode k v m.length)]) := by
  refine ⟨by simp [G.1], ?_⟩
  intro q kv hq
  by_cases hql : q = m.length
  · subst hql
    rw [G.1, List.getElem?_append_right (le_refl _)] at hq
    simp at hq
    subst hq
    rw [val_look_append_new]
    refine ⟨_, rfl, rfl, rfl, ?_, ?_⟩ <;> simp [newNode, G.1]
  · have hlt : q < kvs.length := by
      by_contra hc
      rw [List.getElem?_eq_none (by simp; rw [G.1] at hql; omega)] at hq
      cases hq
    rw [List.getElem?_append_left hlt] at hq
    obtain ⟨n, hn, h1, h2, h3, h4⟩ := G.2 q kv hq
    rw [val_look_append_left _ _ hql]
    exact ⟨n, hn, h1, h2, by simp; omega, by simp; omega⟩

theorem insert_insOnly {T : Type} {h : FibonacciHeap T} {kvs : List (Int × T)}
    (I : InsOnly h kvs) (k : Int) (v : T) :
    ∃ h2, insert h k v = .ok (kvs.length, h2) ∧ InsOnly h2 (kvs ++ [(k, v)]) := by
  obtain ⟨G, hnil, hcons⟩ := I
  have G0 := good_append G k v
  have hlen : (kvs ++ [(k, v)]).length = kvs.length + 1 := by simp
  cases hr : h.root with
  | none =>
    refine ⟨FibonacciHeap.mk (h.N + 1) (some h.mem.length)
      (h.mem ++ [some (newNode k v h.mem.length)]), ?_, G0, by simp, ?_⟩
    · rw [← G.1]
      simp only [insert, hr, pure, Except.pure]
    · intro _
      exact ⟨_, rfl, by rw [hlen, G.1]; omega⟩
  | some r =>
    have hne : kvs ≠ [] := by
      intro hc
      rw [hnil hc] at hr
      cases hr
    obtain ⟨r2, hr2, hrlt⟩ := hcons hne
    rw [hr] at hr2
    cases hr2
    obtain ⟨nr, e1, hl1, _⟩ := good_rd G0 (p := r) (by rw [hlen]; omega)
    obtain ⟨m2, e2, G2⟩ := good_list_insert (x := h.mem.length) (l := nr.left) (r := r) G0
      (by rw [hlen, G.1]; omega) hl1 (by rw [hlen]; omega)
    obtain ⟨nt, e3, _⟩ := good_rd G2 (p := h.mem.length) (by rw [hlen, G.1]; omega)
    obtain ⟨nr2, e4, _⟩ := good_rd G2 (p := r) (by rw [hlen]; omega)
    refine ⟨FibonacciHeap.mk (h.N + 1)
      (some (if nt.key < nr2.key then h.mem.length else r)) m2, ?_, G2, by simp, ?_⟩
    · rw [← G.1]
      simp only [insert, hr, e1, e2, e3, e4, bind, Except.bind, pure, Except.pure]
    · intro _
      refine ⟨_, rfl, ?_⟩
      rw [hlen]
      split_ifs
      · rw [G.1]; omega
      · omega

theorem insert_all_insOnly {T : Type} : ∀ (kvs : List (Int × T)) (h : FibonacciHeap T)
    (kvs0 : List (Int × T)), InsOnly h kvs0 →
    ∃ ps h2, insert_all h kvs = .ok (ps, h2) ∧ InsOnly h2 (kvs0 ++ kvs) := by
  intro kvs
  induction kvs with
  | nil =>
    intro h kvs0 I
    exact ⟨[], h, rfl, by simpa using I⟩
  | cons kv kvs ih =>
    intro h kvs0 I
    obtain ⟨k, v⟩ := kv
    obtain ⟨h1, e1, I1⟩ := insert_insOnly I k v
    obtain ⟨ps, h2, e2, I2⟩ := ih h1 _ I1
    refine ⟨kvs0.length :: ps, h2, ?_, by simpa using I2⟩
    simp only [insert_all, e1, e2, bind, Except.bind, pure, Except.pure]

/-- C39: in `FibonacciHeap<T>`, in a heap built from the empty heap by calls
of `insert`, `remove_min`, `decrease_key`, `change_key` and `remove`, every
allocated node holds the value that was passed to the call of `insert` that
returned it; and after `insert(k, v)` for the pairs of a list that is not
empty and has pairwise distinct keys, `get_min_node()` and `get_min_key()`
return, and the value of the node that `get_min_node()` returns is the one
value that was inserted with the key that `get_min_key()` returns. -/
theorem values_kept {T : Type} :
    (∀ (h : FibonacciHeap T) (ins : Nat → Option T), Hist h ins →
      ∀ q n, look h.mem q = some n → ins q = some n.value) ∧
    (∀ kvs : List (Int × T), kvs ≠ [] → (kvs.map Prod.fst).Nodup →
      ∃ ps h p k v, insert_all empty kvs = .ok (ps, h) ∧ get_min_node h = .ok p ∧
        get_min_key h = .ok k ∧ valueOf h.mem p = some v ∧ (k, v) ∈ kvs ∧
        ∀ v2, (k, v2) ∈ kvs → v2 = v) := by
  refine ⟨fun h ins H => hist_values H, ?_⟩
  intro kvs hne hnd
  have I0 : InsOnly (empty : FibonacciHeap T) [] :=
    ⟨⟨rfl, by intro q kv hq; simp at hq⟩, fun _ => rfl, fun hc => absurd rfl hc⟩
  obtain ⟨ps, h, e, I⟩ := insert_all_insOnly kvs empty [] I0
  rw [List.nil_append] at I
  obtain ⟨G, _, hroot⟩ := I
  obtain ⟨r, hr, hrlt⟩ := hroot hne
  obtain ⟨n, hn, h1, h2, _⟩ := G.2 r _ (List.getElem?_eq_getElem hrlt)
  have hmem : (n.key, n.value) ∈ kvs := by
    have hp : (n.key, n.value) = kvs[r] := Prod.ext h1 h2
    rw [hp]
    exact List.getElem_mem hrlt
  refine ⟨ps, h, r, n.key, n.value, e, by simp [get_min_node, hr, pure, Except.pure], ?_,
    by simp [valueOf, hn], hmem, ?_⟩
  · simp [get_min_key, hr, rd, hn, bind, Except.bind, pure, Except.pure]
  · intro v2 hv2
    have := List.inj_on_of_nodup_map hnd hv2 hmem rfl
    exact (Prod.mk.inj this).2

theorem values_kept_witness :
    ([(3, 30), (1, 10), (2, 20)] : List (Int × Nat)) ≠ [] ∧
    (([(3, 30), (1, 10), (2, 20)] : List (Int × Nat)).map Prod.fst).Nodup ∧
    ∃ ps h p k v, insert_all empty ([(3, 30), (1, 10), (2, 20)] : List (Int × Nat))
        = .ok (ps, h) ∧ get_min_node h = .ok p ∧
      get_min_key h = .ok k ∧ valueOf h.mem p = some v ∧
      (k, v) ∈ ([(3, 30), (1, 10), (2, 20)] : List (Int × Nat)) ∧
      ∀ v2, (k, v2) ∈ ([(3, 30), (1, 10), (2, 20)] : List (Int × Nat)) → v2 = v :=
  ⟨by decide, by decide, values_kept.2 [(3, 30), (1, 10), (2, 20)] (by decide) (by decide)⟩

end ValueHeap
